import Mathlib

/-!
# Bezitopo: cube-sphere codec, geoquad quadtree, geoid boundaries and quad index

A shallow embedding of the functions of `src/geoid.cpp`, `src/geoidboundary.cpp` and
`src/qindex.cpp` and theorems about them.

Modelling conventions
* A C++ `double` is modelled by the type `double` below: NaN, the two infinities, or a
  finite value carried as an exact rational.  Arithmetic on finite values is exact
  (rounding, overflow to infinity and the sign of zero are not modelled); the NaN and
  infinity cases follow IEEE 754.
* Where the rounding of binary64 decides a property, the geometry of the quadtree at any
  depth, the functions are taken with every arithmetic result rounded by `roundBinary64`
  (`geoquad.subdivideRounded` and the functions built on it).
* A C++ `int` is modelled by `Int`; the one place where the source relies on wrap-around
  (`und[0]=0x80000000`) goes through `toInt32`.  An `unsigned` is a natural number below
  `2^32` and a `size_t` one below `2^64`, with the remainder taken where a value is
  converted or can overflow (`toUnsigned`, `hashStep`, `toSizeT`).
* `xy`, `xyz` (declared in `point.h`) and `vball`, `geoquad`, `cubemap` (declared in
  `geoid.h`) are records of their fields; so are `vsegment` and `g1boundary`, a `std::vector`
  being a list.
* A function with a loop that may not end takes a bound on the number of iterations (the
  fuel) and returns `none` when it is exceeded; a failed `assert` or a division by zero also
  gives `none`.  The methods of `gboundary` that can meet both return an `Outcome`, which
  tells the two apart.
* Overflow of signed arithmetic, which C++ leaves undefined, is not modelled: a sum such as
  `int m=n+1` is taken in `Int`, and a definition says nothing of the code where it overflows.
-/

namespace Bezitopo

/-- Model of a C++ `double`: NaN, plus or minus infinity (`inf true` is minus infinity),
or a finite value. -/
inductive double where
  | nan : double
  | inf (negative : Bool) : double
  | fin (q : ℚ) : double
deriving DecidableEq

namespace double

/-- Unary minus. -/
def neg : double → double
  | nan => nan
  | inf s => inf (!s)
  | fin q => fin (-q)

/-- The C function `fabs`. -/
def fabs : double → double
  | nan => nan
  | inf _ => inf false
  | fin q => fin |q|

/-- Addition of doubles. -/
def add : double → double → double
  | nan, _ => nan
  | _, nan => nan
  | inf s, inf t => if s = t then inf s else nan
  | inf s, fin _ => inf s
  | fin _, inf t => inf t
  | fin a, fin b => fin (a + b)

/-- Subtraction of doubles. -/
def sub (a b : double) : double := add a (neg b)

/-- Multiplication of doubles. -/
def mul : double → double → double
  | nan, _ => nan
  | _, nan => nan
  | inf s, inf t => inf (xor s t)
  | inf s, fin b => if b = 0 then nan else inf (xor s (decide (b < 0)))
  | fin a, inf t => if a = 0 then nan else inf (xor (decide (a < 0)) t)
  | fin a, fin b => fin (a * b)

/-- Division of doubles. -/
def div : double → double → double
  | nan, _ => nan
  | _, nan => nan
  | inf _, inf _ => nan
  | inf s, fin b => inf (xor s (decide (b < 0)))
  | fin _, inf _ => fin 0
  | fin a, fin b =>
    if b = 0 then (if a = 0 then nan else inf (decide (a < 0))) else fin (a / b)

/-- The comparison `a < b`; false when either side is NaN. -/
def lt : double → double → Bool
  | nan, _ => false
  | _, nan => false
  | inf s, inf t => s && !t
  | inf s, fin _ => s
  | fin _, inf t => !t
  | fin a, fin b => decide (a < b)

/-- The comparison `a <= b`; false when either side is NaN. -/
def le : double → double → Bool
  | nan, _ => false
  | _, nan => false
  | inf s, inf t => s || !t
  | inf s, fin _ => s
  | fin _, inf t => !t
  | fin a, fin b => decide (a ≤ b)

/-- The comparison `a > b`. -/
def gt (a b : double) : Bool := lt b a

/-- The comparison `a >= b`. -/
def ge (a b : double) : Bool := le b a

/-- The comparison `a == b`; false when either side is NaN. -/
def eq : double → double → Bool
  | inf s, inf t => s == t
  | fin a, fin b => decide (a = b)
  | _, _ => false

/-- The function `std::isnan`. -/
def isnan : double → Bool
  | nan => true
  | _ => false

/-- The function `std::isinf`. -/
def isinf : double → Bool
  | inf _ => true
  | _ => false

/-- Conversion of an `int` to `double` (exact). -/
def ofInt (n : Int) : double := fin n

instance : Add double := ⟨add⟩
instance : Sub double := ⟨sub⟩
instance : Mul double := ⟨mul⟩
instance : Div double := ⟨div⟩
instance : Neg double := ⟨neg⟩
instance (n : Nat) : OfNat double n := ⟨fin n⟩

end double

open double

/-- Conversion of a `bool` to `int`, as in `std::isinf(a)+std::isinf(b)`. -/
def boolToInt (b : Bool) : Int := if b then 1 else 0

/-- Conversion of an out-of-range value to a 32-bit `int` (two's complement wrap). -/
def toInt32 (n : Int) : Int := (n + 2 ^ 31) % 2 ^ 32 - 2 ^ 31

/-- The class `xy` of `point.h`: a point of the plane. `east()` / `getx()` is `x`
and `north()` / `gety()` is `y`. -/
structure xy where
  x : double
  y : double
deriving DecidableEq

/-- The class `xyz` of `point.h`: a point or vector of space. -/
structure xyz where
  x : double
  y : double
  z : double
deriving DecidableEq

/-- The operator `xyz * double` of `point.h`: multiplication by a scalar. -/
def xyz.smul (v : xyz) (k : double) : xyz := ⟨v.x * k, v.y * k, v.z * k⟩

/-- The struct `vball`: a face number and two face coordinates. -/
structure vball where
  face : Int
  x : double
  y : double
deriving DecidableEq

/-- The constructor `vball::vball()`. -/
def vball.ctor : vball := { face := 0, x := 0, y := 0 }

/-- The constructor `vball::vball(int f,xy p)`. -/
def vball.ctorFaceXy (f : Int) (p : xy) : vball := { face := f, x := p.x, y := p.y }

/-- The method `vball::getxy`. -/
def vball.getxy (v : vball) : xy := ⟨v.x, v.y⟩

/-- The function `encodedir` of `geoid.cpp`. The three `if`s of the last branch are
not chained by `else`: each one that fires overwrites `face`, `x` and `y`. -/
def encodedir (dir : xyz) : vball :=
  let ret := vball.ctor
  let absx := fabs dir.x
  let absy := fabs dir.y
  let absz := fabs dir.z
  if double.eq absx 0 && double.eq absy 0 && double.eq absz 0 then
    { ret with face := 0, x := 0, y := 0 }
  else if absx.isnan || absy.isnan || absz.isnan ||
      decide (boolToInt absx.isinf + boolToInt absy.isinf + boolToInt absz.isinf > 1) then
    { ret with face := 7, x := nan, y := nan }
  else
    let ret :=
      if ge absx absy && ge absx absz then
        let ret := { ret with face := 1, x := dir.y / absx, y := dir.z / dir.x }
        if lt dir.x 0 then { ret with face := 6 } else ret
      else ret
    let ret :=
      if ge absy absz && ge absy absx then
        let ret := { ret with face := 2, x := dir.z / absy, y := dir.x / dir.y }
        if lt dir.y 0 then { ret with face := 5 } else ret
      else ret
    let ret :=
      if ge absz absx && ge absz absy then
        let ret := { ret with face := 3, x := dir.x / absz, y := dir.y / dir.z }
        if lt dir.z 0 then { ret with face := 4 } else ret
      else ret
    ret

/-- The `switch` of `decodedir`: the vector built from a vball before it is scaled to the
radius of the earth. No case is taken (the default `xyz()` stays) only outside `0..7`,
which `face & 7` excludes. -/
def decodedirSwitch (code : vball) : xyz :=
  match Int.land code.face 7 with
  | 0 => ⟨0, 0, 0⟩
  | 1 => ⟨1, code.x, code.y⟩
  | 2 => ⟨code.y, 1, code.x⟩
  | 3 => ⟨code.x, code.y, 1⟩
  | 4 => ⟨code.x, -code.y, -1⟩
  | 5 => ⟨-code.y, -1, code.x⟩
  | 6 => ⟨-1, code.x, -code.y⟩
  | 7 => ⟨nan, nan, nan⟩
  | _ => ⟨0, 0, 0⟩

/-- The function `decodedir` of `geoid.cpp`. The method `xyz::length` (of `point.cpp`)
is a parameter. -/
def decodedir (length : xyz → double) (code : vball) : xyz :=
  let ret := decodedirSwitch code
  if Int.land code.face 7 % 7 ≠ 0 then
    ret.smul (6371000 / length ret)
  else ret

/-- Modelled from the spec: the constructor `xy::xy()` of `point.cpp`, which is not among
the sources. A fresh node is the root of a face, whose square is centered at the origin of
the face coordinates, so the default point is the origin. -/
def xy.ctor : xy := ⟨0, 0⟩

/-- The data members of the class `geoquad` other than the child pointers `sub`. -/
structure geoquadFields where
  und : Fin 6 → Int
  center : xy
  scale : double
  face : Int
  nans : List xy
  nums : List xy

/-- The class `geoquad`. Either all four pointers `sub[0..3]` are null (`leaf`) or all four
point to a child (`quad`); `subdivide` is the only function that sets them. The overlay in
memory of `sub` and `und` is not modelled. -/
inductive geoquad where
  | leaf (d : geoquadFields) : geoquad
  | quad (d : geoquadFields) (sub0 sub1 sub2 sub3 : geoquad) : geoquad

namespace geoquad

/-- The data members of a node. -/
def fields : geoquad → geoquadFields
  | leaf d => d
  | quad d _ _ _ _ => d

/-- The member `und[i]`. -/
def und (q : geoquad) (i : Fin 6) : Int := q.fields.und i

/-- The member `center`. -/
def center (q : geoquad) : xy := q.fields.center

/-- The member `scale`. -/
def scale (q : geoquad) : double := q.fields.scale

/-- The member `face`. -/
def face (q : geoquad) : Int := q.fields.face

/-- The member `nans`. -/
def nans (q : geoquad) : List xy := q.fields.nans

/-- The member `nums`. -/
def nums (q : geoquad) : List xy := q.fields.nums

/-- The member `sub[i]`; `none` is the null pointer. -/
def sub : geoquad → Fin 4 → Option geoquad
  | leaf _, _ => none
  | quad _ s0 s1 s2 s3, i =>
    if i = 0 then some s0 else if i = 1 then some s1 else if i = 2 then some s2 else some s3

/-- The children `sub[0], ..., sub[3]` of a node, none for a leaf. -/
def children : geoquad → List geoquad
  | leaf _ => []
  | quad _ s0 s1 s2 s3 => [s0, s1, s2, s3]

/-- The assignment `q.face = f`. -/
def setFace : geoquad → Int → geoquad
  | leaf d, f => leaf { d with face := f }
  | quad d s0 s1 s2 s3, f => quad { d with face := f } s0 s1 s2 s3

/-- The method `geoquad::subdivided`, in the branch taken where a pointer has 8 bytes and an
`int` 4: `sub[3]!=nullptr`. -/
def subdivided : geoquad → Bool
  | leaf _ => false
  | quad _ _ _ _ _ => true

/-- The method `geoquad::isnan`. -/
def isnan (q : geoquad) : Bool :=
  decide (q.und 0 > 8850 * 256) || decide (q.und 0 < -11000 * 256)

/-- The constructor `geoquad::geoquad()`. It leaves `face` uninitialised: `face0` stands for
the value found there. `center` is default-constructed and the two vectors are empty. -/
def ctor (face0 : Int) : geoquad :=
  leaf
    { und := fun i => if i = 0 then toInt32 0x80000000 else 0
      center := xy.ctor
      scale := 1
      face := face0
      nans := []
      nums := [] }

/-- The method `geoquad::in(xy pnt)`. -/
def in_xy (q : geoquad) (pnt : xy) : Bool :=
  le (fabs (pnt.x - q.center.x)) q.scale && le (fabs (pnt.y - q.center.y)) q.scale

/-- The method `geoquad::in(vball pnt)`. -/
def in_vball (q : geoquad) (pnt : vball) : Bool :=
  decide (q.face = pnt.face) && q.in_xy ⟨pnt.x, pnt.y⟩

/-- The body of the loop of `geoquad::subdivide` for the index `i`: the new child `sub[i]`
of a node with the data members `d`. The argument of `ctor` is overwritten at once. -/
def subdivideChild (d : geoquadFields) (i : Int) : geoquad :=
  let s := (ctor 0).fields
  let s := { s with scale := d.scale / 2 }
  let s := { s with face := d.face }
  let s := { s with center :=
    ⟨d.center.x + d.scale / ofInt (if Int.land i 1 ≠ 0 then 2 else -2),
     d.center.y + d.scale / ofInt (if Int.land i 2 ≠ 0 then 2 else -2)⟩ }
  let s := { s with nans := s.nans ++ d.nans.filter (fun p => (leaf s).in_xy p) }
  let s := { s with nums := s.nums ++ d.nums.filter (fun p => (leaf s).in_xy p) }
  leaf s

/-- The method `geoquad::subdivide`: the node after the call. -/
def subdivide (q : geoquad) : geoquad :=
  let d := q.fields
  let d := { d with und := Function.update d.und 5 (toInt32 0x80000000) }
  let sub0 := subdivideChild d 0
  let sub1 := subdivideChild d 1
  let sub2 := subdivideChild d 2
  let sub3 := subdivideChild d 3
  let d := { d with nans := [] }
  let d := { d with nums := [] }
  quad d sub0 sub1 sub2 sub3

/-- The method `geoquad::undulation`. -/
def undulation : geoquad → double → double → double
  | quad _ s0 s1 s2 s3, x, y =>
    let xbit := boolToInt (ge x 0)
    let ybit := boolToInt (ge y 0)
    let x := 2 * (x - (ofInt xbit - fin (1 / 2)))
    let y := 2 * (y - (ofInt ybit - fin (1 / 2)))
    let i := Int.lor (ybit <<< (1 : Int)) xbit
    if i = 0 then s0.undulation x y
    else if i = 1 then s1.undulation x y
    else if i = 2 then s2.undulation x y
    else s3.undulation x y
  | leaf d, x, y =>
    let u := (ofInt (d.und 0) + ofInt (d.und 1) * x + ofInt (d.und 2) * y
      + ofInt (d.und 3) * x * x + ofInt (d.und 4) * x * y + ofInt (d.und 5) * y * y) / 65536
    if gt u 8850 || lt u (-11000) then nan else u

/-- The method `geoquad::isfull`. -/
def isfull (q : geoquad) : Int :=
  boolToInt (decide (q.nums.length > 0)) - boolToInt (decide (q.nans.length > 0))

/-- The node reached from `q` by following the child indices of `path` (`sub[i]` at each
step); `none` when the path runs through a null pointer. -/
def nodeAt : List (Fin 4) → geoquad → Option geoquad
  | [], q => some q
  | _ :: _, leaf _ => none
  | i :: path, quad _ s0 s1 s2 s3 =>
    if i = 0 then nodeAt path s0
    else if i = 1 then nodeAt path s1
    else if i = 2 then nodeAt path s2
    else nodeAt path s3

/-- The geometry of a node at depth `d`: its scale is `2^-d` and its center is
`(m/2^d, n/2^d)` for integers `m`, `n` that are 0 at depth 0, odd at depth 1 or more, and of
absolute value at most `2^d - 1`. -/
def nodeGeom (d : Nat) (q : geoquad) : Prop :=
  q.scale = fin (1 / 2 ^ d) ∧
  ∃ m n : Int, q.center = ⟨fin (m / 2 ^ d), fin (n / 2 ^ d)⟩ ∧
    (d = 0 → m = 0 ∧ n = 0) ∧ (1 ≤ d → Odd m ∧ Odd n) ∧
    |m| + 1 ≤ 2 ^ d ∧ |n| + 1 ≤ 2 ^ d

/-- Every node of the tree `q`, whose root is at depth `d`, has the geometry of its depth. -/
def treeGeom : Nat → geoquad → Prop
  | d, leaf f => nodeGeom d (leaf f)
  | d, quad f s0 s1 s2 s3 =>
    nodeGeom d (quad f s0 s1 s2 s3) ∧
      treeGeom (d + 1) s0 ∧ treeGeom (d + 1) s1 ∧ treeGeom (d + 1) s2 ∧ treeGeom (d + 1) s3

end geoquad

/-- The struct `cubemap`: the array `faces[6]`. -/
structure cubemap where
  faces : Fin 6 → geoquad

/-- The constructor `cubemap::cubemap()`: each element of `faces` is default-constructed,
then its `face` is set to `i+1`. -/
def cubemap.ctor : cubemap :=
  ⟨fun i => (geoquad.ctor 0).setFace ((i : Nat) + 1)⟩

/-- The macro `VBTOLER` of `geoidboundary.cpp`: `20*DBL_EPSILON`, with `DBL_EPSILON = 2^-52`. -/
def VBTOLER : double := fin (20 / 2 ^ 52)

/-- The macro `cmpeq(a,b)`: `fabs(a-b)<VBTOLER`. -/
def cmpeq (a b : double) : Bool := lt (fabs (a - b)) VBTOLER

/-- The table `vballcompare[8][8]`. -/
def vballcompare : List (List Int) :=
  [[0, 77, 77, 77, 77, 77, 77, 77],
   [77, 66, 12, 21, 14, 36, 77, 77],
   [77, 21, 66, 12, 36, 77, 14, 77],
   [77, 12, 21, 66, 77, 14, 36, 77],
   [77, 41, 63, 77, 66, 45, 54, 77],
   [77, 63, 77, 41, 54, 66, 45, 77],
   [77, 77, 41, 63, 45, 54, 66, 77],
   [77, 77, 77, 77, 77, 77, 77, 77]]

/-- The element `vballcompare[f][g]`. An index outside `0..7` is outside the array, which
C++ leaves undefined; the model gives 77, the entry of an invalid face. -/
def vballcompareAt (f g : Int) : Int :=
  if 0 ≤ f ∧ f < 8 ∧ 0 ≤ g ∧ g < 8 then
    (vballcompare.getD f.toNat []).getD g.toNat 77
  else 77

/-- The operator `==` on two `vball`s. -/
def vball.eq (a b : vball) : Bool :=
  match vballcompareAt a.face b.face with
  | 0 => true
  | 12 => double.eq a.x 1 && double.eq a.y b.x && double.eq b.y 1
  | 21 => double.eq a.y 1 && double.eq a.x b.y && double.eq b.x 1
  | 14 => double.eq a.y (-1) && double.eq a.x (-b.y) && double.eq b.x 1
  | 41 => double.eq a.x 1 && double.eq a.y (-b.x) && double.eq b.y (-1)
  | 36 => double.eq a.x (-1) && double.eq a.y b.x && double.eq b.y (-1)
  | 63 => double.eq a.y (-1) && double.eq a.x b.y && double.eq b.x (-1)
  | 45 => double.eq a.y 1 && double.eq a.x (-b.y) && double.eq b.x (-1)
  | 54 => double.eq a.x (-1) && double.eq a.y (-b.x) && double.eq b.y 1
  | 66 => cmpeq a.x b.x && cmpeq a.y b.y
  | _ => false

/-- The function `sameEdge`. -/
def sameEdge (a b : vball) : Bool :=
  match vballcompareAt a.face b.face with
  | 0 => true
  | 12 => double.eq a.x 1 && double.eq b.y 1
  | 21 => double.eq a.y 1 && double.eq b.x 1
  | 14 => double.eq a.y (-1) && double.eq b.x 1
  | 41 => double.eq a.x 1 && double.eq b.y (-1)
  | 36 => double.eq a.x (-1) && double.eq b.y (-1)
  | 63 => double.eq a.y (-1) && double.eq b.x (-1)
  | 45 => double.eq a.y 1 && double.eq b.x (-1)
  | 54 => double.eq a.x (-1) && double.eq b.y 1
  | 66 => double.eq a.x b.x || double.eq a.y b.y
  | _ => false

/-- The function `moveToFace`: the vball `v` after the call, or `none` when the assertion
`edgetype<77 && edgetype>00` fails. -/
def moveToFace (v : vball) (f : Int) : Option vball :=
  let edgetype := vballcompareAt v.face f
  if edgetype < 77 ∧ edgetype > 0 then
    let v :=
      match edgetype with
      | 12 => let v := { v with x := v.y }; { v with y := 1 }
      | 21 => let v := { v with y := v.x }; { v with x := 1 }
      | 14 => let v := { v with y := -v.x }; { v with x := 1 }
      | 41 => let v := { v with x := -v.y }; { v with y := -1 }
      | 36 => let v := { v with x := v.y }; { v with y := -1 }
      | 63 => let v := { v with y := v.x }; { v with x := -1 }
      | 45 => let v := { v with y := -v.x }; { v with x := -1 }
      | 54 => let v := { v with x := -v.y }; { v with y := 1 }
      | _ => v
    some { v with face := f }
  else none

/-- Modelled from the spec: the method `vball::diag` of `geoid.h`, which is not among the
sources: the diagonal coordinate `x+y`. -/
def vball.diag (v : vball) : double := v.x + v.y

/-- The struct `vsegment`: the two ends of a segment (`end_` is the member `end`). -/
structure vsegment where
  start : vball
  end_ : vball
deriving DecidableEq

/-- The function `overlap`; `none` when an assertion of `moveToFace` fails. The segments
are passed by value, and the three ends moved to the face of `a.start` are the ones
compared at the end. -/
def overlap (a b : vsegment) : Option Bool :=
  let ret := false
  if sameEdge a.start b.start && sameEdge a.start b.end_ &&
      sameEdge a.end_ b.start && sameEdge a.end_ b.end_ then
    match moveToFace b.start a.start.face, moveToFace b.end_ a.start.face,
        moveToFace a.end_ a.start.face with
    | some bstart, some bend, some aend =>
      let ret := gt (fabs (a.start.diag - aend.diag) + fabs (bstart.diag - bend.diag))
        (fabs (a.start.diag - bend.diag) + fabs (bstart.diag - aend.diag))
      some (ret || (vball.eq a.start bend && vball.eq bstart aend))
    | _, _, _ => none
  else some (ret || (vball.eq a.start b.end_ && vball.eq b.start a.end_))

/-- The table `log29`. -/
def log29 : List Int :=
  [63,
   0, 1, 5, 2, 22, 6, 12,
   3, 10, 23, 25, 7, 18, 13,
   27, 4, 21, 11, 9, 24, 17,
   26, 20, 8, 16, 19, 15, 14]

/-- Rounding of a rational to the nearest integer, ties to even: `rint` in the default
rounding mode. -/
def roundHalfEven (q : ℚ) : Int :=
  if q - ⌊q⌋ < 1 / 2 then ⌊q⌋
  else if 1 / 2 < q - ⌊q⌋ then ⌊q⌋ + 1
  else if ⌊q⌋ % 2 = 0 then ⌊q⌋ else ⌊q⌋ + 1

/-- Rounding of a rational toward zero. -/
def truncRat (q : ℚ) : Int := if 0 ≤ q then ⌊q⌋ else ⌈q⌉

/-- The C function `rint`. -/
def double.rint : double → double
  | fin q => fin (roundHalfEven q)
  | x => x

/-- The C function `trunc`. -/
def double.trunc : double → double
  | fin q => fin (truncRat q)
  | x => x

/-- Conversion of a `double` to `int`. It is undefined in C++ for NaN and the infinities
(the model gives 0) and for values outside the range of `int`. -/
def double.toInt : double → Int
  | fin q => truncRat q
  | _ => 0

/-- Rounding of a rational to the nearest binary64 value, ties to even. A value `q` with
`2^e ≤ |q| < 2^(e+1)` has 53 significant bits, so it is rounded to a multiple of `2^(e-52)`.
The range of the exponent is not bounded: overflow and subnormal values are not modelled. -/
def roundBinary64 (q : ℚ) : ℚ :=
  if q = 0 then 0
  else (roundHalfEven (q / 2 ^ (Int.log 2 |q| - 52)) : ℚ) * 2 ^ (Int.log 2 |q| - 52)

/-- The binary64 value of the exact result of an operation: a finite result is rounded. -/
def double.toBinary64 : double → double
  | fin q => fin (roundBinary64 q)
  | d => d

namespace geoquad

/-- The method `geoquad::in(xy pnt)` with the result of each subtraction rounded to
binary64. -/
def in_xyRounded (q : geoquad) (pnt : xy) : Bool :=
  le (fabs (pnt.x - q.center.x).toBinary64) q.scale &&
    le (fabs (pnt.y - q.center.y).toBinary64) q.scale

/-- The body of the loop of `geoquad::subdivide` for the index `i`, with the result of each
division and addition rounded to binary64. -/
def subdivideChildRounded (d : geoquadFields) (i : Int) : geoquad :=
  let s := (ctor 0).fields
  let s := { s with scale := (d.scale / 2).toBinary64 }
  let s := { s with face := d.face }
  let s := { s with center :=
    ⟨(d.center.x + (d.scale / ofInt (if Int.land i 1 ≠ 0 then 2 else -2)).toBinary64).toBinary64,
     (d.center.y + (d.scale / ofInt (if Int.land i 2 ≠ 0 then 2 else -2)).toBinary64).toBinary64⟩ }
  let s := { s with nans := s.nans ++ d.nans.filter (fun p => (leaf s).in_xyRounded p) }
  let s := { s with nums := s.nums ++ d.nums.filter (fun p => (leaf s).in_xyRounded p) }
  leaf s

/-- The method `geoquad::subdivide` in binary64 arithmetic: the node after the call. -/
def subdivideRounded (q : geoquad) : geoquad :=
  let d := q.fields
  let d := { d with und := Function.update d.und 5 (toInt32 0x80000000) }
  let sub0 := subdivideChildRounded d 0
  let sub1 := subdivideChildRounded d 1
  let sub2 := subdivideChildRounded d 2
  let sub3 := subdivideChildRounded d 3
  let d := { d with nans := [] }
  let d := { d with nums := [] }
  quad d sub0 sub1 sub2 sub3

/-- The tree `q` after a call of `subdivide`, in binary64 arithmetic, on its node at `path`;
the nodes are mutated in place, so the rest of the tree stays. A path through a null pointer
names no node and the tree is unchanged. -/
def subdivideAtRounded : List (Fin 4) → geoquad → geoquad
  | [], q => q.subdivideRounded
  | _ :: _, leaf d => leaf d
  | i :: path, quad d s0 s1 s2 s3 =>
    if i = 0 then quad d (subdivideAtRounded path s0) s1 s2 s3
    else if i = 1 then quad d s0 (subdivideAtRounded path s1) s2 s3
    else if i = 2 then quad d s0 s1 (subdivideAtRounded path s2) s3
    else quad d s0 s1 s2 (subdivideAtRounded path s3)

/-- The tree `q` after a sequence of calls of `subdivide`, in binary64 arithmetic, each on
the node at a path. -/
def subdivideSeqRounded (calls : List (List (Fin 4))) (q : geoquad) : geoquad :=
  calls.foldl (fun t path => subdivideAtRounded path t) q

/-- Every node of the tree `q` at depth `bound` or less, the root being at depth `d`, has
the geometry of its depth. -/
def treeGeomTo (bound : Nat) : Nat → geoquad → Prop
  | d, leaf f => d ≤ bound → nodeGeom d (leaf f)
  | d, quad f s0 s1 s2 s3 =>
    (d ≤ bound → nodeGeom d (quad f s0 s1 s2 s3)) ∧
      treeGeomTo bound (d + 1) s0 ∧ treeGeomTo bound (d + 1) s1 ∧
      treeGeomTo bound (d + 1) s2 ∧ treeGeomTo bound (d + 1) s3

/-- The calls of `subdivide` on the root and then on the child `sub[3]` of the node made by
the call before, `k` calls in all: the paths `[]`, `[3]`, `[3,3]`, ... -/
def cornerCalls (k : Nat) : List (List (Fin 4)) :=
  (List.range k).map fun j => List.replicate j 3

end geoquad

/-- The loop of `splitLevel(double)`, with the fuel as a bound on the number of
iterations: the final `n` and `i`. -/
def splitLevelLoop : Nat → double → Int → Int → Option (Int × Int)
  | 0, _, _, _ => none
  | fuel + 1, coord, n, i =>
    if !(double.eq coord (ofInt n)) then
      let coord := (coord - coord.trunc) * 16777216
      let n := coord.rint.toInt
      splitLevelLoop fuel coord n (i + 1)
    else some (n, i)

/-- The function `splitLevel(double coord)`; `none` when the loop needs more iterations
than the fuel. -/
def splitLevel (fuel : Nat) (coord : double) : Option Int :=
  if double.eq coord coord.rint then some (boolToInt (double.eq coord 0))
  else
    let coord := fabs coord
    match splitLevelLoop fuel coord (-1) 0 with
    | none => none
    | some (n, i) =>
      let n := Int.land n (-n)
      some (i * 24 - log29.getD (Int.tmod n 29).toNat 0 + 1)

/-- The function `splitLevel(vball v)`. -/
def splitLevelVball (fuel : Nat) (v : vball) : Option Int :=
  match splitLevel fuel v.x, splitLevel fuel v.y with
  | some xLevel, some yLevel => if xLevel < yLevel then some xLevel else some yLevel
  | _, _ => none

/-- The function `splitLevel(vsegment v)`. -/
def splitLevelSegment (fuel : Nat) (v : vsegment) : Option Int :=
  if v.start.face = v.end_.face then
    if double.eq v.start.x v.end_.x then splitLevel fuel v.start.x
    else if double.eq v.start.y v.end_.y then splitLevel fuel v.start.y
    else some (-1)
  else if sameEdge v.start v.end_ then some 0
  else some (-1)

/-- The operator `xyz + xyz` of `point.h`: the sum of two vectors. -/
def xyz.add (a b : xyz) : xyz := ⟨a.x + b.x, a.y + b.y, a.z + b.z⟩

/-- The function `dot` of `point.h`: the scalar product of two vectors. -/
def xyz.dot (a b : xyz) : double := a.x * b.x + a.y * b.y + a.z * b.z

/-- The condition in the specification of `halve`, on the directions `m`, `u`, `v`: the
direction `m` makes equal angles with `u` and `v`. The cosines are `m·u/(|m||u|)` and
`m·v/(|m||v|)`; they are equal when the two scalar products do not have opposite signs and
`(m·u)²|v|² = (m·v)²|u|²`. -/
def makesEqualAngles (m u v : xyz) : Bool :=
  ge (m.dot u * m.dot v) 0 &&
    double.eq (m.dot u * m.dot u * v.dot v) (m.dot v * m.dot v * u.dot u)

/-- The `for` loop of `vsegment::midpoint`, from iteration `i` on, with at most `k`
iterations left. The method `vball::switchFace` (of `geoid.cpp`) is a parameter; the loop
never calls it when the two ends are on one face. -/
def midpointLoop (switchFace : vball → vball) : Nat → Int → vsegment → vsegment
  | 0, _, s => s
  | k + 1, i, s =>
    if i < 9 ∧ s.start.face ≠ s.end_.face then
      if Int.tmod i 3 ≠ 0 then
        midpointLoop switchFace k (i + 1) { s with start := switchFace s.start }
      else
        midpointLoop switchFace k (i + 1) { s with end_ := switchFace s.end_ }
    else s

/-- The method `vsegment::midpoint`. The loop runs at most nine times. The methods
`vball::switchFace` and `xyz::length` are parameters. -/
def vsegment.midpoint (switchFace : vball → vball) (length : xyz → double) (s : vsegment) :
    vball :=
  let s := midpointLoop switchFace 9 0 s
  let ret := vball.ctor
  if s.start.face = s.end_.face then
    { ret with face := s.start.face, x := (s.start.x + s.end_.x) / 2,
               y := (s.start.y + s.end_.y) / 2 }
  else encodedir ((decodedir length s.start).add (decodedir length s.end_))

/-- Conversion of an `int` to `size_t` (64 bits), as in `n%=bdy.size()`. -/
def toSizeT (n : Int) : Int := n % 2 ^ 64

/-- The class `g1boundary`: the vector `bdy` and the flag `inner`. -/
structure g1boundary where
  bdy : List vball
  inner : Bool
deriving DecidableEq

namespace g1boundary

/-- The method `g1boundary::size`. -/
def size (g : g1boundary) : Int := g.bdy.length

/-- The method `g1boundary::positionSegment`. Both remainders are taken in `size_t`.
The two `memmove`s fill `bdy1` with `bdy[m..]` followed by `bdy[..m]`. The sum of
`int m=n+1` is taken without overflow: at `n = INT_MAX`, where the addition is undefined in
C++, the definition does not describe the code. -/
def positionSegment (g : g1boundary) (n : Int) : g1boundary :=
  let m := n + 1
  if g.bdy.length ≠ 0 then
    let n := toSizeT n % g.bdy.length
    let n := if n < 0 then n + g.bdy.length else n
    let m := toSizeT m % g.bdy.length
    let m := if m < 0 then m + g.bdy.length else m
    if m > n then
      let bdy1 := g.bdy.drop m.toNat ++ g.bdy.take m.toNat
      { g with bdy := bdy1 }
    else g
  else g

/-- The method `g1boundary::split(int n,g1boundary &b)`: `this` and `b` after the call.
The remainder is taken in `int`; with an empty `bdy` it is a division by zero (`none`). -/
def split (g : g1boundary) (n : Int) (b : g1boundary) : Option (g1boundary × g1boundary) :=
  if g.bdy.length = 0 then none
  else
    let n := Int.tmod n g.bdy.length
    let n := if n < 0 then n + g.bdy.length else n
    let b := { b with bdy := g.bdy.drop n.toNat }
    some ({ g with bdy := g.bdy.take n.toNat }, b)

/-- The method `g1boundary::operator[]`; `none` when `assert(bdy.size())` fails. The
remainder is taken in `size_t`. -/
def get (g : g1boundary) (n : Int) : Option vball :=
  if g.bdy.length = 0 then none
  else
    let n := toSizeT n % g.bdy.length
    let n := if n < 0 then n + g.bdy.length else n
    g.bdy[n.toNat]?

/-- The method `g1boundary::seg`; `none` when `assert(bdy.size())` fails. The remainder is
taken in `int`. -/
def seg (g : g1boundary) (n : Int) : Option vsegment :=
  if g.bdy.length = 0 then none
  else
    let n := Int.tmod n g.bdy.length
    let n := if n < 0 then n + g.bdy.length else n
    match g.bdy[n.toNat]?, g.bdy[((n + 1) % g.bdy.length).toNat]? with
    | some s, some e => some { start := s, end_ := e }
    | _, _ => none

/-- The test of the loop of `g1boundary::segmentsAtLevel` for segment `i`; `none` when
`splitLevel` needs more than `fuel` iterations. With `l<0` the level is not computed. -/
def atLevel (fuel : Nat) (g : g1boundary) (l : Int) (i : Int) : Option Bool :=
  if l < 0 then some true
  else
    match g.seg i with
    | none => none
    | some s =>
      match splitLevelSegment fuel s with
      | none => none
      | some k => some (decide (k = l))

/-- A `for` loop that keeps the elements passing a test which may give no answer. -/
def filterOpt {α : Type} (p : α → Option Bool) : List α → Option (List α)
  | [] => some []
  | a :: as =>
    match p a, filterOpt p as with
    | some b, some r => some (if b then a :: r else r)
    | _, _ => none

/-- The indices `0, ..., n-1` as `int`s. -/
def indices (n : Nat) : List Int := (List.range n).map Int.ofNat

/-- The method `g1boundary::segmentsAtLevel`; `none` when `splitLevel` needs more than
`fuel` iterations. -/
def segmentsAtLevel (fuel : Nat) (g : g1boundary) (l : Int) : Option (List Int) :=
  filterOpt (g.atLevel fuel l) (indices g.bdy.length)

/-- The test of the loop of `g1boundary::nullSegments` for segment `i`. -/
def isNullSegment (g : g1boundary) (i : Int) : Bool :=
  match g.seg i with
  | some vseg => vseg.start.eq vseg.end_
  | none => false

/-- The method `g1boundary::nullSegments`. -/
def nullSegments (g : g1boundary) : List Int :=
  (indices g.bdy.length).filter g.isNullSegment

/-- The method `g1boundary::splice(g1boundary &b)`: `this` and `b` after the call. -/
def splice (g b : g1boundary) : g1boundary × g1boundary :=
  ({ g with bdy := g.bdy ++ b.bdy }, { b with bdy := [] })

/-- The method `g1boundary::splice(int m,g1boundary &b,int n)`: `this` and `b` after the
call. -/
def splice3 (g : g1boundary) (m : Int) (b : g1boundary) (n : Int) : g1boundary × g1boundary :=
  (g.positionSegment m).splice (b.positionSegment n)

/-- The method `g1boundary::split(int m,int n,g1boundary &b)`: `this` and `b` after the
call. -/
def split3 (g : g1boundary) (m n : Int) (b : g1boundary) : Option (g1boundary × g1boundary) :=
  (g.positionSegment m).split (n - m) b

/-- The method `g1boundary::halve`; `none` when the assertion of `seg` fails. -/
def halve (switchFace : vball → vball) (length : xyz → double) (g : g1boundary) (n : Int) :
    Option g1boundary :=
  let g := g.positionSegment n
  match g.seg (-1) with
  | none => none
  | some s => some { g with bdy := g.bdy ++ [s.midpoint switchFace length] }

/-- The test of the loop of `g1boundary::deleteCollinear` at index `i`. -/
def collinearAt (g : g1boundary) (i : Nat) : Bool :=
  let sz := g.bdy.length
  match g.bdy[i]?, g.bdy[(i + 1) % sz]?, g.bdy[(i + 2) % sz]? with
  | some a, some b, some c => sameEdge a b && sameEdge b c && sameEdge c a
  | _, _, _ => false

/-- The method `g1boundary::deleteCollinear`; `none` when the `do` loop needs more than
`fuel` rounds. The `for` loop stops at the first index that passes the test. -/
def deleteCollinear : Nat → g1boundary → Option g1boundary
  | 0, _ => none
  | fuel + 1, g =>
    let sz := g.bdy.length
    match (List.range sz).find? g.collinearAt with
    | some i =>
      let g := g.positionSegment (i + 1)
      deleteCollinear fuel { g with bdy := g.bdy.take (sz - 1) }
    | none => some g

/-- The test of the loop of `g1boundary::deleteRetrace` at index `i`. -/
def retraceAt (g : g1boundary) (i : Nat) : Bool :=
  let sz := g.bdy.length
  match g.bdy[i]?, g.bdy[(i + 1) % sz]?, g.bdy[(i + 2) % sz]? with
  | some a, some b, some c => a.eq c || a.eq b || b.eq c
  | _, _, _ => false

/-- The method `g1boundary::deleteRetrace`; `none` when the `do` loop needs more than
`fuel` rounds. -/
def deleteRetrace : Nat → g1boundary → Option g1boundary
  | 0, _ => none
  | fuel + 1, g =>
    let sz := g.bdy.length
    match (List.range sz).find? g.retraceAt with
    | some i =>
      let g := g.positionSegment (i + 1)
      deleteRetrace fuel { g with bdy := g.bdy.take (sz - 1) }
    | none => some g

end g1boundary

/-- The relation "cyclic subsequence" of the specification: `a` is obtained from a rotation
of `b` by leaving out elements. -/
def CyclicSub {α : Type} (a b : List α) : Prop := ∃ r, r ~r b ∧ List.Sublist a r

/-- The loop left by the step shared by `deleteCollinear`, `deleteRetrace` and
`deleteNullSegments` (as the lemmas `positionSegment_take` and `split3_succ_self` show):
the vertex after vertex `i` is removed, and the vertex after that one comes first. -/
def g1boundary.removeAfter (g : g1boundary) (i : Nat) : g1boundary :=
  ⟨(g.bdy.rotate (i + 2)).take (g.bdy.length - 1), g.inner⟩

/-- Repetition of `removeAfter` at the index chosen by `pick` until `pick` finds none;
`none` when more than `fuel` rounds are needed. -/
def g1boundary.iterateRemoval (pick : g1boundary → Option Nat) :
    Nat → g1boundary → Option g1boundary
  | 0, _ => none
  | fuel + 1, g =>
    match pick g with
    | some i => iterateRemoval pick fuel (removeAfter g i)
    | none => some g

/-- The result of a run: a value, a failed `assert`, or loops that need more rounds than
the fuel. -/
inductive Outcome (α : Type) where
  | ok (a : α)
  | assertFailed
  | outOfFuel
deriving DecidableEq

/-- The class `gboundary`: the vector `bdy` of loops. The member `segNum` is not used by the
methods below; the caches `flatBdy` and `areaSign`, which only `flattenBdy` writes, are
kept next to the loops in `gboundaryCache`. -/
structure gboundary where
  bdy : List g1boundary
deriving DecidableEq

namespace gboundary

/-- The method `gboundary::size`. -/
def size (g : gboundary) : Int := g.bdy.length

/-- The method `gboundary::totalSegments`. -/
def totalSegments (g : gboundary) : Int := (g.bdy.map g1boundary.size).sum

/-- The pairs `(iseg[m], jseg[n])` in the order of the two nested `for` loops of
`consolidate`. -/
def segmentPairs (iseg jseg : List Int) : List (Int × Int) :=
  iseg.flatMap fun a => jseg.map fun b => (a, b)

/-- The two nested `for` loops of `consolidate` over the remaining pairs: the last pair of
overlapping segments, `found` being `acc.isSome`. A failed assertion of `overlap` or `seg`
stops the run. -/
def consolidateScan (bi bj : g1boundary) :
    List (Int × Int) → Option (Int × Int) → Outcome (Option (Int × Int))
  | [], acc => Outcome.ok acc
  | (a, b) :: rest, acc =>
    match bi.seg a, bj.seg b with
    | some s, some t =>
      match overlap s t with
      | none => Outcome.assertFailed
      | some true => consolidateScan bi bj rest (some (a, b))
      | some false => consolidateScan bi bj rest acc
    | _, _ => Outcome.assertFailed

/-- The `while` loop of `gboundary::consolidate`, with the fuel for its rounds; `slFuel` is
the fuel of each call of `splitLevel`. The variables `i`, `j`, `cnt`, `sz` are never
negative and are natural numbers here. An index outside the vector (which does not occur:
`i` and `j` stay below `sz`) is treated like a failed assertion. -/
def consolidateLoop (slFuel : Nat) (l : Int) (sz : Nat) :
    Nat → List g1boundary → Nat → Nat → Nat → Outcome (List g1boundary)
  | 0, _, _, _, _ => Outcome.outOfFuel
  | fuel + 1, bdy, i, j, cnt =>
    if cnt < sz * sz then
      match bdy[i]?, bdy[j]? with
      | some bi, some bj =>
        match bi.segmentsAtLevel slFuel l, bj.segmentsAtLevel slFuel l with
        | some iseg, some jseg =>
          match consolidateScan bi bj (segmentPairs iseg jseg) none with
          | Outcome.ok (some (a, b)) =>
            let r := bi.splice3 a bj b
            let bdy := (bdy.set i r.1).set j r.2
            let j := (j + 1) % sz
            consolidateLoop slFuel l sz fuel bdy (if i = j then (i + sz - 1) % sz else i) j 0
          | Outcome.ok none =>
            let j := (j + 1) % sz
            consolidateLoop slFuel l sz fuel bdy (if i = j then (i + sz - 1) % sz else i) j
              (cnt + 1)
          | Outcome.assertFailed => Outcome.assertFailed
          | Outcome.outOfFuel => Outcome.outOfFuel
        | _, _ => Outcome.outOfFuel
      | _, _ => Outcome.assertFailed
    else Outcome.ok bdy

/-- The method `gboundary::consolidate`. -/
def consolidate (slFuel fuel : Nat) (g : gboundary) (l : Int) : Outcome gboundary :=
  match consolidateLoop slFuel l g.bdy.length fuel g.bdy 0 1 1 with
  | Outcome.ok bdy => Outcome.ok { g with bdy := bdy }
  | Outcome.assertFailed => Outcome.assertFailed
  | Outcome.outOfFuel => Outcome.outOfFuel

/-- The pairs `(iseg[j], iseg[k])` with `k<j` in the order of the two nested `for` loops of
`splitoff`; `seen` holds the entries before the remaining ones. -/
def lowerPairs : List Int → List Int → List (Int × Int)
  | _, [] => []
  | seen, a :: rest => seen.map (fun c => (a, c)) ++ lowerPairs (seen ++ [a]) rest

/-- The two nested `for` loops of `splitoff` over the remaining pairs: the first pair of
overlapping segments. -/
def splitoffScan (b : g1boundary) : List (Int × Int) → Outcome (Option (Int × Int))
  | [] => Outcome.ok none
  | (a, c) :: rest =>
    match b.seg a, b.seg c with
    | some s, some t =>
      match overlap s t with
      | none => Outcome.assertFailed
      | some true => Outcome.ok (some (a, c))
      | some false => splitoffScan b rest
    | _, _ => Outcome.assertFailed

/-- The loops of `gboundary::splitoff` from loop `i` on; the fuel bounds the number of
rounds of the `do` loops plus the number of steps of the `for` loop. The loop added by
`bdy.resize(bdy.size()+1)` gets its vertices from `split`; its flag `inner`, set by a
constructor that is not among the sources, is taken as `false`. The division by zero of
`split` on an empty loop (which does not occur after a segment was found) is treated like
a failed assertion. -/
def splitoffLoop (slFuel : Nat) (l : Int) :
    Nat → List g1boundary → Nat → Outcome (List g1boundary)
  | 0, _, _ => Outcome.outOfFuel
  | fuel + 1, bdy, i =>
    match bdy[i]? with
    | none => Outcome.ok bdy
    | some bi =>
      match bi.segmentsAtLevel slFuel l with
      | none => Outcome.outOfFuel
      | some iseg =>
        match splitoffScan bi (lowerPairs [] iseg) with
        | Outcome.ok (some (a, c)) =>
          match bi.split3 a c ⟨[], false⟩ with
          | some r => splitoffLoop slFuel l fuel (bdy.set i r.1 ++ [r.2]) i
          | none => Outcome.assertFailed
        | Outcome.ok none => splitoffLoop slFuel l fuel bdy (i + 1)
        | Outcome.assertFailed => Outcome.assertFailed
        | Outcome.outOfFuel => Outcome.outOfFuel

/-- The method `gboundary::splitoff`. -/
def splitoff (slFuel fuel : Nat) (g : gboundary) (l : Int) : Outcome gboundary :=
  match splitoffLoop slFuel l fuel g.bdy 0 with
  | Outcome.ok bdy => Outcome.ok { g with bdy := bdy }
  | Outcome.assertFailed => Outcome.assertFailed
  | Outcome.outOfFuel => Outcome.outOfFuel

/-- A `for` loop that applies to every loop of the vector a method which may not return. -/
def forEachLoop (f : g1boundary → Option g1boundary) : List g1boundary → Option (List g1boundary)
  | [] => some []
  | b :: bs =>
    match f b, forEachLoop f bs with
    | some b1, some bs1 => some (b1 :: bs1)
    | _, _ => none

/-- The method `gboundary::deleteCollinear`; the fuel is that of each loop. -/
def deleteCollinear (fuel : Nat) (g : gboundary) : Option gboundary :=
  (forEachLoop (g1boundary.deleteCollinear fuel) g.bdy).map fun l => { g with bdy := l }

/-- The method `gboundary::deleteRetrace`; the fuel is that of each loop. -/
def deleteRetrace (fuel : Nat) (g : gboundary) : Option gboundary :=
  (forEachLoop (g1boundary.deleteRetrace fuel) g.bdy).map fun l => { g with bdy := l }

/-- The `while (true)` loop of `gboundary::deleteNullSegments` on one loop of the vector;
`none` when it needs more than `fuel` rounds or `split` divides by zero. The loop `tmp`
only receives what `split` cuts off; its content is never read. -/
def deleteNullSegmentsLoop : Nat → g1boundary → Option g1boundary
  | 0, _ => none
  | fuel + 1, b =>
    match b.nullSegments with
    | [] => some b
    | i0 :: _ =>
      match b.split3 (i0 + 1) i0 ⟨[], false⟩ with
      | some r => deleteNullSegmentsLoop fuel r.1
      | none => none

/-- The method `gboundary::deleteNullSegments`; the fuel is that of each loop. -/
def deleteNullSegments (fuel : Nat) (g : gboundary) : Option gboundary :=
  (forEachLoop (deleteNullSegmentsLoop fuel) g.bdy).map fun l => { g with bdy := l }

/-- The cleanup sequence of the specification (its callers are not among the sources):
`deleteCollinear`, then `deleteRetrace`, then `deleteNullSegments`, each with the same
fuel. -/
def cleanupPass (fuel : Nat) (g : gboundary) : Option gboundary :=
  match g.deleteCollinear fuel with
  | none => none
  | some g1 =>
    match g1.deleteRetrace fuel with
    | none => none
    | some g2 => g2.deleteNullSegments fuel

end gboundary

/-- The update of `i` and `j` at the end of a round of the loop of `consolidate`:
`j=(j+1)%sz; if (i==j) i=(i+sz-1)%sz;`. -/
def gboundary.nextPair (sz : Nat) (p : Nat × Nat) : Nat × Nat :=
  (if p.1 = (p.2 + 1) % sz then (p.1 + sz - 1) % sz else p.1, (p.2 + 1) % sz)

/-- The pairs `(i,j)` that the loop of `consolidate` goes through: two different indices
of loops. -/
def gboundary.ValidPair (sz : Nat) (p : Nat × Nat) : Prop := p.1 < sz ∧ p.2 < sz ∧ p.1 ≠ p.2

/-- A round of `consolidate` on the loops `i` and `j` finds no overlapping segments. -/
def gboundary.Quiet (slFuel : Nat) (l : Int) (bdy : List g1boundary) (p : Nat × Nat) : Prop :=
  ∃ bi bj iseg jseg, bdy[p.1]? = some bi ∧ bdy[p.2]? = some bj ∧
    bi.segmentsAtLevel slFuel l = some iseg ∧ bj.segmentsAtLevel slFuel l = some jseg ∧
    gboundary.consolidateScan bi bj (gboundary.segmentPairs iseg jseg) none = Outcome.ok none

/-- The coordinates of every vertex of the loop, unless they are NaN, have a level within
the fuel. (The level of a NaN is never asked for: `splitLevel(vsegment)` takes the level of
a coordinate only when it is equal to the coordinate of the other end.) -/
def LevelsWithin (slFuel : Nat) (g : g1boundary) : Prop :=
  ∀ v ∈ g.bdy, (v.x.isnan = false → splitLevel slFuel v.x ≠ none) ∧
    (v.y.isnan = false → splitLevel slFuel v.y ≠ none)

/-- The state of a loop that `splitoff` has finished with: the levels of its segments are
computed, and no segment `j` at the level overlaps a segment `k < j` at the level. -/
def gboundary.Settled (slFuel : Nat) (l : Int) (b : g1boundary) : Prop :=
  ∃ iseg, b.segmentsAtLevel slFuel l = some iseg ∧
    ∀ j ∈ iseg, ∀ k ∈ iseg, k < j →
      ∃ s t, b.seg j = some s ∧ b.seg k = some t ∧ overlap s t = some false

/-- The place of a pair of two different indices in the cycle that `nextPair` goes through:
`i` counts down from `0` (then `sz-1`, `sz-2`, ...), and for each `i` the index `j` runs
from `i+1` cyclically to `i-1`. -/
def gboundary.pairRank (sz : Nat) (p : Nat × Nat) : Nat :=
  (if p.1 = 0 then 0 else sz - p.1) * (sz - 1) +
    (if p.1 < p.2 then p.2 - p.1 - 1 else p.2 + sz - p.1 - 1)

/-- The first inner loop of `gboundary::deleteEmpty`,
`while (i<size() && bdy[i].size()>0) i++`: the value of `i` after it, `none` when it needs
more than `fuel` steps. The index `i` is never negative and is a natural number here. -/
def gboundary.skipFull (bdy : List g1boundary) : Nat → Nat → Option Nat
  | 0, _ => none
  | fuel + 1, i =>
    match bdy[i]? with
    | some b => if b.size > 0 then gboundary.skipFull bdy fuel (i + 1) else some i
    | none => some i

/-- The second inner loop of `gboundary::deleteEmpty`,
`while (j>=0 && bdy[j].size()==0) j--`: the value of `j` after it, `none` when it needs
more than `fuel` steps. An index beyond the end of the vector (which does not occur: `j`
starts at `size()-1`) also gives `none`. -/
def gboundary.skipEmpty (bdy : List g1boundary) : Nat → Int → Option Int
  | 0, _ => none
  | fuel + 1, j =>
    if 0 ≤ j then
      match bdy[j.toNat]? with
      | some b => if b.size = 0 then gboundary.skipEmpty bdy fuel (j - 1) else some j
      | none => none
    else some j

/-- The `for` loop of `gboundary::deleteEmpty`: the vector and `i` after it. The fuel bounds
the number of its rounds, `inner` that of the steps of each inner loop. -/
def gboundary.deleteEmptyLoop (inner : Nat) :
    Nat → List g1boundary → Nat → Int → Option (List g1boundary × Nat)
  | 0, _, _, _ => none
  | fuel + 1, bdy, i, j =>
    if (i : Int) ≤ j then
      match gboundary.skipFull bdy inner i with
      | none => none
      | some i1 =>
        match gboundary.skipEmpty bdy inner j with
        | none => none
        | some j1 =>
          if (i1 : Int) < j1 then
            match bdy[i1]?, bdy[j1.toNat]? with
            | some bi, some bj =>
              gboundary.deleteEmptyLoop inner fuel ((bdy.set i1 bj).set j1.toNat bi) i1 j1
            | _, _ => none
          else gboundary.deleteEmptyLoop inner fuel bdy i1 j1
    else some (bdy, i)

/-- The call `bdy.resize(n)` on a vector of loops: the first `n` loops, followed by empty
loops when `n` is more than the size of the vector. -/
def gboundary.resize (bdy : List g1boundary) (n : Nat) : List g1boundary :=
  bdy.take n ++ List.replicate (n - bdy.length) ⟨[], false⟩

/-- The method `gboundary::deleteEmpty`; `none` when a loop needs more than `fuel` rounds. -/
def gboundary.deleteEmpty (fuel : Nat) (g : gboundary) : Option gboundary :=
  match gboundary.deleteEmptyLoop fuel fuel g.bdy 0 (g.size - 1) with
  | some (bdy, i) => some { g with bdy := gboundary.resize bdy i }
  | none => none

/-- The quantity that decreases with every round of the loop of `deleteEmpty` that swaps two
loops: the number of indices from `i` to `j`, plus one when loop `i` is empty. -/
def gboundary.deleteEmptyRank (bdy : List g1boundary) (i : Nat) (j : Int) : Nat :=
  (j + 1 - i).toNat + (if (bdy[i]?.map fun b => b.bdy.isEmpty) = some true then 1 else 0)

/-- The function `byteswap` of `geoid.cpp` on a 32-bit `unsigned`. The two left shifts move
bits below bit 32 only, so that nothing is lost in them. -/
def byteswap (n : Nat) : Nat :=
  ((n &&& 0xff000000) >>> 24) ||| ((n &&& 0xff0000) >>> 8) ||| ((n &&& 0xff00) <<< 8) |||
    ((n &&& 0xff) <<< 24)

/-- The conversion of an `int` to `unsigned`. -/
def toUnsigned (n : Int) : Nat := (n % 2 ^ 32).toNat

/-- One step of a loop of `geoquad::hash`: `byteswap((h^v)*c)` in `unsigned` arithmetic. -/
def hashStep (c : Nat) (h v : Nat) : Nat := byteswap (((h ^^^ v) * c) % 2 ^ 32)

/-- The method `geoquad::hash`: the array `ret` as a pair. In each loop `ret[0]` takes up the
values in the order of the array and `ret[1]` in the opposite order. -/
def geoquad.hash : geoquad → Nat × Nat
  | geoquad.quad _ s0 s1 s2 s3 =>
    let subhashes := [s0.hash.1, s0.hash.2, s1.hash.1, s1.hash.2, s2.hash.1, s2.hash.2,
      s3.hash.1, s3.hash.2]
    (subhashes.foldl (hashStep 1657) 0, subhashes.reverse.foldl (hashStep 6371) 0)
  | geoquad.leaf d =>
    let unds := [d.und 0, d.und 1, d.und 2, d.und 3, d.und 4, d.und 5].map toUnsigned
    (unds.foldl (hashStep 99421) 0, unds.reverse.foldl (hashStep 47935) 0)

/-- The C function `floor`. -/
def double.floor : double → double
  | double.fin q => double.fin ⌊q⌋
  | d => d

/-- The C function `significand`: the mantissa of a double, a value of absolute value in
`[1,2)` that differs from the argument by a power of 2; zero, NaN and the infinities are
returned as they are. -/
def double.significand : double → double
  | double.fin q => if q = 0 then double.fin 0 else double.fin (q / 2 ^ Int.log 2 |q|)
  | d => d

/-- The class `qindex`: the corner `x`, `y` and the length `side` of the square. The
members `tri` and `sub` are not used by the functions below. -/
structure qindex where
  x : double
  y : double
  side : double

/-- The variable `i` of `qindex::findt` at its test `i<0`: it is negative when the point is
outside the square, in which case `findt` returns `NULL`. -/
def qindex.findtIndex (q : qindex) (pnt : xy) : Int :=
  let xbit := boolToInt (double.ge pnt.x (q.x + q.side / 2))
  let xbit := if double.ge pnt.x (q.x + q.side) || double.lt pnt.x q.x then -1 else xbit
  let ybit := boolToInt (double.ge pnt.y (q.y + q.side / 2))
  let ybit := if double.ge pnt.y (q.y + q.side) || double.lt pnt.y q.y then -1 else ybit
  Int.lor (ybit <<< (1 : Int)) xbit

/-- The first loop of `qindex::sizefit`: `minx`, `miny`, `maxx`, `maxy` after it. -/
def qindex.bounds (pnts : List xy) : double × double × double × double :=
  pnts.foldl
    (fun b p =>
      let maxx := if double.gt p.x b.2.2.1 then p.x else b.2.2.1
      let minx := if double.lt p.x b.1 then p.x else b.1
      let maxy := if double.gt p.y b.2.2.2 then p.y else b.2.2.2
      let miny := if double.lt p.y b.2.1 then p.y else b.2.1
      (minx, miny, maxx, maxy))
    (double.inf false, double.inf false, double.inf true, double.inf true)

/-- The `while` loop of `qindex::sizefit`: `x`, `y` and `side` after it, `none` when it needs
more than `fuel` rounds. -/
def qindex.sizefitLoop (minx miny maxx maxy : double) :
    Nat → double → double → double → Option (double × double × double)
  | 0, _, _, _ => none
  | fuel + 1, x, y, side =>
    if double.lt (x + side) maxx || double.lt (y + side) maxy then
      let side := side * 2
      let x := double.floor (minx / side * 16) * side / 16
      let y := double.floor (miny / side * 16) * side / 16
      qindex.sizefitLoop minx miny maxx maxy fuel x y side
    else some (x, y, side)

/-- The method `qindex::sizefit`: the index after the call, `none` when the loop needs more
than `fuel` rounds. -/
def qindex.sizefit (fuel : Nat) (q : qindex) (pnts : List xy) : Option qindex :=
  let b := qindex.bounds pnts
  let minx := b.1
  let miny := b.2.1
  let maxx := b.2.2.1
  let maxy := b.2.2.2
  if double.le maxy miny && double.le maxx minx then some { q with side := 0 }
  else
    let side := (maxx + maxy - minx - miny) / 2
    let side := side / double.significand side
    let x := minx - side
    let y := miny - side
    match qindex.sizefitLoop minx miny maxx maxy fuel x y side with
    | some r => some ⟨r.1, r.2.1, r.2.2⟩
    | none => none

/-- The method `gboundary::push_back`. -/
def gboundary.push_back (g : gboundary) (g1 : g1boundary) : gboundary :=
  { g with bdy := g.bdy ++ [g1] }

/-- The method `gboundary::clear`. -/
def gboundary.clear (g : gboundary) : gboundary := { g with bdy := [] }

/-- The call `swap(bdy[i],bdy[j])`; `none` when an index is outside the vector. -/
def gboundary.swapAt (bdy : List g1boundary) (i j : Nat) : Option (List g1boundary) :=
  match bdy[i]?, bdy[j]? with
  | some a, some b => some ((bdy.set i b).set j a)
  | _, _ => none

/-- The method `gboundary::erase`. The comparisons of `n` with `bdy.size()-1` and with
`bdy.size()` are made in `size_t`; `none` when `swap` is called with an index outside the
vector. -/
def gboundary.erase (g : gboundary) (n : Int) : Option gboundary :=
  let sz : Int := g.bdy.length
  let swapped :=
    if toSizeT n < toSizeT (sz - 1) ∧ n ≥ 0 then
      gboundary.swapAt g.bdy n.toNat (toSizeT (sz - 1)).toNat
    else some g.bdy
  match swapped with
  | none => none
  | some bdy =>
    if toSizeT n < toSizeT sz ∧ n ≥ 0 then some { g with bdy := gboundary.resize bdy (bdy.length - 1) }
    else some { g with bdy := bdy }

/-- The C function `signbit`. The sign of a zero and of a NaN is not modelled: they count
as not negative. -/
def double.signbit : double → Bool
  | double.fin q => decide (q < 0)
  | double.inf s => s
  | double.nan => false

/-- A `gboundary` together with its members `flatBdy` and `areaSign`, the cached plane
projections of the loops and the signs of their areas. The class `polyarc` is not among the
sources; `P` stands for it. -/
structure gboundaryCache (P : Type) where
  loops : gboundary
  flatBdy : List P
  areaSign : List Int

/-- The method `gboundary::flattenBdy`. The function `flatten` and the method
`polyarc::area` are not among the sources and are parameters. -/
def gboundaryCache.flattenBdy {P : Type} (flatten : g1boundary → P) (area : P → double)
    (c : gboundaryCache P) : gboundaryCache P :=
  if c.flatBdy.length ≠ c.loops.bdy.length then
    { c with
      flatBdy := c.loops.bdy.map flatten
      areaSign := c.loops.bdy.map fun b => boolToInt (double.signbit (area (flatten b))) }
  else c

/-- A call of a method of `gboundary` that changes its loops or its caches. -/
inductive gboundaryOp where
  | push_back (g1 : g1boundary)
  | clear
  | erase (n : Int)
  | consolidate (l : Int)
  | splitoff (l : Int)
  | deleteCollinear
  | deleteRetrace
  | deleteNullSegments
  | deleteEmpty
  | flattenBdy

/-- The loops of a `gboundary` after a call that does not touch the caches; `none` when the
call does not return (a failed assertion, an index outside a vector, or more rounds than
the fuel). -/
def gboundaryOp.onLoops (slFuel fuel : Nat) (g : gboundary) : gboundaryOp → Option gboundary
  | gboundaryOp.push_back g1 => some (g.push_back g1)
  | gboundaryOp.clear => some g.clear
  | gboundaryOp.erase n => g.erase n
  | gboundaryOp.consolidate l =>
    match g.consolidate slFuel fuel l with
    | Outcome.ok r => some r
    | _ => none
  | gboundaryOp.splitoff l =>
    match g.splitoff slFuel fuel l with
    | Outcome.ok r => some r
    | _ => none
  | gboundaryOp.deleteCollinear => g.deleteCollinear fuel
  | gboundaryOp.deleteRetrace => g.deleteRetrace fuel
  | gboundaryOp.deleteNullSegments => g.deleteNullSegments fuel
  | gboundaryOp.deleteEmpty => g.deleteEmpty fuel
  | gboundaryOp.flattenBdy => some g

/-- The state of a `gboundary` after one call. Only `flattenBdy` writes the caches. -/
def gboundaryOp.apply {P : Type} (flatten : g1boundary → P) (area : P → double)
    (slFuel fuel : Nat) (c : gboundaryCache P) : gboundaryOp → Option (gboundaryCache P)
  | gboundaryOp.flattenBdy => some (c.flattenBdy flatten area)
  | op => (op.onLoops slFuel fuel c.loops).map fun g => { c with loops := g }

/-- The state of a `gboundary` after a sequence of calls. -/
def gboundaryOp.run {P : Type} (flatten : g1boundary → P) (area : P → double)
    (slFuel fuel : Nat) : List gboundaryOp → gboundaryCache P → Option (gboundaryCache P)
  | [], c => some c
  | op :: ops, c =>
    match op.apply flatten area slFuel fuel c with
    | some c1 => gboundaryOp.run flatten area slFuel fuel ops c1
    | none => none

end Bezitopo

namespace Bezitopo
open double

namespace double

@[simp]
theorem ofNat_def (n : Nat) : (OfNat.ofNat n : double) = fin (n : ℚ) := rfl
@[simp]
theorem fin_add (a b : ℚ) : fin a + fin b = fin (a + b) := rfl
@[simp]
theorem fin_sub (a b : ℚ) : fin a - fin b = fin (a - b) := by
  show add (fin a) (neg (fin b)) = _
  simp [add, neg, sub_eq_add_neg]
@[simp]
theorem fin_mul (a b : ℚ) : fin a * fin b = fin (a * b) := rfl
@[simp]
theorem neg_fin (a : ℚ) : -fin a = fin (-a) := rfl
theorem fin_div (a : ℚ) {b : ℚ} (h : b ≠ 0) : fin a / fin b = fin (a / b) := by
  show div (fin a) (fin b) = _
  simp [div, h]
@[simp]
theorem fabs_fin (a : ℚ) : fabs (fin a) = fin |a| := rfl
@[simp]
theorem lt_fin (a b : ℚ) : lt (fin a) (fin b) = decide (a < b) := rfl
@[simp]
theorem le_fin (a b : ℚ) : le (fin a) (fin b) = decide (a ≤ b) := rfl
@[simp]
theorem gt_fin (a b : ℚ) : gt (fin a) (fin b) = decide (b < a) := rfl
@[simp]
theorem ge_fin (a b : ℚ) : ge (fin a) (fin b) = decide (b ≤ a) := rfl
@[simp]
theorem eq_fin (a b : ℚ) : double.eq (fin a) (fin b) = decide (a = b) := rfl
@[simp]
theorem isnan_fin (a : ℚ) : isnan (fin a) = false := rfl
@[simp]
theorem isinf_fin (a : ℚ) : isinf (fin a) = false := rfl

end double

/-- The value of `encodedir` on a finite vector that is not zero: the last of the three
tests that fires decides. -/
theorem encodedir_fin (X Y Z : ℚ) (h : ¬(X = 0 ∧ Y = 0 ∧ Z = 0)) :
    encodedir ⟨fin X, fin Y, fin Z⟩ =
      if |X| ≤ |Z| ∧ |Y| ≤ |Z| then ⟨if Z < 0 then 4 else 3, fin (X / |Z|), fin (Y / Z)⟩
      else if |Z| ≤ |Y| ∧ |X| ≤ |Y| then ⟨if Y < 0 then 5 else 2, fin (Z / |Y|), fin (X / Y)⟩
      else ⟨if X < 0 then 6 else 1, fin (Y / |X|), fin (Z / X)⟩ := by
  have h0 : ¬((X = 0 ∧ Y = 0) ∧ Z = 0) := fun c => h ⟨c.1.1, c.1.2, c.2⟩
  by_cases hz : |X| ≤ |Z| ∧ |Y| ≤ |Z|
  · have hZ : Z ≠ 0 := by
      rintro rfl
      simp only [abs_zero, abs_nonpos_iff] at hz
      exact h ⟨hz.1, hz.2, rfl⟩
    have hZa : |Z| ≠ 0 := by simpa using hZ
    simp only [encodedir, vball.ctor, ofNat_def, fabs_fin, eq_fin, isnan_fin, isinf_fin,
      boolToInt, ge_fin, lt_fin, fin_div _ hZ, fin_div _ hZa, Nat.cast_zero]
    simp [h0, hz]
    split_ifs <;> rfl
  · by_cases hy : |Z| ≤ |Y| ∧ |X| ≤ |Y|
    · have hY : Y ≠ 0 := by
        rintro rfl
        simp only [abs_zero, abs_nonpos_iff] at hy
        exact h ⟨hy.2, rfl, hy.1⟩
      have hYa : |Y| ≠ 0 := by simpa using hY
      simp only [encodedir, vball.ctor, ofNat_def, fabs_fin, eq_fin, isnan_fin, isinf_fin,
        boolToInt, ge_fin, lt_fin, fin_div _ hY, fin_div _ hYa, Nat.cast_zero]
      simp [h0, hz, hy]
      split_ifs <;> rfl
    · have hx : |Y| ≤ |X| ∧ |Z| ≤ |X| := by
        rw [not_and_or, not_le, not_le] at hz hy
        constructor <;> rcases hz with a | a <;> rcases hy with b | b <;> linarith
      have hX : X ≠ 0 := by
        rintro rfl
        simp only [abs_zero, abs_nonpos_iff] at hx
        exact h ⟨rfl, hx.1, hx.2⟩
      have hXa : |X| ≠ 0 := by simpa using hX
      simp only [encodedir, vball.ctor, ofNat_def, fabs_fin, eq_fin, isnan_fin, isinf_fin,
        boolToInt, ge_fin, lt_fin, fin_div _ hX, fin_div _ hXa, Nat.cast_zero]
      simp [h0, hz, hy, hx]
      split_ifs <;> rfl

/-- The face and the face coordinates `encodedir` gives a finite non-zero vector, in terms
of its greatest absolute coordinate `M`. -/
theorem encodedir_cases (X Y Z : ℚ) (h : ¬(X = 0 ∧ Y = 0 ∧ Z = 0)) :
    0 < max |X| (max |Y| |Z|) ∧
    ((X = max |X| (max |Y| |Z|) ∧ encodedir ⟨fin X, fin Y, fin Z⟩ =
        ⟨1, fin (Y / max |X| (max |Y| |Z|)), fin (Z / max |X| (max |Y| |Z|))⟩) ∨
     (Y = max |X| (max |Y| |Z|) ∧ encodedir ⟨fin X, fin Y, fin Z⟩ =
        ⟨2, fin (Z / max |X| (max |Y| |Z|)), fin (X / max |X| (max |Y| |Z|))⟩) ∨
     (Z = max |X| (max |Y| |Z|) ∧ encodedir ⟨fin X, fin Y, fin Z⟩ =
        ⟨3, fin (X / max |X| (max |Y| |Z|)), fin (Y / max |X| (max |Y| |Z|))⟩) ∨
     (Z = -max |X| (max |Y| |Z|) ∧ encodedir ⟨fin X, fin Y, fin Z⟩ =
        ⟨4, fin (X / max |X| (max |Y| |Z|)), fin (-Y / max |X| (max |Y| |Z|))⟩) ∨
     (Y = -max |X| (max |Y| |Z|) ∧ encodedir ⟨fin X, fin Y, fin Z⟩ =
        ⟨5, fin (Z / max |X| (max |Y| |Z|)), fin (-X / max |X| (max |Y| |Z|))⟩) ∨
     (X = -max |X| (max |Y| |Z|) ∧ encodedir ⟨fin X, fin Y, fin Z⟩ =
        ⟨6, fin (Y / max |X| (max |Y| |Z|)), fin (-Z / max |X| (max |Y| |Z|))⟩)) := by
  have hpos : 0 < max |X| (max |Y| |Z|) := by
    by_contra hc
    have h1 := le_max_left |X| (max |Y| |Z|)
    have h2 := le_trans (le_max_left |Y| |Z|) (le_max_right |X| (max |Y| |Z|))
    have h3 := le_trans (le_max_right |Y| |Z|) (le_max_right |X| (max |Y| |Z|))
    have hX : |X| ≤ 0 := by linarith
    have hY : |Y| ≤ 0 := by linarith
    have hZ : |Z| ≤ 0 := by linarith
    exact h ⟨abs_nonpos_iff.mp hX, abs_nonpos_iff.mp hY, abs_nonpos_iff.mp hZ⟩
  refine ⟨hpos, ?_⟩
  rw [encodedir_fin X Y Z h]
  by_cases hz : |X| ≤ |Z| ∧ |Y| ≤ |Z|
  · have hM : max |X| (max |Y| |Z|) = |Z| := by
      rw [max_eq_right hz.2, max_eq_right hz.1]
    rw [hM] at hpos ⊢
    rw [if_pos hz]
    by_cases hs : Z < 0
    · rw [if_pos hs, abs_of_neg hs]
      refine Or.inr (Or.inr (Or.inr (Or.inl ⟨by ring, ?_⟩)))
      rw [neg_div_neg_eq]
    · have hs2 : 0 ≤ Z := not_lt.mp hs
      rw [if_neg hs, abs_of_nonneg hs2]
      exact Or.inr (Or.inr (Or.inl ⟨rfl, rfl⟩))
  · rw [if_neg hz]
    by_cases hy : |Z| ≤ |Y| ∧ |X| ≤ |Y|
    · have hM : max |X| (max |Y| |Z|) = |Y| := by
        rw [max_eq_left hy.1, max_eq_right hy.2]
      rw [hM] at hpos ⊢
      rw [if_pos hy]
      by_cases hs : Y < 0
      · rw [if_pos hs, abs_of_neg hs]
        refine Or.inr (Or.inr (Or.inr (Or.inr (Or.inl ⟨by ring, ?_⟩))))
        rw [neg_div_neg_eq]
      · have hs2 : 0 ≤ Y := not_lt.mp hs
        rw [if_neg hs, abs_of_nonneg hs2]
        exact Or.inr (Or.inl ⟨rfl, rfl⟩)
    · rw [if_neg hy]
      have hx : |Y| ≤ |X| ∧ |Z| ≤ |X| := by
        rw [not_and_or, not_le, not_le] at hz hy
        constructor <;> rcases hz with a | a <;> rcases hy with b | b <;> linarith
      have hM : max |X| (max |Y| |Z|) = |X| := by
        rw [max_eq_left (max_le hx.1 hx.2)]
      rw [hM] at hpos ⊢
      by_cases hs : X < 0
      · rw [if_pos hs, abs_of_neg hs]
        refine Or.inr (Or.inr (Or.inr (Or.inr (Or.inr ⟨by ring, ?_⟩))))
        rw [neg_div_neg_eq]
      · have hs2 : 0 ≤ X := not_lt.mp hs
        rw [if_neg hs, abs_of_nonneg hs2]
        exact Or.inl ⟨rfl, rfl⟩

/-- A quotient by a bound of the absolute value lies in `[-1,1]`. -/
theorem div_mem_unit {A M : ℚ} (hM : 0 < M) (hA : |A| ≤ M) : -1 ≤ A / M ∧ A / M ≤ 1 := by
  have h1 := abs_le.mp hA
  constructor
  · rw [le_div_iff₀ hM]
    linarith [h1.1]
  · rw [div_le_iff₀ hM]
    linarith [h1.2]

/-- `decodedirSwitch` on the faces 1 to 6. -/
theorem decodedirSwitch_faces (a b : double) :
    decodedirSwitch ⟨1, a, b⟩ = ⟨1, a, b⟩ ∧ decodedirSwitch ⟨2, a, b⟩ = ⟨b, 1, a⟩ ∧
    decodedirSwitch ⟨3, a, b⟩ = ⟨a, b, 1⟩ ∧ decodedirSwitch ⟨4, a, b⟩ = ⟨a, -b, -1⟩ ∧
    decodedirSwitch ⟨5, a, b⟩ = ⟨-b, -1, a⟩ ∧ decodedirSwitch ⟨6, a, b⟩ = ⟨-1, a, -b⟩ :=
  ⟨rfl, rfl, rfl, rfl, rfl, rfl⟩

/-- C10: for a finite non-zero direction `(X,Y,Z)` with greatest absolute coordinate `M`,
`encodedir` picks the face of a coordinate equal to `M` (faces 1, 2, 3) or to `-M`
(faces 6, 5, 4) and gives the documented face coordinates, each in `[-1,1]`. -/
theorem encodedir_face_coordinates (X Y Z : ℚ) (h : ¬(X = 0 ∧ Y = 0 ∧ Z = 0)) :
    ∃ (v : vball) (M : ℚ), v = encodedir ⟨fin X, fin Y, fin Z⟩ ∧ M = max |X| (max |Y| |Z|) ∧
    0 < M ∧
    ((v.face = 1 ∧ X = M ∧ v.x = fin (Y / M) ∧ v.y = fin (Z / M)) ∨
     (v.face = 2 ∧ Y = M ∧ v.x = fin (Z / M) ∧ v.y = fin (X / M)) ∨
     (v.face = 3 ∧ Z = M ∧ v.x = fin (X / M) ∧ v.y = fin (Y / M)) ∨
     (v.face = 4 ∧ Z = -M ∧ v.x = fin (X / M) ∧ v.y = fin (-Y / M)) ∨
     (v.face = 5 ∧ Y = -M ∧ v.x = fin (Z / M) ∧ v.y = fin (-X / M)) ∨
     (v.face = 6 ∧ X = -M ∧ v.x = fin (Y / M) ∧ v.y = fin (-Z / M))) ∧
    ∃ a b : ℚ, v.x = fin a ∧ v.y = fin b ∧ -1 ≤ a ∧ a ≤ 1 ∧ -1 ≤ b ∧ b ≤ 1 := by
  refine ⟨encodedir ⟨fin X, fin Y, fin Z⟩, max |X| (max |Y| |Z|), rfl, rfl, ?_⟩
  generalize hM : max |X| (max |Y| |Z|) = M
  generalize hv0 : encodedir ⟨fin X, fin Y, fin Z⟩ = v
  obtain ⟨hpos, hc⟩ := encodedir_cases X Y Z h
  rw [hM, hv0] at hc
  rw [hM] at hpos
  have hX : |X| ≤ M := hM ▸ le_max_left _ _
  have hY : |Y| ≤ M := hM ▸ le_trans (le_max_left |Y| |Z|) (le_max_right _ _)
  have hZ : |Z| ≤ M := hM ▸ le_trans (le_max_right |Y| |Z|) (le_max_right _ _)
  have hX2 : |-X| ≤ M := by rwa [abs_neg]
  have hY2 : |-Y| ≤ M := by rwa [abs_neg]
  have hZ2 : |-Z| ≤ M := by rwa [abs_neg]
  have bX := div_mem_unit hpos hX
  have bY := div_mem_unit hpos hY
  have bZ := div_mem_unit hpos hZ
  have bX2 := div_mem_unit hpos hX2
  have bY2 := div_mem_unit hpos hY2
  have bZ2 := div_mem_unit hpos hZ2
  refine ⟨hpos, ?_⟩
  rcases hc with ⟨e, hv⟩ | ⟨e, hv⟩ | ⟨e, hv⟩ | ⟨e, hv⟩ | ⟨e, hv⟩ | ⟨e, hv⟩
  · rw [hv]
    exact ⟨Or.inl ⟨rfl, e, rfl, rfl⟩, _, _, rfl, rfl, bY.1, bY.2, bZ.1, bZ.2⟩
  · rw [hv]
    exact ⟨Or.inr (Or.inl ⟨rfl, e, rfl, rfl⟩), _, _, rfl, rfl, bZ.1, bZ.2, bX.1, bX.2⟩
  · rw [hv]
    exact ⟨Or.inr (Or.inr (Or.inl ⟨rfl, e, rfl, rfl⟩)), _, _, rfl, rfl, bX.1, bX.2, bY.1, bY.2⟩
  · rw [hv]
    exact ⟨Or.inr (Or.inr (Or.inr (Or.inl ⟨rfl, e, rfl, rfl⟩))), _, _, rfl, rfl,
      bX.1, bX.2, bY2.1, bY2.2⟩
  · rw [hv]
    exact ⟨Or.inr (Or.inr (Or.inr (Or.inr (Or.inl ⟨rfl, e, rfl, rfl⟩)))), _, _, rfl, rfl,
      bZ.1, bZ.2, bX2.1, bX2.2⟩
  · rw [hv]
    exact ⟨Or.inr (Or.inr (Or.inr (Or.inr (Or.inr ⟨rfl, e, rfl, rfl⟩)))), _, _, rfl, rfl,
      bY.1, bY.2, bZ2.1, bZ2.2⟩

/-- Witness of C10 at the direction `(3,-4,0)`: face 5. -/
theorem encodedir_face_coordinates_witness :
    ¬((3 : ℚ) = 0 ∧ (-4 : ℚ) = 0 ∧ (0 : ℚ) = 0) ∧
    (encodedir ⟨fin 3, fin (-4), fin 0⟩).face = 5 ∧
    (∃ (v : vball) (M : ℚ), v = encodedir ⟨fin 3, fin (-4), fin 0⟩ ∧
    M = max |(3 : ℚ)| (max |(-4 : ℚ)| |(0 : ℚ)|) ∧
    0 < M ∧
    ((v.face = 1 ∧ 3 = M ∧ v.x = fin (-4 / M) ∧ v.y = fin (0 / M)) ∨
     (v.face = 2 ∧ -4 = M ∧ v.x = fin (0 / M) ∧ v.y = fin (3 / M)) ∨
     (v.face = 3 ∧ 0 = M ∧ v.x = fin (3 / M) ∧ v.y = fin (-4 / M)) ∨
     (v.face = 4 ∧ 0 = -M ∧ v.x = fin (3 / M) ∧ v.y = fin (- -4 / M)) ∨
     (v.face = 5 ∧ -4 = -M ∧ v.x = fin (0 / M) ∧ v.y = fin (-3 / M)) ∨
     (v.face = 6 ∧ 3 = -M ∧ v.x = fin (-4 / M) ∧ v.y = fin (-0 / M))) ∧
    ∃ a b : ℚ, v.x = fin a ∧ v.y = fin b ∧ -1 ≤ a ∧ a ≤ 1 ∧ -1 ≤ b ∧ b ≤ 1) :=
  ⟨by norm_num, by rw [encodedir_fin _ _ _ (by norm_num)]; norm_num [abs_of_neg],
    encodedir_face_coordinates 3 (-4) 0 (by norm_num)⟩

/-- On the faces 1 to 6 `decodedir` scales the vector of `decodedirSwitch` by
`6371e3/length`. -/
theorem decodedir_scaled (length : xyz → double) (code : vball)
    (hf : code.face = 1 ∨ code.face = 2 ∨ code.face = 3 ∨ code.face = 4 ∨ code.face = 5 ∨
      code.face = 6) :
    decodedir length code
      = (decodedirSwitch code).smul (6371000 / length (decodedirSwitch code)) := by
  unfold decodedir
  rcases hf with e | e | e | e | e | e <;> rw [e] <;> rfl

/-- C1: for a finite direction `d = (X,Y,Z)` that is not zero, with `M` its greatest absolute
coordinate, the vector `decodedir` builds from `encodedir d` before scaling is `d / M`, and
for a length `l > 0` of that vector the result of `decodedir` is `k * d` with
`k = 6371e3 / l / M > 0`: a positive multiple of `d`. -/
theorem decodedir_encodedir_parallel (X Y Z : ℚ) (h : ¬(X = 0 ∧ Y = 0 ∧ Z = 0)) :
    ∃ M : ℚ, M = max |X| (max |Y| |Z|) ∧ 0 < M ∧
    decodedirSwitch (encodedir ⟨fin X, fin Y, fin Z⟩) = ⟨fin (X / M), fin (Y / M), fin (Z / M)⟩ ∧
    ∀ (length : xyz → double) (l : ℚ), 0 < l →
      length ⟨fin (X / M), fin (Y / M), fin (Z / M)⟩ = fin l →
      0 < 6371000 / l / M ∧
      decodedir length (encodedir ⟨fin X, fin Y, fin Z⟩) =
        ⟨fin (6371000 / l / M * X), fin (6371000 / l / M * Y), fin (6371000 / l / M * Z)⟩ := by
  refine ⟨max |X| (max |Y| |Z|), rfl, ?_⟩
  obtain ⟨hpos, hc⟩ := encodedir_cases X Y Z h
  generalize max |X| (max |Y| |Z|) = M at hpos hc ⊢
  have hM : M ≠ 0 := ne_of_gt hpos
  have hsw : decodedirSwitch (encodedir ⟨fin X, fin Y, fin Z⟩)
      = ⟨fin (X / M), fin (Y / M), fin (Z / M)⟩ := by
    have f := decodedirSwitch_faces
    rcases hc with ⟨e, hv⟩ | ⟨e, hv⟩ | ⟨e, hv⟩ | ⟨e, hv⟩ | ⟨e, hv⟩ | ⟨e, hv⟩
    · rw [hv, (f _ _).1]
      have e1 : X / M = 1 := by rw [e]; exact div_self hM
      rw [e1]; simp
    · rw [hv, (f _ _).2.1]
      have e1 : Y / M = 1 := by rw [e]; exact div_self hM
      rw [e1]; simp
    · rw [hv, (f _ _).2.2.1]
      have e1 : Z / M = 1 := by rw [e]; exact div_self hM
      rw [e1]; simp
    · rw [hv, (f _ _).2.2.2.1]
      have e1 : Z / M = -1 := by rw [e, neg_div, div_self hM]
      rw [e1]; simp [neg_div]
    · rw [hv, (f _ _).2.2.2.2.1]
      have e1 : Y / M = -1 := by rw [e, neg_div, div_self hM]
      rw [e1]; simp [neg_div]
    · rw [hv, (f _ _).2.2.2.2.2]
      have e1 : X / M = -1 := by rw [e, neg_div, div_self hM]
      rw [e1]; simp [neg_div]
  refine ⟨hpos, hsw, ?_⟩
  intro length l hl hlen
  have hl0 : l ≠ 0 := ne_of_gt hl
  refine ⟨by positivity, ?_⟩
  have hface : ∀ v : vball, v = encodedir ⟨fin X, fin Y, fin Z⟩ →
      v.face = 1 ∨ v.face = 2 ∨ v.face = 3 ∨ v.face = 4 ∨ v.face = 5 ∨ v.face = 6 := by
    intro v hv0
    rcases hc with ⟨_, hv⟩ | ⟨_, hv⟩ | ⟨_, hv⟩ | ⟨_, hv⟩ | ⟨_, hv⟩ | ⟨_, hv⟩ <;>
      rw [hv0, hv] <;> simp
  rw [decodedir_scaled length _ (hface _ rfl), hsw, hlen]
  simp only [xyz.smul, ofNat_def, fin_div _ hl0, fin_mul, Nat.cast_ofNat]
  congr 2 <;> (field_simp; ring)

/-- Witness of C1 at the direction `(3,4,0)`, whose image `(3/4,1,0)` has length `5/4`. -/
theorem decodedir_encodedir_parallel_witness :
    ¬((3 : ℚ) = 0 ∧ (4 : ℚ) = 0 ∧ (0 : ℚ) = 0) ∧
    (∃ M : ℚ, M = max |(3 : ℚ)| (max |(4 : ℚ)| |(0 : ℚ)|) ∧ 0 < M ∧
    decodedirSwitch (encodedir ⟨fin 3, fin 4, fin 0⟩) = ⟨fin (3 / M), fin (4 / M), fin (0 / M)⟩ ∧
    ∀ (length : xyz → double) (l : ℚ), 0 < l →
      length ⟨fin (3 / M), fin (4 / M), fin (0 / M)⟩ = fin l →
      0 < 6371000 / l / M ∧
      decodedir length (encodedir ⟨fin 3, fin 4, fin 0⟩) =
        ⟨fin (6371000 / l / M * 3), fin (6371000 / l / M * 4), fin (6371000 / l / M * 0)⟩) :=
  ⟨by norm_num, decodedir_encodedir_parallel 3 4 0 (by norm_num)⟩

/-- A closed interval around `c` in terms of the absolute value. -/
theorem abs_sub_le_iff_mem (p c r : ℚ) : |p - c| ≤ r ↔ c - r ≤ p ∧ p ≤ c + r := by
  rw [abs_le]
  constructor <;> rintro ⟨a, b⟩ <;> constructor <;> linarith

/-- The test `in(xy)` on finite values. -/
theorem in_xy_fin (q : geoquad) (cx cy s px py : ℚ)
    (hc : q.center = ⟨fin cx, fin cy⟩) (hs : q.scale = fin s) :
    q.in_xy ⟨fin px, fin py⟩ = (decide (|px - cx| ≤ s) && decide (|py - cy| ≤ s)) := by
  simp only [geoquad.in_xy, hc, hs, fin_sub, fabs_fin, le_fin]

/-- The test `in(xy)` on finite values, as bounds on the coordinates. -/
theorem in_xy_bounds (q : geoquad) (cx cy s px py : ℚ)
    (hc : q.center = ⟨fin cx, fin cy⟩) (hs : q.scale = fin s) :
    q.in_xy ⟨fin px, fin py⟩ = true ↔
      (cx - s ≤ px ∧ px ≤ cx + s) ∧ (cy - s ≤ py ∧ py ≤ cy + s) := by
  rw [in_xy_fin q cx cy s px py hc hs, Bool.and_eq_true, decide_eq_true_eq, decide_eq_true_eq,
    abs_sub_le_iff_mem, abs_sub_le_iff_mem]

/-- Adding `s/(-2)`, as `subdivide` does, is subtracting `s/2`, for every double. -/
theorem add_div_neg_two (a s : double) : a + s / ofInt (-2) = a - s / 2 := by
  show add a (div s (fin ((-2 : Int) : ℚ))) = add a (neg (div s (fin ((2 : Nat) : ℚ))))
  congr 1
  cases s with
  | nan => rfl
  | inf b => cases b <;> simp [div, neg]
  | fin q =>
    simp only [div, neg]
    norm_num
    ring

/-- The sentinel `0x80000000` stored in an `int`. -/
theorem toInt32_sentinel : toInt32 0x80000000 = -2147483648 := by
  norm_num [toInt32]

/-- A fresh node is a leaf whose `und[0]` is out of range. -/
theorem ctor_isnan (f : Int) : (geoquad.ctor f).isnan = true := by
  simp [geoquad.isnan, geoquad.und, geoquad.ctor, geoquad.fields, toInt32_sentinel]

/-- The child `sub[i]` made by `subdivide` is an unknown leaf. -/
theorem subdivideChild_unknown (d : geoquadFields) (i : Int) :
    (geoquad.subdivideChild d i).subdivided = false ∧
    (geoquad.subdivideChild d i).isnan = true := by
  refine ⟨rfl, ?_⟩
  simp [geoquad.isnan, geoquad.und, geoquad.subdivideChild, geoquad.ctor, geoquad.fields,
    toInt32_sentinel]

/-- C6: `subdivide` gives the node exactly four children; child `i` has the face of the
parent, half its scale, and the center `(cx ± s/2, cy ± s/2)` with `+` in x when bit 0 of `i`
is set and `+` in y when bit 1 is set; each child is an unknown leaf; and the buffers `nums`
and `nans` of the parent are empty afterwards. -/
theorem subdivide_four_children (q : geoquad) :
    q.subdivide.subdivided = true ∧ q.subdivide.children.length = 4 ∧
    (∀ i : Fin 4, ∃ c : geoquad, q.subdivide.sub i = some c ∧
      q.subdivide.children.get? i.val = some c ∧
      c.face = q.face ∧ c.scale = q.scale / 2 ∧
      c.center =
        ⟨if i.val % 2 = 1 then q.center.x + q.scale / 2 else q.center.x - q.scale / 2,
         if i.val / 2 % 2 = 1 then q.center.y + q.scale / 2 else q.center.y - q.scale / 2⟩ ∧
      c.subdivided = false ∧ c.isnan = true) ∧
    q.subdivide.nums = [] ∧ q.subdivide.nans = [] := by
  refine ⟨rfl, rfl, ?_, rfl, rfl⟩
  intro i
  have e1 := add_div_neg_two q.center.x q.scale
  have e2 := add_div_neg_two q.center.y q.scale
  fin_cases i
  · refine ⟨_, rfl, rfl, rfl, rfl, ?_, (subdivideChild_unknown _ _).1,
      (subdivideChild_unknown _ _).2⟩
    show (⟨q.center.x + q.scale / ofInt (-2), q.center.y + q.scale / ofInt (-2)⟩ : xy) = _
    rw [e1, e2]
    rfl
  · refine ⟨_, rfl, rfl, rfl, rfl, ?_, (subdivideChild_unknown _ _).1,
      (subdivideChild_unknown _ _).2⟩
    show (⟨q.center.x + q.scale / ofInt 2, q.center.y + q.scale / ofInt (-2)⟩ : xy) = _
    rw [e2]
    rfl
  · refine ⟨_, rfl, rfl, rfl, rfl, ?_, (subdivideChild_unknown _ _).1,
      (subdivideChild_unknown _ _).2⟩
    show (⟨q.center.x + q.scale / ofInt (-2), q.center.y + q.scale / ofInt 2⟩ : xy) = _
    rw [e1]
    rfl
  · refine ⟨_, rfl, rfl, rfl, rfl, ?_, (subdivideChild_unknown _ _).1,
      (subdivideChild_unknown _ _).2⟩
    show (⟨q.center.x + q.scale / ofInt 2, q.center.y + q.scale / ofInt 2⟩ : xy) = _
    rfl

/-- Center of the child `sub[i]` made by `subdivide`. -/
theorem subdivideChild_center (d : geoquadFields) (i : Int) :
    (geoquad.subdivideChild d i).center =
      ⟨d.center.x + d.scale / ofInt (if Int.land i 1 ≠ 0 then 2 else -2),
       d.center.y + d.scale / ofInt (if Int.land i 2 ≠ 0 then 2 else -2)⟩ := rfl

/-- Scale of the child `sub[i]` made by `subdivide`. -/
theorem subdivideChild_scale (d : geoquadFields) (i : Int) :
    (geoquad.subdivideChild d i).scale = d.scale / 2 := rfl

/-- Center and scale of the four children on finite values. -/
theorem subdivide_children_fin (q : geoquad) (cx cy s : ℚ)
    (hc : q.center = ⟨fin cx, fin cy⟩) (hs : q.scale = fin s) :
    ∃ c0 c1 c2 c3 : geoquad, q.subdivide.children = [c0, c1, c2, c3] ∧
      (c0.center = ⟨fin (cx - s / 2), fin (cy - s / 2)⟩ ∧ c0.scale = fin (s / 2)) ∧
      (c1.center = ⟨fin (cx + s / 2), fin (cy - s / 2)⟩ ∧ c1.scale = fin (s / 2)) ∧
      (c2.center = ⟨fin (cx - s / 2), fin (cy + s / 2)⟩ ∧ c2.scale = fin (s / 2)) ∧
      (c3.center = ⟨fin (cx + s / 2), fin (cy + s / 2)⟩ ∧ c3.scale = fin (s / 2)) := by
  have hcx : q.fields.center = ⟨fin cx, fin cy⟩ := hc
  have hsx : q.fields.scale = fin s := hs
  have h2 : ((2 : Int) : ℚ) ≠ 0 := by norm_num
  have hm2 : ((-2 : Int) : ℚ) ≠ 0 := by norm_num
  have h2n : ((2 : Nat) : ℚ) ≠ 0 := by norm_num
  have e2 : fin s / (2 : double) = fin (s / 2) := by
    rw [ofNat_def, fin_div _ h2n]
    norm_num
  have e3 : ∀ a : ℚ, fin a + fin s / ofInt (-2) = fin (a - s / 2) := by
    intro a
    rw [ofInt, fin_div _ hm2, fin_add]
    push_cast
    congr 1
    ring
  have e4 : ∀ a : ℚ, fin a + fin s / ofInt 2 = fin (a + s / 2) := by
    intro a
    rw [ofInt, fin_div _ h2, fin_add]
    push_cast
    rfl
  have l01 : Int.land 0 1 = 0 := rfl
  have l02 : Int.land 0 2 = 0 := rfl
  have l11 : Int.land 1 1 = 1 := rfl
  have l12 : Int.land 1 2 = 0 := rfl
  have l21 : Int.land 2 1 = 0 := rfl
  have l22 : Int.land 2 2 = 2 := rfl
  have l31 : Int.land 3 1 = 1 := rfl
  have l32 : Int.land 3 2 = 2 := rfl
  refine ⟨_, _, _, _, rfl, ⟨?_, ?_⟩, ⟨?_, ?_⟩, ⟨?_, ?_⟩, ⟨?_, ?_⟩⟩
  · rw [subdivideChild_center, l01, l02]
    simp only [hcx, hsx, ne_eq, not_true_eq_false, if_false, e3]
  · rw [subdivideChild_scale]
    simp only [hsx, e2]
  · rw [subdivideChild_center, l11, l12]
    simp only [hcx, hsx, ne_eq, not_true_eq_false, if_false, e3, e4, one_ne_zero,
      not_false_eq_true, if_true]
  · rw [subdivideChild_scale]
    simp only [hsx, e2]
  · rw [subdivideChild_center, l21, l22]
    simp only [hcx, hsx, ne_eq, not_true_eq_false, if_false, e3, e4, OfNat.ofNat_ne_zero,
      not_false_eq_true, if_true]
  · rw [subdivideChild_scale]
    simp only [hsx, e2]
  · rw [subdivideChild_center, l31, l32]
    simp only [hcx, hsx, ne_eq, e4, OfNat.ofNat_ne_zero, one_ne_zero,
      not_false_eq_true, if_true]
  · rw [subdivideChild_scale]
    simp only [hsx, e2]

/-- C5: on a leaf, for finite `(x,y)`, `undulation` is the biquadratic divided by 65536 when
that value lies in `[-11000, 8850]` and NaN otherwise; at the center it is `und[0]/65536` or
NaN. -/
theorem undulation_leaf (d : geoquadFields) (x y : ℚ) :
    (geoquad.leaf d).undulation (fin x) (fin y) =
      (if -11000 ≤ ((d.und 0 : ℚ) + d.und 1 * x + d.und 2 * y + d.und 3 * x * x
            + d.und 4 * x * y + d.und 5 * y * y) / 65536 ∧
          ((d.und 0 : ℚ) + d.und 1 * x + d.und 2 * y + d.und 3 * x * x
            + d.und 4 * x * y + d.und 5 * y * y) / 65536 ≤ 8850
        then fin (((d.und 0 : ℚ) + d.und 1 * x + d.und 2 * y + d.und 3 * x * x
            + d.und 4 * x * y + d.und 5 * y * y) / 65536)
        else nan) ∧
    (geoquad.leaf d).undulation (fin 0) (fin 0) =
      (if -11000 ≤ (d.und 0 : ℚ) / 65536 ∧ (d.und 0 : ℚ) / 65536 ≤ 8850
        then fin ((d.und 0 : ℚ) / 65536) else nan) := by
  have h : ∀ a b : ℚ, (geoquad.leaf d).undulation (fin a) (fin b) =
      (if -11000 ≤ ((d.und 0 : ℚ) + d.und 1 * a + d.und 2 * b + d.und 3 * a * a
            + d.und 4 * a * b + d.und 5 * b * b) / 65536 ∧
          ((d.und 0 : ℚ) + d.und 1 * a + d.und 2 * b + d.und 3 * a * a
            + d.und 4 * a * b + d.und 5 * b * b) / 65536 ≤ 8850
        then fin (((d.und 0 : ℚ) + d.und 1 * a + d.und 2 * b + d.und 3 * a * a
            + d.und 4 * a * b + d.und 5 * b * b) / 65536)
        else nan) := by
    intro a b
    have h65 : (65536 : ℚ) ≠ 0 := by norm_num
    simp only [geoquad.undulation, ofInt, fin_mul, fin_add, ofNat_def, neg_fin, Nat.cast_ofNat]
    simp only [fin_div _ h65, gt_fin, lt_fin, Bool.or_eq_true, decide_eq_true_eq]
    by_cases hr : -11000 ≤ ((d.und 0 : ℚ) + d.und 1 * a + d.und 2 * b + d.und 3 * a * a
            + d.und 4 * a * b + d.und 5 * b * b) / 65536 ∧
          ((d.und 0 : ℚ) + d.und 1 * a + d.und 2 * b + d.und 3 * a * a
            + d.und 4 * a * b + d.und 5 * b * b) / 65536 ≤ 8850
    · rw [if_pos hr, if_neg]
      rintro (c | c) <;> linarith [hr.1, hr.2]
    · rw [if_neg hr, if_pos]
      by_contra hc
      rw [not_or, not_lt, not_lt] at hc
      exact hr ⟨hc.2, hc.1⟩
  refine ⟨h x y, ?_⟩
  rw [h 0 0]
  simp only [mul_zero, add_zero]

/-- One step of `undulation` on a subdivided node, by the signs of the finite arguments. -/
theorem undulation_quad (d : geoquadFields) (s0 s1 s2 s3 : geoquad) (x y : ℚ) :
    (geoquad.quad d s0 s1 s2 s3).undulation (fin x) (fin y) =
      if 0 ≤ y then
        (if 0 ≤ x then s3.undulation (fin (2 * (x - (1 - 1 / 2)))) (fin (2 * (y - (1 - 1 / 2))))
          else s2.undulation (fin (2 * (x - (0 - 1 / 2)))) (fin (2 * (y - (1 - 1 / 2)))))
      else
        (if 0 ≤ x then s1.undulation (fin (2 * (x - (1 - 1 / 2)))) (fin (2 * (y - (0 - 1 / 2))))
          else s0.undulation (fin (2 * (x - (0 - 1 / 2)))) (fin (2 * (y - (0 - 1 / 2))))) := by
  have e00 : Int.lor ((0 : Int) <<< (1 : Int)) 0 = 0 := rfl
  have e01 : Int.lor ((0 : Int) <<< (1 : Int)) 1 = 1 := rfl
  have e10 : Int.lor ((1 : Int) <<< (1 : Int)) 0 = 2 := rfl
  have e11 : Int.lor ((1 : Int) <<< (1 : Int)) 1 = 3 := rfl
  have f00 : Int.lor 0 0 = 0 := rfl
  have f01 : Int.lor 0 1 = 1 := rfl
  by_cases hy : 0 ≤ y <;> by_cases hx : 0 ≤ x <;>
    simp [geoquad.undulation, boolToInt, ofInt, hx, hy, e00, e01, e10, e11, f00, f01]

/-- C4: on a subdivided node, for `(x,y)` in `[-1,1]x[-1,1]`, `undulation(x,y)` is the
undulation of the child number `2*ybit+xbit` at the remapped point, which again lies in
`[-1,1]x[-1,1]`. -/
theorem undulation_subdivided (q : geoquad) (x y : ℚ) (hsub : q.subdivided = true)
    (hx1 : -1 ≤ x) (hx2 : x ≤ 1) (hy1 : -1 ≤ y) (hy2 : y ≤ 1) :
    ∃ (xbit ybit : Nat) (x1 y1 : ℚ) (c : geoquad),
      xbit = (if 0 ≤ x then 1 else 0) ∧ ybit = (if 0 ≤ y then 1 else 0) ∧
      x1 = 2 * (x - (xbit - 1 / 2)) ∧ y1 = 2 * (y - (ybit - 1 / 2)) ∧
      q.children[2 * ybit + xbit]? = some c ∧
      q.undulation (fin x) (fin y) = c.undulation (fin x1) (fin y1) ∧
      (-1 ≤ x1 ∧ x1 ≤ 1) ∧ (-1 ≤ y1 ∧ y1 ≤ 1) := by
  cases q with
  | leaf d => exact absurd hsub (by simp [geoquad.subdivided])
  | quad d s0 s1 s2 s3 =>
    rw [undulation_quad]
    by_cases hy : 0 ≤ y <;> by_cases hx : 0 ≤ x
    · refine ⟨1, 1, 2 * (x - (1 - 1 / 2)), 2 * (y - (1 - 1 / 2)), s3, (if_pos hx).symm,
        (if_pos hy).symm, by norm_num, by norm_num, rfl, ?_, ⟨?_, ?_⟩, ?_, ?_⟩
      · rw [if_pos hy, if_pos hx]
      all_goals linarith
    · refine ⟨0, 1, 2 * (x - (0 - 1 / 2)), 2 * (y - (1 - 1 / 2)), s2, (if_neg hx).symm,
        (if_pos hy).symm, by norm_num, by norm_num, rfl, ?_, ⟨?_, ?_⟩, ?_, ?_⟩
      · rw [if_pos hy, if_neg hx]
      all_goals rw [not_le] at hx; linarith
    · refine ⟨1, 0, 2 * (x - (1 - 1 / 2)), 2 * (y - (0 - 1 / 2)), s1, (if_pos hx).symm,
        (if_neg hy).symm, by norm_num, by norm_num, rfl, ?_, ⟨?_, ?_⟩, ?_, ?_⟩
      · rw [if_neg hy, if_pos hx]
      all_goals rw [not_le] at hy; linarith
    · refine ⟨0, 0, 2 * (x - (0 - 1 / 2)), 2 * (y - (0 - 1 / 2)), s0, (if_neg hx).symm,
        (if_neg hy).symm, by norm_num, by norm_num, rfl, ?_, ⟨?_, ?_⟩, ?_, ?_⟩
      · rw [if_neg hy, if_neg hx]
      all_goals rw [not_le] at hx hy; linarith

/-- Witness of C4: the point `(1/2, -1/2)` in a subdivided fresh root goes to child 1. -/
theorem undulation_subdivided_witness :
    (geoquad.ctor 1).subdivide.subdivided = true ∧
    (-1 ≤ (1 / 2 : ℚ) ∧ (1 / 2 : ℚ) ≤ 1) ∧ (-1 ≤ (-1 / 2 : ℚ) ∧ (-1 / 2 : ℚ) ≤ 1) ∧
    (∃ (xbit ybit : Nat) (x1 y1 : ℚ) (c : geoquad),
      xbit = (if 0 ≤ (1 / 2 : ℚ) then 1 else 0) ∧ ybit = (if 0 ≤ (-1 / 2 : ℚ) then 1 else 0) ∧
      x1 = 2 * (1 / 2 - (xbit - 1 / 2)) ∧ y1 = 2 * (-1 / 2 - (ybit - 1 / 2)) ∧
      (geoquad.ctor 1).subdivide.children[2 * ybit + xbit]? = some c ∧
      (geoquad.ctor 1).subdivide.undulation (fin (1 / 2)) (fin (-1 / 2))
        = c.undulation (fin x1) (fin y1) ∧
      (-1 ≤ x1 ∧ x1 ≤ 1) ∧ (-1 ≤ y1 ∧ y1 ≤ 1)) :=
  ⟨rfl, by norm_num, by norm_num,
    undulation_subdivided (geoquad.ctor 1).subdivide (1 / 2) (-1 / 2) rfl
      (by norm_num) (by norm_num) (by norm_num) (by norm_num)⟩

/-- C8: `isfull` is `+1` exactly when `nans` is empty and `nums` is not, `-1` exactly when
`nums` is empty and `nans` is not, and `0` in every other case. -/
theorem isfull_values (q : geoquad) :
    (q.isfull = 1 ↔ q.nans.length = 0 ∧ 0 < q.nums.length) ∧
    (q.isfull = -1 ↔ q.nums.length = 0 ∧ 0 < q.nans.length) ∧
    (q.isfull = 0 ↔ (q.nans.length = 0 ∧ q.nums.length = 0) ∨
      (0 < q.nans.length ∧ 0 < q.nums.length)) := by
  unfold geoquad.isfull boolToInt
  by_cases h1 : 0 < q.nums.length <;> by_cases h2 : 0 < q.nans.length
  · simp [h1, h2, Nat.pos_iff_ne_zero.mp h1, Nat.pos_iff_ne_zero.mp h2]
  · have e2 : q.nans.length = 0 := Nat.eq_zero_of_not_pos h2
    simp [h1, e2, Nat.pos_iff_ne_zero.mp h1]
  · have e1 : q.nums.length = 0 := Nat.eq_zero_of_not_pos h1
    simp [h2, e1, Nat.pos_iff_ne_zero.mp h2]
  · have e1 : q.nums.length = 0 := Nat.eq_zero_of_not_pos h1
    have e2 : q.nans.length = 0 := Nat.eq_zero_of_not_pos h2
    simp [e1, e2]

/-- Multiplying zero or NaN by a double gives zero or NaN. -/
theorem zero_or_nan_mul (t x : double) (h : t = fin 0 ∨ t = nan) :
    t * x = fin 0 ∨ t * x = nan := by
  show mul t x = fin 0 ∨ mul t x = nan
  rcases h with rfl | rfl
  · cases x with
    | nan => exact Or.inr rfl
    | inf b => exact Or.inr (by simp [mul])
    | fin q => exact Or.inl (by simp [mul])
  · exact Or.inr (by cases x <;> rfl)

/-- Adding zero or NaN to a finite value or NaN gives that value or NaN. -/
theorem add_zero_or_nan (a : ℚ) (u t : double) (hu : u = fin a ∨ u = nan)
    (h : t = fin 0 ∨ t = nan) : u + t = fin a ∨ u + t = nan := by
  show add u t = fin a ∨ add u t = nan
  rcases hu with rfl | rfl <;> rcases h with rfl | rfl
  · exact Or.inl (by simp [add])
  · exact Or.inr rfl
  · exact Or.inr rfl
  · exact Or.inr rfl

/-- A leaf with the coefficients of a fresh node has no undulation anywhere. -/
theorem undulation_unknown_leaf (d : geoquadFields)
    (hd : d.und = fun i => if i = 0 then toInt32 0x80000000 else 0) (x y : double) :
    (geoquad.leaf d).undulation x y = nan := by
  have z : (fin 0 : double) = fin 0 ∨ (fin 0 : double) = nan := Or.inl rfl
  have h0 : ofInt (d.und 0) = fin (-2147483648) := by
    rw [hd]
    simp [ofInt, toInt32_sentinel]
  have hi : ∀ i : Fin 6, i ≠ 0 → ofInt (d.und i) = fin 0 := by
    intro i hi
    rw [hd]
    simp [ofInt, hi]
  have t1 := zero_or_nan_mul _ x z
  have t2 := zero_or_nan_mul _ y z
  have t3 := zero_or_nan_mul _ x (zero_or_nan_mul _ x z)
  have t4 := zero_or_nan_mul _ y (zero_or_nan_mul _ x z)
  have t5 := zero_or_nan_mul _ y (zero_or_nan_mul _ y z)
  have hsum := add_zero_or_nan _ _ _ (add_zero_or_nan _ _ _ (add_zero_or_nan _ _ _
    (add_zero_or_nan _ _ _ (add_zero_or_nan (-2147483648) _ _ (Or.inl rfl) t1) t2) t3) t4) t5
  simp only [geoquad.undulation, h0, hi 1 (by decide), hi 2 (by decide), hi 3 (by decide),
    hi 4 (by decide), hi 5 (by decide)]
  rcases hsum with e | e
  · rw [e]
    have h65 : (65536 : ℚ) ≠ 0 := by norm_num
    simp only [ofNat_def, Nat.cast_ofNat, neg_fin]
    simp only [fin_div _ h65, gt_fin, lt_fin]
    norm_num
  · rw [e]
    rfl

/-- C9: a fresh geoquad is an unknown leaf (not subdivided, `isnan`, `isfull` 0, scale 1,
no undulation anywhere), and so is each root of a fresh cubemap, whose faces are numbered
1 to 6 in order. -/
theorem fresh_geoquad_unknown :
    (∀ face0 : Int, (geoquad.ctor face0).subdivided = false ∧
      (geoquad.ctor face0).isnan = true ∧ (geoquad.ctor face0).isfull = 0 ∧
      (geoquad.ctor face0).scale = fin 1 ∧
      ∀ x y : double, (geoquad.ctor face0).undulation x y = nan) ∧
    (∀ i : Fin 6, (cubemap.ctor.faces i).face = (i : Nat) + 1 ∧
      (cubemap.ctor.faces i).subdivided = false ∧
      (cubemap.ctor.faces i).isnan = true ∧ (cubemap.ctor.faces i).isfull = 0 ∧
      (cubemap.ctor.faces i).scale = fin 1 ∧
      ∀ x y : double, (cubemap.ctor.faces i).undulation x y = nan) :=
  ⟨fun face0 => ⟨rfl, ctor_isnan face0, rfl, rfl, undulation_unknown_leaf _ rfl⟩,
    fun _ => ⟨rfl, rfl, ctor_isnan _, rfl, rfl, undulation_unknown_leaf _ rfl⟩⟩

/-- Doubling an index of a grid line and moving by one keeps it inside the finer grid. -/
theorem abs_double_step (m P : Int) (h : |m| + 1 ≤ P) :
    |2 * m - 1| + 1 ≤ 2 * P ∧ |2 * m + 1| + 1 ≤ 2 * P := by
  have h1 : |m| ≤ P - 1 := by linarith
  have h2 := abs_le.mp h1
  constructor
  · have : |2 * m - 1| ≤ 2 * P - 1 := by
      rw [abs_le]
      constructor <;> linarith [h2.1, h2.2]
    linarith
  · have : |2 * m + 1| ≤ 2 * P - 1 := by
      rw [abs_le]
      constructor <;> linarith [h2.1, h2.2]
    linarith

/-- The geometry of a node only depends on its center and scale. -/
theorem nodeGeom_congr {d : Nat} {q r : geoquad} (hc : r.center = q.center)
    (hs : r.scale = q.scale) (h : q.nodeGeom d) : r.nodeGeom d := by
  unfold geoquad.nodeGeom at h ⊢
  rw [hc, hs]
  exact h

/-- The root of a tree with the geometry of its depth has it. -/
theorem treeGeom_node {d : Nat} {q : geoquad} (h : q.treeGeom d) : q.nodeGeom d := by
  cases q with
  | leaf f => exact h
  | quad f s0 s1 s2 s3 => exact h.1

/-- A child made by `subdivide` with center `(a/2^(d+1), b/2^(d+1))`, where `a = 2m±1` and
`b = 2n±1`, has the geometry of depth `d+1`. -/
theorem nodeGeom_child {d : Nat} {c : geoquad} {m n a b : Int} {cx cy : ℚ}
    (hm : |m| + 1 ≤ 2 ^ d) (hn : |n| + 1 ≤ 2 ^ d)
    (ha : a = 2 * m - 1 ∨ a = 2 * m + 1) (hb : b = 2 * n - 1 ∨ b = 2 * n + 1)
    (hcx : cx = a / 2 ^ (d + 1)) (hcy : cy = b / 2 ^ (d + 1))
    (hc : c.center = ⟨fin cx, fin cy⟩) (hs : c.scale = fin (1 / 2 ^ d / 2)) :
    c.nodeGeom (d + 1) := by
  refine ⟨?_, a, b, ?_, ?_, ?_, ?_, ?_⟩
  · rw [hs, pow_succ]
    congr 1
    field_simp
  · rw [hc, hcx, hcy]
  · intro h0
    exact absurd h0 (Nat.succ_ne_zero d)
  · intro _
    constructor
    · rcases ha with e | e
      · exact ⟨m - 1, by rw [e]; ring⟩
      · exact ⟨m, by rw [e]⟩
    · rcases hb with e | e
      · exact ⟨n - 1, by rw [e]; ring⟩
      · exact ⟨n, by rw [e]⟩
  · have := abs_double_step m (2 ^ d) hm
    rw [pow_succ, mul_comm]
    rcases ha with e | e <;> rw [e]
    · exact this.1
    · exact this.2
  · have := abs_double_step n (2 ^ d) hn
    rw [pow_succ, mul_comm]
    rcases hb with e | e <;> rw [e]
    · exact this.1
    · exact this.2

/-- After `subdivide` of a node with the geometry of depth `d`, the node and its four new
children have the geometry of their depths. -/
theorem treeGeom_subdivide {d : Nat} {q : geoquad} (h : q.nodeGeom d) :
    q.subdivide.treeGeom d := by
  obtain ⟨hs, m, n, hc, _, _, hm, hn⟩ := h
  obtain ⟨c0, c1, c2, c3, hch, h0, h1, h2, h3⟩ := subdivide_children_fin q _ _ _ hc hs
  have hq : q.subdivide.nodeGeom d :=
    nodeGeom_congr (q := q) rfl rfl ⟨hs, m, n, hc, by assumption, by assumption, hm, hn⟩
  have hpow : (2 : ℚ) ^ d ≠ 0 := pow_ne_zero d (by norm_num)
  have em : ((m : ℚ) / 2 ^ d - 1 / 2 ^ d / 2) = ((2 * m - 1 : Int) : ℚ) / 2 ^ (d + 1) := by
    push_cast
    rw [pow_succ]
    field_simp
    ring
  have ep : ((m : ℚ) / 2 ^ d + 1 / 2 ^ d / 2) = ((2 * m + 1 : Int) : ℚ) / 2 ^ (d + 1) := by
    push_cast
    rw [pow_succ]
    field_simp
    ring
  have fm : ((n : ℚ) / 2 ^ d - 1 / 2 ^ d / 2) = ((2 * n - 1 : Int) : ℚ) / 2 ^ (d + 1) := by
    push_cast
    rw [pow_succ]
    field_simp
    ring
  have fp : ((n : ℚ) / 2 ^ d + 1 / 2 ^ d / 2) = ((2 * n + 1 : Int) : ℚ) / 2 ^ (d + 1) := by
    push_cast
    rw [pow_succ]
    field_simp
    ring
  have g0 : c0.nodeGeom (d + 1) :=
    nodeGeom_child hm hn (Or.inl rfl) (Or.inl rfl) em fm h0.1 h0.2
  have g1 : c1.nodeGeom (d + 1) :=
    nodeGeom_child hm hn (Or.inr rfl) (Or.inl rfl) ep fm h1.1 h1.2
  have g2 : c2.nodeGeom (d + 1) :=
    nodeGeom_child hm hn (Or.inl rfl) (Or.inr rfl) em fp h2.1 h2.2
  have g3 : c3.nodeGeom (d + 1) :=
    nodeGeom_child hm hn (Or.inr rfl) (Or.inr rfl) ep fp h3.1 h3.2
  have hch2 : [geoquad.subdivideChild
        { q.fields with und := Function.update q.fields.und 5 (toInt32 0x80000000) } 0,
      geoquad.subdivideChild
        { q.fields with und := Function.update q.fields.und 5 (toInt32 0x80000000) } 1,
      geoquad.subdivideChild
        { q.fields with und := Function.update q.fields.und 5 (toInt32 0x80000000) } 2,
      geoquad.subdivideChild
        { q.fields with und := Function.update q.fields.und 5 (toInt32 0x80000000) } 3]
      = [c0, c1, c2, c3] := hch
  simp only [List.cons.injEq, and_true] at hch2
  obtain ⟨r0, r1, r2, r3⟩ := hch2
  refine ⟨hq, ?_, ?_, ?_, ?_⟩
  · show (geoquad.subdivideChild _ 0).nodeGeom (d + 1)
    rw [r0]; exact g0
  · show (geoquad.subdivideChild _ 1).nodeGeom (d + 1)
    rw [r1]; exact g1
  · show (geoquad.subdivideChild _ 2).nodeGeom (d + 1)
    rw [r2]; exact g2
  · show (geoquad.subdivideChild _ 3).nodeGeom (d + 1)
    rw [r3]; exact g3

/-- The root of each face of a fresh cubemap has the geometry of depth 0. -/
theorem treeGeom_root (i : Fin 6) : (cubemap.ctor.faces i).treeGeom 0 := by
  refine ⟨?_, 0, 0, ?_, fun _ => ⟨rfl, rfl⟩, fun h => absurd h (by norm_num), by norm_num,
    by norm_num⟩
  · show (fin ((1 : Nat) : ℚ)) = fin (1 / 2 ^ 0)
    norm_num
  · show (⟨fin ((0 : Nat) : ℚ), fin ((0 : Nat) : ℚ)⟩ : xy) = _
    norm_num

/-- The square of a node with the geometry of depth `d` lies inside `[-1,1]` in each axis. -/
theorem square_inside (d : Nat) (a : Int) (h : |a| + 1 ≤ 2 ^ d) :
    -1 ≤ (a : ℚ) / 2 ^ d - 1 / 2 ^ d ∧ (a : ℚ) / 2 ^ d + 1 / 2 ^ d ≤ 1 := by
  have hp : (0 : ℚ) < 2 ^ d := by positivity
  have h1 : |a| ≤ 2 ^ d - 1 := by linarith
  have h2 := abs_le.mp h1
  have l1 : -((2 : ℚ) ^ d - 1) ≤ (a : ℚ) := by
    have := h2.1
    exact_mod_cast this
  have l2 : (a : ℚ) ≤ (2 : ℚ) ^ d - 1 := by
    have := h2.2
    exact_mod_cast this
  constructor
  · rw [← sub_div, le_div_iff₀ hp]
    linarith
  · rw [← add_div, div_le_iff₀ hp]
    linarith

/-- Rounding an integer gives it back. -/
theorem roundHalfEven_intCast (z : Int) : roundHalfEven (z : ℚ) = z := by
  unfold roundHalfEven
  rw [Int.floor_intCast]
  simp

/-- A dyadic rational whose numerator has at most 53 bits is a binary64 value. -/
theorem roundBinary64_dyadic (m : Int) (d : Nat) (h : |m| < 2 ^ 53) :
    roundBinary64 ((m : ℚ) / 2 ^ d) = (m : ℚ) / 2 ^ d := by
  unfold roundBinary64
  by_cases hm : m = 0
  · subst hm
    simp
  have hq : (m : ℚ) / 2 ^ d ≠ 0 := by
    apply div_ne_zero
    · exact_mod_cast hm
    · positivity
  rw [if_neg hq]
  have hpos : 0 < |(m : ℚ) / 2 ^ d| := abs_pos.mpr hq
  have hle := Int.zpow_log_le_self (b := 2) (by norm_num) hpos
  have habs : |(m : ℚ) / 2 ^ d| < 2 ^ ((53 : Int) - d) := by
    rw [abs_div, abs_of_pos (by positivity : (0 : ℚ) < 2 ^ d), zpow_sub₀ (by norm_num),
      zpow_natCast]
    apply div_lt_div_of_pos_right _ (by positivity)
    have : ((|m| : Int) : ℚ) < ((2 ^ 53 : Int) : ℚ) := by exact_mod_cast h
    rw [Int.cast_abs] at this
    norm_num at this ⊢
    exact this
  have hlog : Int.log 2 |(m : ℚ) / 2 ^ d| < 53 - d :=
    (Int.lt_zpow_iff_log_lt (by norm_num) hpos).mp (by exact_mod_cast habs)
  obtain ⟨k, hk⟩ : ∃ k : Nat, (k : Int) = 52 - d - Int.log 2 |(m : ℚ) / 2 ^ d| :=
    ⟨(52 - d - Int.log 2 |(m : ℚ) / 2 ^ d|).toNat, by rw [Int.toNat_of_nonneg]; omega⟩
  have he : Int.log 2 |(m : ℚ) / 2 ^ d| - 52 = -((k : Int) + d) := by omega
  rw [he]
  have e1 : (m : ℚ) / 2 ^ d / 2 ^ (-((k : Int) + d)) = ((m * 2 ^ k : Int) : ℚ) := by
    rw [zpow_neg, zpow_add₀ (by norm_num), zpow_natCast, zpow_natCast]
    push_cast
    field_simp
    ring
  rw [e1, roundHalfEven_intCast]
  rw [zpow_neg, zpow_add₀ (by norm_num), zpow_natCast, zpow_natCast]
  push_cast
  field_simp
  ring

/-- The value `1 - 2^-54` lies half way between the binary64 values `1 - 2^-53` and `1`; it
is rounded to `1`, whose significand is even. -/
theorem roundBinary64_tie : roundBinary64 (1 - 1 / 2 ^ 54) = 1 := by
  have hpos : (0 : ℚ) < |1 - 1 / 2 ^ 54| := by norm_num
  have hl : Int.log 2 |(1 : ℚ) - 1 / 2 ^ 54| = -1 := by
    apply le_antisymm
    · have : Int.log 2 |(1 : ℚ) - 1 / 2 ^ 54| < 0 :=
        (Int.lt_zpow_iff_log_lt (by norm_num) hpos).mp (by norm_num [abs_of_pos])
      omega
    · exact (Int.zpow_le_iff_le_log (by norm_num) hpos).mp (by norm_num [abs_of_pos])
  unfold roundBinary64
  rw [if_neg (by norm_num), hl]
  have hv : ((1 : ℚ) - 1 / 2 ^ 54) / 2 ^ ((-1 : Int) - 52) = 2 ^ 53 - 1 / 2 := by
    norm_num
  have hf : ⌊((2 : ℚ) ^ 53 - 1 / 2)⌋ = 2 ^ 53 - 1 := by
    rw [Int.floor_eq_iff]
    norm_num
  have hr : roundHalfEven ((2 : ℚ) ^ 53 - 1 / 2) = 2 ^ 53 := by
    unfold roundHalfEven
    rw [hf]
    norm_num
  rw [hv, hr]
  norm_num

/-- A rational that is a dyadic fraction with a numerator of at most 53 bits is a binary64
value. -/
theorem roundBinary64_of_dyadic (q : ℚ) (a : Int) (e : Nat) (h : |a| < 2 ^ 53)
    (hq : q = (a : ℚ) / 2 ^ e) : roundBinary64 q = q := by
  rw [hq]
  exact roundBinary64_dyadic a e h

/-- One coordinate of the center of a child: at depth below 53 the two roundings of
`center + scale/±2` change nothing. -/
theorem childCoord_exact (d : Nat) (m s : Int) (hs : s = 2 ∨ s = -2) (hd : d < 53)
    (hm : |m| + 1 ≤ 2 ^ d) :
    (fin ((m : ℚ) / 2 ^ d) + (fin (1 / 2 ^ d) / ofInt s).toBinary64).toBinary64 =
      fin ((m : ℚ) / 2 ^ d) + fin (1 / 2 ^ d) / ofInt s := by
  have hp : (2 : Int) ^ (d + 1) ≤ 2 ^ 53 := pow_le_pow_right₀ (by norm_num) (by omega)
  have hpow : (2 : ℚ) ^ d ≠ 0 := pow_ne_zero d (by norm_num)
  have h2 := abs_le.mp (show |m| ≤ 2 ^ d - 1 by linarith)
  have hp2 : (2 : Int) ^ (d + 1) = 2 * 2 ^ d := by rw [pow_succ, mul_comm]
  rcases hs with rfl | rfl
  · have hne : (((2 : Int)) : ℚ) ≠ 0 := by norm_num
    rw [ofInt, fin_div _ hne]
    have r1 : roundBinary64 (1 / 2 ^ d / ((2 : Int) : ℚ)) = 1 / 2 ^ d / ((2 : Int) : ℚ) :=
      roundBinary64_of_dyadic _ 1 (d + 1) (by norm_num) (by
        push_cast
        rw [pow_succ]
        field_simp)
    simp only [double.toBinary64, r1, fin_add]
    congr 1
    apply roundBinary64_of_dyadic _ (2 * m + 1) (d + 1)
    · rw [abs_lt]
      constructor <;> linarith [h2.1, h2.2]
    · push_cast
      rw [pow_succ]
      field_simp
      ring
  · have hne : (((-2 : Int)) : ℚ) ≠ 0 := by norm_num
    rw [ofInt, fin_div _ hne]
    have r1 : roundBinary64 (1 / 2 ^ d / ((-2 : Int) : ℚ)) = 1 / 2 ^ d / ((-2 : Int) : ℚ) :=
      roundBinary64_of_dyadic _ (-1) (d + 1) (by norm_num) (by
        push_cast
        rw [pow_succ]
        field_simp)
    simp only [double.toBinary64, r1, fin_add]
    congr 1
    apply roundBinary64_of_dyadic _ (2 * m - 1) (d + 1)
    · rw [abs_lt]
      constructor <;> linarith [h2.1, h2.2]
    · push_cast
      rw [pow_succ]
      field_simp
      ring

/-- Center of the child `sub[i]` made by `subdivide` in binary64. -/
theorem subdivideChildRounded_center (d : geoquadFields) (i : Int) :
    (geoquad.subdivideChildRounded d i).center =
      ⟨(d.center.x +
          (d.scale / ofInt (if Int.land i 1 ≠ 0 then 2 else -2)).toBinary64).toBinary64,
       (d.center.y +
          (d.scale / ofInt (if Int.land i 2 ≠ 0 then 2 else -2)).toBinary64).toBinary64⟩ := rfl

/-- Scale of the child `sub[i]` made by `subdivide` in binary64. -/
theorem subdivideChildRounded_scale (d : geoquadFields) (i : Int) :
    (geoquad.subdivideChildRounded d i).scale = (d.scale / 2).toBinary64 := rfl

/-- A child made in binary64 of a node with the geometry of a depth below 53 has the center
and the scale of the child made in exact arithmetic. -/
theorem subdivideChildRounded_exact (D : geoquadFields) (k : Int) (d : Nat) (m n : Int)
    (hd : d < 53) (hs : D.scale = fin (1 / 2 ^ d))
    (hc : D.center = ⟨fin ((m : ℚ) / 2 ^ d), fin ((n : ℚ) / 2 ^ d)⟩)
    (hm : |m| + 1 ≤ 2 ^ d) (hn : |n| + 1 ≤ 2 ^ d) :
    (geoquad.subdivideChildRounded D k).center = (geoquad.subdivideChild D k).center ∧
    (geoquad.subdivideChildRounded D k).scale = (geoquad.subdivideChild D k).scale := by
  have h2n : ((2 : Nat) : ℚ) ≠ 0 := by norm_num
  constructor
  · rw [subdivideChildRounded_center, subdivideChild_center, hs, hc]
    simp only []
    rw [childCoord_exact d m _ (by split_ifs <;> simp) hd hm,
      childCoord_exact d n _ (by split_ifs <;> simp) hd hn]
  · rw [subdivideChildRounded_scale, subdivideChild_scale, hs, ofNat_def, fin_div _ h2n]
    simp only [double.toBinary64]
    congr 1
    apply roundBinary64_of_dyadic _ 1 (d + 1) (by norm_num)
    push_cast
    rw [pow_succ]
    field_simp

/-- The root of a tree with the geometry of its depths up to a bound has it when its depth
is within the bound. -/
theorem treeGeomTo_node {B d : Nat} {q : geoquad} (h : q.treeGeomTo B d) (hd : d ≤ B) :
    q.nodeGeom d := by
  cases q with
  | leaf f => exact h hd
  | quad f s0 s1 s2 s3 => exact h.1 hd

/-- After `subdivide` in binary64 of a node with the geometry of depth `d`, the node and
those of its four new children that are at depth 53 or less have the geometry of their
depths. -/
theorem treeGeomTo_subdivideRounded {B d : Nat} {q : geoquad} (hB : B ≤ 53)
    (h : d ≤ B → q.nodeGeom d) : q.subdivideRounded.treeGeomTo B d := by
  have key : ∀ j : Int, (j = 0 ∨ j = 1 ∨ j = 2 ∨ j = 3) → d + 1 ≤ B →
      (geoquad.subdivideChildRounded
        { q.fields with und := Function.update q.fields.und 5 (toInt32 0x80000000) }
        j).nodeGeom (d + 1) := by
    intro j hj hd1
    have hq := h (by omega)
    obtain ⟨hs, m, n, hc, -, -, hm, hn⟩ := hq
    obtain ⟨e1, e2⟩ := subdivideChildRounded_exact
      { q.fields with und := Function.update q.fields.und 5 (toInt32 0x80000000) }
      j d m n (by omega) hs hc hm hn
    obtain ⟨-, t0, t1, t2, t3⟩ := treeGeom_subdivide (h (by omega))
    rcases hj with rfl | rfl | rfl | rfl
    · exact nodeGeom_congr e1 e2 (treeGeom_node t0)
    · exact nodeGeom_congr e1 e2 (treeGeom_node t1)
    · exact nodeGeom_congr e1 e2 (treeGeom_node t2)
    · exact nodeGeom_congr e1 e2 (treeGeom_node t3)
  exact ⟨fun hd => nodeGeom_congr (q := q) rfl rfl (h hd),
    key 0 (by simp), key 1 (by simp), key 2 (by simp), key 3 (by simp)⟩

/-- A call of `subdivide` in binary64 on any node of a tree keeps the geometry of the tree
up to depth 53. -/
theorem treeGeomTo_subdivideAtRounded {B : Nat} (hB : B ≤ 53) (path : List (Fin 4)) :
    ∀ (d : Nat) (q : geoquad), q.treeGeomTo B d →
      (q.subdivideAtRounded path).treeGeomTo B d := by
  induction path with
  | nil =>
    intro d q h
    exact treeGeomTo_subdivideRounded hB (fun hd => treeGeomTo_node h hd)
  | cons i path ih =>
    intro d q h
    cases q with
    | leaf f => exact h
    | quad f s0 s1 s2 s3 =>
      obtain ⟨hn, t0, t1, t2, t3⟩ := h
      unfold geoquad.subdivideAtRounded
      split_ifs
      · exact ⟨fun hd => nodeGeom_congr (q := geoquad.quad f s0 s1 s2 s3) rfl rfl (hn hd),
          ih _ _ t0, t1, t2, t3⟩
      · exact ⟨fun hd => nodeGeom_congr (q := geoquad.quad f s0 s1 s2 s3) rfl rfl (hn hd),
          t0, ih _ _ t1, t2, t3⟩
      · exact ⟨fun hd => nodeGeom_congr (q := geoquad.quad f s0 s1 s2 s3) rfl rfl (hn hd),
          t0, t1, ih _ _ t2, t3⟩
      · exact ⟨fun hd => nodeGeom_congr (q := geoquad.quad f s0 s1 s2 s3) rfl rfl (hn hd),
          t0, t1, t2, ih _ _ t3⟩

/-- A sequence of calls of `subdivide` in binary64 keeps the geometry of the tree up to
depth 53. -/
theorem treeGeomTo_subdivideSeqRounded {B : Nat} (hB : B ≤ 53) (calls : List (List (Fin 4))) :
    ∀ (d : Nat) (q : geoquad), q.treeGeomTo B d →
      (q.subdivideSeqRounded calls).treeGeomTo B d := by
  induction calls with
  | nil =>
    intro d q h
    exact h
  | cons path calls ih =>
    intro d q h
    exact ih d _ (treeGeomTo_subdivideAtRounded hB path d q h)

/-- In a tree with the geometry of its depths up to a bound, the node at a path that ends
within the bound has the geometry of the depth of the root plus the length of the path. -/
theorem nodeGeom_nodeAt_to {B : Nat} (path : List (Fin 4)) :
    ∀ (d : Nat) (q n : geoquad), q.treeGeomTo B d → q.nodeAt path = some n →
      d + path.length ≤ B → n.nodeGeom (d + path.length) := by
  induction path with
  | nil =>
    intro d q n h hn hd
    simp only [geoquad.nodeAt, Option.some.injEq] at hn
    rw [← hn]
    exact treeGeomTo_node h hd
  | cons i path ih =>
    intro d q n h hn hd
    cases q with
    | leaf f => simp [geoquad.nodeAt] at hn
    | quad f s0 s1 s2 s3 =>
      obtain ⟨_, t0, t1, t2, t3⟩ := h
      have e : d + (i :: path).length = (d + 1) + path.length := by
        simp only [List.length_cons]
        omega
      rw [e] at hd ⊢
      unfold geoquad.nodeAt at hn
      split_ifs at hn
      · exact ih _ _ _ t0 hn hd
      · exact ih _ _ _ t1 hn hd
      · exact ih _ _ _ t2 hn hd
      · exact ih _ _ _ t3 hn hd

/-- The root of each face of a fresh cubemap has the geometry of depth 0. -/
theorem treeGeomTo_root (B : Nat) (i : Fin 6) : (cubemap.ctor.faces i).treeGeomTo B 0 :=
  fun _ => treeGeom_root i

/-- C7 (as amended): in the tree grown from a root of a fresh cubemap by any sequence of
calls of `subdivide`, each computed in binary64, a node at depth `d ≤ 53` (the length of its
path) has scale `2^-d` and center `(a/2^d, b/2^d)` with `a = b = 0` at the root and `a`, `b`
odd for `d >= 1`, and its square `[center-scale, center+scale]` lies inside `[-1,1]` in each
axis. -/
theorem subdivide_tree_geometry (i : Fin 6) (calls : List (List (Fin 4)))
    (path : List (Fin 4)) (n : geoquad)
    (h : ((cubemap.ctor.faces i).subdivideSeqRounded calls).nodeAt path = some n)
    (hd : path.length ≤ 53) :
    n.scale = fin (1 / 2 ^ path.length) ∧
    ∃ a b : Int, n.center = ⟨fin (a / 2 ^ path.length), fin (b / 2 ^ path.length)⟩ ∧
      (path.length = 0 → a = 0 ∧ b = 0) ∧ (1 ≤ path.length → Odd a ∧ Odd b) ∧
      (-1 ≤ (a : ℚ) / 2 ^ path.length - 1 / 2 ^ path.length ∧
        (a : ℚ) / 2 ^ path.length + 1 / 2 ^ path.length ≤ 1) ∧
      (-1 ≤ (b : ℚ) / 2 ^ path.length - 1 / 2 ^ path.length ∧
        (b : ℚ) / 2 ^ path.length + 1 / 2 ^ path.length ≤ 1) := by
  have hg := nodeGeom_nodeAt_to path 0 _ n
    (treeGeomTo_subdivideSeqRounded (le_refl 53) calls 0 _ (treeGeomTo_root 53 i)) h
    (by omega)
  rw [Nat.zero_add] at hg
  obtain ⟨hs, a, b, hc, h0, h1, ha, hb⟩ := hg
  exact ⟨hs, a, b, hc, h0, h1, square_inside _ a ha, square_inside _ b hb⟩

/-- Witness of C7: the root of face 1 is subdivided, then its child 3; the node at the
path 3, 0 is child 0 of that child, at depth 2. -/
theorem subdivide_tree_geometry_witness :
    ((cubemap.ctor.faces 0).subdivideSeqRounded [[], [3]]).nodeAt [3, 0] =
      some (geoquad.subdivideChildRounded
        (geoquad.subdivideChildRounded (cubemap.ctor.faces 0).fields 3).subdivideRounded.fields
        0) ∧
    [(3 : Fin 4), 0].length ≤ 53 ∧
    (geoquad.subdivideChildRounded
        (geoquad.subdivideChildRounded (cubemap.ctor.faces 0).fields 3).subdivideRounded.fields
        0).scale = fin (1 / 2 ^ [(3 : Fin 4), 0].length) :=
  ⟨rfl, by decide, (subdivide_tree_geometry 0 [[], [3]] [3, 0] _ rfl (by decide)).1⟩

/-- After a call of `subdivide` in binary64 on the node `n` at `path`, the node at `path`
followed by `i` is the new child `sub[i]` of `n`. -/
theorem nodeAt_subdivideAtRounded (path : List (Fin 4)) (i : Fin 4) :
    ∀ q n : geoquad, q.nodeAt path = some n →
      (q.subdivideAtRounded path).nodeAt (path ++ [i]) = n.subdivideRounded.sub i := by
  induction path with
  | nil =>
    intro q n h
    simp only [geoquad.nodeAt, Option.some.injEq] at h
    subst h
    simp only [geoquad.subdivideAtRounded, geoquad.subdivideRounded, List.nil_append,
      geoquad.nodeAt, geoquad.sub]
  | cons j path ih =>
    intro q n h
    cases q with
    | leaf f => simp [geoquad.nodeAt] at h
    | quad f s0 s1 s2 s3 =>
      unfold geoquad.nodeAt at h
      simp only [List.cons_append]
      unfold geoquad.subdivideAtRounded
      split_ifs at h ⊢ with h0 h1 h2
      · simp only [geoquad.nodeAt, h0, if_true]
        exact ih _ _ h
      · simp only [geoquad.nodeAt, h0, h1, if_true, if_false]
        exact ih _ _ h
      · simp only [geoquad.nodeAt, h0, h1, h2, if_true, if_false]
        exact ih _ _ h
      · simp only [geoquad.nodeAt, h0, h1, h2, if_false]
        exact ih _ _ h

/-- The child `sub[3]` made by `subdivide` in binary64. -/
theorem subdivideRounded_sub_three (n : geoquad) :
    n.subdivideRounded.sub 3 = some (geoquad.subdivideChildRounded
      { n.fields with und := Function.update n.fields.und 5 (toInt32 0x80000000) } 3) := rfl

/-- The calls down the corner: one more call is made on the node of the last one. -/
theorem cornerCalls_succ (k : Nat) :
    geoquad.cornerCalls (k + 1) = geoquad.cornerCalls k ++ [List.replicate k 3] := by
  simp [geoquad.cornerCalls, List.range_succ]

/-- One more call down the corner: the node at the end is the child `sub[3]` of the node
at the end of the calls before. -/
theorem cornerCalls_step (k : Nat) (n : geoquad)
    (hn : ((cubemap.ctor.faces 0).subdivideSeqRounded (geoquad.cornerCalls k)).nodeAt
      (List.replicate k 3) = some n) :
    ((cubemap.ctor.faces 0).subdivideSeqRounded (geoquad.cornerCalls (k + 1))).nodeAt
      (List.replicate (k + 1) 3) = some (geoquad.subdivideChildRounded
        { n.fields with und := Function.update n.fields.und 5 (toInt32 0x80000000) } 3) := by
  have hstep := nodeAt_subdivideAtRounded (List.replicate k 3) 3 _ n hn
  rw [subdivideRounded_sub_three] at hstep
  rw [cornerCalls_succ, List.replicate_succ']
  unfold geoquad.subdivideSeqRounded
  rw [List.foldl_append]
  exact hstep

/-- The child `sub[3]` made in exact arithmetic of a node with center `(c, c)` and scale
`s`. -/
theorem subdivideChild_three (D : geoquadFields) (c s : ℚ) (hs : D.scale = fin s)
    (hc : D.center = ⟨fin c, fin c⟩) :
    (geoquad.subdivideChild D 3).center = ⟨fin (c + s / 2), fin (c + s / 2)⟩ ∧
    (geoquad.subdivideChild D 3).scale = fin (s / 2) := by
  have h2 : ((2 : Int) : ℚ) ≠ 0 := by norm_num
  have h2n : ((2 : Nat) : ℚ) ≠ 0 := by norm_num
  have l31 : Int.land 3 1 = 1 := rfl
  have l32 : Int.land 3 2 = 2 := rfl
  constructor
  · rw [subdivideChild_center, l31, l32, hs, hc]
    simp only [ne_eq, OfNat.ofNat_ne_zero, one_ne_zero, not_false_eq_true, if_true]
    rw [ofInt, fin_div _ h2, fin_add]
    push_cast
    rfl
  · rw [subdivideChild_scale, hs, ofNat_def, fin_div _ h2n]
    norm_num

/-- The node at the end of the calls down the corner, as long as no rounding occurs: at
depth `k ≤ 53` its scale is `2^-k` and its center `(1 - 2^-k, 1 - 2^-k)`. -/
theorem cornerCalls_node (k : Nat) (hk : k ≤ 53) :
    ∃ n, ((cubemap.ctor.faces 0).subdivideSeqRounded (geoquad.cornerCalls k)).nodeAt
        (List.replicate k 3) = some n ∧
      n.scale = fin (1 / 2 ^ k) ∧
      n.center =
        ⟨fin (((2 ^ k - 1 : Int) : ℚ) / 2 ^ k), fin (((2 ^ k - 1 : Int) : ℚ) / 2 ^ k)⟩ := by
  induction k with
  | zero =>
    refine ⟨_, rfl, ?_, ?_⟩
    · show (fin ((1 : Nat) : ℚ)) = fin (1 / 2 ^ 0)
      norm_num
    · show (⟨fin ((0 : Nat) : ℚ), fin ((0 : Nat) : ℚ)⟩ : xy) = _
      norm_num
  | succ k ih =>
    obtain ⟨n, hn, hs, hc⟩ := ih (by omega)
    have hpos : (0 : Int) ≤ 2 ^ k - 1 := by
      have : (1 : Int) ≤ 2 ^ k := one_le_pow₀ (by norm_num)
      omega
    have hm : |(2 ^ k - 1 : Int)| + 1 ≤ 2 ^ k := by
      rw [abs_of_nonneg hpos]
      omega
    obtain ⟨e1, e2⟩ := subdivideChildRounded_exact
      { n.fields with und := Function.update n.fields.und 5 (toInt32 0x80000000) }
      3 k _ _ (by omega) hs hc hm hm
    obtain ⟨f1, f2⟩ := subdivideChild_three
      { n.fields with und := Function.update n.fields.und 5 (toInt32 0x80000000) }
      _ _ hs hc
    have hpow : (2 : ℚ) ^ k ≠ 0 := pow_ne_zero k (by norm_num)
    refine ⟨_, cornerCalls_step k n hn, ?_, ?_⟩
    · rw [e2, f2, pow_succ]
      congr 1
      field_simp
    · have e : ((2 ^ k - 1 : Int) : ℚ) / 2 ^ k + 1 / 2 ^ k / 2
          = ((2 ^ (k + 1) - 1 : Int) : ℚ) / 2 ^ (k + 1) := by
        push_cast
        rw [pow_succ]
        field_simp
        ring
      rw [e1, f1, e]

/-- Counterexample for C7: after 54 calls of `subdivide` in binary64, each on the child
`sub[3]` made by the call before, the last node, at depth 54, has scale `2^-54` and center
`(1, 1)`: the exact center `1 - 2^-54` lies half way between two binary64 values and is
rounded to 1. The center is not an odd multiple of `2^-54`, and the square reaches beyond 1
in each axis. -/
theorem subdivide_depth_54_rounded :
    ∃ n, ((cubemap.ctor.faces 0).subdivideSeqRounded (geoquad.cornerCalls 54)).nodeAt
        (List.replicate 54 3) = some n ∧
      n.scale = fin (1 / 2 ^ 54) ∧ n.center = ⟨fin 1, fin 1⟩ ∧
      (¬ ∃ a b : Int, (Odd a ∧ Odd b) ∧ n.center = ⟨fin (a / 2 ^ 54), fin (b / 2 ^ 54)⟩) ∧
      double.le (n.center.x + n.scale) 1 = false ∧
      double.le (n.center.y + n.scale) 1 = false := by
  obtain ⟨n, hn, hs, hc⟩ := cornerCalls_node 53 (le_refl 53)
  have h2 : ((2 : Int) : ℚ) ≠ 0 := by norm_num
  have h2n : ((2 : Nat) : ℚ) ≠ 0 := by norm_num
  have l31 : Int.land 3 1 = 1 := rfl
  have l32 : Int.land 3 2 = 2 := rfl
  have r1 : roundBinary64 (1 / 2 ^ 53 / ((2 : Int) : ℚ)) = 1 / 2 ^ 53 / ((2 : Int) : ℚ) :=
    roundBinary64_of_dyadic _ 1 54 (by norm_num) (by norm_num)
  have r2 : roundBinary64 (1 / 2 ^ 53 / ((2 : Nat) : ℚ)) = 1 / 2 ^ 54 := by
    rw [roundBinary64_of_dyadic _ 1 54 (by norm_num) (by norm_num)]
    norm_num
  have r3 : ((2 ^ 53 - 1 : Int) : ℚ) / 2 ^ 53 + 1 / 2 ^ 53 / ((2 : Int) : ℚ)
      = 1 - 1 / 2 ^ 54 := by norm_num
  have hcen : (geoquad.subdivideChildRounded
      { n.fields with und := Function.update n.fields.und 5 (toInt32 0x80000000) } 3).center
      = ⟨fin 1, fin 1⟩ := by
    rw [subdivideChildRounded_center, l31, l32]
    show (⟨(n.center.x + (n.scale / ofInt _).toBinary64).toBinary64,
      (n.center.y + (n.scale / ofInt _).toBinary64).toBinary64⟩ : xy) = _
    rw [hs, hc]
    simp only [ne_eq, OfNat.ofNat_ne_zero, one_ne_zero, not_false_eq_true, if_true]
    rw [ofInt, fin_div _ h2]
    simp only [double.toBinary64, r1, fin_add, r3, roundBinary64_tie]
  have hsc : (geoquad.subdivideChildRounded
      { n.fields with und := Function.update n.fields.und 5 (toInt32 0x80000000) } 3).scale
      = fin (1 / 2 ^ 54) := by
    rw [subdivideChildRounded_scale]
    show (n.scale / 2).toBinary64 = _
    rw [hs, ofNat_def, fin_div _ h2n]
    simp only [double.toBinary64, r2]
  refine ⟨_, cornerCalls_step 53 n hn, hsc, hcen, ?_, ?_, ?_⟩
  · rintro ⟨a, b, ⟨ha, -⟩, h⟩
    rw [hcen] at h
    have hx : (1 : ℚ) = (a : ℚ) / 2 ^ 54 := by
      have := congrArg xy.x h
      simpa using this
    have ha2 : (a : ℚ) = ((2 ^ 54 : Int) : ℚ) := by
      push_cast
      field_simp at hx
      linarith
    have ha3 : a = 2 ^ 54 := by exact_mod_cast ha2
    rw [ha3] at ha
    exact absurd ha (by decide)
  · rw [hcen, hsc]
    simp only [fin_add, double.le]
    norm_num
  · rw [hcen, hsc]
    simp only [fin_add, double.le]
    norm_num

/-- C11: `encodedir` maps the zero vector to face 0 with `x = y = 0` and every vector with a
NaN coordinate or more than one infinite coordinate to face 7 with `x = y = NaN`;
`decodedir` maps a vball of face 0 to the zero vector and one of face 7 to the all-NaN
vector, whatever `length` is: they are not scaled. -/
theorem encodedir_decodedir_degenerate :
    encodedir ⟨fin 0, fin 0, fin 0⟩ = ⟨0, fin 0, fin 0⟩ ∧
    (∀ d : xyz, (d.x.isnan = true ∨ d.y.isnan = true ∨ d.z.isnan = true ∨
        1 < boolToInt d.x.isinf + boolToInt d.y.isinf + boolToInt d.z.isinf) →
      encodedir d = ⟨7, nan, nan⟩) ∧
    (∀ (length : xyz → double) (x y : double),
      decodedir length ⟨0, x, y⟩ = ⟨fin 0, fin 0, fin 0⟩) ∧
    (∀ (length : xyz → double) (x y : double),
      decodedir length ⟨7, x, y⟩ = ⟨nan, nan, nan⟩) := by
  refine ⟨?_, ?_, fun _ _ _ => rfl, fun _ _ _ => rfl⟩
  · simp [encodedir, vball.ctor]
  · rintro ⟨x, y, z⟩ h
    cases x <;> cases y <;> cases z <;>
      simp [encodedir, vball.ctor, fabs, double.eq, isnan, isinf, boolToInt] at h ⊢

/-- Witness of C11: a vector with a NaN coordinate, and one with two infinite coordinates. -/
theorem encodedir_decodedir_degenerate_witness :
    encodedir ⟨nan, fin 1, fin 2⟩ = ⟨7, nan, nan⟩ ∧
    encodedir ⟨inf false, fin 1, inf true⟩ = ⟨7, nan, nan⟩ :=
  ⟨encodedir_decodedir_degenerate.2.1 ⟨nan, fin 1, fin 2⟩ (Or.inl rfl),
    encodedir_decodedir_degenerate.2.1 ⟨inf false, fin 1, inf true⟩
      (Or.inr (Or.inr (Or.inr (by decide))))⟩

/-- Equality of two vballs with finite coordinates on two different faces among 1 to 6 is
equality of the vectors `decodedir` builds from them before scaling. -/
theorem vball_eq_iff_embedding (f g : Int) (ax ay bx by_ : ℚ)
    (hf : 1 ≤ f ∧ f ≤ 6) (hg : 1 ≤ g ∧ g ≤ 6) (hne : f ≠ g) :
    vball.eq ⟨f, fin ax, fin ay⟩ ⟨g, fin bx, fin by_⟩ = true ↔
      decodedirSwitch ⟨f, fin ax, fin ay⟩ = decodedirSwitch ⟨g, fin bx, fin by_⟩ := by
  obtain ⟨hf1, hf2⟩ := hf
  obtain ⟨hg1, hg2⟩ := hg
  have d := decodedirSwitch_faces
  interval_cases f <;> interval_cases g <;>
    first
    | exact absurd rfl hne
    | (simp only [(d _ _).1, (d _ _).2.1, (d _ _).2.2.1, (d _ _).2.2.2.1, (d _ _).2.2.2.2.1,
        (d _ _).2.2.2.2.2]
       simp [vball.eq, vballcompareAt, vballcompare]
       first
       | done
       | (norm_num; done)
       | (constructor
          · rintro ⟨⟨h1, h2⟩, h3⟩
            exact ⟨by linarith, by linarith, by linarith⟩
          · rintro ⟨h1, h2, h3⟩
            exact ⟨⟨by linarith, by linarith⟩, by linarith⟩))

/-- Two vballs on opposite faces are never equal. -/
theorem vball_eq_opposite (f g : Int) (ax ay bx by_ : double)
    (hf : 1 ≤ f ∧ f ≤ 6) (hg : 1 ≤ g ∧ g ≤ 6) (hopp : f + g = 7) :
    vball.eq ⟨f, ax, ay⟩ ⟨g, bx, by_⟩ = false := by
  obtain ⟨hf1, hf2⟩ := hf
  obtain ⟨hg1, hg2⟩ := hg
  interval_cases f <;> interval_cases g <;>
    first
    | rfl
    | norm_num at hopp

/-- C12: for vballs `a` and `b` with finite coordinates on two different faces among 1 to 6,
`a==b` holds exactly when the vectors `decodedir` builds from them before scaling are equal;
two points on opposite faces are never equal. -/
theorem vball_eq_same_cube_point (f g : Int) (ax ay bx by_ : ℚ)
    (hf : 1 ≤ f ∧ f ≤ 6) (hg : 1 ≤ g ∧ g ≤ 6) (hne : f ≠ g) :
    (vball.eq ⟨f, fin ax, fin ay⟩ ⟨g, fin bx, fin by_⟩ = true ↔
      decodedirSwitch ⟨f, fin ax, fin ay⟩ = decodedirSwitch ⟨g, fin bx, fin by_⟩) ∧
    (f + g = 7 → vball.eq ⟨f, fin ax, fin ay⟩ ⟨g, fin bx, fin by_⟩ = false) :=
  ⟨vball_eq_iff_embedding f g ax ay bx by_ hf hg hne,
    vball_eq_opposite f g (fin ax) (fin ay) (fin bx) (fin by_) hf hg⟩

/-- Witness of C12: the corner `(1,1)` of face 1 and the point `(1,1)` of face 2. -/
theorem vball_eq_same_cube_point_witness :
    ((1 : Int) ≤ 1 ∧ (1 : Int) ≤ 6) ∧ ((1 : Int) ≤ 2 ∧ (2 : Int) ≤ 6) ∧ (1 : Int) ≠ 2 ∧
    ((vball.eq ⟨1, fin 1, fin 1⟩ ⟨2, fin 1, fin 1⟩ = true ↔
      decodedirSwitch ⟨1, fin 1, fin 1⟩ = decodedirSwitch ⟨2, fin 1, fin 1⟩) ∧
    ((1 : Int) + 2 = 7 → vball.eq ⟨1, fin 1, fin 1⟩ ⟨2, fin 1, fin 1⟩ = false)) :=
  ⟨by decide, by decide, by decide,
    vball_eq_same_cube_point 1 2 1 1 1 1 (by decide) (by decide) (by decide)⟩

/-- The entry 66 of `vballcompare` marks two equal faces among 1 to 6. -/
theorem vballcompareAt_eq_66 (f g : Int) (h : vballcompareAt f g = 66) :
    f = g ∧ 1 ≤ f ∧ f ≤ 6 := by
  by_cases hr : 0 ≤ f ∧ f < 8 ∧ 0 ≤ g ∧ g < 8
  · obtain ⟨hf1, hf2, hg1, hg2⟩ := hr
    interval_cases f <;> interval_cases g <;> revert h <;> decide
  · simp [vballcompareAt, hr] at h

/-- Where the entry of `vballcompare` is not 66, `==` implies `sameEdge`. -/
theorem sameEdge_of_eq_of_table (a b : vball) (h66 : vballcompareAt a.face b.face ≠ 66)
    (he : vball.eq a b = true) : sameEdge a b = true := by
  unfold vball.eq at he
  unfold sameEdge
  generalize vballcompareAt a.face b.face = e at *
  split at he <;> simp_all

/-- C13 (as amended): for two vballs that are not on one common face among 1 to 6, `a==b`
implies `sameEdge(a,b)`. (On a common face `==` compares within the tolerance `VBTOLER`,
`sameEdge` needs an exactly equal coordinate.) -/
theorem vball_eq_imp_sameEdge (a b : vball)
    (h : ¬(a.face = b.face ∧ 1 ≤ a.face ∧ a.face ≤ 6)) (he : vball.eq a b = true) :
    sameEdge a b = true :=
  sameEdge_of_eq_of_table a b (fun h66 => h (vballcompareAt_eq_66 _ _ h66)) he

/-- Witness of C13 (as amended): a corner of face 1 that is also on face 2. -/
theorem vball_eq_imp_sameEdge_witness :
    ¬((1 : Int) = 2 ∧ (1 : Int) ≤ 1 ∧ (1 : Int) ≤ 6) ∧
    vball.eq ⟨1, fin 1, fin 1⟩ ⟨2, fin 1, fin 1⟩ = true ∧
    sameEdge ⟨1, fin 1, fin 1⟩ ⟨2, fin 1, fin 1⟩ = true :=
  ⟨by decide, by simp [vball.eq, vballcompareAt, vballcompare],
    vball_eq_imp_sameEdge ⟨1, fin 1, fin 1⟩ ⟨2, fin 1, fin 1⟩ (by decide)
      (by simp [vball.eq, vballcompareAt, vballcompare])⟩

/-- C13 (as stated) fails: on face 1 the points `(0,0)` and `(2^-60, 2^-60)` are `==`, their
coordinates differing by less than `VBTOLER`, but `sameEdge` is false for them, no coordinate
being exactly equal. -/
theorem vball_eq_not_sameEdge :
    vball.eq ⟨1, fin 0, fin 0⟩ ⟨1, fin (1 / 2 ^ 60), fin (1 / 2 ^ 60)⟩ = true ∧
    sameEdge ⟨1, fin 0, fin 0⟩ ⟨1, fin (1 / 2 ^ 60), fin (1 / 2 ^ 60)⟩ = false := by
  constructor
  · simp only [vball.eq, vballcompareAt, vballcompare, cmpeq, VBTOLER]
    norm_num [abs_of_nonneg]
  · simp only [sameEdge, vballcompareAt, vballcompare]
    norm_num

/-- A point of face `g` that is, as a point of the cube, also the point `(wx,wy)` of an
adjacent face `f`, is moved to that point by `moveToFace`. -/
theorem moveToFace_of_embedding (g f : Int) (vx vy wx wy : ℚ)
    (hg : 1 ≤ g ∧ g ≤ 6) (hf : 1 ≤ f ∧ f ≤ 6) (hne : g ≠ f) (hadj : g + f ≠ 7)
    (hemb : decodedirSwitch ⟨g, fin vx, fin vy⟩ = decodedirSwitch ⟨f, fin wx, fin wy⟩) :
    moveToFace ⟨g, fin vx, fin vy⟩ f = some ⟨f, fin wx, fin wy⟩ := by
  obtain ⟨hg1, hg2⟩ := hg
  obtain ⟨hf1, hf2⟩ := hf
  have d := decodedirSwitch_faces
  interval_cases g <;> interval_cases f <;>
    first
    | exact absurd rfl hne
    | (norm_num at hadj; done)
    | (simp only [(d _ _).1, (d _ _).2.1, (d _ _).2.2.1, (d _ _).2.2.2.1, (d _ _).2.2.2.2.1,
        (d _ _).2.2.2.2.2] at hemb
       simp at hemb
       obtain ⟨h1, h2, h3⟩ := hemb
       simp [moveToFace, vballcompareAt, vballcompare]
       constructor <;> linarith)

/-- The assertion of `moveToFace` fails exactly for opposite or invalid faces. -/
theorem moveToFace_none_iff (v : vball) (f : Int)
    (hv : 0 ≤ v.face ∧ v.face ≤ 7) (hf : 0 ≤ f ∧ f ≤ 7) :
    moveToFace v f = none ↔
      (v.face + f = 7 ∨ v.face = 0 ∨ f = 0 ∨ v.face = 7 ∨ f = 7) := by
  rcases v with ⟨g, x, y⟩
  obtain ⟨hg1, hg2⟩ := hv
  obtain ⟨hf1, hf2⟩ := hf
  simp only at hg1 hg2 ⊢
  interval_cases g <;> interval_cases f <;> simp [moveToFace, vballcompareAt, vballcompare]

/-- Moving a vball to its own face changes nothing. -/
theorem moveToFace_same (v : vball) (hv : 1 ≤ v.face ∧ v.face ≤ 6) :
    moveToFace v v.face = some v := by
  rcases v with ⟨g, x, y⟩
  obtain ⟨hg1, hg2⟩ := hv
  simp only at hg1 hg2 ⊢
  interval_cases g <;> simp [moveToFace, vballcompareAt, vballcompare]

/-- C14: a vball `v` with finite coordinates on a face `g` among 1 to 6 that lies on the edge
shared with an adjacent face `f` (as a point of the cube it is also a point `w` of `f`) is
moved by `moveToFace(v,f)` to a vball on `f` that is `==` to `v`, has the same vector under
`decodedir` before scaling, and is moved back to `v` by `moveToFace(.,g)`; `moveToFace(v,
v.face)` leaves `v` unchanged; and for faces in 0 to 7 the assertion fails exactly when the
two faces are opposite or one of them is 0 or 7. -/
theorem moveToFace_contract :
    (∀ (g f : Int) (vx vy wx wy : ℚ), 1 ≤ g ∧ g ≤ 6 → 1 ≤ f ∧ f ≤ 6 → g ≠ f → g + f ≠ 7 →
      decodedirSwitch ⟨g, fin vx, fin vy⟩ = decodedirSwitch ⟨f, fin wx, fin wy⟩ →
      ∃ m : vball, moveToFace ⟨g, fin vx, fin vy⟩ f = some m ∧ m.face = f ∧
        vball.eq ⟨g, fin vx, fin vy⟩ m = true ∧
        decodedirSwitch m = decodedirSwitch ⟨g, fin vx, fin vy⟩ ∧
        moveToFace m g = some ⟨g, fin vx, fin vy⟩) ∧
    (∀ v : vball, 1 ≤ v.face ∧ v.face ≤ 6 → moveToFace v v.face = some v) ∧
    (∀ (v : vball) (f : Int), 0 ≤ v.face ∧ v.face ≤ 7 → 0 ≤ f ∧ f ≤ 7 →
      (moveToFace v f = none ↔
        (v.face + f = 7 ∨ v.face = 0 ∨ f = 0 ∨ v.face = 7 ∨ f = 7))) := by
  refine ⟨?_, moveToFace_same, moveToFace_none_iff⟩
  intro g f vx vy wx wy hg hf hne hadj hemb
  refine ⟨⟨f, fin wx, fin wy⟩, moveToFace_of_embedding g f vx vy wx wy hg hf hne hadj hemb,
    rfl, (vball_eq_iff_embedding g f vx vy wx wy hg hf hne).mpr hemb, hemb.symm, ?_⟩
  exact moveToFace_of_embedding f g wx wy vx vy hf hg (Ne.symm hne)
    (by rw [add_comm]; exact hadj) hemb.symm

/-- Witness of C14: the point `(1, 1/2)` of face 1 lies on the edge shared with face 2,
where it is the point `(1/2, 1)`. -/
theorem moveToFace_contract_witness :
    decodedirSwitch ⟨1, fin 1, fin (1 / 2)⟩ = decodedirSwitch ⟨2, fin (1 / 2), fin 1⟩ ∧
    ∃ m : vball, moveToFace ⟨1, fin 1, fin (1 / 2)⟩ 2 = some m ∧ m.face = 2 ∧
      vball.eq ⟨1, fin 1, fin (1 / 2)⟩ m = true ∧
      decodedirSwitch m = decodedirSwitch ⟨1, fin 1, fin (1 / 2)⟩ ∧
      moveToFace m 1 = some ⟨1, fin 1, fin (1 / 2)⟩ :=
  ⟨by rw [(decodedirSwitch_faces _ _).1, (decodedirSwitch_faces _ _).2.1]; simp,
    moveToFace_contract.1 1 2 1 (1 / 2) (1 / 2) 1 (by decide) (by decide) (by decide)
      (by decide) (by rw [(decodedirSwitch_faces _ _).1, (decodedirSwitch_faces _ _).2.1]; simp)⟩

/-- For a non-negative `int` index, `positionSegment` is the rotation of the vertex list by
`n+1` places. -/
theorem positionSegment_eq_rotate (g : g1boundary) (N : Nat) (hN : (N : Int) < 2 ^ 31) :
    (g.positionSegment N).bdy = g.bdy.rotate (N + 1) ∧
    (g.positionSegment N).inner = g.inner := by
  unfold g1boundary.positionSegment
  by_cases hs : g.bdy.length = 0
  · have hnil : g.bdy = [] := List.length_eq_zero.mp hs
    simp [hs, hnil]
  · have hspos : 0 < g.bdy.length := Nat.pos_of_ne_zero hs
    have hbig : (2 : Int) ^ 31 + 1 < 2 ^ 64 := by norm_num
    have e1 : toSizeT (N : Int) = (N : Int) := by
      show (N : Int) % 2 ^ 64 = (N : Int)
      exact Int.emod_eq_of_lt (Int.natCast_nonneg N)
        (lt_trans hN (lt_trans (lt_add_one _) hbig))
    have e2 : toSizeT ((N : Int) + 1) = ((N + 1 : Nat) : Int) := by
      show ((N : Int) + 1) % 2 ^ 64 = ((N + 1 : Nat) : Int)
      rw [Int.emod_eq_of_lt (add_nonneg (Int.natCast_nonneg N) zero_le_one)
        (lt_trans (add_lt_add_right hN 1) hbig)]
      push_cast
      rfl
    have e3 : (N : Int) % (g.bdy.length : Int) = ((N % g.bdy.length : Nat) : Int) :=
      (Int.natCast_mod N g.bdy.length).symm
    have e4 : ((N + 1 : Nat) : Int) % (g.bdy.length : Int)
        = (((N + 1) % g.bdy.length : Nat) : Int) :=
      (Int.natCast_mod (N + 1) g.bdy.length).symm
    have n0 : ¬ ((N % g.bdy.length : Nat) : Int) < 0 := by
      have : (0 : Int) ≤ ((N % g.bdy.length : Nat) : Int) := by positivity
      linarith
    have m0 : ¬ (((N + 1) % g.bdy.length : Nat) : Int) < 0 := by
      have : (0 : Int) ≤ (((N + 1) % g.bdy.length : Nat) : Int) := by positivity
      linarith
    simp only [hs, ne_eq, not_false_eq_true, if_true, e1, e2, e3, e4, n0, m0, if_false,
      Int.toNat_ofNat, gt_iff_lt, Nat.cast_lt]
    by_cases hm : N % g.bdy.length < (N + 1) % g.bdy.length
    · rw [if_pos hm]
      exact ⟨List.rotate_eq_drop_append_take_mod.symm, rfl⟩
    · rw [if_neg hm]
      refine ⟨?_, rfl⟩
      have hr : N % g.bdy.length < g.bdy.length := Nat.mod_lt _ hspos
      have hz : (N + 1) % g.bdy.length = 0 := by
        rw [Nat.add_mod] at hm ⊢
        by_cases h1 : N % g.bdy.length + 1 % g.bdy.length < g.bdy.length
        · rw [Nat.mod_eq_of_lt h1] at hm
          have : 1 % g.bdy.length = 0 := by omega
          rw [Nat.mod_eq_of_lt h1, this] at *
          by_cases hone : g.bdy.length = 1
          · rw [hone]; omega
          · have : 1 % g.bdy.length = 1 := Nat.mod_eq_of_lt (by omega)
            omega
        · have h1le : 1 % g.bdy.length ≤ 1 := Nat.mod_le _ _
          have : N % g.bdy.length + 1 % g.bdy.length = g.bdy.length := by omega
          rw [this, Nat.mod_self]
      rw [← List.rotate_mod, hz, List.rotate_zero]

/-- C19: for a non-empty loop of size `s` and an `int` `n >= 0` whose successor `n+1` is
still an `int` (`n+1 < 2^31`, so that `int m=n+1` does not overflow), `positionSegment(n)`
rotates the vertices: the size is unchanged, the new vertex `k` is the old vertex
`(k+n+1) mod s`, so the old vertex `n mod s` is the last one and the old vertex `(n+1) mod s`
is vertex 0, and the new sequence is a rotation of the old one. -/
theorem positionSegment_rotation (g : g1boundary) (n : Int) (hs : g.bdy ≠ [])
    (hn : 0 ≤ n) (hn2 : n + 1 < 2 ^ 31) :
    (g.positionSegment n).bdy.length = g.bdy.length ∧
    (∀ k : Nat, k < g.bdy.length →
      (g.positionSegment n).bdy[k]? = g.bdy[(k + n.toNat + 1) % g.bdy.length]?) ∧
    (g.positionSegment n).bdy[g.bdy.length - 1]? = g.bdy[n.toNat % g.bdy.length]? ∧
    (g.positionSegment n).bdy[0]? = g.bdy[(n.toNat + 1) % g.bdy.length]? ∧
    List.IsRotated g.bdy (g.positionSegment n).bdy ∧
    (g.positionSegment n).inner = g.inner := by
  obtain ⟨N, rfl⟩ := Int.eq_ofNat_of_zero_le hn
  obtain ⟨hr, hi⟩ := positionSegment_eq_rotate g N (by omega)
  have hpos : 0 < g.bdy.length := List.length_pos.mpr hs
  have hidx : ∀ k : Nat, k < g.bdy.length →
      (g.positionSegment N).bdy[k]? = g.bdy[(k + (N : Int).toNat + 1) % g.bdy.length]? := by
    intro k hk
    rw [hr, List.getElem?_rotate hk, Int.toNat_ofNat, Nat.add_assoc]
  refine ⟨by rw [hr, List.length_rotate], hidx, ?_, ?_, ⟨N + 1, hr.symm⟩, hi⟩
  · rw [hidx _ (Nat.sub_lt hpos Nat.one_pos)]
    congr 1
    have e : g.bdy.length - 1 + (N : Int).toNat + 1 = (N : Int).toNat + g.bdy.length := by
      omega
    rw [e, Nat.add_mod_right]
  · rw [hidx 0 hpos, Nat.zero_add]

/-- Witness of C19: a loop of three vertices rotated at segment 4. -/
theorem positionSegment_rotation_witness :
    (⟨[⟨1, fin 0, fin 0⟩, ⟨1, fin 1, fin 0⟩, ⟨1, fin 1, fin 1⟩], false⟩ : g1boundary).bdy ≠ [] ∧
    (0 : Int) ≤ 4 ∧ (4 : Int) + 1 < 2 ^ 31 ∧
    ((⟨[⟨1, fin 0, fin 0⟩, ⟨1, fin 1, fin 0⟩, ⟨1, fin 1, fin 1⟩], false⟩ :
        g1boundary).positionSegment 4).bdy[0]? = some ⟨1, fin 1, fin 1⟩ :=
  ⟨by simp, by decide, by norm_num,
    (positionSegment_rotation ⟨[⟨1, fin 0, fin 0⟩, ⟨1, fin 1, fin 0⟩, ⟨1, fin 1, fin 1⟩], false⟩
      4 (by simp) (by decide) (by norm_num)).2.2.2.1⟩

/-- C20 (as amended): for a loop of size `s` and an index `n` with `0 <= n < s`,
`split(n, other)` leaves in `this` the first `n` vertices (the indices `0..n-1`, vertex `n`
not included) and puts in `other` the vertices from index `n` on, in their order, whatever
`other` held before; `this` followed by `other` is the original sequence. -/
theorem split_take_drop (g b : g1boundary) (n : Nat) (hn : n < g.bdy.length) :
    ∃ g1 b1 : g1boundary, g.split n b = some (g1, b1) ∧
      g1.bdy = g.bdy.take n ∧ b1.bdy = g.bdy.drop n ∧
      g1.bdy.length = n ∧ b1.bdy.length = g.bdy.length - n ∧
      g1.bdy ++ b1.bdy = g.bdy ∧
      (∀ k : Nat, k < n → g1.bdy[k]? = g.bdy[k]?) ∧
      (∀ k : Nat, b1.bdy[k]? = g.bdy[n + k]?) ∧
      g1.inner = g.inner ∧ b1.inner = b.inner := by
  have hs : g.bdy.length ≠ 0 := by omega
  have e1 : Int.tmod (n : Int) (g.bdy.length : Int) = (n : Int) :=
    Int.tmod_eq_of_lt (Int.natCast_nonneg n) (by exact_mod_cast hn)
  have e2 : ¬ (n : Int) < 0 := not_lt.mpr (Int.natCast_nonneg n)
  refine ⟨{ g with bdy := g.bdy.take n }, { b with bdy := g.bdy.drop n }, ?_, rfl, rfl, ?_, ?_,
    ?_, ?_, ?_, rfl, rfl⟩
  · simp only [g1boundary.split, hs, if_false, e1, e2, Int.toNat_ofNat]
  · simp only [List.length_take]
    omega
  · simp only [List.length_drop]
  · exact List.take_append_drop n g.bdy
  · intro k hk
    simp only [List.getElem?_take, hk, if_true]
  · intro k
    simp only [List.getElem?_drop]

/-- Witness of C20 (as amended): a loop of three vertices split at 1. -/
theorem split_take_drop_witness :
    (1 : Nat) < (⟨[⟨1, fin 0, fin 0⟩, ⟨1, fin 1, fin 0⟩, ⟨1, fin 1, fin 1⟩], false⟩ :
      g1boundary).bdy.length ∧
    ∃ g1 b1 : g1boundary,
      (⟨[⟨1, fin 0, fin 0⟩, ⟨1, fin 1, fin 0⟩, ⟨1, fin 1, fin 1⟩], false⟩ : g1boundary).split
        (1 : Nat) ⟨[⟨2, fin 0, fin 0⟩], true⟩ = some (g1, b1) ∧
      g1.bdy = [⟨1, fin 0, fin 0⟩] ∧ b1.bdy = [⟨1, fin 1, fin 0⟩, ⟨1, fin 1, fin 1⟩] := by
  refine ⟨by simp, ?_⟩
  obtain ⟨g1, b1, h, h1, h2, _⟩ :=
    split_take_drop ⟨[⟨1, fin 0, fin 0⟩, ⟨1, fin 1, fin 0⟩, ⟨1, fin 1, fin 1⟩], false⟩
      ⟨[⟨2, fin 0, fin 0⟩], true⟩ 1 (by simp)
  exact ⟨g1, b1, h, h1, h2⟩

/-- C20 (as stated) fails: splitting the loop `v0, v1, v2` at `n = 1` leaves only `v0` in
`this`, not the vertices up to and including vertex 1, and puts `v1, v2` in `other`. -/
theorem split_excludes_vertex_n :
    (⟨[⟨1, fin 0, fin 0⟩, ⟨1, fin 1, fin 0⟩, ⟨1, fin 1, fin 1⟩], false⟩ : g1boundary).split 1
        ⟨[], false⟩ =
      some (⟨[⟨1, fin 0, fin 0⟩], false⟩, ⟨[⟨1, fin 1, fin 0⟩, ⟨1, fin 1, fin 1⟩], false⟩) ∧
    ([⟨1, fin 0, fin 0⟩] : List vball) ≠ [⟨1, fin 0, fin 0⟩, ⟨1, fin 1, fin 0⟩] := by
  constructor
  · rfl
  · simp

/-- A natural number has no bit that it does not have. -/
theorem nat_ldiff_self (k : Nat) : Nat.ldiff k k = 0 := by
  apply Nat.eq_of_testBit_eq
  intro i
  rw [Nat.testBit_ldiff, Nat.zero_testBit]
  cases Nat.testBit k i <;> rfl

/-- The lowest set bit `n & -n` of an odd number is 1. -/
theorem land_neg_odd (m : Nat) : Int.land ((2 * m + 1 : Nat) : Int) (-((2 * m + 1 : Nat) : Int)) = 1 := by
  have h1 : ((2 * m + 1 : Nat) : Int) = Int.bit true (m : Int) := by
    rw [Int.bit_val]; push_cast; simp
  have h2 : -((2 * m + 1 : Nat) : Int) = Int.bit true (Int.lnot (m : Int)) := by
    rw [Int.bit_val]
    show _ = 2 * Int.negSucc m + _
    rw [Int.negSucc_eq]; push_cast; simp; ring
  rw [h2, h1, Int.land_bit]
  have h3 : Int.land (m : Int) (Int.lnot (m : Int)) = 0 := by
    show ((Nat.ldiff m m : Nat) : Int) = 0
    rw [nat_ldiff_self]; rfl
  rw [h3]
  rfl

/-- The lowest set bit of `2n` is twice that of `n`. -/
theorem land_neg_double (n : Int) : Int.land (2 * n) (-(2 * n)) = 2 * Int.land n (-n) := by
  have h1 : 2 * n = Int.bit false n := by rw [Int.bit_val]; simp
  have h2 : -(2 * n) = Int.bit false (-n) := by rw [Int.bit_val]; simp
  rw [h2, h1, Int.land_bit, Int.bit_val]
  simp

/-- The lowest set bit `n & -n` of `r * 2^t` with `r` odd is `2^t`. -/
theorem land_neg_lowbit (r t : Nat) (hr : r % 2 = 1) :
    Int.land (((r * 2 ^ t : Nat)) : Int) (-((r * 2 ^ t : Nat) : Int)) = 2 ^ t := by
  induction t with
  | zero =>
    have : r = 2 * (r / 2) + 1 := by omega
    rw [pow_zero, mul_one, this]
    exact land_neg_odd _
  | succ t ih =>
    have : ((r * 2 ^ (t + 1) : Nat) : Int) = 2 * ((r * 2 ^ t : Nat) : Int) := by
      push_cast; ring
    rw [this, land_neg_double, ih]
    ring

/-- The table `log29` gives the exponent of a power of 2 below `2^24` from its remainder
modulo 29. -/
theorem log29_pow (t : Nat) (ht : t < 24) :
    log29.getD (Int.tmod (2 ^ t) 29).toNat 0 = t := by
  interval_cases t <;> rfl

/-- An odd natural number over `2^j`, `j >= 1`, is not an integer. -/
theorem dyadic_not_int (a j : Nat) (ha : a % 2 = 1) (hj : 1 ≤ j) (z : Int) :
    (a : ℚ) / 2 ^ j ≠ z := by
  intro h
  obtain ⟨j1, rfl⟩ : ∃ j1, j = j1 + 1 := ⟨j - 1, by omega⟩
  have hp : (2 : ℚ) ^ (j1 + 1) ≠ 0 := pow_ne_zero _ (by norm_num)
  rw [div_eq_iff hp] at h
  have h2 : ((a : Int) : ℚ) = ((2 * (z * 2 ^ j1) : Int) : ℚ) := by
    push_cast
    rw [h, pow_succ]
    ring
  have h3 : (a : Int) = 2 * (z * 2 ^ j1) := by exact_mod_cast h2
  omega

/-- Truncating an integer gives it back. -/
theorem truncRat_intCast (z : Int) : truncRat (z : ℚ) = z := by
  unfold truncRat
  split_ifs
  · exact Int.floor_intCast z
  · exact Int.ceil_intCast z

/-- The fractional part of `a/2^j` times `2^24`, as the loop of `splitLevel` computes it. -/
theorem frac_dyadic (a j : Nat) :
    ((a : ℚ) / 2 ^ j - truncRat ((a : ℚ) / 2 ^ j)) * 16777216
      = ((a % 2 ^ j : Nat) : ℚ) * 2 ^ 24 / 2 ^ j := by
  have hp : (2 : ℚ) ^ j ≠ 0 := pow_ne_zero _ (by norm_num)
  have hnn : (0 : ℚ) ≤ (a : ℚ) / 2 ^ j := by positivity
  have hfl : ⌊(a : ℚ) / 2 ^ j⌋ = ((a / 2 ^ j : Nat) : Int) := by
    have := Rat.floor_natCast_div_natCast a (2 ^ j)
    rw [Int.natCast_div]
    simpa only [Nat.cast_pow, Nat.cast_ofNat] using this
  unfold truncRat
  rw [if_pos hnn, hfl, Int.cast_natCast]
  have hdm : (a : ℚ) = 2 ^ j * ((a / 2 ^ j : Nat) : ℚ) + ((a % 2 ^ j : Nat) : ℚ) := by
    have : (a : ℚ) = ((2 ^ j * (a / 2 ^ j) + a % 2 ^ j : Nat) : ℚ) := by
      rw [Nat.div_add_mod]
    rw [this]
    simp only [Nat.cast_add, Nat.cast_mul, Nat.cast_pow, Nat.cast_ofNat]
  generalize ((a / 2 ^ j : Nat) : ℚ) = q at hdm ⊢
  generalize ((a % 2 ^ j : Nat) : ℚ) = r at hdm ⊢
  rw [hdm, add_div, mul_div_cancel_left₀ q hp, add_sub_cancel_left]
  norm_num
  ring


/-- The remainder of an odd number modulo `2^j`, `j >= 1`, is odd. -/
theorem mod_pow_two_odd (a j : Nat) (ha : a % 2 = 1) (hj : 1 ≤ j) : (a % 2 ^ j) % 2 = 1 := by
  have hd : 2 ∣ 2 ^ j := dvd_pow_self 2 (by omega)
  rw [Nat.mod_mod_of_dvd a hd]
  exact ha

/-- One iteration of the loop on a finite value. -/
theorem splitLevelLoop_succ_fin (fuel : Nat) (x : ℚ) (n i : Int) (hx : x ≠ n) :
    splitLevelLoop (fuel + 1) (fin x) n i =
      splitLevelLoop fuel (fin ((x - truncRat x) * 16777216))
        (truncRat (roundHalfEven ((x - truncRat x) * 16777216))) (i + 1) := by
  have h : double.eq (fin x) (ofInt n) = false := by
    simp [ofInt, hx]
  rw [splitLevelLoop, h]
  simp only [Bool.not_false, if_true, double.trunc, double.rint, double.toInt, fin_sub, fin_mul,
    ofNat_def, Nat.cast_ofNat]

/-- The loop stops on an integer value equal to `n`. -/
theorem splitLevelLoop_stop (fuel : Nat) (n i : Int) :
    splitLevelLoop (fuel + 1) (fin n) n i = some (n, i) := by
  have h : double.eq (fin (n : ℚ)) (ofInt n) = true := by
    simp [ofInt]
  rw [splitLevelLoop, h]
  simp

/-- The loop of `splitLevel` on `a/2^j` with `a` odd and `j >= 1` stops when the fuel exceeds
`j`, and the value computed from its result is `24*i + j + 1`. -/
theorem splitLevelLoop_dyadic (j : Nat) :
    ∀ (a : Nat) (n i : Int) (fuel : Nat), 1 ≤ j → a % 2 = 1 → j < fuel →
      ∃ nf il : Int, splitLevelLoop fuel (fin ((a : ℚ) / 2 ^ j)) n i = some (nf, il) ∧
        il * 24 - log29.getD (Int.tmod (Int.land nf (-nf)) 29).toNat 0 + 1 = i * 24 + j + 1 := by
  induction j using Nat.strong_induction_on with
  | _ j ih =>
    intro a n i fuel hj ha hfuel
    obtain ⟨fuel1, rfl⟩ : ∃ f, fuel = f + 1 := ⟨fuel - 1, by omega⟩
    rw [splitLevelLoop_succ_fin _ _ _ _ (dyadic_not_int a j ha hj n), frac_dyadic]
    have hr := mod_pow_two_odd a j ha hj
    by_cases h24 : j ≤ 24
    · obtain ⟨fuel2, rfl⟩ : ∃ f, fuel1 = f + 1 := ⟨fuel1 - 1, by omega⟩
      have hval : ((a % 2 ^ j : Nat) : ℚ) * 2 ^ 24 / 2 ^ j
          = (((a % 2 ^ j * 2 ^ (24 - j) : Nat) : Int) : ℚ) := by
        have hp : (2 : ℚ) ^ j ≠ 0 := pow_ne_zero _ (by norm_num)
        have e : (2 : ℚ) ^ 24 = 2 ^ (24 - j) * 2 ^ j := by
          rw [← pow_add]
          congr 1
          omega
        rw [Int.cast_natCast, Nat.cast_mul, Nat.cast_pow, Nat.cast_ofNat, e]
        field_simp
        ring
      rw [hval, roundHalfEven_intCast, truncRat_intCast, splitLevelLoop_stop]
      refine ⟨_, _, rfl, ?_⟩
      rw [land_neg_lowbit _ _ hr, log29_pow _ (by omega)]
      push_cast [Nat.cast_sub h24]
      ring
    · have hj2 : 24 < j := by omega
      have hval : ((a % 2 ^ j : Nat) : ℚ) * 2 ^ 24 / 2 ^ j
          = ((a % 2 ^ j : Nat) : ℚ) / 2 ^ (j - 24) := by
        have e : (2 : ℚ) ^ j = 2 ^ (j - 24) * 2 ^ 24 := by
          rw [← pow_add]
          congr 1
          omega
        rw [e]
        field_simp
        ring
      rw [hval]
      obtain ⟨nf, il, h1, h2⟩ := ih (j - 24) (by omega) (a % 2 ^ j)
        (truncRat (roundHalfEven (((a % 2 ^ j : Nat) : ℚ) / 2 ^ (j - 24)))) (i + 1) fuel1
        (by omega) hr (by omega)
      refine ⟨nf, il, h1, ?_⟩
      rw [h2]
      push_cast [Nat.cast_sub (le_of_lt hj2)]
      ring


/-- `splitLevel` of an integer value. -/
theorem splitLevel_intCast (fuel : Nat) (z : Int) :
    splitLevel fuel (fin z) = some (if z = 0 then 1 else 0) := by
  have h : double.eq (fin (z : ℚ)) (fin (z : ℚ)).rint = true := by
    simp [double.rint, roundHalfEven_intCast]
  rw [splitLevel, h]
  by_cases hz : z = 0 <;> simp [hz, boolToInt]

/-- `splitLevel` of `m/2^k` with `m` odd and `k >= 1`. -/
theorem splitLevel_odd_div_pow (m : Int) (k fuel : Nat) (hm : m % 2 = 1) (hk : 1 ≤ k)
    (hfuel : k < fuel) : splitLevel fuel (fin ((m : ℚ) / 2 ^ k)) = some ((k : Int) + 1) := by
  have hodd : m.natAbs % 2 = 1 := by omega
  have habs : |(m : ℚ) / 2 ^ k| = (m.natAbs : ℚ) / 2 ^ k := by
    rw [abs_div, abs_of_pos (by positivity : (0 : ℚ) < 2 ^ k), Nat.cast_natAbs, Int.cast_abs]
  have hni : ∀ z : Int, (m : ℚ) / 2 ^ k ≠ z := by
    intro z hz
    have h1 := dyadic_not_int m.natAbs k hodd hk |z|
    apply h1
    rw [← habs, hz, Int.cast_abs]
  have h : double.eq (fin ((m : ℚ) / 2 ^ k)) (fin ((m : ℚ) / 2 ^ k)).rint = false := by
    simp [double.rint, hni]
  obtain ⟨nf, il, h1, h2⟩ := splitLevelLoop_dyadic k m.natAbs (-1) 0 fuel hk hodd hfuel
  rw [splitLevel, h]
  simp only [Bool.false_eq_true, if_false, fabs_fin, habs, h1, h2]
  simp


/-- An odd integer over `2^j`, `j >= 1`, is not an integer. -/
theorem dyadic_not_int_of_int (a : Int) (j : Nat) (ha : a % 2 = 1) (hj : 1 ≤ j) (z : Int) :
    (a : ℚ) / 2 ^ j ≠ z := by
  intro h
  obtain ⟨j1, rfl⟩ : ∃ j1, j = j1 + 1 := ⟨j - 1, by omega⟩
  have hp : (2 : ℚ) ^ (j1 + 1) ≠ 0 := pow_ne_zero _ (by norm_num)
  rw [div_eq_iff hp] at h
  have h2 : (a : ℚ) = ((2 * (z * 2 ^ j1) : Int) : ℚ) := by
    push_cast
    rw [h, pow_succ]
    ring
  have h3 : a = 2 * (z * 2 ^ j1) := by exact_mod_cast h2
  omega

/-- Every `m/2^k` is an integer or `m1/2^k1` with `m1` odd and `1 <= k1 <= k`. -/
theorem dyadic_canonical (k : Nat) : ∀ m : Int,
    (∃ z : Int, (m : ℚ) / 2 ^ k = z) ∨
    ∃ (m1 : Int) (k1 : Nat), m1 % 2 = 1 ∧ 1 ≤ k1 ∧ k1 ≤ k ∧ (m : ℚ) / 2 ^ k = m1 / 2 ^ k1 := by
  induction k with
  | zero =>
    intro m
    exact Or.inl ⟨m, by simp⟩
  | succ k ih =>
    intro m
    by_cases hm : m % 2 = 1
    · exact Or.inr ⟨m, k + 1, hm, by omega, le_refl _, rfl⟩
    · obtain ⟨m2, rfl⟩ : ∃ m2, m = 2 * m2 := ⟨m / 2, by omega⟩
      have e : ((2 * m2 : Int) : ℚ) / 2 ^ (k + 1) = (m2 : ℚ) / 2 ^ k := by
        push_cast
        rw [pow_succ]
        field_simp
        ring
      rw [e]
      rcases ih m2 with h | ⟨m1, k1, h1, h2, h3, h4⟩
      · exact Or.inl h
      · exact Or.inr ⟨m1, k1, h1, h2, by omega, h4⟩

/-- For `c = m/2^k` with `m` odd and `k >= 1`, `k+1` is the least `d >= 0` with
`(c+1)*2^(d-1)` an integer. -/
theorem least_depth_odd (m : Int) (k : Nat) (hm : m % 2 = 1) (hk : 1 ≤ k) :
    (∃ z : Int, ((m : ℚ) / 2 ^ k + 1) * (2 : ℚ) ^ (((k : Int) + 1) - 1) = z) ∧
    ∀ e : Int, 0 ≤ e → e < (k : Int) + 1 →
      ¬∃ z : Int, ((m : ℚ) / 2 ^ k + 1) * (2 : ℚ) ^ (e - 1) = z := by
  have hp : (2 : ℚ) ^ k ≠ 0 := pow_ne_zero _ (by norm_num)
  constructor
  · refine ⟨m + 2 ^ k, ?_⟩
    rw [add_sub_cancel_right, zpow_natCast]
    push_cast
    field_simp
  · intro e he0 he ⟨z, hz⟩
    obtain ⟨E, rfl⟩ := Int.eq_ofNat_of_zero_le he0
    have hE : E ≤ k := by omega
    have hpow : (2 : Int) ^ k = 2 * 2 ^ (k - 1) := by
      rw [← pow_succ']
      congr 1
      omega
    have hodd : (m + 2 ^ k) % 2 = 1 := by omega
    apply dyadic_not_int_of_int (m + 2 ^ k) (k - E + 1) hodd (by omega) z
    rw [← hz, zpow_sub₀ (by norm_num : (2 : ℚ) ≠ 0), zpow_natCast, zpow_one]
    have e1 : (2 : ℚ) ^ (k - E + 1) = 2 ^ k * 2 / 2 ^ E := by
      have : (2 : ℚ) ^ k = 2 ^ (k - E) * 2 ^ E := by
        rw [← pow_add]
        congr 1
        omega
      rw [pow_succ, this]
      field_simp
      ring
    rw [e1]
    push_cast
    field_simp


/-- For a dyadic `c` in `[-1,1]` the value of `splitLevel` is the least `d >= 0` with
`(c+1)*2^(d-1)` an integer. -/
theorem splitLevel_least_depth (m : Int) (k fuel : Nat) (hfuel : k < fuel)
    (h1 : -1 ≤ (m : ℚ) / 2 ^ k) (h2 : (m : ℚ) / 2 ^ k ≤ 1) :
    ∃ d : Int, splitLevel fuel (fin ((m : ℚ) / 2 ^ k)) = some d ∧ 0 ≤ d ∧
      (∃ z : Int, ((m : ℚ) / 2 ^ k + 1) * (2 : ℚ) ^ (d - 1) = z) ∧
      ∀ e : Int, 0 ≤ e → e < d → ¬∃ z : Int, ((m : ℚ) / 2 ^ k + 1) * (2 : ℚ) ^ (e - 1) = z := by
  rcases dyadic_canonical k m with ⟨z, hz⟩ | ⟨m1, k1, hm1, hk1, hk1k, hc⟩
  · rw [hz] at h1 h2 ⊢
    have hz1 : -1 ≤ z := by exact_mod_cast h1
    have hz2 : z ≤ 1 := by exact_mod_cast h2
    rw [splitLevel_intCast]
    interval_cases z
    · refine ⟨0, by simp, le_refl _, ⟨0, by simp⟩, ?_⟩
      intro e he0 he
      omega
    · refine ⟨1, by simp, by norm_num, ⟨1, by simp⟩, ?_⟩
      intro e he0 he ⟨z, hz⟩
      have he1 : e = 0 := by omega
      subst he1
      apply dyadic_not_int_of_int 1 1 (by norm_num) (le_refl _) z
      rw [← hz]
      norm_num
    · refine ⟨0, by simp, le_refl _, ⟨1, by norm_num⟩, ?_⟩
      intro e he0 he
      omega
  · rw [hc]
    obtain ⟨ha, hb⟩ := least_depth_odd m1 k1 hm1 hk1
    exact ⟨(k1 : Int) + 1, splitLevel_odd_div_pow m1 k1 fuel hm1 hk1 (by omega),
      by positivity, ha, hb⟩

/-- C17: `splitLevel(c)` returns 1 for `c = 0`, 0 for a non-zero integer `c`, and `k+1` for
`c = m/2^k` with `m` odd and `k >= 1`, the loop stopping within `k+1` iterations; and for
every dyadic `c` in `[-1,1]` the value is the least `d >= 0` with `(c+1)*2^(d-1)` an
integer. -/
theorem splitLevel_dyadic :
    (∀ fuel : Nat, splitLevel fuel (fin 0) = some 1) ∧
    (∀ (fuel : Nat) (z : Int), z ≠ 0 → splitLevel fuel (fin z) = some 0) ∧
    (∀ (m : Int) (k fuel : Nat), m % 2 = 1 → 1 ≤ k → k < fuel →
      splitLevel fuel (fin ((m : ℚ) / 2 ^ k)) = some ((k : Int) + 1)) ∧
    (∀ (m : Int) (k fuel : Nat), k < fuel → -1 ≤ (m : ℚ) / 2 ^ k → (m : ℚ) / 2 ^ k ≤ 1 →
      ∃ d : Int, splitLevel fuel (fin ((m : ℚ) / 2 ^ k)) = some d ∧ 0 ≤ d ∧
        (∃ z : Int, ((m : ℚ) / 2 ^ k + 1) * (2 : ℚ) ^ (d - 1) = z) ∧
        ∀ e : Int, 0 ≤ e → e < d →
          ¬∃ z : Int, ((m : ℚ) / 2 ^ k + 1) * (2 : ℚ) ^ (e - 1) = z) := by
  refine ⟨?_, ?_, splitLevel_odd_div_pow, splitLevel_least_depth⟩
  · intro fuel
    have h := splitLevel_intCast fuel 0
    simpa using h
  · intro fuel z hz
    rw [splitLevel_intCast, if_neg hz]

/-- Witness of C17: `splitLevel(3/8)` is 4 and `splitLevel(-1/2)` is 2. -/
theorem splitLevel_dyadic_witness :
    splitLevel 4 (fin (((3 : Int) : ℚ) / 2 ^ 3)) = some ((3 : Nat) + 1 : Int) ∧
    splitLevel 2 (fin (((-1 : Int) : ℚ) / 2 ^ 1)) = some ((1 : Nat) + 1 : Int) :=
  ⟨splitLevel_dyadic.2.2.1 3 3 4 (by decide) (by decide) (by decide),
    splitLevel_dyadic.2.2.1 (-1) 1 2 (by decide) (by decide) (by decide)⟩

/-- The entry of `vballcompare` for one face among 1 to 6 is 66. -/
theorem vballcompareAt_same (f : Int) (hf : 1 ≤ f ∧ f ≤ 6) : vballcompareAt f f = 66 := by
  obtain ⟨h1, h2⟩ := hf
  interval_cases f <;> rfl

/-- The function `sameEdge` on two points of one face. -/
theorem sameEdge_on_face (f : Int) (hf : 1 ≤ f ∧ f ≤ 6) (ax ay bx by_ : double) :
    sameEdge ⟨f, ax, ay⟩ ⟨f, bx, by_⟩ = (double.eq ax bx || double.eq ay by_) := by
  simp only [sameEdge, vballcompareAt_same f hf]

/-- The operator `==` on two points of one face. -/
theorem vball_eq_on_face (f : Int) (hf : 1 ≤ f ∧ f ≤ 6) (ax ay bx by_ : double) :
    vball.eq ⟨f, ax, ay⟩ ⟨f, bx, by_⟩ = (cmpeq ax bx && cmpeq ay by_) := by
  simp only [vball.eq, vballcompareAt_same f hf]

/-- Moving a point to the face it is on changes nothing. -/
theorem moveToFace_on_face (f : Int) (hf : 1 ≤ f ∧ f ≤ 6) (x y : double) :
    moveToFace ⟨f, x, y⟩ f = some ⟨f, x, y⟩ := by
  simp [moveToFace, vballcompareAt_same f hf]

/-- The macro `cmpeq` on finite values. -/
theorem cmpeq_fin (a b : ℚ) : cmpeq (fin a) (fin b) = decide (|a - b| < 20 / 2 ^ 52) := by
  simp only [cmpeq, VBTOLER, fin_sub, fabs_fin, lt_fin]

/-- The value of `overlap` on two segments whose four ends have finite coordinates on one
face among 1 to 6. -/
theorem overlap_on_face (f : Int) (hf : 1 ≤ f ∧ f ≤ 6) (x1 y1 x2 y2 x3 y3 x4 y4 : ℚ) :
    overlap ⟨⟨f, fin x1, fin y1⟩, ⟨f, fin x2, fin y2⟩⟩ ⟨⟨f, fin x3, fin y3⟩, ⟨f, fin x4, fin y4⟩⟩ =
      some
        (((decide (x1 = x3) || decide (y1 = y3)) && (decide (x1 = x4) || decide (y1 = y4)) &&
            (decide (x2 = x3) || decide (y2 = y3)) && (decide (x2 = x4) || decide (y2 = y4)) &&
            decide (|x1 + y1 - (x4 + y4)| + |x3 + y3 - (x2 + y2)|
              < |x1 + y1 - (x2 + y2)| + |x3 + y3 - (x4 + y4)|)) ||
          (decide (|x1 - x4| < 20 / 2 ^ 52) && decide (|y1 - y4| < 20 / 2 ^ 52) &&
            (decide (|x3 - x2| < 20 / 2 ^ 52) && decide (|y3 - y2| < 20 / 2 ^ 52)))) := by
  simp only [overlap, sameEdge_on_face f hf, vball_eq_on_face f hf, moveToFace_on_face f hf,
    cmpeq_fin, eq_fin, vball.diag, fin_add, fin_sub, fabs_fin, gt_fin]
  by_cases h : ((decide (x1 = x3) || decide (y1 = y3)) && (decide (x1 = x4) || decide (y1 = y4)) &&
            (decide (x2 = x3) || decide (y2 = y3)) && (decide (x2 = x4) || decide (y2 = y4))) = true
  · simp only [h, if_true, Bool.true_and]
  · simp only [h, if_false, Bool.false_and, Bool.false_or]
    simp

/-- A bound on a sum of two absolute values, as four linear bounds. -/
theorem abs_add_abs_lt_iff (x y L : ℚ) :
    |x| + |y| < L ↔ (x + y < L ∧ x - y < L) ∧ (-x + y < L ∧ -x - y < L) := by
  constructor
  · intro h
    have h1 := le_abs_self x
    have h2 := neg_abs_le x
    have h3 := le_abs_self y
    have h4 := neg_abs_le y
    refine ⟨⟨?_, ?_⟩, ?_, ?_⟩ <;> linarith
  · rintro ⟨⟨a, b⟩, c, d⟩
    rcases abs_cases x with ⟨e1, _⟩ | ⟨e1, _⟩ <;> rcases abs_cases y with ⟨e2, _⟩ | ⟨e2, _⟩ <;>
      rw [e1, e2] <;> linarith

/-- The comparison made by `overlap`, on a line: with both segments at least `tol` long, it
holds exactly when the segments run in opposite directions and their interiors meet. -/
theorem overlap_line_arith (s1 e1 s2 e2 tol : ℚ) (htol : 0 < tol)
    (ha : tol ≤ |s1 - e1|) (hb : tol ≤ |s2 - e2|) :
    (|s1 - e2| + |s2 - e1| < |s1 - e1| + |s2 - e2| ∨ (|s1 - e2| < tol ∧ |s2 - e1| < tol)) ↔
      ((s1 < e1 ∧ e2 < s2 ∧ s1 < s2 ∧ e2 < e1) ∨ (e1 < s1 ∧ s2 < e2 ∧ e1 < e2 ∧ s2 < s1)) := by
  rcases abs_cases (s1 - e1) with ⟨a1, a2⟩ | ⟨a1, a2⟩ <;>
    rcases abs_cases (s2 - e2) with ⟨b1, b2⟩ | ⟨b1, b2⟩ <;>
    rw [a1] at ha ⊢ <;> rw [b1] at hb ⊢ <;> rw [abs_add_abs_lt_iff, abs_lt, abs_lt] <;>
    constructor
  · rintro (⟨⟨h1, h2⟩, h3, h4⟩ | ⟨⟨h1, h2⟩, h3, h4⟩) <;> exfalso <;> linarith
  · rintro (⟨p1, p2, p3, p4⟩ | ⟨p1, p2, p3, p4⟩) <;> exfalso <;> linarith
  · rintro (⟨⟨h1, h2⟩, h3, h4⟩ | ⟨⟨h1, h2⟩, h3, h4⟩) <;> right <;>
      refine ⟨?_, ?_, ?_, ?_⟩ <;> linarith
  · rintro (⟨p1, p2, p3, p4⟩ | ⟨p1, p2, p3, p4⟩)
    · exfalso; linarith
    · left
      refine ⟨⟨?_, ?_⟩, ?_, ?_⟩ <;> linarith
  · rintro (⟨⟨h1, h2⟩, h3, h4⟩ | ⟨⟨h1, h2⟩, h3, h4⟩) <;> left <;>
      refine ⟨?_, ?_, ?_, ?_⟩ <;> linarith
  · rintro (⟨p1, p2, p3, p4⟩ | ⟨p1, p2, p3, p4⟩)
    · left
      refine ⟨⟨?_, ?_⟩, ?_, ?_⟩ <;> linarith
    · exfalso; linarith
  · rintro (⟨⟨h1, h2⟩, h3, h4⟩ | ⟨⟨h1, h2⟩, h3, h4⟩) <;> exfalso <;> linarith
  · rintro (⟨p1, p2, p3, p4⟩ | ⟨p1, p2, p3, p4⟩) <;> exfalso <;> linarith

/-- C16 fails on the code: on face 1, `overlap` is true for the segments from `(0,0)` to
`(1,1/2)` and from `(1,0)` to `(0,1/2)`, the two diagonals of a rectangle, whose four ends
are on no common line. -/
theorem overlap_rectangle_diagonals :
    overlap ⟨⟨1, fin 0, fin 0⟩, ⟨1, fin 1, fin (1 / 2)⟩⟩
      ⟨⟨1, fin 1, fin 0⟩, ⟨1, fin 0, fin (1 / 2)⟩⟩ = some true ∧
    ¬∃ p q r : ℚ, (p ≠ 0 ∨ q ≠ 0) ∧ p * 0 + q * 0 = r ∧ p * 1 + q * (1 / 2) = r ∧
      p * 1 + q * 0 = r ∧ p * 0 + q * (1 / 2) = r := by
  constructor
  · rw [overlap_on_face 1 (by decide)]
    norm_num [abs_of_nonneg, abs_of_nonpos]
  · rintro ⟨p, q, r, h0, h1, h2, h3, h4⟩
    have hp : p = 0 := by linarith
    have hq : q = 0 := by linarith
    rcases h0 with h | h
    · exact h hp
    · exact h hq

/-- C18 (as amended): for a segment with both ends on one face, `splitLevel` is the level of
the shared `x` coordinate when the `x` coordinates are equal, else the level of the shared
`y` coordinate when the `y` coordinates are equal, else -1; for ends on different faces it
is 0 when `sameEdge` holds and -1 otherwise. -/
theorem splitLevelSegment_cases (fuel : Nat) (v : vsegment) :
    (v.start.face = v.end_.face → double.eq v.start.x v.end_.x = true →
      splitLevelSegment fuel v = splitLevel fuel v.start.x) ∧
    (v.start.face = v.end_.face → double.eq v.start.x v.end_.x = false →
      double.eq v.start.y v.end_.y = true →
      splitLevelSegment fuel v = splitLevel fuel v.start.y) ∧
    (v.start.face = v.end_.face → double.eq v.start.x v.end_.x = false →
      double.eq v.start.y v.end_.y = false → splitLevelSegment fuel v = some (-1)) ∧
    (v.start.face ≠ v.end_.face → sameEdge v.start v.end_ = true →
      splitLevelSegment fuel v = some 0) ∧
    (v.start.face ≠ v.end_.face → sameEdge v.start v.end_ = false →
      splitLevelSegment fuel v = some (-1)) := by
  refine ⟨?_, ?_, ?_, ?_, ?_⟩
  · intro h1 h2
    simp [splitLevelSegment, h1, h2]
  · intro h1 h2 h3
    simp [splitLevelSegment, h1, h2, h3]
  · intro h1 h2 h3
    simp [splitLevelSegment, h1, h2, h3]
  · intro h1 h2
    simp [splitLevelSegment, h1, h2]
  · intro h1 h2
    simp [splitLevelSegment, h1, h2]

/-- Witness of C18 (as amended): the vertical segment from `(1/2,0)` to `(1/2,1)` on face 1
has the level of its `x` coordinate. -/
theorem splitLevelSegment_cases_witness :
    splitLevelSegment 2 ⟨⟨1, fin (1 / 2), fin 0⟩, ⟨1, fin (1 / 2), fin 1⟩⟩
      = splitLevel 2 (fin (1 / 2)) :=
  (splitLevelSegment_cases 2 ⟨⟨1, fin (1 / 2), fin 0⟩, ⟨1, fin (1 / 2), fin 1⟩⟩).1 rfl
    (by simp)

/-- C18 (as stated) fails: the vertical segment from `(1/2,0)` to `(1/2,1)` on face 1 has
`splitLevel` 2, the level of `x = 1/2`, while its two ends have the levels 1 and 0, whose
minimum is 0. -/
theorem splitLevelSegment_not_min :
    splitLevelSegment 2 ⟨⟨1, fin (1 / 2), fin 0⟩, ⟨1, fin (1 / 2), fin 1⟩⟩ = some 2 ∧
    splitLevelVball 2 ⟨1, fin (1 / 2), fin 0⟩ = some 1 ∧
    splitLevelVball 2 ⟨1, fin (1 / 2), fin 1⟩ = some 0 := by
  have e : (1 / 2 : ℚ) = ((1 : Int) : ℚ) / 2 ^ 1 := by norm_num
  have hhalf : splitLevel 2 (fin (1 / 2)) = some 2 := by
    rw [e, splitLevel_odd_div_pow 1 1 2 (by decide) (by decide) (by decide)]
    rfl
  have hzero : splitLevel 2 (fin 0) = some 1 := by
    have h := splitLevel_intCast 2 0
    simpa using h
  have hone : splitLevel 2 (fin 1) = some 0 := by
    have h := splitLevel_intCast 2 1
    simpa using h
  have hinv : splitLevel 2 (fin 2⁻¹) = some 2 := by
    rw [← one_div]
    exact hhalf
  refine ⟨?_, ?_, ?_⟩
  · simp [splitLevelSegment, hinv]
  · simp [splitLevelVball, hinv, hzero]
  · simp [splitLevelVball, hinv, hone]

/-! ## Loop surgery: `splice`, `split`, `halve` -/

/-- The list `drop k ++ take k` is a rotation. -/
theorem drop_append_take_isRotated {α : Type} (l : List α) (k : Nat) :
    (l.drop k ++ l.take k) ~r l := by
  by_cases hle : k ≤ l.length
  · rw [← List.rotate_eq_drop_append_take hle]
    exact (List.IsRotated.symm ⟨k, rfl⟩)
  · have h1 : l.length ≤ k := by omega
    rw [List.drop_eq_nil_of_le h1, List.take_of_length_le h1, List.nil_append]

/-- For every `int` index, `positionSegment` leaves a rotation of the vertex list. -/
theorem positionSegment_isRotated (g : g1boundary) (n : Int) :
    (g.positionSegment n).bdy ~r g.bdy ∧ (g.positionSegment n).inner = g.inner := by
  unfold g1boundary.positionSegment
  simp only []
  split_ifs <;>
    first
    | exact ⟨List.IsRotated.refl _, rfl⟩
    | exact ⟨drop_append_take_isRotated _ _, rfl⟩

/-- The method `positionSegment` keeps the number of vertices. -/
theorem positionSegment_length (g : g1boundary) (n : Int) :
    (g.positionSegment n).bdy.length = g.bdy.length :=
  (positionSegment_isRotated g n).1.perm.length_eq

/-- After `a.splice(b)` with `b` non-empty, `a.split(p,c)` with `p` the old size of `a`
gives back `a` and the vertices of `b`. -/
theorem splice_split (a b c : g1boundary) (hb : b.bdy ≠ []) :
    (a.splice b).2.bdy = [] ∧ (a.splice b).1.size = a.size + b.size ∧
    (∃ a2 c2, (a.splice b).1.split a.size c = some (a2, c2) ∧ a2 = a ∧ c2.bdy = b.bdy) := by
  have hq : 0 < b.bdy.length := List.length_pos.mpr hb
  refine ⟨rfl, ?_, ?_⟩
  · simp [g1boundary.splice, g1boundary.size]
  · have hlen : (a.bdy ++ b.bdy).length ≠ 0 := by simp; intro; exact hb
    have htm : Int.tmod (a.bdy.length : Int) ((a.bdy ++ b.bdy).length : Int) = a.bdy.length := by
      apply Int.tmod_eq_of_lt (Int.natCast_nonneg _)
      simp only [List.length_append, Nat.cast_add]
      have : (0 : Int) < b.bdy.length := by exact_mod_cast hq
      linarith
    have hn : ¬ ((a.bdy.length : Int) < 0) := by
      have := Int.natCast_nonneg a.bdy.length
      linarith
    simp only [g1boundary.splice, g1boundary.split, g1boundary.size, hlen, if_false, htm, hn,
      Int.toNat_ofNat, List.take_left', List.drop_left', Option.some.injEq, Prod.mk.injEq]
    exact ⟨a, { c with bdy := b.bdy }, ⟨rfl, rfl⟩, rfl, rfl⟩

/-- C21. For a non-empty loop `b` (and any loop `a`, of size `p`): after `a.splice(b)` the
loop `b` is empty and `a` has `p+q` vertices, and `a.split(p,c)` then leaves `a` as it was
and puts the vertices of the old `b` in `c`. After the positioned form `a.splice(m,b,n)`
the same split leaves rotations of the old `a` and `b`. -/
theorem splice_then_split_reconstructs (a b c : g1boundary) (hb : b.bdy ≠ []) :
    ((a.splice b).2.bdy = [] ∧ (a.splice b).1.size = a.size + b.size ∧
      ∃ a2 c2, (a.splice b).1.split a.size c = some (a2, c2) ∧ a2 = a ∧ c2.bdy = b.bdy) ∧
    ∀ m n : Int, (a.splice3 m b n).2.bdy = [] ∧ (a.splice3 m b n).1.size = a.size + b.size ∧
      ∃ a2 c2, (a.splice3 m b n).1.split a.size c = some (a2, c2) ∧
        a2.bdy ~r a.bdy ∧ c2.bdy ~r b.bdy := by
  refine ⟨splice_split a b c hb, fun m n => ?_⟩
  have hb2 : (b.positionSegment n).bdy ≠ [] := by
    intro h
    have := positionSegment_length b n
    rw [h] at this
    exact hb (List.length_eq_zero.mp this.symm)
  have hsz : (a.positionSegment m).size = a.size := by
    simp [g1boundary.size, positionSegment_length]
  have hszb : (b.positionSegment n).size = b.size := by
    simp [g1boundary.size, positionSegment_length]
  obtain ⟨h1, h2, a2, c2, h3, h4, h5⟩ :=
    splice_split (a.positionSegment m) (b.positionSegment n) c hb2
  refine ⟨h1, ?_, a2, c2, ?_, ?_, ?_⟩
  · rw [← hsz, ← hszb]; exact h2
  · rw [← hsz]; exact h3
  · rw [h4]; exact (positionSegment_isRotated a m).1
  · rw [h5]; exact (positionSegment_isRotated b n).1

/-- Witness for C21: a two-vertex loop spliced with a one-vertex loop. -/
theorem splice_then_split_reconstructs_witness :
    (⟨[⟨1, 1, 1⟩], false⟩ : g1boundary).bdy ≠ [] ∧
    ∃ a2 c2, ((⟨[⟨1, 0, 0⟩, ⟨1, 1, 0⟩], false⟩ : g1boundary).splice
        ⟨[⟨1, 1, 1⟩], false⟩).1.split
        (⟨[⟨1, 0, 0⟩, ⟨1, 1, 0⟩], false⟩ : g1boundary).size ⟨[], false⟩ = some (a2, c2) ∧
      a2 = ⟨[⟨1, 0, 0⟩, ⟨1, 1, 0⟩], false⟩ ∧
      c2.bdy = (⟨[⟨1, 1, 1⟩], false⟩ : g1boundary).bdy :=
  ⟨by simp, (splice_then_split_reconstructs
      ⟨[⟨1, 0, 0⟩, ⟨1, 1, 0⟩], false⟩ ⟨[⟨1, 1, 1⟩], false⟩ ⟨[], false⟩ (by simp)).1.2.2⟩

/-- The truncated remainder by a positive number is above minus that number. -/
theorem neg_lt_tmod (n s : Int) (hs : 0 < s) : -s < Int.tmod n s := by
  cases n with
  | ofNat a =>
    have : 0 ≤ Int.tmod (Int.ofNat a) s := Int.tmod_nonneg s (Int.natCast_nonneg a)
    linarith
  | negSucc a =>
    obtain ⟨t, rfl⟩ := Int.eq_ofNat_of_zero_le hs.le
    have ht : 0 < t := by exact_mod_cast hs
    show -(t : Int) < -Int.ofNat ((a + 1) % t)
    have : (a + 1) % t < t := Nat.mod_lt _ ht
    have h2 : (((a + 1) % t : Nat) : Int) < t := by exact_mod_cast this
    have h3 : Int.ofNat ((a + 1) % t) = (((a + 1) % t : Nat) : Int) := rfl
    rw [h3]
    linarith

/-- The remainder of `n%=(signed)size; if (n<0) n+=size;` is the mathematical remainder. -/
theorem tmod_fix (n s : Int) (hs : 0 < s) :
    (if Int.tmod n s < 0 then Int.tmod n s + s else Int.tmod n s) = n % s := by
  have h1 := neg_lt_tmod n s hs
  have h2 := Int.tmod_lt_of_pos n hs
  have h3 : n = Int.tmod n s + s * Int.tdiv n s := (Int.tmod_add_tdiv n s).symm
  split_ifs with h
  · have e : n = (Int.tmod n s + s) + s * (Int.tdiv n s - 1) := by linarith
    conv_rhs => rw [e, Int.add_mul_emod_self_left]
    exact (Int.emod_eq_of_lt (by linarith) (by linarith)).symm
  · conv_rhs => rw [h3, Int.add_mul_emod_self_left]
    exact (Int.emod_eq_of_lt (by linarith) h2).symm

/-- The method `split(n,b)` cuts at the mathematical remainder of `n` by the size. -/
theorem split_emod (g b : g1boundary) (n : Int) (hs : g.bdy ≠ []) :
    g.split n b = some
      (⟨g.bdy.take (n % (g.bdy.length : Int)).toNat, g.inner⟩,
       ⟨g.bdy.drop (n % (g.bdy.length : Int)).toNat, b.inner⟩) := by
  have hpos : 0 < g.bdy.length := List.length_pos.mpr hs
  have hs0 : g.bdy.length ≠ 0 := by omega
  have hposI : (0 : Int) < (g.bdy.length : Int) := by exact_mod_cast hpos
  unfold g1boundary.split
  simp only [hs0, if_false]
  rw [tmod_fix n _ hposI]

/-- The two loops made by `split(m,n,b)`, for indices `m`, `n` of vertices: the vertex list
rotated by `m+1` places and cut after `(n-m) mod size` vertices. -/
theorem split3_eq (g b : g1boundary) (m n : Nat) (hs : g.bdy ≠ [])
    (h31 : (m : Int) < 2 ^ 31) :
    g.split3 m n b = some
      (⟨(g.bdy.rotate (m + 1)).take (((n : Int) - m) % (g.bdy.length : Int)).toNat, g.inner⟩,
       ⟨(g.bdy.rotate (m + 1)).drop (((n : Int) - m) % (g.bdy.length : Int)).toNat,
        b.inner⟩) := by
  obtain ⟨hr, hi⟩ := positionSegment_eq_rotate g m h31
  have hs2 : (g.positionSegment m).bdy ≠ [] := by
    intro h
    have := positionSegment_length g m
    rw [h] at this
    exact hs (List.length_eq_zero.mp this.symm)
  unfold g1boundary.split3
  rw [split_emod _ b _ hs2, positionSegment_length, hr, hi]

/-- The cut index of `split(m,n,b)`: the number of steps from `m` forward to `n`. -/
theorem split3_cut (s m n : Nat) (hm : m < s) (hn : n < s) :
    (((n : Int) - m) % (s : Int)).toNat = if m ≤ n then n - m else n + s - m := by
  split_ifs with h
  · have e : ((n : Int) - m) = ((n - m : Nat) : Int) := by omega
    rw [e, Int.emod_eq_of_lt (Int.natCast_nonneg _) (by omega), Int.toNat_ofNat]
  · have e : ((n : Int) - m) % (s : Int) = ((n + s - m : Nat) : Int) := by
      rw [← Int.add_emod_self]
      have e2 : ((n : Int) - m + s) = ((n + s - m : Nat) : Int) := by omega
      rw [e2, Int.emod_eq_of_lt (Int.natCast_nonneg _) (by omega)]
    rw [e, Int.toNat_ofNat]

/-- The two loops that `split(m,n,other)` makes, for two different indices of vertices. -/
theorem split3_parts (g other : g1boundary) (m n : Nat) (hm : m < g.bdy.length)
    (hn : n < g.bdy.length) (hmn : m ≠ n) (h31 : (m : Int) < 2 ^ 31) :
    ∃ g1 b1 d, g.split3 m n other = some (g1, b1) ∧
      d = (n + g.bdy.length - m) % g.bdy.length ∧
      g1.bdy.length = d ∧ b1.bdy.length = g.bdy.length - d ∧ 0 < d ∧ d < g.bdy.length ∧
      g1.bdy ++ b1.bdy = g.bdy.rotate (m + 1) ∧
      (∀ k, k < d → g1.bdy[k]? = g.bdy[(m + 1 + k) % g.bdy.length]?) ∧
      (∀ k, k < g.bdy.length - d → b1.bdy[k]? = g.bdy[(n + 1 + k) % g.bdy.length]?) ∧
      g1.inner = g.inner ∧ b1.inner = other.inner := by
  have hcut := split3_cut g.bdy.length m n hm hn
  have hd : (n + g.bdy.length - m) % g.bdy.length = if m ≤ n then n - m else n + g.bdy.length - m := by
    split_ifs with h
    · have : n + g.bdy.length - m = (n - m) + g.bdy.length := by omega
      rw [this, Nat.add_mod_right, Nat.mod_eq_of_lt (by omega)]
    · exact Nat.mod_eq_of_lt (by omega)
  refine ⟨_, _, _, split3_eq g other m n (List.length_pos.mp (by omega)) h31, rfl, ?_, ?_, ?_, ?_, ?_, ?_, ?_, rfl, rfl⟩
  · rw [hcut, hd]
    simp only [List.length_take, List.length_rotate]
    split_ifs <;> omega
  · rw [hcut, hd]
    simp only [List.length_drop, List.length_rotate]
  · rw [hd]; split_ifs <;> omega
  · rw [hd]; split_ifs <;> omega
  · exact List.take_append_drop _ _
  · intro k hk
    rw [hcut, ← hd, List.getElem?_take_of_lt hk, List.getElem?_rotate (by rw [hd] at hk; split_ifs at hk <;> omega)]
    congr 2
    omega
  · intro k hk
    rw [hcut, ← hd, List.getElem?_drop, List.getElem?_rotate (by omega)]
    congr 1
    rw [hd]
    split_ifs with h
    · congr 1; omega
    · have : n + g.bdy.length - m + k + (m + 1) = (n + 1 + k) + g.bdy.length := by omega
      rw [this, Nat.add_mod_right]

/-- C22. For a loop of size `s` and indices `m ≠ n` below `s`, `split(m,n,other)` gives two
non-empty loops: `this` holds the old vertices `m+1, ..., n` in cyclic order, `other` holds
the old vertices `n+1, ..., m`; the two lists together are the old list rotated by `m+1`
places, so no vertex is lost or duplicated; the vertices of `other` do not depend on what
it held before. -/
theorem split3_partitions_loop (g other : g1boundary) (m n : Nat) (hm : m < g.bdy.length)
    (hn : n < g.bdy.length) (hmn : m ≠ n) (h31 : (m : Int) < 2 ^ 31) :
    ∃ g1 b1 d, g.split3 m n other = some (g1, b1) ∧
      d = (n + g.bdy.length - m) % g.bdy.length ∧
      g1.bdy.length = d ∧ b1.bdy.length = g.bdy.length - d ∧ 0 < d ∧ d < g.bdy.length ∧
      g1.bdy ++ b1.bdy = g.bdy.rotate (m + 1) ∧
      (∀ k, k < d → g1.bdy[k]? = g.bdy[(m + 1 + k) % g.bdy.length]?) ∧
      (∀ k, k < g.bdy.length - d → b1.bdy[k]? = g.bdy[(n + 1 + k) % g.bdy.length]?) ∧
      g1.inner = g.inner ∧ b1.inner = other.inner :=
  split3_parts g other m n hm hn hmn h31

/-- Witness for C22: a four-vertex loop cut at segments 0 and 2. -/
theorem split3_partitions_loop_witness :
    ∃ g1 b1, (⟨[⟨1, 0, 0⟩, ⟨1, 1, 0⟩, ⟨1, 1, 1⟩, ⟨1, 0, 1⟩], false⟩ : g1boundary).split3
        (0 : Nat) (2 : Nat) ⟨[], false⟩ = some (g1, b1) ∧
      g1.bdy.length = 2 ∧ b1.bdy.length = 2 := by
  obtain ⟨g1, b1, d, h, hd, h1, h2, -⟩ := split3_partitions_loop
    ⟨[⟨1, 0, 0⟩, ⟨1, 1, 0⟩, ⟨1, 1, 1⟩, ⟨1, 0, 1⟩], false⟩ ⟨[], false⟩ 0 2
    (by simp) (by simp) (by decide) (by norm_num)
  have hd2 : d = 2 := by rw [hd]; rfl
  exact ⟨g1, b1, h, by rw [h1, hd2], by rw [h2, hd2]; rfl⟩

/-- The method `seg` at index `n` of a non-empty loop: the vertices at the mathematical
remainder of `n` and at the next index. -/
theorem seg_eq (g : g1boundary) (n : Int) (a b : vball)
    (ha : g.bdy[(n % (g.bdy.length : Int)).toNat]? = some a)
    (hb : g.bdy[((n % (g.bdy.length : Int) + 1) % (g.bdy.length : Int)).toNat]? = some b) :
    g.seg n = some ⟨a, b⟩ := by
  have hs0 : g.bdy.length ≠ 0 := by
    intro h
    have hnil : g.bdy = [] := List.length_eq_zero.mp h
    rw [hnil] at ha
    simp at ha
  have hposI : (0 : Int) < (g.bdy.length : Int) := by
    have : 0 < g.bdy.length := Nat.pos_of_ne_zero hs0
    exact_mod_cast this
  unfold g1boundary.seg
  simp only [hs0, if_false]
  rw [tmod_fix n _ hposI, ha, hb]

/-- The method `seg` at a vertex index below the size. -/
theorem seg_of_lt (g : g1boundary) (i : Nat) (a b : vball)
    (ha : g.bdy[i]? = some a) (hb : g.bdy[(i + 1) % g.bdy.length]? = some b) :
    g.seg i = some ⟨a, b⟩ := by
  have hi : i < g.bdy.length := by
    by_contra h
    rw [List.getElem?_eq_none (by omega)] at ha
    exact absurd ha (by simp)
  have e1 : ((i : Int) % (g.bdy.length : Int)).toNat = i := by
    rw [Int.emod_eq_of_lt (Int.natCast_nonneg _) (by exact_mod_cast hi), Int.toNat_ofNat]
  have e2 : ((((i : Int) % (g.bdy.length : Int)) + 1) % (g.bdy.length : Int)).toNat
      = (i + 1) % g.bdy.length := by
    rw [Int.emod_eq_of_lt (Int.natCast_nonneg _) (by exact_mod_cast hi)]
    have : ((i : Int) + 1) % (g.bdy.length : Int) = (((i + 1) % g.bdy.length : Nat) : Int) := by
      rw [Int.natCast_mod]; rfl
    rw [this, Int.toNat_ofNat]
  exact seg_eq g i a b (by rw [e1]; exact ha) (by rw [e2]; exact hb)

/-- The segment `seg(-1)` of a non-empty loop runs from the last vertex to the first. -/
theorem seg_neg_one (g : g1boundary) (a b : vball)
    (ha : g.bdy[g.bdy.length - 1]? = some a) (hb : g.bdy[0]? = some b) :
    g.seg (-1) = some ⟨a, b⟩ := by
  have hs0 : g.bdy.length ≠ 0 := by
    intro h
    have hnil : g.bdy = [] := List.length_eq_zero.mp h
    rw [hnil] at ha
    simp at ha
  have hpos : 0 < g.bdy.length := Nat.pos_of_ne_zero hs0
  have e0 : (-1 : Int) % (g.bdy.length : Int) = ((g.bdy.length - 1 : Nat) : Int) := by
    rw [← Int.add_emod_self]
    have : (-1 : Int) + (g.bdy.length : Int) = ((g.bdy.length - 1 : Nat) : Int) := by omega
    rw [this, Int.emod_eq_of_lt (Int.natCast_nonneg _) (by omega)]
  apply seg_eq g (-1) a b
  · rw [e0, Int.toNat_ofNat]; exact ha
  · rw [e0]
    have : (((g.bdy.length - 1 : Nat) : Int) + 1) = (g.bdy.length : Int) := by omega
    rw [this, Int.emod_self]
    exact hb

/-- The loop of `midpoint` does nothing when the two ends are on one face. -/
theorem midpointLoop_same_face (sw : vball → vball) (k : Nat) (i : Int) (s : vsegment)
    (h : s.start.face = s.end_.face) : midpointLoop sw k i s = s := by
  cases k with
  | zero => rfl
  | succ k => simp [midpointLoop, h]

/-- On one face `midpoint` takes the means of the face coordinates. -/
theorem midpoint_same_face (sw : vball → vball) (len : xyz → double) (s : vsegment)
    (h : s.start.face = s.end_.face) :
    s.midpoint sw len =
      ⟨s.start.face, (s.start.x + s.end_.x) / 2, (s.start.y + s.end_.y) / 2⟩ := by
  unfold vsegment.midpoint
  simp only [midpointLoop_same_face sw 9 0 s h, h, if_true]

/-- The loop after `halve(n)` when the two ends of segment `n` are on one face. -/
theorem halve_same_face (sw : vball → vball) (len : xyz → double) (g : g1boundary) (N : Nat)
    (a b : vball) (h31 : (N : Int) < 2 ^ 31)
    (ha : g.bdy[N % g.bdy.length]? = some a)
    (hb : g.bdy[(N + 1) % g.bdy.length]? = some b) (hf : a.face = b.face) :
    g.halve sw len N = some
      ⟨g.bdy.rotate (N + 1) ++ [⟨a.face, (a.x + b.x) / 2, (a.y + b.y) / 2⟩], g.inner⟩ := by
  have hs0 : g.bdy.length ≠ 0 := by
    intro h
    have hnil : g.bdy = [] := List.length_eq_zero.mp h
    rw [hnil] at ha
    simp at ha
  have hpos : 0 < g.bdy.length := Nat.pos_of_ne_zero hs0
  obtain ⟨hr, hi⟩ := positionSegment_eq_rotate g N h31
  have hlen := positionSegment_length g N
  have hseg : (g.positionSegment N).seg (-1) = some ⟨a, b⟩ := by
    apply seg_neg_one
    · rw [hlen, hr, List.getElem?_rotate (by omega)]
      have : (g.bdy.length - 1 + (N + 1)) % g.bdy.length = N % g.bdy.length := by
        have : g.bdy.length - 1 + (N + 1) = N + g.bdy.length := by omega
        rw [this, Nat.add_mod_right]
      rw [this]; exact ha
    · rw [hr, List.getElem?_rotate hpos]
      rw [Nat.zero_add]; exact hb
  unfold g1boundary.halve
  simp only [hseg]
  rw [midpoint_same_face sw len ⟨a, b⟩ hf, hr, hi]

/-- On one face, the point with the mean face coordinates is the middle of the chord between
the two points of the cube. -/
theorem decodedirSwitch_mean (f : Int) (ax ay bx by_ : ℚ) :
    decodedirSwitch ⟨f, fin ((ax + bx) / 2), fin ((ay + by_) / 2)⟩ =
      ((decodedirSwitch ⟨f, fin ax, fin ay⟩).add (decodedirSwitch ⟨f, fin bx, fin by_⟩)).smul
        (fin (1 / 2)) := by
  unfold decodedirSwitch
  simp only []
  split <;> simp [xyz.add, xyz.smul] <;>
    first
    | rfl
    | (refine ⟨?_, ?_, ?_⟩ <;> ring)

/-- C23. For a non-empty loop and a segment `n ≥ 0` with `n+1 < 2^31` (so that `int m=n+1`
in `positionSegment` does not overflow) whose two ends `a` (old vertex `n`) and
`b` (old vertex `n+1`) are on one face, `halve(n)` returns the loop rotated so that `b` is
first and `a` last, followed by one new vertex: the size grows by one and the new vertex
stands between `a` and `b`. The new vertex has the means of the face coordinates of `a` and
`b`; for finite coordinates it is the middle of the chord from `a` to `b` on the cube, hence
a point of the great-circle arc, not in general the point at equal angles from `a` and `b`. -/
theorem halve_inserts_chord_middle (sw : vball → vball) (len : xyz → double) (g : g1boundary)
    (N : Nat) (a b : vball) (h31 : (N : Int) + 1 < 2 ^ 31)
    (ha : g.bdy[N % g.bdy.length]? = some a)
    (hb : g.bdy[(N + 1) % g.bdy.length]? = some b) (hf : a.face = b.face) :
    ∃ g1 mid, g.halve sw len N = some g1 ∧
      mid = ⟨a.face, (a.x + b.x) / 2, (a.y + b.y) / 2⟩ ∧
      g1.bdy = g.bdy.rotate (N + 1) ++ [mid] ∧ g1.size = g.size + 1 ∧
      (g.bdy.rotate (N + 1))[g.bdy.length - 1]? = some a ∧
      (g.bdy.rotate (N + 1))[0]? = some b ∧
      ∀ ax ay bx by_ : ℚ, a.x = fin ax → a.y = fin ay → b.x = fin bx → b.y = fin by_ →
        decodedirSwitch mid =
          ((decodedirSwitch a).add (decodedirSwitch b)).smul (fin (1 / 2)) := by
  have hs0 : g.bdy.length ≠ 0 := by
    intro h
    have hnil : g.bdy = [] := List.length_eq_zero.mp h
    rw [hnil] at ha
    simp at ha
  have hpos : 0 < g.bdy.length := Nat.pos_of_ne_zero hs0
  refine ⟨_, _, halve_same_face sw len g N a b (by omega) ha hb hf, rfl, rfl, ?_, ?_, ?_, ?_⟩
  · simp [g1boundary.size]
  · rw [List.getElem?_rotate (by omega)]
    have : g.bdy.length - 1 + (N + 1) = N + g.bdy.length := by omega
    rw [this, Nat.add_mod_right]; exact ha
  · rw [List.getElem?_rotate hpos, Nat.zero_add]; exact hb
  · intro ax ay bx by_ e1 e2 e3 e4
    obtain ⟨fa, xa, ya⟩ := a
    obtain ⟨fb, xb, yb⟩ := b
    simp only at e1 e2 e3 e4 hf
    subst e1 e2 e3 e4 hf
    simp only [double.fin_add, double.ofNat_def]
    rw [double.fin_div _ (by norm_num), double.fin_div _ (by norm_num)]
    exact decodedirSwitch_mean fa ax ay bx by_

/-- Witness for C23: the segment from `(0,0)` to `(1,0)` on face 3. -/
theorem halve_inserts_chord_middle_witness :
    ∃ g1 mid, (⟨[⟨3, 0, 0⟩, ⟨3, 1, 0⟩], false⟩ : g1boundary).halve id (fun _ => 1) (0 : Nat)
        = some g1 ∧
      mid = (⟨3, (0 + 1) / 2, (0 + 0) / 2⟩ : vball) ∧
      g1.bdy = [⟨3, 1, 0⟩, ⟨3, 0, 0⟩, mid] := by
  obtain ⟨g1, mid, h1, h2, h3, -⟩ := halve_inserts_chord_middle id (fun _ => 1)
    ⟨[⟨3, 0, 0⟩, ⟨3, 1, 0⟩], false⟩ 0 ⟨3, 0, 0⟩ ⟨3, 1, 0⟩ (by norm_num) rfl rfl rfl
  exact ⟨g1, mid, h1, h2, h3⟩

/-- Counterexample for C23: on face 3, `halve(0)` of the loop `(0,0)`, `(1,0)` inserts
`(1/2,0)`, whose direction `(1/2,0,1)` does not make equal angles with the directions
`(0,0,1)` and `(1,0,1)` of the two ends. -/
theorem halve_not_equal_angles :
    (⟨[⟨3, 0, 0⟩, ⟨3, 1, 0⟩], false⟩ : g1boundary).halve id (fun _ => 1) 0
      = some ⟨[⟨3, 1, 0⟩, ⟨3, 0, 0⟩, ⟨3, fin (1 / 2), 0⟩], false⟩ ∧
    makesEqualAngles (decodedirSwitch ⟨3, fin (1 / 2), 0⟩) (decodedirSwitch ⟨3, 0, 0⟩)
      (decodedirSwitch ⟨3, 1, 0⟩) = false := by
  constructor
  · have h := halve_same_face id (fun _ => 1) ⟨[⟨3, 0, 0⟩, ⟨3, 1, 0⟩], false⟩ 0
      ⟨3, 0, 0⟩ ⟨3, 1, 0⟩ (by norm_num) rfl rfl rfl
    rw [show ((0 : Nat) : Int) = 0 from rfl] at h
    rw [h]
    simp only [double.ofNat_def, double.fin_add]
    rw [double.fin_div _ (by norm_num), double.fin_div _ (by norm_num)]
    norm_num
    rfl
  · have e : Int.land 3 7 = 3 := by decide
    simp only [makesEqualAngles, decodedirSwitch, e, xyz.dot, double.ofNat_def,
      double.fin_mul, double.fin_add, double.ge_fin, double.eq_fin]
    norm_num

/-! ## Removal of vertices: `deleteCollinear`, `deleteRetrace`, `deleteNullSegments` -/

/-- The loop `removeAfter g i` has one vertex less. -/
theorem removeAfter_length (g : g1boundary) (i : Nat) :
    (g.removeAfter i).bdy.length = g.bdy.length - 1 := by
  simp [g1boundary.removeAfter, List.length_take, List.length_rotate]

/-- The loop `removeAfter g i` followed by the vertex after `i` is a rotation of `g`. -/
theorem removeAfter_append (g : g1boundary) (i : Nat) (v : vball)
    (hv : g.bdy[(i + 1) % g.bdy.length]? = some v) :
    (g.removeAfter i).bdy ++ [v] = g.bdy.rotate (i + 2) := by
  have hs0 : g.bdy.length ≠ 0 := by
    intro h
    have hnil : g.bdy = [] := List.length_eq_zero.mp h
    rw [hnil] at hv
    simp at hv
  have hpos : 0 < g.bdy.length := Nat.pos_of_ne_zero hs0
  have hlast : (g.bdy.rotate (i + 2))[g.bdy.length - 1]? = some v := by
    rw [List.getElem?_rotate (by omega)]
    have : g.bdy.length - 1 + (i + 2) = (i + 1) + g.bdy.length := by omega
    rw [this, Nat.add_mod_right]
    exact hv
  have hd : (g.bdy.rotate (i + 2)).drop (g.bdy.length - 1) = [v] := by
    apply List.ext_getElem?
    intro k
    rw [List.getElem?_drop]
    cases k with
    | zero => simpa using hlast
    | succ k =>
      rw [List.getElem?_eq_none (by rw [List.length_rotate]; omega)]
      simp
  show (g.bdy.rotate (i + 2)).take (g.bdy.length - 1) ++ [v] = _
  rw [← hd, List.take_append_drop]

/-- Rotating and leaving out elements keeps a cyclic subsequence. -/
theorem cyclicSub_take_rotate {α : Type} (a b : List α) (k n : Nat) (h : CyclicSub a b) :
    CyclicSub ((a.rotate k).take n) b := by
  obtain ⟨r, hr, hsub⟩ := h
  have h1 : a.rotate k = a.drop (k % a.length) ++ a.take (k % a.length) :=
    List.rotate_eq_drop_append_take_mod
  have h2 : a.take (k % a.length) ++ a.drop (k % a.length) = a := List.take_append_drop _ _
  rw [← h2] at hsub
  obtain ⟨r1, r2, hr12, hs1, hs2⟩ := List.append_sublist_iff.mp hsub
  refine ⟨r2 ++ r1, ?_, ?_⟩
  · rw [hr12] at hr
    exact List.IsRotated.trans List.isRotated_append hr
  · rw [h1]
    exact List.Sublist.trans (List.take_sublist _ _) (List.Sublist.append hs2 hs1)

/-- The loop `removeAfter g i` is a cyclic subsequence of `g`. -/
theorem removeAfter_cyclicSub (g : g1boundary) (i : Nat) (b : List vball)
    (h : CyclicSub g.bdy b) : CyclicSub (g.removeAfter i).bdy b :=
  cyclicSub_take_rotate g.bdy b (i + 2) (g.bdy.length - 1) h

/-- Termination of `iterateRemoval`: more fuel than vertices is enough. -/
theorem iterateRemoval_terminates (pick : g1boundary → Option Nat)
    (hpick : ∀ g i, pick g = some i → i < g.bdy.length) :
    ∀ (fuel : Nat) (g : g1boundary), g.bdy.length < fuel →
      ∃ r, g1boundary.iterateRemoval pick fuel g = some r := by
  intro fuel
  induction fuel with
  | zero => intro g h; omega
  | succ fuel ih =>
    intro g h
    unfold g1boundary.iterateRemoval
    cases hp : pick g with
    | none => exact ⟨g, rfl⟩
    | some i =>
      have hi := hpick g i hp
      exact ih (g.removeAfter i) (by rw [removeAfter_length]; omega)

/-- What `iterateRemoval` returns: a cyclic subsequence on which `pick` finds nothing. -/
theorem iterateRemoval_result (pick : g1boundary → Option Nat) :
    ∀ (fuel : Nat) (g r : g1boundary), g1boundary.iterateRemoval pick fuel g = some r →
      pick r = none ∧ CyclicSub r.bdy g.bdy ∧ r.inner = g.inner ∧
      r.bdy.length ≤ g.bdy.length := by
  intro fuel
  induction fuel with
  | zero => intro g r h; simp [g1boundary.iterateRemoval] at h
  | succ fuel ih =>
    intro g r h
    unfold g1boundary.iterateRemoval at h
    cases hp : pick g with
    | none =>
      rw [hp] at h
      simp only [Option.some.injEq] at h
      subst h
      exact ⟨hp, ⟨g.bdy, List.IsRotated.refl _, List.Sublist.refl _⟩, rfl, le_refl _⟩
    | some i =>
      rw [hp] at h
      obtain ⟨h1, h2, h3, h4⟩ := ih (g.removeAfter i) r h
      refine ⟨h1, ?_, h3, ?_⟩
      · obtain ⟨r0, hr0, hs0⟩ := h2
        obtain ⟨r1, hr1, hs1⟩ := removeAfter_cyclicSub g i g.bdy
          ⟨g.bdy, List.IsRotated.refl _, List.Sublist.refl _⟩
        -- r <+ r0 ~r removeAfter <+ r1 ~r g
        obtain ⟨n, hn⟩ := hr0.symm
        have : CyclicSub ((g.removeAfter i).bdy.rotate n) g.bdy := by
          have := cyclicSub_take_rotate (g.removeAfter i).bdy g.bdy n
            ((g.removeAfter i).bdy.rotate n).length ⟨r1, hr1, hs1⟩
          rwa [List.take_length] at this
        rw [hn] at this
        obtain ⟨r2, hr2, hs2⟩ := this
        exact ⟨r2, hr2, List.Sublist.trans hs0 hs2⟩
      · rw [removeAfter_length] at h4
        omega

/-- A loop on which `pick` finds nothing is returned unchanged. -/
theorem iterateRemoval_fixed (pick : g1boundary → Option Nat) (fuel : Nat) (r : g1boundary)
    (h : pick r = none) : g1boundary.iterateRemoval pick (fuel + 1) r = some r := by
  simp [g1boundary.iterateRemoval, h]

/-- The step of `deleteCollinear` and `deleteRetrace`: `positionSegment(i+1)` followed by
`resize(sz-1)` is `removeAfter`. -/
theorem positionSegment_take (g : g1boundary) (i : Nat) (h31 : (g.bdy.length : Int) < 2 ^ 31)
    (hi : i < g.bdy.length) :
    ({ g.positionSegment ((i : Int) + 1) with
        bdy := (g.positionSegment ((i : Int) + 1)).bdy.take (g.bdy.length - 1) } : g1boundary)
      = g.removeAfter i := by
  have hN : (((i + 1 : Nat)) : Int) < 2 ^ 31 := by
    have : ((i + 1 : Nat) : Int) ≤ (g.bdy.length : Int) := by exact_mod_cast hi
    omega
  obtain ⟨hr, hin⟩ := positionSegment_eq_rotate g (i + 1) hN
  have e : ((i + 1 : Nat) : Int) = (i : Int) + 1 := by push_cast; rfl
  rw [e] at hr hin
  show (⟨(g.positionSegment ((i : Int) + 1)).bdy.take (g.bdy.length - 1),
    (g.positionSegment ((i : Int) + 1)).inner⟩ : g1boundary) = g.removeAfter i
  rw [hr, hin]
  rfl

/-- The method `deleteCollinear` is the repeated removal at the first index found. -/
theorem deleteCollinear_eq (fuel : Nat) : ∀ g : g1boundary, (g.bdy.length : Int) < 2 ^ 31 →
    g1boundary.deleteCollinear fuel g =
      g1boundary.iterateRemoval
        (fun g => (List.range g.bdy.length).find? g.collinearAt) fuel g := by
  induction fuel with
  | zero => intro g _; rfl
  | succ fuel ih =>
    intro g h31
    unfold g1boundary.deleteCollinear g1boundary.iterateRemoval
    simp only []
    cases hf : (List.range g.bdy.length).find? g.collinearAt with
    | none => rfl
    | some i =>
      have hi : i < g.bdy.length := by
        have := (List.find?_range_eq_some.mp hf).2.1
        simpa using this
      simp only []
      rw [positionSegment_take g i h31 hi]
      apply ih
      rw [removeAfter_length]
      omega

/-- The method `deleteRetrace` is the repeated removal at the first index found. -/
theorem deleteRetrace_eq (fuel : Nat) : ∀ g : g1boundary, (g.bdy.length : Int) < 2 ^ 31 →
    g1boundary.deleteRetrace fuel g =
      g1boundary.iterateRemoval
        (fun g => (List.range g.bdy.length).find? g.retraceAt) fuel g := by
  induction fuel with
  | zero => intro g _; rfl
  | succ fuel ih =>
    intro g h31
    unfold g1boundary.deleteRetrace g1boundary.iterateRemoval
    simp only []
    cases hf : (List.range g.bdy.length).find? g.retraceAt with
    | none => rfl
    | some i =>
      have hi : i < g.bdy.length := by
        have := (List.find?_range_eq_some.mp hf).2.1
        simpa using this
      simp only []
      rw [positionSegment_take g i h31 hi]
      apply ih
      rw [removeAfter_length]
      omega

/-- The test of `deleteCollinear` at `i` holds exactly for a triple of vertices that are
pairwise on one edge line. -/
theorem collinearAt_iff (g : g1boundary) (i : Nat) :
    g.collinearAt i = true ↔ ∃ a b c, g.bdy[i]? = some a ∧
      g.bdy[(i + 1) % g.bdy.length]? = some b ∧ g.bdy[(i + 2) % g.bdy.length]? = some c ∧
      sameEdge a b = true ∧ sameEdge b c = true ∧ sameEdge c a = true := by
  unfold g1boundary.collinearAt
  simp only []
  constructor
  · intro h
    split at h
    · rename_i a b c ha hb hc
      simp only [Bool.and_eq_true] at h
      exact ⟨a, b, c, ha, hb, hc, h.1.1, h.1.2, h.2⟩
    · exact absurd h (by simp)
  · rintro ⟨a, b, c, ha, hb, hc, h1, h2, h3⟩
    rw [ha, hb, hc]
    simp [h1, h2, h3]

/-- C29. `g1boundary::deleteCollinear` returns on every loop when given more fuel than the
loop has vertices (the size plus one within `int`, so that no index computed by
`positionSegment` overflows). A loop without an index `i` whose vertices `i`, `i+1`, `i+2`
are pairwise `sameEdge` is returned as it is. Otherwise a round takes the first such index
and removes the middle vertex (the rest is the old list rotated by `i+2` without its last
vertex), and the loop goes on with what is left. The result is a cyclic subsequence of the
input, it has no such index, and `deleteCollinear` returns it unchanged. -/
theorem deleteCollinear_fixed_point (g : g1boundary) (fuel : Nat)
    (h31 : (g.bdy.length : Int) + 1 < 2 ^ 31) (hfuel : g.bdy.length < fuel) :
    (∃ r, g.deleteCollinear fuel = some r ∧ CyclicSub r.bdy g.bdy ∧ r.inner = g.inner ∧
      (∀ i, i < r.bdy.length → r.collinearAt i = false) ∧
      ∀ fuel2, r.deleteCollinear (fuel2 + 1) = some r) ∧
    ((∀ i, i < g.bdy.length → g.collinearAt i = false) → g.deleteCollinear fuel = some g) ∧
    ∀ i, (List.range g.bdy.length).find? g.collinearAt = some i →
      g.deleteCollinear fuel = (g.removeAfter i).deleteCollinear (fuel - 1) ∧
      (g.removeAfter i).inner = g.inner ∧
      ∃ a b c, g.bdy[i]? = some a ∧ g.bdy[(i + 1) % g.bdy.length]? = some b ∧
        g.bdy[(i + 2) % g.bdy.length]? = some c ∧
        sameEdge a b = true ∧ sameEdge b c = true ∧ sameEdge c a = true ∧
        (g.removeAfter i).bdy ++ [b] = g.bdy.rotate (i + 2) := by
  have hpick : ∀ (g : g1boundary) (i : Nat),
      (List.range g.bdy.length).find? g.collinearAt = some i → i < g.bdy.length := by
    intro g i h
    have := (List.find?_range_eq_some.mp h).2.1
    simpa using this
  have h31a : (g.bdy.length : Int) < 2 ^ 31 := by omega
  refine ⟨?_, ?_, ?_⟩
  · obtain ⟨r, hr⟩ := iterateRemoval_terminates _ hpick fuel g hfuel
    obtain ⟨h1, h2, h3, h4⟩ := iterateRemoval_result _ fuel g r hr
    refine ⟨r, ?_, h2, h3, ?_, ?_⟩
    · rw [deleteCollinear_eq fuel g h31a]; exact hr
    · intro i hi
      have := List.find?_eq_none.mp h1 i (by simpa using hi)
      simpa using this
    · intro fuel2
      rw [deleteCollinear_eq (fuel2 + 1) r (by omega)]
      exact iterateRemoval_fixed _ fuel2 r h1
  · intro hno
    obtain ⟨k, rfl⟩ : ∃ k, fuel = k + 1 := ⟨fuel - 1, by omega⟩
    rw [deleteCollinear_eq (k + 1) g h31a]
    apply iterateRemoval_fixed
    rw [List.find?_eq_none]
    intro x hx
    simp [hno x (List.mem_range.mp hx)]
  · intro i hi
    have hlt := hpick g i hi
    have hc : g.collinearAt i = true := List.find?_some hi
    obtain ⟨a, b, c, ha, hb, hc2, e1, e2, e3⟩ := (collinearAt_iff g i).mp hc
    refine ⟨?_, rfl, a, b, c, ha, hb, hc2, e1, e2, e3, removeAfter_append g i b hb⟩
    obtain ⟨k, rfl⟩ : ∃ k, fuel = k + 1 := ⟨fuel - 1, by omega⟩
    rw [deleteCollinear_eq (k + 1) g h31a, Nat.add_sub_cancel,
      deleteCollinear_eq k (g.removeAfter i) (by rw [removeAfter_length]; omega)]
    show g1boundary.iterateRemoval _ (k + 1) g = _
    rw [g1boundary.iterateRemoval]
    simp only [hi]

/-- Witness for C29: three vertices on the line `y = 0` of face 1. -/
theorem deleteCollinear_fixed_point_witness :
    ∃ r, (⟨[⟨1, 0, 0⟩, ⟨1, 1, 0⟩, ⟨1, 2, 0⟩], false⟩ : g1boundary).deleteCollinear 4 = some r ∧
      ∀ i, i < r.bdy.length → r.collinearAt i = false := by
  obtain ⟨r, h1, -, -, h2, -⟩ := (deleteCollinear_fixed_point
    ⟨[⟨1, 0, 0⟩, ⟨1, 1, 0⟩, ⟨1, 2, 0⟩], false⟩ 4 (by norm_num) (by simp)).1
  exact ⟨r, h1, h2⟩

/-- The first element of a filtered list is the first element that passes the test. -/
theorem head?_filter_eq_find? {α : Type} (p : α → Bool) (l : List α) :
    (l.filter p).head? = l.find? p := by
  induction l with
  | nil => rfl
  | cons a l ih =>
    by_cases h : p a = true
    · simp [List.filter_cons, List.find?_cons, h]
    · simp only [Bool.not_eq_true] at h
      simp [List.filter_cons, List.find?_cons, h, ih]

/-- The first entry of `nullSegments` is the first index whose segment has equal ends. -/
theorem nullSegments_head (g : g1boundary) :
    g.nullSegments.head? =
      ((List.range g.bdy.length).find? fun (i : Nat) => g.isNullSegment (i : Int)).map Int.ofNat := by
  unfold g1boundary.nullSegments g1boundary.indices
  rw [List.filter_map, List.head?_map, head?_filter_eq_find?]
  rfl

/-- The step of `deleteNullSegments`: `split(i+1,i,tmp)` is `removeAfter`. -/
theorem split3_succ_self (g tmp : g1boundary) (k : Nat) (hk : k < g.bdy.length)
    (h31 : (g.bdy.length : Int) < 2 ^ 31) :
    ∃ t, g.split3 ((k : Int) + 1) k tmp = some (g.removeAfter k, t) := by
  have hs : g.bdy ≠ [] := List.length_pos.mp (by omega)
  have hN : (((k + 1 : Nat)) : Int) < 2 ^ 31 := by
    have : ((k + 1 : Nat) : Int) ≤ (g.bdy.length : Int) := by exact_mod_cast hk
    omega
  have h := split3_eq g tmp (k + 1) k hs hN
  have e : ((k + 1 : Nat) : Int) = (k : Int) + 1 := by push_cast; rfl
  have hcut : (((k : Int) - ((k + 1 : Nat) : Int)) % (g.bdy.length : Int)).toNat
      = g.bdy.length - 1 := by
    have e1 : (k : Int) - ((k + 1 : Nat) : Int) = -1 := by push_cast; ring
    rw [e1, ← Int.add_emod_self]
    have e2 : (-1 : Int) + (g.bdy.length : Int) = ((g.bdy.length - 1 : Nat) : Int) := by omega
    rw [e2, Int.emod_eq_of_lt (Int.natCast_nonneg _) (by omega), Int.toNat_ofNat]
  rw [hcut, e] at h
  exact ⟨_, h⟩

/-- The loop of `deleteNullSegments` on one loop of the vector is the repeated removal at
the first segment with equal ends. -/
theorem deleteNullSegmentsLoop_eq (fuel : Nat) :
    ∀ g : g1boundary, (g.bdy.length : Int) < 2 ^ 31 →
    gboundary.deleteNullSegmentsLoop fuel g =
      g1boundary.iterateRemoval
        (fun g => (List.range g.bdy.length).find? fun (i : Nat) => g.isNullSegment (i : Int))
        fuel g := by
  induction fuel with
  | zero => intro g _; rfl
  | succ fuel ih =>
    intro g h31
    unfold gboundary.deleteNullSegmentsLoop g1boundary.iterateRemoval
    have hh := nullSegments_head g
    cases hf : (List.range g.bdy.length).find? fun (i : Nat) => g.isNullSegment (i : Int) with
    | none =>
      rw [hf] at hh
      cases hn : g.nullSegments with
      | nil => rfl
      | cons a l => rw [hn] at hh; simp at hh
    | some k =>
      rw [hf] at hh
      have hk : k < g.bdy.length := by
        have := (List.find?_range_eq_some.mp hf).2.1
        simpa using this
      cases hn : g.nullSegments with
      | nil => rw [hn] at hh; simp at hh
      | cons a l =>
        rw [hn] at hh
        simp only [List.head?_cons, Option.map_some', Option.some.injEq] at hh
        subst hh
        obtain ⟨t, ht⟩ := split3_succ_self g ⟨[], false⟩ k hk h31
        simp only []
        have e : Int.ofNat k = (k : Int) := rfl
        rw [e, ht]
        simp only []
        apply ih
        rw [removeAfter_length]
        omega

/-- The loop `forEachLoop` returns when the method returns on every loop, and its result
holds the results of the method in the same order. -/
theorem forEachLoop_some (f : g1boundary → Option g1boundary) (P : g1boundary → g1boundary → Prop)
    (l : List g1boundary) (h : ∀ b ∈ l, ∃ r, f b = some r ∧ P b r) :
    ∃ rs, gboundary.forEachLoop f l = some rs ∧ rs.length = l.length ∧
      ∀ (k : Nat) b r, l[k]? = some b → rs[k]? = some r → f b = some r ∧ P b r := by
  induction l with
  | nil => exact ⟨[], rfl, rfl, by intro k b r hb; simp at hb⟩
  | cons a l ih =>
    obtain ⟨rs, h1, h2, h3⟩ := ih (fun b hb => h b (List.mem_cons_of_mem _ hb))
    obtain ⟨r0, hr0, hp0⟩ := h a (List.mem_cons_self _ _)
    refine ⟨r0 :: rs, ?_, by simp [h2], ?_⟩
    · simp [gboundary.forEachLoop, hr0, h1]
    · intro k b r hb hr
      cases k with
      | zero =>
        simp only [List.getElem?_cons_zero, Option.some.injEq] at hb hr
        subst hb hr
        exact ⟨hr0, hp0⟩
      | succ k =>
        simp only [List.getElem?_cons_succ] at hb hr
        exact h3 k b r hb hr

/-- The segments with equal ends found by `nullSegments`, in terms of `isNullSegment`. -/
theorem nullSegments_eq_nil_iff (g : g1boundary) :
    g.nullSegments = [] ↔ ∀ i : Nat, i < g.bdy.length → g.isNullSegment (i : Int) = false := by
  unfold g1boundary.nullSegments g1boundary.indices
  rw [List.filter_eq_nil_iff]
  constructor
  · intro h i hi
    have := h (Int.ofNat i) (List.mem_map.mpr ⟨i, List.mem_range.mpr hi, rfl⟩)
    simpa using this
  · intro h a ha
    obtain ⟨i, hi, rfl⟩ := List.mem_map.mp ha
    have := h i (List.mem_range.mp hi)
    simp [show (Int.ofNat i : Int) = (i : Int) from rfl, this]

/-- The test `isNullSegment` at a vertex index, in terms of the two vertices. -/
theorem isNullSegment_eq (g : g1boundary) (i : Nat) (a b : vball)
    (ha : g.bdy[i]? = some a) (hb : g.bdy[(i + 1) % g.bdy.length]? = some b) :
    g.isNullSegment (i : Int) = a.eq b := by
  unfold g1boundary.isNullSegment
  rw [seg_of_lt g i a b ha hb]

/-- Every index below the size has its two vertices. -/
theorem exists_vertices (g : g1boundary) (i : Nat) (hi : i < g.bdy.length) :
    ∃ a b, g.bdy[i]? = some a ∧ g.bdy[(i + 1) % g.bdy.length]? = some b := by
  have h2 : (i + 1) % g.bdy.length < g.bdy.length := Nat.mod_lt _ (by omega)
  exact ⟨g.bdy[i], g.bdy[(i + 1) % g.bdy.length], List.getElem?_eq_getElem hi,
    List.getElem?_eq_getElem h2⟩

/-- What the loop of `deleteNullSegments` returns on one loop of the vector. -/
theorem deleteNullSegmentsLoop_result (b0 : g1boundary) (fuel : Nat)
    (h31 : (b0.bdy.length : Int) < 2 ^ 31) (hfuel : b0.bdy.length < fuel) :
    ∃ b, gboundary.deleteNullSegmentsLoop fuel b0 = some b ∧ CyclicSub b.bdy b0.bdy ∧
      b.inner = b0.inner ∧ b.bdy.length ≤ b0.bdy.length ∧
      ∀ (i : Nat) s, i < b.bdy.length → b.seg i = some s → s.start.eq s.end_ = false := by
  have hpick : ∀ (g : g1boundary) (i : Nat),
      ((List.range g.bdy.length).find? fun (i : Nat) => g.isNullSegment (i : Int)) = some i →
        i < g.bdy.length := by
    intro g i h
    have := (List.find?_range_eq_some.mp h).2.1
    simpa using this
  obtain ⟨r, hr⟩ := iterateRemoval_terminates _ hpick fuel b0 hfuel
  obtain ⟨h1, h2, h3, h4⟩ := iterateRemoval_result _ fuel b0 r hr
  refine ⟨r, ?_, h2, h3, h4, ?_⟩
  · rw [deleteNullSegmentsLoop_eq fuel b0 h31]; exact hr
  · intro i s hi hs
    have := List.find?_eq_none.mp h1 i (by simpa using hi)
    simp only [g1boundary.isNullSegment, hs, Bool.not_eq_true] at this
    exact this

/-- The loop of `deleteNullSegments` leaves unchanged a loop without segment of equal
ends. -/
theorem deleteNullSegmentsLoop_fixed (b : g1boundary) (fuel : Nat)
    (h : b.nullSegments = []) : gboundary.deleteNullSegmentsLoop (fuel + 1) b = some b := by
  simp [gboundary.deleteNullSegmentsLoop, h]

/-- One round of the loop of `deleteNullSegments`. -/
theorem deleteNullSegments_round (b : g1boundary) (h31 : (b.bdy.length : Int) < 2 ^ 31)
    (i0 : Int) (rest : List Int) (hn : b.nullSegments = i0 :: rest) :
    ∃ (k : Nat) (u v : vball) (t : g1boundary), i0 = k ∧ k < b.bdy.length ∧
      (∀ j : Nat, j < k → b.isNullSegment (j : Int) = false) ∧
      b.seg i0 = some ⟨u, v⟩ ∧ u.eq v = true ∧
      b.split3 (i0 + 1) i0 ⟨[], false⟩ = some (b.removeAfter k, t) ∧
      (b.removeAfter k).bdy ++ [v] = b.bdy.rotate (k + 2) ∧
      (b.removeAfter k).bdy.length + 1 = b.bdy.length ∧
      ∀ fuel, gboundary.deleteNullSegmentsLoop (fuel + 1) b =
        gboundary.deleteNullSegmentsLoop fuel (b.removeAfter k) := by
  have hh := nullSegments_head b
  rw [hn] at hh
  cases hf : (List.range b.bdy.length).find? fun (i : Nat) => b.isNullSegment (i : Int) with
  | none => rw [hf] at hh; simp at hh
  | some k =>
    rw [hf] at hh
    simp only [List.head?_cons, Option.map_some', Option.some.injEq] at hh
    obtain ⟨hp, hmem, hbefore⟩ := List.find?_range_eq_some.mp hf
    have hk : k < b.bdy.length := by simpa using hmem
    obtain ⟨u, v, hu, hv⟩ := exists_vertices b k hk
    have e : Int.ofNat k = (k : Int) := rfl
    rw [e] at hh
    subst hh
    obtain ⟨t, ht⟩ := split3_succ_self b ⟨[], false⟩ k hk h31
    refine ⟨k, u, v, t, rfl, hk, ?_, seg_of_lt b k u v hu hv, ?_, ht,
      removeAfter_append b k v hv, ?_, ?_⟩
    · intro j hj
      have := hbefore j hj
      simpa using this
    · rw [← isNullSegment_eq b k u v hu hv]; exact hp
    · rw [removeAfter_length]; omega
    · intro fuel
      rw [gboundary.deleteNullSegmentsLoop, hn]
      simp only [ht]

/-- The segments with equal ends of a loop of one vertex. -/
theorem nullSegments_single (v : vball) (inn : Bool) :
    (⟨[v], inn⟩ : g1boundary).nullSegments = if v.eq v then [0] else [] := by
  have h := isNullSegment_eq ⟨[v], inn⟩ 0 v v rfl (by simp)
  have e : ((0 : Nat) : Int) = 0 := rfl
  rw [e] at h
  show List.filter (g1boundary.isNullSegment ⟨[v], inn⟩) [(0 : Int)] = _
  rw [List.filter_cons, h]
  rfl

/-- The macro `cmpeq` of a value with itself: true exactly on finite values. -/
theorem cmpeq_self (a : double) : cmpeq a a = true ↔ ∃ q : ℚ, a = fin q := by
  cases a with
  | nan => simp [cmpeq, double.lt, double.fabs, HSub.hSub, Sub.sub, double.sub, double.add, double.neg]
  | inf s => cases s <;> simp [cmpeq, double.lt, double.fabs, HSub.hSub, Sub.sub, double.sub, double.add, double.neg]
  | fin q =>
    rw [cmpeq_fin]
    simp

/-- The operator `==` of a vertex with itself: true on face 0, true on the faces 1 to 6
exactly when both coordinates are finite, false on face 7. -/
theorem vball_eq_self (v : vball) :
    (v.face = 0 → v.eq v = true) ∧
    (1 ≤ v.face ∧ v.face ≤ 6 → (v.eq v = true ↔ ∃ x y : ℚ, v.x = fin x ∧ v.y = fin y)) ∧
    (v.face = 7 → v.eq v = false) := by
  obtain ⟨f, x, y⟩ := v
  refine ⟨?_, ?_, ?_⟩
  · intro h
    simp only at h
    subst h
    simp [vball.eq, vballcompareAt, vballcompare]
  · intro h
    simp only at h
    rw [vball_eq_on_face f h, Bool.and_eq_true, cmpeq_self, cmpeq_self]
    constructor
    · rintro ⟨⟨a, ha⟩, ⟨b, hb⟩⟩
      exact ⟨a, b, ha, hb⟩
    · rintro ⟨a, b, ha, hb⟩
      exact ⟨⟨a, ha⟩, ⟨b, hb⟩⟩
  · intro h
    simp only at h
    subst h
    simp [vball.eq, vballcompareAt, vballcompare]

/-- C30 (amended). `gboundary::deleteNullSegments` returns on every gboundary when given
more fuel than the largest loop has vertices (the sizes plus one within `int`, so that no
index computed by `split` and `positionSegment` overflows); each loop of the result is what
the `while` loop makes of the loop at the same place, a cyclic subsequence of it without a
segment whose start `==` its end. A loop without such a segment is returned as it is.
Otherwise a round removes exactly one vertex, the end `v` of the first segment `k` with
equal ends, leaving the other vertices in cyclic order, and the loop goes on with what is
left. A loop of one vertex is emptied when that vertex is `==` to itself and kept when it is
not; a vertex is `==` to itself on face 0, on the faces 1 to 6 exactly when both coordinates
are finite, and never on face 7. -/
theorem deleteNullSegments_removes_null (g : gboundary) (fuel : Nat)
    (h31 : ∀ b ∈ g.bdy, (b.bdy.length : Int) + 1 < 2 ^ 31)
    (hfuel : ∀ b ∈ g.bdy, b.bdy.length < fuel) :
    (∃ r, g.deleteNullSegments fuel = some r ∧ r.bdy.length = g.bdy.length ∧
      ∀ (k : Nat) b0 b, g.bdy[k]? = some b0 → r.bdy[k]? = some b →
        gboundary.deleteNullSegmentsLoop fuel b0 = some b ∧
        CyclicSub b.bdy b0.bdy ∧ b.inner = b0.inner ∧
        ∀ (i : Nat) s, i < b.bdy.length → b.seg i = some s → s.start.eq s.end_ = false) ∧
    (∀ (b : g1boundary) (fuel1 : Nat),
      (∀ (i : Nat) s, i < b.bdy.length → b.seg i = some s → s.start.eq s.end_ = false) →
      gboundary.deleteNullSegmentsLoop (fuel1 + 1) b = some b) ∧
    (∀ b : g1boundary, (b.bdy.length : Int) + 1 < 2 ^ 31 →
      ∀ i0 rest, b.nullSegments = i0 :: rest →
      ∃ (k : Nat) (u v : vball) (t : g1boundary), i0 = k ∧ k < b.bdy.length ∧
        (∀ j : Nat, j < k → b.isNullSegment (j : Int) = false) ∧
        b.seg i0 = some ⟨u, v⟩ ∧ u.eq v = true ∧
        b.split3 (i0 + 1) i0 ⟨[], false⟩ = some (b.removeAfter k, t) ∧
        (b.removeAfter k).bdy ++ [v] = b.bdy.rotate (k + 2) ∧
        (b.removeAfter k).bdy.length + 1 = b.bdy.length ∧
        (b.removeAfter k).inner = b.inner ∧
        ∀ fuel1, gboundary.deleteNullSegmentsLoop (fuel1 + 1) b =
          gboundary.deleteNullSegmentsLoop fuel1 (b.removeAfter k)) ∧
    (∀ (v : vball) (inn : Bool) (fuel1 : Nat),
      (v.eq v = true →
        gboundary.deleteNullSegmentsLoop (fuel1 + 2) ⟨[v], inn⟩ = some ⟨[], inn⟩) ∧
      (v.eq v = false →
        gboundary.deleteNullSegmentsLoop (fuel1 + 1) ⟨[v], inn⟩ = some ⟨[v], inn⟩)) ∧
    ∀ v : vball, (v.face = 0 → v.eq v = true) ∧
      (1 ≤ v.face ∧ v.face ≤ 6 → (v.eq v = true ↔ ∃ x y : ℚ, v.x = fin x ∧ v.y = fin y)) ∧
      (v.face = 7 → v.eq v = false) := by
  refine ⟨?_, ?_, ?_, ?_, vball_eq_self⟩
  · obtain ⟨rs, h1, h2, h3⟩ := forEachLoop_some (gboundary.deleteNullSegmentsLoop fuel)
      (fun b0 b => CyclicSub b.bdy b0.bdy ∧ b.inner = b0.inner ∧
        ∀ (i : Nat) s, i < b.bdy.length → b.seg i = some s → s.start.eq s.end_ = false)
      g.bdy (fun b hb => by
        obtain ⟨r, hr1, hr2, hr3, -, hr5⟩ :=
          deleteNullSegmentsLoop_result b fuel (by have := h31 b hb; omega) (hfuel b hb)
        exact ⟨r, hr1, hr2, hr3, hr5⟩)
    refine ⟨⟨rs⟩, ?_, h2, fun k b0 b hb0 hb => h3 k b0 b hb0 hb⟩
    simp [gboundary.deleteNullSegments, h1]
  · intro b fuel1 hno
    apply deleteNullSegmentsLoop_fixed
    rw [nullSegments_eq_nil_iff]
    intro i hi
    obtain ⟨u, w, hu, hw⟩ := exists_vertices b i hi
    have hs := seg_of_lt b i u w hu hw
    rw [isNullSegment_eq b i u w hu hw]
    exact hno i ⟨u, w⟩ hi hs
  · intro b hb i0 rest hn
    obtain ⟨k, u, v, t, c1, c2, c3, c4, c5, c6, c7, c8, c9⟩ :=
      deleteNullSegments_round b (by omega) i0 rest hn
    exact ⟨k, u, v, t, c1, c2, c3, c4, c5, c6, c7, c8, rfl, c9⟩
  · intro v inn fuel1
    have hn := nullSegments_single v inn
    constructor
    · intro hv
      rw [hv] at hn
      simp only [if_true] at hn
      obtain ⟨k, u, w, t, hk, hlt, -, -, -, -, -, hlen, hstep⟩ :=
        deleteNullSegments_round ⟨[v], inn⟩ (by norm_num) 0 [] hn
      rw [hstep (fuel1 + 1)]
      have hnil : ((⟨[v], inn⟩ : g1boundary).removeAfter k).bdy = [] := by
        apply List.length_eq_zero.mp
        simp only [List.length_singleton] at hlen
        omega
      have hform : (⟨[v], inn⟩ : g1boundary).removeAfter k = ⟨[], inn⟩ := by
        cases hr : (⟨[v], inn⟩ : g1boundary).removeAfter k with
        | mk bd i2 =>
          rw [hr] at hnil
          simp only at hnil
          subst hnil
          have : ((⟨[v], inn⟩ : g1boundary).removeAfter k).inner = inn := rfl
          rw [hr] at this
          simp only at this
          rw [this]
      rw [hform]
      exact deleteNullSegmentsLoop_fixed ⟨[], inn⟩ fuel1 rfl
    · intro hv
      rw [hv] at hn
      simp only [Bool.false_eq_true, if_false] at hn
      exact deleteNullSegmentsLoop_fixed _ fuel1 hn

/-- Witness for C30: one loop of four vertices, two of them equal. -/
theorem deleteNullSegments_removes_null_witness :
    ∃ r, (⟨[⟨[⟨1, 0, 0⟩, ⟨1, 1, 0⟩, ⟨1, 1, 0⟩, ⟨1, 0, 1⟩], false⟩]⟩ : gboundary).deleteNullSegments 5
      = some r ∧ r.bdy.length = 1 := by
  obtain ⟨r, h1, h2, -⟩ := (deleteNullSegments_removes_null
    ⟨[⟨[⟨1, 0, 0⟩, ⟨1, 1, 0⟩, ⟨1, 1, 0⟩, ⟨1, 0, 1⟩], false⟩]⟩ 5
    (by intro b hb; simp at hb; subst hb; norm_num)
    (by intro b hb; simp at hb; subst hb; simp)).1
  exact ⟨r, h1, h2⟩

/-- Counterexample for C30: a loop whose only vertex is the undefined point of face 7, as
`encodedir` returns for a NaN direction, is not emptied, since that vertex is not `==` to
itself. -/
theorem deleteNullSegments_keeps_nan_vertex :
    (⟨[⟨[⟨7, nan, nan⟩], false⟩]⟩ : gboundary).deleteNullSegments 2
      = some ⟨[⟨[⟨7, nan, nan⟩], false⟩]⟩ := by
  have hv : vball.eq ⟨7, nan, nan⟩ ⟨7, nan, nan⟩ = false := by
    simp [vball.eq, vballcompareAt, vballcompare]
  have hn := nullSegments_single ⟨7, nan, nan⟩ false
  rw [hv] at hn
  simp only [Bool.false_eq_true, if_false] at hn
  simp [gboundary.deleteNullSegments, gboundary.forEachLoop,
    deleteNullSegmentsLoop_fixed _ 1 hn]

/-- The relation "cyclic subsequence" is transitive. -/
theorem cyclicSub_trans {α : Type} (a b c : List α) (h1 : CyclicSub a b) (h2 : CyclicSub b c) :
    CyclicSub a c := by
  obtain ⟨r1, hr1, hs1⟩ := h1
  obtain ⟨n, hn⟩ := hr1.symm
  have h3 : CyclicSub (b.rotate n) c := by
    have := cyclicSub_take_rotate b c n (b.rotate n).length h2
    rwa [List.take_length] at this
  rw [hn] at h3
  obtain ⟨r3, hr3, hs3⟩ := h3
  exact ⟨r3, hr3, List.Sublist.trans hs1 hs3⟩

/-- The test of `deleteRetrace` at `i` in terms of the three vertices. -/
theorem retraceAt_eq (g : g1boundary) (i : Nat) (a b c : vball) (ha : g.bdy[i]? = some a)
    (hb : g.bdy[(i + 1) % g.bdy.length]? = some b)
    (hc : g.bdy[(i + 2) % g.bdy.length]? = some c) :
    g.retraceAt i = (a.eq c || a.eq b || b.eq c) := by
  unfold g1boundary.retraceAt
  simp only [ha, hb, hc]

/-- The test of `deleteCollinear` at `i` in terms of the three vertices. -/
theorem collinearAt_eq (g : g1boundary) (i : Nat) (a b c : vball) (ha : g.bdy[i]? = some a)
    (hb : g.bdy[(i + 1) % g.bdy.length]? = some b)
    (hc : g.bdy[(i + 2) % g.bdy.length]? = some c) :
    g.collinearAt i = (sameEdge a b && sameEdge b c && sameEdge c a) := by
  unfold g1boundary.collinearAt
  simp only [ha, hb, hc]

/-- A segment with equal ends passes the test of `deleteRetrace`. -/
theorem retraceAt_of_isNullSegment (g : g1boundary) (i : Nat) (hi : i < g.bdy.length)
    (h : g.isNullSegment (i : Int) = true) : g.retraceAt i = true := by
  obtain ⟨a, b, ha, hb⟩ := exists_vertices g i hi
  have h2 : (i + 2) % g.bdy.length < g.bdy.length := Nat.mod_lt _ (by omega)
  rw [isNullSegment_eq g i a b ha hb] at h
  rw [retraceAt_eq g i a b _ ha hb (List.getElem?_eq_getElem h2), h]
  simp

/-- What `g1boundary::deleteRetrace` returns. -/
theorem deleteRetrace_result (g : g1boundary) (fuel : Nat)
    (h31 : (g.bdy.length : Int) < 2 ^ 31) (hfuel : g.bdy.length < fuel) :
    ∃ r, g.deleteRetrace fuel = some r ∧ CyclicSub r.bdy g.bdy ∧ r.inner = g.inner ∧
      r.bdy.length ≤ g.bdy.length ∧ ∀ i, i < r.bdy.length → r.retraceAt i = false := by
  have hpick : ∀ (g : g1boundary) (i : Nat),
      (List.range g.bdy.length).find? g.retraceAt = some i → i < g.bdy.length := by
    intro g i h
    have := (List.find?_range_eq_some.mp h).2.1
    simpa using this
  obtain ⟨r, hr⟩ := iterateRemoval_terminates _ hpick fuel g hfuel
  obtain ⟨h1, h2, h3, h4⟩ := iterateRemoval_result _ fuel g r hr
  refine ⟨r, ?_, h2, h3, h4, ?_⟩
  · rw [deleteRetrace_eq fuel g h31]; exact hr
  · intro i hi
    have := List.find?_eq_none.mp h1 i (by simpa using hi)
    simpa using this

/-- What `g1boundary::deleteCollinear` returns. -/
theorem deleteCollinear_result (g : g1boundary) (fuel : Nat)
    (h31 : (g.bdy.length : Int) < 2 ^ 31) (hfuel : g.bdy.length < fuel) :
    ∃ r, g.deleteCollinear fuel = some r ∧ CyclicSub r.bdy g.bdy ∧ r.inner = g.inner ∧
      r.bdy.length ≤ g.bdy.length ∧ ∀ i, i < r.bdy.length → r.collinearAt i = false := by
  have hpick : ∀ (g : g1boundary) (i : Nat),
      (List.range g.bdy.length).find? g.collinearAt = some i → i < g.bdy.length := by
    intro g i h
    have := (List.find?_range_eq_some.mp h).2.1
    simpa using this
  obtain ⟨r, hr⟩ := iterateRemoval_terminates _ hpick fuel g hfuel
  obtain ⟨h1, h2, h3, h4⟩ := iterateRemoval_result _ fuel g r hr
  refine ⟨r, ?_, h2, h3, h4, ?_⟩
  · rw [deleteCollinear_eq fuel g h31]; exact hr
  · intro i hi
    have := List.find?_eq_none.mp h1 i (by simpa using hi)
    simpa using this

/-- A loop that passes no test of `deleteRetrace` has no segment with equal ends. -/
theorem nullSegments_of_no_retrace (b : g1boundary)
    (hp : ∀ i, i < b.bdy.length → b.retraceAt i = false) : b.nullSegments = [] := by
  rw [nullSegments_eq_nil_iff]
  intro i hi
  by_contra hne
  have ht : b.isNullSegment (i : Int) = true := by
    cases h : b.isNullSegment (i : Int) with
    | true => rfl
    | false => exact absurd h hne
  have := retraceAt_of_isNullSegment b i hi ht
  rw [hp i hi] at this
  exact absurd this (by simp)

/-- With the loop `forEachLoop`, every loop of the result comes from a loop of the input. -/
theorem forEachLoop_mem (f : g1boundary → Option g1boundary)
    (P : g1boundary → g1boundary → Prop) (l : List g1boundary)
    (h : ∀ b ∈ l, ∃ r, f b = some r ∧ P b r) :
    ∃ rs, gboundary.forEachLoop f l = some rs ∧ rs.length = l.length ∧
      (∀ (k : Nat) b r, l[k]? = some b → rs[k]? = some r → f b = some r ∧ P b r) ∧
      ∀ r ∈ rs, ∃ b ∈ l, P b r := by
  obtain ⟨rs, h1, h2, h3⟩ := forEachLoop_some f P l h
  refine ⟨rs, h1, h2, h3, ?_⟩
  intro r hr
  obtain ⟨k, hk⟩ := List.mem_iff_getElem?.mp hr
  have hlt : k < rs.length := by
    by_contra hge
    rw [List.getElem?_eq_none (by omega)] at hk
    exact absurd hk (by simp)
  have hlt2 : k < l.length := by omega
  exact ⟨l[k], List.getElem_mem hlt2, (h3 k l[k] r (List.getElem?_eq_getElem hlt2) hk).2⟩

/-- The cleanup sequence on a gboundary: it returns, and every loop of the result is a
cyclic subsequence of the loop it comes from that passes no test of `deleteRetrace`. -/
theorem cleanupPass_result (g : gboundary) (fuel : Nat)
    (h31 : ∀ b ∈ g.bdy, (b.bdy.length : Int) < 2 ^ 31)
    (hfuel : ∀ b ∈ g.bdy, b.bdy.length < fuel) :
    ∃ r, g.cleanupPass fuel = some r ∧ r.bdy.length = g.bdy.length ∧
      ∀ (k : Nat) b0 b, g.bdy[k]? = some b0 → r.bdy[k]? = some b →
        CyclicSub b.bdy b0.bdy ∧ b.inner = b0.inner ∧
        ∀ i, i < b.bdy.length → b.retraceAt i = false := by
  obtain ⟨l1, e1, n1, p1, m1⟩ := forEachLoop_mem (g1boundary.deleteCollinear fuel)
    (fun b0 b1 => CyclicSub b1.bdy b0.bdy ∧ b1.inner = b0.inner ∧ b1.bdy.length ≤ b0.bdy.length)
    g.bdy (fun b hb => by
      obtain ⟨r, hr1, hr2, hr3, hr4, -⟩ := deleteCollinear_result b fuel (h31 b hb) (hfuel b hb)
      exact ⟨r, hr1, hr2, hr3, hr4⟩)
  obtain ⟨l2, e2, n2, p2, m2⟩ := forEachLoop_mem (g1boundary.deleteRetrace fuel)
    (fun b1 b2 => CyclicSub b2.bdy b1.bdy ∧ b2.inner = b1.inner ∧
      b2.bdy.length ≤ b1.bdy.length ∧ ∀ i, i < b2.bdy.length → b2.retraceAt i = false)
    l1 (fun b hb => by
      obtain ⟨b0, hb0, -, -, hle⟩ := m1 b hb
      have := h31 b0 hb0
      have := hfuel b0 hb0
      exact deleteRetrace_result b fuel (by omega) (by omega))
  obtain ⟨l3, e3, n3, p3, -⟩ := forEachLoop_mem (gboundary.deleteNullSegmentsLoop fuel)
    (fun b2 b3 => b3 = b2) l2 (fun b hb => by
      obtain ⟨b1, hb1, -, -, hle, hp⟩ := m2 b hb
      obtain ⟨b0, hb0, -, -, hle0⟩ := m1 b1 hb1
      have := hfuel b0 hb0
      obtain ⟨k, rfl⟩ : ∃ k, fuel = k + 1 := ⟨fuel - 1, by omega⟩
      refine ⟨b, ?_, rfl⟩
      exact deleteNullSegmentsLoop_fixed b k (nullSegments_of_no_retrace b hp))
  refine ⟨⟨l3⟩, ?_, by simp only; omega, ?_⟩
  · simp [gboundary.cleanupPass, gboundary.deleteCollinear, gboundary.deleteRetrace,
      gboundary.deleteNullSegments, e1, e2, e3]
  · intro k b0 b hb0 hb
    simp only at hb
    have hk : k < l3.length := by
      by_contra hge
      rw [List.getElem?_eq_none (by omega)] at hb
      exact absurd hb (by simp)
    have hk2 : k < l2.length := by omega
    have hk1 : k < l1.length := by omega
    have q3 := (p3 k l2[k] b (List.getElem?_eq_getElem hk2) hb).2
    have q2 := (p2 k l1[k] l2[k] (List.getElem?_eq_getElem hk1) (List.getElem?_eq_getElem hk2)).2
    have q1 := (p1 k b0 l1[k] hb0 (List.getElem?_eq_getElem hk1)).2
    simp only at q3
    subst q3
    exact ⟨cyclicSub_trans _ _ _ q2.1 q1.1, by rw [q2.2.1, q1.2.1], q2.2.2.2⟩

/-- C28 (amended). One pass of the cleanup sequence returns on every gboundary (with more
fuel than the largest loop has vertices), and every loop of the result is a cyclic
subsequence of the loop it comes from in which no vertex is `==` to the vertex one or two
steps after it; in particular no segment has zero length. Collinear triples may remain. -/
theorem cleanupPass_no_retrace (g : gboundary) (fuel : Nat)
    (h31 : ∀ b ∈ g.bdy, (b.bdy.length : Int) < 2 ^ 31)
    (hfuel : ∀ b ∈ g.bdy, b.bdy.length < fuel) :
    ∃ r, g.cleanupPass fuel = some r ∧ r.bdy.length = g.bdy.length ∧
      ∀ (k : Nat) b0 b, g.bdy[k]? = some b0 → r.bdy[k]? = some b →
        CyclicSub b.bdy b0.bdy ∧
        ∀ (i : Nat) u v w, b.bdy[i]? = some u → b.bdy[(i + 1) % b.bdy.length]? = some v →
          b.bdy[(i + 2) % b.bdy.length]? = some w → u.eq v = false ∧ u.eq w = false := by
  obtain ⟨r, h1, h2, h3⟩ := cleanupPass_result g fuel h31 hfuel
  refine ⟨r, h1, h2, fun k b0 b hb0 hb => ⟨(h3 k b0 b hb0 hb).1, ?_⟩⟩
  intro i u v w hu hv hw
  have hi : i < b.bdy.length := by
    by_contra hge
    rw [List.getElem?_eq_none (by omega)] at hu
    exact absurd hu (by simp)
  have := (h3 k b0 b hb0 hb).2.2 i hi
  rw [retraceAt_eq b i u v w hu hv hw] at this
  simp only [Bool.or_eq_false_iff] at this
  exact ⟨this.1.2, this.1.1⟩

/-- Witness for C28: a gboundary of one loop with a repeated vertex. -/
theorem cleanupPass_no_retrace_witness :
    ∃ r, (⟨[⟨[⟨1, 0, 0⟩, ⟨1, 1, 1⟩, ⟨1, 0, 0⟩], false⟩]⟩ : gboundary).cleanupPass 4 = some r ∧
      r.bdy.length = 1 := by
  obtain ⟨r, h1, h2, -⟩ := cleanupPass_no_retrace
    ⟨[⟨[⟨1, 0, 0⟩, ⟨1, 1, 1⟩, ⟨1, 0, 0⟩], false⟩]⟩ 4
    (by intro b hb; simp at hb; subst hb; norm_num)
    (by intro b hb; simp at hb; subst hb; simp)
  exact ⟨r, h1, h2⟩

/-- The first index found in `0, ..., n-1`, from the values of the test. -/
theorem find?_range_of_first (p : Nat → Bool) (n i : Nat) (hi : i < n) (hp : p i = true)
    (hb : ∀ j, j < i → p j = false) : (List.range n).find? p = some i := by
  rw [List.find?_range_eq_some]
  exact ⟨hp, List.mem_range.mpr hi, fun j hj => by simp [hb j hj]⟩

/-- No index is found in `0, ..., n-1` when the test fails everywhere. -/
theorem find?_range_none (p : Nat → Bool) (n : Nat) (hb : ∀ j, j < n → p j = false) :
    (List.range n).find? p = none := by
  rw [List.find?_eq_none]
  intro x hx
  simp [hb x (List.mem_range.mp hx)]

/-- The loop with a spike used against C28 has no aligned triple. -/
theorem spike_deleteCollinear :
    g1boundary.deleteCollinear 7 ⟨[⟨1, fin (-1), fin 0⟩, ⟨1, fin 0, fin 0⟩, ⟨1, fin 1, fin 1⟩, ⟨1, fin 0, fin 0⟩,
      ⟨1, fin 1, fin 0⟩, ⟨1, fin 0, fin 1⟩], false⟩ = some ⟨[⟨1, fin (-1), fin 0⟩, ⟨1, fin 0, fin 0⟩, ⟨1, fin 1, fin 1⟩, ⟨1, fin 0, fin 0⟩,
      ⟨1, fin 1, fin 0⟩, ⟨1, fin 0, fin 1⟩], false⟩ := by
  have hf : (1 : Int) ≤ 1 ∧ (1 : Int) ≤ 6 := by norm_num
  rw [deleteCollinear_eq 7 _ (by norm_num)]
  apply iterateRemoval_fixed
  apply find?_range_none
  intro i hi
  simp only [List.length_cons, List.length_nil] at hi
  interval_cases i <;> simp [g1boundary.collinearAt, sameEdge_on_face 1 hf]

/-- The method `deleteRetrace` on the loop with a spike removes the spike and one of the
two equal vertices. -/
theorem spike_deleteRetrace :
    g1boundary.deleteRetrace 7 ⟨[⟨1, fin (-1), fin 0⟩, ⟨1, fin 0, fin 0⟩, ⟨1, fin 1, fin 1⟩, ⟨1, fin 0, fin 0⟩,
      ⟨1, fin 1, fin 0⟩, ⟨1, fin 0, fin 1⟩], false⟩ = some ⟨[⟨1, fin 0, fin 0⟩, ⟨1, fin 1, fin 0⟩, ⟨1, fin 0, fin 1⟩, ⟨1, fin (-1), fin 0⟩],
      false⟩ := by
  have hf : (1 : Int) ≤ 1 ∧ (1 : Int) ≤ 6 := by norm_num
  have ht : (20 : ℚ) / 2 ^ 52 < 1 := by norm_num
  rw [deleteRetrace_eq 7 _ (by norm_num)]
  have p1 : (List.range 6).find? (g1boundary.retraceAt ⟨[⟨1, fin (-1), fin 0⟩, ⟨1, fin 0, fin 0⟩, ⟨1, fin 1, fin 1⟩, ⟨1, fin 0, fin 0⟩,
      ⟨1, fin 1, fin 0⟩, ⟨1, fin 0, fin 1⟩], false⟩) = some 1 := by
    apply find?_range_of_first _ _ _ (by norm_num)
    · simp [g1boundary.retraceAt, vball_eq_on_face 1 hf, cmpeq_fin]
    · intro j hj
      interval_cases j
      simp [g1boundary.retraceAt, vball_eq_on_face 1 hf, cmpeq_fin]
      norm_num
  have p2 : (List.range 5).find? (g1boundary.retraceAt ⟨[⟨1, fin 0, fin 0⟩, ⟨1, fin 1, fin 0⟩, ⟨1, fin 0, fin 1⟩, ⟨1, fin (-1), fin 0⟩,
      ⟨1, fin 0, fin 0⟩], false⟩) = some 3 := by
    apply find?_range_of_first _ _ _ (by norm_num)
    · simp [g1boundary.retraceAt, vball_eq_on_face 1 hf, cmpeq_fin]
    · intro j hj
      interval_cases j <;>
        simp [g1boundary.retraceAt, vball_eq_on_face 1 hf, cmpeq_fin] <;> norm_num
  have p3 : (List.range 4).find? (g1boundary.retraceAt ⟨[⟨1, fin 0, fin 0⟩, ⟨1, fin 1, fin 0⟩, ⟨1, fin 0, fin 1⟩, ⟨1, fin (-1), fin 0⟩],
      false⟩) = none := by
    apply find?_range_none
    intro j hj
    interval_cases j <;>
      simp [g1boundary.retraceAt, vball_eq_on_face 1 hf, cmpeq_fin] <;> norm_num
  have r1 : g1boundary.removeAfter ⟨[⟨1, fin (-1), fin 0⟩, ⟨1, fin 0, fin 0⟩, ⟨1, fin 1, fin 1⟩, ⟨1, fin 0, fin 0⟩,
      ⟨1, fin 1, fin 0⟩, ⟨1, fin 0, fin 1⟩], false⟩ 1 = ⟨[⟨1, fin 0, fin 0⟩, ⟨1, fin 1, fin 0⟩, ⟨1, fin 0, fin 1⟩, ⟨1, fin (-1), fin 0⟩,
      ⟨1, fin 0, fin 0⟩], false⟩ := rfl
  have r2 : g1boundary.removeAfter ⟨[⟨1, fin 0, fin 0⟩, ⟨1, fin 1, fin 0⟩, ⟨1, fin 0, fin 1⟩, ⟨1, fin (-1), fin 0⟩,
      ⟨1, fin 0, fin 0⟩], false⟩ 3 = ⟨[⟨1, fin 0, fin 0⟩, ⟨1, fin 1, fin 0⟩, ⟨1, fin 0, fin 1⟩, ⟨1, fin (-1), fin 0⟩],
      false⟩ := rfl
  rw [g1boundary.iterateRemoval]
  simp only [List.length_cons, List.length_nil, Nat.reduceAdd, p1, r1]
  rw [g1boundary.iterateRemoval]
  simp only [List.length_cons, List.length_nil, Nat.reduceAdd, p2, r2]
  rw [g1boundary.iterateRemoval]
  simp only [List.length_cons, List.length_nil, Nat.reduceAdd, p3]

/-- Counterexample for C28: on face 1 the loop `(-1,0)`, `(0,0)`, `(1,1)`, `(0,0)`, `(1,0)`,
`(0,1)` has no aligned triple, so `deleteCollinear` keeps it; `deleteRetrace` removes the
spike `(1,1)` and one of the two `(0,0)`; `deleteNullSegments` finds nothing. The loop left
is `(0,0)`, `(1,0)`, `(0,1)`, `(-1,0)`, in which the consecutive vertices `(-1,0)`, `(0,0)`,
`(1,0)` are pairwise `sameEdge`. -/
theorem cleanupPass_leaves_collinear :
    (⟨[⟨[⟨1, fin (-1), fin 0⟩, ⟨1, fin 0, fin 0⟩, ⟨1, fin 1, fin 1⟩, ⟨1, fin 0, fin 0⟩,
        ⟨1, fin 1, fin 0⟩, ⟨1, fin 0, fin 1⟩], false⟩]⟩ : gboundary).cleanupPass 7
      = some ⟨[⟨[⟨1, fin 0, fin 0⟩, ⟨1, fin 1, fin 0⟩, ⟨1, fin 0, fin 1⟩,
        ⟨1, fin (-1), fin 0⟩], false⟩]⟩ ∧
    (⟨[⟨1, fin 0, fin 0⟩, ⟨1, fin 1, fin 0⟩, ⟨1, fin 0, fin 1⟩, ⟨1, fin (-1), fin 0⟩],
      false⟩ : g1boundary).collinearAt 3 = true ∧
    sameEdge ⟨1, fin (-1), fin 0⟩ ⟨1, fin 0, fin 0⟩ = true ∧
    sameEdge ⟨1, fin 0, fin 0⟩ ⟨1, fin 1, fin 0⟩ = true ∧
    sameEdge ⟨1, fin 1, fin 0⟩ ⟨1, fin (-1), fin 0⟩ = true := by
  have hf : (1 : Int) ≤ 1 ∧ (1 : Int) ≤ 6 := by norm_num
  refine ⟨?_, ?_, ?_, ?_, ?_⟩
  · have hn : g1boundary.nullSegments ⟨[⟨1, fin 0, fin 0⟩, ⟨1, fin 1, fin 0⟩,
        ⟨1, fin 0, fin 1⟩, ⟨1, fin (-1), fin 0⟩], false⟩ = [] := by
      apply nullSegments_of_no_retrace
      intro i hi
      simp only [List.length_cons, List.length_nil] at hi
      interval_cases i <;>
        simp [g1boundary.retraceAt, vball_eq_on_face 1 hf, cmpeq_fin] <;> norm_num
    simp [gboundary.cleanupPass, gboundary.deleteCollinear, gboundary.deleteRetrace,
      gboundary.deleteNullSegments, gboundary.forEachLoop, spike_deleteCollinear,
      spike_deleteRetrace, deleteNullSegmentsLoop_fixed _ 6 hn]
  · simp [g1boundary.collinearAt, sameEdge_on_face 1 hf]
  · simp [sameEdge_on_face 1 hf]
  · simp [sameEdge_on_face 1 hf]
  · simp [sameEdge_on_face 1 hf]

/-! ## `consolidate` -/

/-- The level of the coordinate `0`. -/
theorem splitLevel_zero (fuel : Nat) : splitLevel fuel (fin 0) = some 1 := by
  simpa using splitLevel_intCast fuel 0

/-- The level of the coordinate `1`. -/
theorem splitLevel_one (fuel : Nat) : splitLevel fuel (fin 1) = some 0 := by
  simpa using splitLevel_intCast fuel 1

/-- The level of the coordinate `-1`. -/
theorem splitLevel_neg_one (fuel : Nat) : splitLevel fuel (fin (-1)) = some 0 := by
  simpa using splitLevel_intCast fuel (-1)

/-- The method `seg` at an index from `0` to the size, by list lookup. -/
theorem seg_of_index (g : g1boundary) (n : Int) (h0 : 0 ≤ n) (h1 : n < (g.bdy.length : Int)) :
    g.seg n = match g.bdy[n.toNat]?, g.bdy[(n.toNat + 1) % g.bdy.length]? with
      | some s, some e => some { start := s, end_ := e }
      | _, _ => none := by
  obtain ⟨i, rfl⟩ := Int.eq_ofNat_of_zero_le h0
  have hi : i < g.bdy.length := by exact_mod_cast h1
  obtain ⟨a, b, ha, hb⟩ := exists_vertices g i hi
  rw [seg_of_lt g i a b ha hb]
  simp only [Int.toNat_ofNat, ha, hb]

example : g1boundary.segmentsAtLevel 1 ⟨[⟨1, fin (-1), fin (-1)⟩, ⟨1, fin 0, fin (-1)⟩, ⟨1, fin 0, fin 0⟩,
      ⟨1, fin (-1), fin 0⟩], false⟩ 1 = some [1, 2] := by
  simp [g1boundary.segmentsAtLevel, g1boundary.indices, g1boundary.filterOpt, g1boundary.atLevel,
    seg_of_index, splitLevelSegment, splitLevel_zero, splitLevel_one, splitLevel_neg_one, List.range, List.range.loop]

/-- A round of the loop of `consolidate` that finds overlapping segments. -/
theorem consolidateLoop_found (slFuel : Nat) (l : Int) (sz fuel : Nat) (bdy : List g1boundary)
    (i j cnt : Nat) (bi bj : g1boundary) (iseg jseg : List Int) (a b : Int)
    (hc : cnt < sz * sz) (hi : bdy[i]? = some bi) (hj : bdy[j]? = some bj)
    (hsi : bi.segmentsAtLevel slFuel l = some iseg)
    (hsj : bj.segmentsAtLevel slFuel l = some jseg)
    (hscan : gboundary.consolidateScan bi bj (gboundary.segmentPairs iseg jseg) none
      = Outcome.ok (some (a, b))) :
    gboundary.consolidateLoop slFuel l sz (fuel + 1) bdy i j cnt =
      gboundary.consolidateLoop slFuel l sz fuel
        ((bdy.set i (bi.splice3 a bj b).1).set j (bi.splice3 a bj b).2)
        (gboundary.nextPair sz (i, j)).1 (gboundary.nextPair sz (i, j)).2 0 := by
  rw [gboundary.consolidateLoop]
  simp only [hc, if_true, hi, hj, hsi, hsj, hscan, gboundary.nextPair]

/-- A round of the loop of `consolidate` that finds no overlapping segments. -/
theorem consolidateLoop_quiet (slFuel : Nat) (l : Int) (sz fuel : Nat) (bdy : List g1boundary)
    (i j cnt : Nat) (hc : cnt < sz * sz) (hq : gboundary.Quiet slFuel l bdy (i, j)) :
    gboundary.consolidateLoop slFuel l sz (fuel + 1) bdy i j cnt =
      gboundary.consolidateLoop slFuel l sz fuel bdy
        (gboundary.nextPair sz (i, j)).1 (gboundary.nextPair sz (i, j)).2 (cnt + 1) := by
  obtain ⟨bi, bj, iseg, jseg, hi, hj, hsi, hsj, hscan⟩ := hq
  rw [gboundary.consolidateLoop]
  simp only at hi hj
  simp only [hc, if_true, hi, hj, hsi, hsj, hscan, gboundary.nextPair]

/-- The loop of `consolidate` ends when `cnt` has reached `sz*sz`. -/
theorem consolidateLoop_exit (slFuel : Nat) (l : Int) (sz fuel : Nat) (bdy : List g1boundary)
    (i j cnt : Nat) (hc : ¬ cnt < sz * sz) :
    gboundary.consolidateLoop slFuel l sz (fuel + 1) bdy i j cnt = Outcome.ok bdy := by
  rw [gboundary.consolidateLoop]
  simp only [hc, if_false]

/-- The next pair of two different indices is a pair of two different indices. -/
theorem validPair_next (sz : Nat) (p : Nat × Nat) (h : gboundary.ValidPair sz p) :
    gboundary.ValidPair sz (gboundary.nextPair sz p) := by
  obtain ⟨i, j⟩ := p
  obtain ⟨h1, h2, h3⟩ := h
  simp only at h1 h2 h3
  have hj : (j + 1) % sz = if j + 1 = sz then 0 else j + 1 := by
    split_ifs with h
    · rw [h, Nat.mod_self]
    · exact Nat.mod_eq_of_lt (by omega)
  have hi : (i + sz - 1) % sz = if i = 0 then sz - 1 else i - 1 := by
    split_ifs with h
    · subst h; rw [Nat.zero_add]; exact Nat.mod_eq_of_lt (by omega)
    · have : i + sz - 1 = (i - 1) + sz := by omega
      rw [this, Nat.add_mod_right]; exact Nat.mod_eq_of_lt (by omega)
  unfold gboundary.nextPair gboundary.ValidPair
  simp only [hj, hi]
  split_ifs <;> omega

/-- When every pair of loops is quiet, the loop of `consolidate` only counts up to `sz*sz`
and returns the loops unchanged. -/
theorem consolidateLoop_all_quiet (slFuel : Nat) (l : Int) (sz : Nat) (bdy : List g1boundary)
    (hq : ∀ p, gboundary.ValidPair sz p → gboundary.Quiet slFuel l bdy p) :
    ∀ (fuel : Nat) (p : Nat × Nat) (cnt : Nat), gboundary.ValidPair sz p →
      sz * sz - cnt < fuel →
      gboundary.consolidateLoop slFuel l sz fuel bdy p.1 p.2 cnt = Outcome.ok bdy := by
  intro fuel
  induction fuel with
  | zero =>
    intro p cnt _ h
    exfalso
    omega
  | succ fuel ih =>
    intro p cnt hv h
    by_cases hc : cnt < sz * sz
    · rw [consolidateLoop_quiet slFuel l sz fuel bdy p.1 p.2 cnt hc (hq p hv)]
      exact ih _ (cnt + 1) (validPair_next sz p hv) (by omega)
    · exact consolidateLoop_exit slFuel l sz fuel bdy p.1 p.2 cnt hc

/-- The loop `filterOpt` returns a sublist when the test answers on every element. -/
theorem filterOpt_some {α : Type} (p : α → Option Bool) (l : List α)
    (h : ∀ a ∈ l, ∃ b, p a = some b) :
    ∃ r, g1boundary.filterOpt p l = some r ∧ ∀ a ∈ r, a ∈ l ∧ p a = some true := by
  induction l with
  | nil => exact ⟨[], rfl, by simp⟩
  | cons a l ih =>
    obtain ⟨r, hr, hmem⟩ := ih (fun x hx => h x (List.mem_cons_of_mem _ hx))
    obtain ⟨b, hb⟩ := h a (List.mem_cons_self _ _)
    cases b with
    | true =>
      refine ⟨a :: r, by simp [g1boundary.filterOpt, hb, hr], ?_⟩
      intro x hx
      rcases List.mem_cons.mp hx with rfl | hx
      · exact ⟨List.mem_cons_self _ _, hb⟩
      · exact ⟨List.mem_cons_of_mem _ (hmem x hx).1, (hmem x hx).2⟩
    | false =>
      refine ⟨r, by simp [g1boundary.filterOpt, hb, hr], ?_⟩
      intro x hx
      exact ⟨List.mem_cons_of_mem _ (hmem x hx).1, (hmem x hx).2⟩

/-- What `filterOpt` returns holds exactly the elements on which the test is true. -/
theorem filterOpt_mem {α : Type} (p : α → Option Bool) (l r : List α)
    (h : g1boundary.filterOpt p l = some r) :
    (∀ a ∈ l, ∃ b, p a = some b) ∧ ∀ a, a ∈ r ↔ a ∈ l ∧ p a = some true := by
  induction l generalizing r with
  | nil =>
    simp only [g1boundary.filterOpt, Option.some.injEq] at h
    subst h
    simp
  | cons x l ih =>
    unfold g1boundary.filterOpt at h
    cases hx : p x with
    | none => simp [hx] at h
    | some b =>
      cases hl : g1boundary.filterOpt p l with
      | none => simp [hx, hl] at h
      | some r0 =>
        simp only [hx, hl, Option.some.injEq] at h
        obtain ⟨h1, h2⟩ := ih r0 hl
        constructor
        · intro a ha
          rcases List.mem_cons.mp ha with rfl | ha
          · exact ⟨b, hx⟩
          · exact h1 a ha
        · intro a
          subst h
          cases b with
          | true =>
            simp only [if_true, List.mem_cons]
            constructor
            · rintro (rfl | ha)
              · exact ⟨Or.inl rfl, hx⟩
              · exact ⟨Or.inr ((h2 a).mp ha).1, ((h2 a).mp ha).2⟩
            · rintro ⟨rfl | ha, hp⟩
              · exact Or.inl rfl
              · exact Or.inr ((h2 a).mpr ⟨ha, hp⟩)
          | false =>
            simp only [Bool.false_eq_true, if_false, List.mem_cons]
            constructor
            · intro ha
              exact ⟨Or.inr ((h2 a).mp ha).1, ((h2 a).mp ha).2⟩
            · rintro ⟨rfl | ha, hp⟩
              · rw [hx] at hp; simp at hp
              · exact (h2 a).mpr ⟨ha, hp⟩

/-- The entries of `indices n` are the integers from `0` to `n-1`. -/
theorem mem_indices (n : Nat) (a : Int) :
    a ∈ g1boundary.indices n ↔ ∃ i : Nat, i < n ∧ a = (i : Int) := by
  unfold g1boundary.indices
  simp only [List.mem_map, List.mem_range]
  constructor
  · rintro ⟨i, hi, rfl⟩; exact ⟨i, hi, rfl⟩
  · rintro ⟨i, hi, rfl⟩; exact ⟨i, hi, rfl⟩

/-- Two values that compare equal are not NaN. -/
theorem not_isnan_of_eq (a b : double) (h : double.eq a b = true) : a.isnan = false := by
  cases a <;> cases b <;> simp_all [double.eq, double.isnan]

/-- The level of a segment is computed as soon as the levels of the coordinates of its
start, unless they are NaN, are. -/
theorem splitLevelSegment_some (slFuel : Nat) (s : vsegment)
    (hx : s.start.x.isnan = false → splitLevel slFuel s.start.x ≠ none)
    (hy : s.start.y.isnan = false → splitLevel slFuel s.start.y ≠ none) :
    ∃ k, splitLevelSegment slFuel s = some k := by
  unfold splitLevelSegment
  split_ifs with h1 h2 h3
  · exact Option.ne_none_iff_exists'.mp (hx (not_isnan_of_eq _ _ h2))
  · exact Option.ne_none_iff_exists'.mp (hy (not_isnan_of_eq _ _ h3))
  · exact ⟨_, rfl⟩
  · exact ⟨_, rfl⟩
  · exact ⟨_, rfl⟩

/-- The method `segmentsAtLevel` returns when the level is negative (no level is computed)
or the coordinates of the vertices have levels within the fuel. -/
theorem segmentsAtLevel_some (slFuel : Nat) (g : g1boundary) (l : Int)
    (h : l < 0 ∨ LevelsWithin slFuel g) :
    ∃ iseg, g.segmentsAtLevel slFuel l = some iseg := by
  obtain ⟨r, hr, -⟩ := filterOpt_some (g.atLevel slFuel l) (g1boundary.indices g.bdy.length)
    (fun a ha => by
      obtain ⟨i, hi, rfl⟩ := (mem_indices _ _).mp ha
      obtain ⟨u, v, hu, hv⟩ := exists_vertices g i hi
      unfold g1boundary.atLevel
      split_ifs with hl
      · exact ⟨true, rfl⟩
      · rw [seg_of_lt g i u v hu hv]
        have h := h.resolve_left hl
        have hmem : u ∈ g.bdy := List.mem_iff_getElem?.mpr ⟨i, hu⟩
        obtain ⟨k, hk⟩ := splitLevelSegment_some slFuel ⟨u, v⟩ (h u hmem).1 (h u hmem).2
        simp only [hk]
        exact ⟨_, rfl⟩)
  exact ⟨r, hr⟩

/-- The entries of `segmentsAtLevel` are indices of vertices. -/
theorem segmentsAtLevel_mem (slFuel : Nat) (g : g1boundary) (l : Int) (iseg : List Int)
    (h : g.segmentsAtLevel slFuel l = some iseg) (a : Int) (ha : a ∈ iseg) :
    ∃ i : Nat, i < g.bdy.length ∧ a = (i : Int) := by
  have := ((filterOpt_mem _ _ _ h).2 a).mp ha
  exact (mem_indices _ _).mp this.1

/-- The level of a dyadic rational `m/2^k` is computed within more than `k` rounds. -/
theorem splitLevel_dyadic_some (m : Int) (k fuel : Nat) (hfuel : k < fuel) :
    splitLevel fuel (fin ((m : ℚ) / 2 ^ k)) ≠ none := by
  rcases dyadic_canonical k m with ⟨z, hz⟩ | ⟨m1, k1, hm1, hk1, hk1k, hc⟩
  · rw [hz, splitLevel_intCast]
    simp
  · rw [hc, splitLevel_odd_div_pow m1 k1 fuel hm1 hk1 (by omega)]
    simp

/-- The level of an infinite coordinate is computed at once. -/
theorem splitLevel_inf_some (s : Bool) (fuel : Nat) : splitLevel fuel (inf s) ≠ none := by
  simp [splitLevel, double.rint, double.eq]

/-- A loop whose finite coordinates are dyadic rationals `m/2^k` with `k` below the fuel, as
the values of a `double` are, has its levels within the fuel. -/
theorem levelsWithin_of_dyadic (slFuel : Nat) (g : g1boundary)
    (h : ∀ v ∈ g.bdy, ∀ q : ℚ, v.x = fin q ∨ v.y = fin q →
      ∃ (m : Int) (k : Nat), k < slFuel ∧ q = (m : ℚ) / 2 ^ k) :
    LevelsWithin slFuel g := by
  intro v hv
  constructor
  · intro hn
    cases hx : v.x with
    | nan => rw [hx] at hn; simp [double.isnan] at hn
    | inf s => exact splitLevel_inf_some s slFuel
    | fin q =>
      obtain ⟨m, k, hk, rfl⟩ := h v hv q (Or.inl hx)
      exact splitLevel_dyadic_some m k slFuel hk
  · intro hn
    cases hy : v.y with
    | nan => rw [hy] at hn; simp [double.isnan] at hn
    | inf s => exact splitLevel_inf_some s slFuel
    | fin q =>
      obtain ⟨m, k, hk, rfl⟩ := h v hv q (Or.inr hy)
      exact splitLevel_dyadic_some m k slFuel hk

/-- The remainder `(j+1)%sz` for `j` below `sz`. -/
theorem succ_mod_of_lt (sz j : Nat) (h : j < sz) :
    (j + 1) % sz = if j + 1 = sz then 0 else j + 1 := by
  split_ifs with h1
  · rw [h1, Nat.mod_self]
  · exact Nat.mod_eq_of_lt (by omega)

/-- The remainder `(i+sz-1)%sz` for `i` below `sz`. -/
theorem pred_mod_of_lt (sz i : Nat) (h : i < sz) :
    (i + sz - 1) % sz = if i = 0 then sz - 1 else i - 1 := by
  split_ifs with h1
  · subst h1; rw [Nat.zero_add]; exact Nat.mod_eq_of_lt (by omega)
  · have : i + sz - 1 = (i - 1) + sz := by omega
    rw [this, Nat.add_mod_right]; exact Nat.mod_eq_of_lt (by omega)

/-- The rank of a pair of two different indices is below `sz*(sz-1)`. -/
theorem pairRank_lt (sz : Nat) (p : Nat × Nat) (h : gboundary.ValidPair sz p) :
    gboundary.pairRank sz p < sz * (sz - 1) := by
  obtain ⟨i, j⟩ := p
  obtain ⟨h1, h2, h3⟩ := h
  simp only at h1 h2 h3
  obtain ⟨n, rfl⟩ : ∃ n, sz = n + 2 := ⟨sz - 2, by omega⟩
  unfold gboundary.pairRank
  simp only [Nat.add_sub_cancel]
  have ha : (if i = 0 then 0 else n + 2 - i) ≤ n + 1 := by split_ifs <;> omega
  have hb : (if i < j then j - i - 1 else j + (n + 2) - i - 1) ≤ n := by split_ifs <;> omega
  have hmul : (if i = 0 then 0 else n + 2 - i) * (n + 2 - 1) ≤ (n + 1) * (n + 2 - 1) :=
    Nat.mul_le_mul_right _ ha
  have e : (n + 2) * (n + 2 - 1) = (n + 1) * (n + 2 - 1) + (n + 1) := by
    have : n + 2 - 1 = n + 1 := by omega
    rw [this]; ring
  rw [e]
  omega

/-- The pair after a pair has the next rank, cyclically. -/
theorem pairRank_next (sz : Nat) (p : Nat × Nat) (h : gboundary.ValidPair sz p) :
    gboundary.pairRank sz (gboundary.nextPair sz p) =
      if gboundary.pairRank sz p + 1 = sz * (sz - 1) then 0 else gboundary.pairRank sz p + 1 := by
  have hlt := pairRank_lt sz _ (validPair_next sz p h)
  have hlt0 := pairRank_lt sz _ h
  obtain ⟨i, j⟩ := p
  obtain ⟨h1, h2, h3⟩ := h
  simp only at h1 h2 h3
  obtain ⟨n, rfl⟩ : ∃ n, sz = n + 2 := ⟨sz - 2, by omega⟩
  have hn : n + 2 - 1 = n + 1 := by omega
  unfold gboundary.nextPair at hlt ⊢
  unfold gboundary.pairRank at hlt hlt0 ⊢
  simp only [succ_mod_of_lt (n + 2) j h2, pred_mod_of_lt (n + 2) i h1, hn] at hlt hlt0 ⊢
  by_cases hj : j + 1 = n + 2
  · -- j is the last index
    simp only [hj, if_true] at hlt ⊢
    by_cases hi : i = 0
    · subst hi
      have hj' : j = n + 1 := by omega
      subst hj'
      simp only [if_true, Nat.add_sub_cancel] at hlt ⊢
      have e1 : (n + 2) * (n + 1) = (n + 1) * (n + 1) + (n + 1) := by ring
      simp only [show ¬ (n + 1 = 0) by omega, if_false, show n + 2 - (n + 1) = 1 by omega,
        one_mul, Nat.zero_mul, Nat.zero_add, show ¬ (n + 1 < 0) by omega,
        show (0 : Nat) < n + 1 by omega, if_true]
      have hS : ¬ (n + 1 - 0 - 1 + 1 = (n + 2) * (n + 1)) := by
        rw [e1]
        have : 0 < (n + 1) * (n + 1) := Nat.mul_pos (by omega) (by omega)
        omega
      rw [if_neg hS]
      omega
    · simp only [hi, if_false] at hlt hlt0 ⊢
      have hij : i < j := by omega
      simp only [hij, if_true, show ¬ (i < 0) by omega, if_false] at hlt hlt0 ⊢
      have hS : ¬ ((n + 2 - i) * (n + 1) + (j - i - 1) + 1 = (n + 2) * (n + 1)) := by omega
      rw [if_neg hS]
      omega
  · simp only [hj, if_false] at hlt ⊢
    by_cases hij : i = j + 1
    · -- the pair (j+1, j): i moves down to j
      subst hij
      simp only [if_true, show ¬ (j + 1 = 0) by omega, if_false, Nat.add_sub_cancel,
        show ¬ (j + 1 < j) by omega, show j < j + 1 by omega] at hlt hlt0 ⊢
      have hb : j + (n + 2) - (j + 1) - 1 = n := by omega
      have hb' : j + 1 - j - 1 = 0 := by omega
      rw [hb] at hlt0 ⊢
      rw [hb'] at hlt ⊢
      by_cases hj0 : j = 0
      · subst hj0
        simp only [if_true, Nat.zero_mul, Nat.zero_add] at hlt ⊢
        have e1 : (n + 2 - (0 + 1)) * (n + 1) + n + 1 = (n + 2) * (n + 1) := by
          have : n + 2 - (0 + 1) = n + 1 := by omega
          rw [this]; ring
        rw [if_pos e1]
      · simp only [hj0, if_false] at hlt ⊢
        have e1 : (n + 2 - j) * (n + 1) = (n + 2 - (j + 1)) * (n + 1) + (n + 1) := by
          have : n + 2 - j = (n + 2 - (j + 1)) + 1 := by omega
          rw [this]; ring
        rw [e1] at hlt ⊢
        have hS : ¬ ((n + 2 - (j + 1)) * (n + 1) + n + 1 = (n + 2) * (n + 1)) := by omega
        rw [if_neg hS]
        omega
    · simp only [hij, if_false] at hlt ⊢
      by_cases hlt2 : i < j
      · have : i < j + 1 := by omega
        simp only [hlt2, this, if_true] at hlt hlt0 ⊢
        have hS : ¬ ((if i = 0 then 0 else n + 2 - i) * (n + 1) + (j - i - 1) + 1
            = (n + 2) * (n + 1)) := by omega
        rw [if_neg hS]
        omega
      · have : ¬ (i < j + 1) := by omega
        simp only [hlt2, this, if_false] at hlt hlt0 ⊢
        have hS : ¬ ((if i = 0 then 0 else n + 2 - i) * (n + 1) + (j + (n + 2) - i - 1) + 1
            = (n + 2) * (n + 1)) := by omega
        rw [if_neg hS]
        omega

/-- A number written as `a*m+b` with `b<m` determines `a` and `b`. -/
theorem mul_add_inj (m a b a' b' : Nat) (hb : b < m) (hb' : b' < m)
    (h : a * m + b = a' * m + b') : a = a' ∧ b = b' := by
  rcases Nat.lt_trichotomy a a' with hlt | heq | hgt
  · exfalso
    have : (a + 1) * m ≤ a' * m := Nat.mul_le_mul_right _ hlt
    rw [Nat.add_mul, Nat.one_mul] at this
    omega
  · subst heq
    exact ⟨rfl, by omega⟩
  · exfalso
    have : (a' + 1) * m ≤ a * m := Nat.mul_le_mul_right _ hgt
    rw [Nat.add_mul, Nat.one_mul] at this
    omega

/-- Two pairs of different indices with the same rank are equal. -/
theorem pairRank_inj (sz : Nat) (p q : Nat × Nat) (hp : gboundary.ValidPair sz p)
    (hq : gboundary.ValidPair sz q) (h : gboundary.pairRank sz p = gboundary.pairRank sz q) :
    p = q := by
  obtain ⟨i, j⟩ := p
  obtain ⟨i', j'⟩ := q
  obtain ⟨h1, h2, h3⟩ := hp
  obtain ⟨h1', h2', h3'⟩ := hq
  simp only at h1 h2 h3 h1' h2' h3'
  unfold gboundary.pairRank at h
  simp only at h
  have hb : (if i < j then j - i - 1 else j + sz - i - 1) < sz - 1 := by split_ifs <;> omega
  have hb' : (if i' < j' then j' - i' - 1 else j' + sz - i' - 1) < sz - 1 := by
    split_ifs <;> omega
  obtain ⟨ea, eb⟩ := mul_add_inj (sz - 1) _ _ _ _ hb hb' h
  have hi : i = i' := by
    split_ifs at ea <;> omega
  subst hi
  have hj : j = j' := by
    split_ifs at eb <;> omega
  subst hj
  rfl

/-- The update `nextPair` is injective on pairs of different indices. -/
theorem nextPair_inj (sz : Nat) (p q : Nat × Nat) (hp : gboundary.ValidPair sz p)
    (hq : gboundary.ValidPair sz q)
    (h : gboundary.nextPair sz p = gboundary.nextPair sz q) : p = q := by
  have h1 := pairRank_next sz p hp
  have h2 := pairRank_next sz q hq
  rw [h] at h1
  rw [h1] at h2
  have l1 := pairRank_lt sz p hp
  have l2 := pairRank_lt sz q hq
  apply pairRank_inj sz p q hp hq
  split_ifs at h2 <;> omega

/-- Pairs of different indices stay so along the cycle. -/
theorem validPair_iterate (sz : Nat) (p : Nat × Nat) (hp : gboundary.ValidPair sz p) (t : Nat) :
    gboundary.ValidPair sz ((gboundary.nextPair sz)^[t] p) := by
  induction t with
  | zero => exact hp
  | succ t ih =>
    rw [Function.iterate_succ_apply']
    exact validPair_next sz _ ih

/-- The rank after `t` steps, for `t` up to the length of the cycle. -/
theorem pairRank_iterate (sz : Nat) (p : Nat × Nat) (hp : gboundary.ValidPair sz p) (t : Nat)
    (ht : t ≤ sz * (sz - 1)) :
    gboundary.pairRank sz ((gboundary.nextPair sz)^[t] p) =
      if gboundary.pairRank sz p + t < sz * (sz - 1) then gboundary.pairRank sz p + t
      else gboundary.pairRank sz p + t - sz * (sz - 1) := by
  have l1 := pairRank_lt sz p hp
  induction t with
  | zero => simp [l1]
  | succ t ih =>
    rw [Function.iterate_succ_apply',
      pairRank_next sz _ (validPair_iterate sz p hp t), ih (by omega)]
    split_ifs <;> omega

/-- From every pair of different indices the loop of `consolidate` reaches every other one
within `sz*(sz-1)` rounds. -/
theorem nextPair_reaches (sz : Nat) (p c : Nat × Nat) (hp : gboundary.ValidPair sz p)
    (hc : gboundary.ValidPair sz c) :
    ∃ t, 1 ≤ t ∧ t ≤ sz * (sz - 1) ∧ (gboundary.nextPair sz)^[t] p = c := by
  have l1 := pairRank_lt sz p hp
  have l2 := pairRank_lt sz c hc
  by_cases h : gboundary.pairRank sz p < gboundary.pairRank sz c
  · refine ⟨gboundary.pairRank sz c - gboundary.pairRank sz p, by omega, by omega, ?_⟩
    apply pairRank_inj sz _ _ (validPair_iterate sz p hp _) hc
    rw [pairRank_iterate sz p hp _ (by omega)]
    split_ifs <;> omega
  · refine ⟨gboundary.pairRank sz c + sz * (sz - 1) - gboundary.pairRank sz p,
      by omega, by omega, ?_⟩
    apply pairRank_inj sz _ _ (validPair_iterate sz p hp _) hc
    rw [pairRank_iterate sz p hp _ (by omega)]
    split_ifs <;> omega

/-- The pairs of `segmentPairs` are the pairs of an entry of each list. -/
theorem mem_segmentPairs (iseg jseg : List Int) (a b : Int) :
    (a, b) ∈ gboundary.segmentPairs iseg jseg ↔ a ∈ iseg ∧ b ∈ jseg := by
  unfold gboundary.segmentPairs
  simp only [List.mem_flatMap, List.mem_map, Prod.mk.injEq]
  constructor
  · rintro ⟨x, hx, y, hy, rfl, rfl⟩
    exact ⟨hx, hy⟩
  · rintro ⟨ha, hb⟩
    exact ⟨a, ha, b, hb, rfl, rfl⟩

/-- The three ways the two nested loops of `consolidate` can end: a failed assertion; no
overlap among the pairs; or an overlapping pair found. -/
theorem consolidateScan_cases (bi bj : g1boundary) :
    ∀ (pairs : List (Int × Int)) (acc : Option (Int × Int)),
      gboundary.consolidateScan bi bj pairs acc = Outcome.assertFailed ∨
      (gboundary.consolidateScan bi bj pairs acc = Outcome.ok acc ∧
        ∀ x ∈ pairs, ∃ s t, bi.seg x.1 = some s ∧ bj.seg x.2 = some t ∧
          overlap s t = some false) ∨
      ∃ x ∈ pairs, gboundary.consolidateScan bi bj pairs acc = Outcome.ok (some x) := by
  intro pairs
  induction pairs with
  | nil =>
    intro acc
    exact Or.inr (Or.inl ⟨rfl, by simp⟩)
  | cons x rest ih =>
    intro acc
    obtain ⟨a, b⟩ := x
    unfold gboundary.consolidateScan
    cases hs : bi.seg a with
    | none => exact Or.inl rfl
    | some s =>
      cases ht : bj.seg b with
      | none => exact Or.inl rfl
      | some t =>
        simp only []
        cases ho : overlap s t with
        | none => exact Or.inl rfl
        | some v =>
          cases v with
          | true =>
            simp only []
            rcases ih (some (a, b)) with h | ⟨h, -⟩ | ⟨x, hx, h⟩
            · exact Or.inl h
            · exact Or.inr (Or.inr ⟨(a, b), List.mem_cons_self _ _, h⟩)
            · exact Or.inr (Or.inr ⟨x, List.mem_cons_of_mem _ hx, h⟩)
          | false =>
            simp only []
            rcases ih acc with h | ⟨h, hall⟩ | ⟨x, hx, h⟩
            · exact Or.inl h
            · refine Or.inr (Or.inl ⟨h, ?_⟩)
              intro y hy
              rcases List.mem_cons.mp hy with rfl | hy
              · exact ⟨s, t, hs, ht, ho⟩
              · exact hall y hy
            · exact Or.inr (Or.inr ⟨x, List.mem_cons_of_mem _ hx, h⟩)

/-- A round of the loop of `consolidate` in which an assertion fails. -/
theorem consolidateLoop_abort (slFuel : Nat) (l : Int) (sz fuel : Nat) (bdy : List g1boundary)
    (i j cnt : Nat) (bi bj : g1boundary) (iseg jseg : List Int)
    (hc : cnt < sz * sz) (hi : bdy[i]? = some bi) (hj : bdy[j]? = some bj)
    (hsi : bi.segmentsAtLevel slFuel l = some iseg)
    (hsj : bj.segmentsAtLevel slFuel l = some jseg)
    (hscan : gboundary.consolidateScan bi bj (gboundary.segmentPairs iseg jseg) none
      = Outcome.assertFailed) :
    gboundary.consolidateLoop slFuel l sz (fuel + 1) bdy i j cnt = Outcome.assertFailed := by
  rw [gboundary.consolidateLoop]
  simp only [hc, if_true, hi, hj, hsi, hsj, hscan]

/-- Replacing one element changes the count of the elements with a property by what the
old and the new element contribute. -/
theorem countP_set {α : Type} (p : α → Bool) (l : List α) (i : Nat) (x : α)
    (hi : i < l.length) :
    (l.set i x).countP p + (if p l[i] then 1 else 0) = l.countP p + (if p x then 1 else 0) := by
  induction l generalizing i with
  | nil => simp at hi
  | cons a l ih =>
    cases i with
    | zero =>
      simp only [List.set_cons_zero, List.countP_cons, List.getElem_cons_zero]
      omega
    | succ i =>
      simp only [List.set_cons_succ, List.countP_cons, List.getElem_cons_succ]
      have := ih i (by simpa using hi)
      omega

/-- Replacing an element with the property by another one with it keeps the count. -/
theorem countP_set_same {α : Type} (p : α → Bool) (l : List α) (i : Nat) (x : α)
    (hi : i < l.length) (h1 : p l[i] = true) (h2 : p x = true) :
    (l.set i x).countP p = l.countP p := by
  have := countP_set p l i x hi
  rw [h1, h2] at this
  simpa using this

/-- Replacing an element with the property by one without it lowers the count by one. -/
theorem countP_set_drop {α : Type} (p : α → Bool) (l : List α) (i : Nat) (x : α)
    (hi : i < l.length) (h1 : p l[i] = true) (h2 : p x = false) :
    (l.set i x).countP p + 1 = l.countP p := by
  have := countP_set p l i x hi
  rw [h1, h2] at this
  simpa using this

/-- The vertices of the loop made by `splice(m,b,n)` are those of the two loops. -/
theorem mem_splice3 (bi bj : g1boundary) (a b : Int) (v : vball) :
    v ∈ (bi.splice3 a bj b).1.bdy ↔ v ∈ bi.bdy ∨ v ∈ bj.bdy := by
  show v ∈ (bi.positionSegment a).bdy ++ (bj.positionSegment b).bdy ↔ _
  rw [List.mem_append, (positionSegment_isRotated bi a).1.perm.mem_iff,
    (positionSegment_isRotated bj b).1.perm.mem_iff]

/-- The number of vertices of the loop made by `splice(m,b,n)`. -/
theorem length_splice3 (bi bj : g1boundary) (a b : Int) :
    (bi.splice3 a bj b).1.bdy.length = bi.bdy.length + bj.bdy.length ∧
    (bi.splice3 a bj b).2.bdy = [] := by
  refine ⟨?_, rfl⟩
  show ((bi.positionSegment a).bdy ++ (bj.positionSegment b).bdy).length = _
  rw [List.length_append, positionSegment_length, positionSegment_length]

/-- The loop of `consolidate` from a state in which `i` and `j` are two different indices
and the last `cnt-1` pairs gone through were quiet: with enough fuel it stops at a failed
assertion or returns loops of which every pair is quiet. -/
theorem consolidateLoop_spec (slFuel : Nat) (l : Int) (sz : Nat) :
    ∀ (fuel : Nat) (bdy : List g1boundary) (i j cnt : Nat), bdy.length = sz →
      gboundary.ValidPair sz (i, j) →
      (l < 0 ∨ ∀ b ∈ bdy, LevelsWithin slFuel b) →
      (∀ p, gboundary.ValidPair sz p → ∀ t, 1 ≤ t → t + 1 ≤ cnt →
        (gboundary.nextPair sz)^[t] p = (i, j) → gboundary.Quiet slFuel l bdy p) →
      (bdy.countP fun b => decide (b.bdy ≠ [])) * (sz * sz + 1) + (sz * sz - cnt) < fuel →
      gboundary.consolidateLoop slFuel l sz fuel bdy i j cnt = Outcome.assertFailed ∨
      ∃ r, gboundary.consolidateLoop slFuel l sz fuel bdy i j cnt = Outcome.ok r ∧
        r.length = sz ∧ ∀ p, gboundary.ValidPair sz p → gboundary.Quiet slFuel l r p := by
  intro fuel
  induction fuel with
  | zero => intro bdy i j cnt _ _ _ _ h; omega
  | succ fuel ih =>
    intro bdy i j cnt hlen hv hlev hinv hfuel
    have hsz : 2 ≤ sz := by
      obtain ⟨h1, h2, h3⟩ := hv
      simp only at h1 h2 h3
      omega
    by_cases hc : cnt < sz * sz
    · have hi : i < bdy.length := by rw [hlen]; exact hv.1
      have hj : j < bdy.length := by rw [hlen]; exact hv.2.1
      have hbi : bdy[i]? = some bdy[i] := List.getElem?_eq_getElem hi
      have hbj : bdy[j]? = some bdy[j] := List.getElem?_eq_getElem hj
      have hlevi : l < 0 ∨ LevelsWithin slFuel bdy[i] :=
        hlev.imp id (fun h => h _ (List.getElem_mem hi))
      have hlevj : l < 0 ∨ LevelsWithin slFuel bdy[j] :=
        hlev.imp id (fun h => h _ (List.getElem_mem hj))
      obtain ⟨iseg, hsi⟩ := segmentsAtLevel_some slFuel bdy[i] l hlevi
      obtain ⟨jseg, hsj⟩ := segmentsAtLevel_some slFuel bdy[j] l hlevj
      rcases consolidateScan_cases bdy[i] bdy[j] (gboundary.segmentPairs iseg jseg) none with
        h | ⟨h, hall⟩ | ⟨x, hx, h⟩
      · exact Or.inl (consolidateLoop_abort slFuel l sz fuel bdy i j cnt _ _ iseg jseg hc
          hbi hbj hsi hsj h)
      · have hq : gboundary.Quiet slFuel l bdy (i, j) :=
          ⟨bdy[i], bdy[j], iseg, jseg, hbi, hbj, hsi, hsj, h⟩
        rw [consolidateLoop_quiet slFuel l sz fuel bdy i j cnt hc hq]
        apply ih bdy _ _ (cnt + 1) hlen (validPair_next sz (i, j) hv) hlev
        · intro p hp t ht1 ht2 hiter
          cases t with
          | zero => omega
          | succ t =>
            rw [Function.iterate_succ_apply'] at hiter
            have heq := nextPair_inj sz _ _ (validPair_iterate sz p hp t) hv hiter
            cases t with
            | zero =>
              simp only [Function.iterate_zero, id_eq] at heq
              rw [heq]
              exact hq
            | succ t => exact hinv p hp (t + 1) (by omega) (by omega) heq
        · omega
      · obtain ⟨a, b⟩ := x
        obtain ⟨ha, hb⟩ := (mem_segmentPairs iseg jseg a b).mp hx
        obtain ⟨ia, hia, -⟩ := segmentsAtLevel_mem slFuel bdy[i] l iseg hsi a ha
        obtain ⟨ib, hib, -⟩ := segmentsAtLevel_mem slFuel bdy[j] l jseg hsj b hb
        rw [consolidateLoop_found slFuel l sz fuel bdy i j cnt _ _ iseg jseg a b hc
          hbi hbj hsi hsj h]
        have hne : i ≠ j := hv.2.2
        have hlen1 : (bdy.set i (bdy[i].splice3 a bdy[j] b).1).length = bdy.length :=
          List.length_set _ _ _
        have hj1 : j < (bdy.set i (bdy[i].splice3 a bdy[j] b).1).length := by
          rw [hlen1]; exact hj
        have hget : (bdy.set i (bdy[i].splice3 a bdy[j] b).1)[j] = bdy[j] := by
          rw [List.getElem_set_ne hne]
        have hlen3 := length_splice3 bdy[i] bdy[j] a b
        have ne1 : bdy[i].bdy ≠ [] := List.length_pos.mp (by omega)
        have ne2 : bdy[j].bdy ≠ [] := List.length_pos.mp (by omega)
        have ne3 : (bdy[i].splice3 a bdy[j] b).1.bdy ≠ [] :=
          List.length_pos.mp (by rw [hlen3.1]; omega)
        have hc1 := countP_set_same (fun b => decide (b.bdy ≠ [])) bdy i
          (bdy[i].splice3 a bdy[j] b).1 hi (by simpa using ne1) (by simpa using ne3)
        have hc2 := countP_set_drop (fun b => decide (b.bdy ≠ []))
          (bdy.set i (bdy[i].splice3 a bdy[j] b).1) j (bdy[i].splice3 a bdy[j] b).2 hj1
          (by rw [hget]; simpa using ne2) (by simp [hlen3.2])
        apply ih _ _ _ 0 (by rw [List.length_set, List.length_set]; exact hlen)
          (validPair_next sz (i, j) hv)
        · refine hlev.imp id (fun hlv => ?_)
          intro b0 hb0
          rcases List.mem_or_eq_of_mem_set hb0 with hm | rfl
          · rcases List.mem_or_eq_of_mem_set hm with hm | rfl
            · exact hlv b0 hm
            · intro v hv0
              rcases (mem_splice3 bdy[i] bdy[j] a b v).mp hv0 with hm | hm
              · exact hlv _ (List.getElem_mem hi) v hm
              · exact hlv _ (List.getElem_mem hj) v hm
          · intro v hv0
            rw [hlen3.2] at hv0
            simp at hv0
        · intro p _ t _ ht2
          omega
        · have e : List.countP (fun b => decide (b.bdy ≠ [])) bdy * (sz * sz + 1)
              = List.countP (fun b => decide (b.bdy ≠ []))
                  ((bdy.set i (bdy[i].splice3 a bdy[j] b).1).set j
                    (bdy[i].splice3 a bdy[j] b).2) * (sz * sz + 1) + (sz * sz + 1) := by
            have : List.countP (fun b => decide (b.bdy ≠ [])) bdy
                = List.countP (fun b => decide (b.bdy ≠ []))
                  ((bdy.set i (bdy[i].splice3 a bdy[j] b).1).set j
                    (bdy[i].splice3 a bdy[j] b).2) + 1 := by omega
            rw [this, Nat.add_mul, Nat.one_mul]
          rw [e] at hfuel
          omega
    · refine Or.inr ⟨bdy, consolidateLoop_exit slFuel l sz fuel bdy i j cnt hc, hlen, ?_⟩
      intro p hp
      obtain ⟨t, ht1, ht2, hiter⟩ := nextPair_reaches sz p (i, j) hp hv
      apply hinv p hp t ht1 _ hiter
      have e : sz * sz = sz * (sz - 1) + sz := by
        obtain ⟨n, rfl⟩ : ∃ n, sz = n + 1 := ⟨sz - 1, by omega⟩
        rw [Nat.add_sub_cancel]; ring
      omega

/-- A quiet pair of loops, spelled out: the levels of both loops are computed and no segment
at the level of the one overlaps a segment at the level of the other. -/
theorem quiet_no_overlap (slFuel : Nat) (l : Int) (bdy : List g1boundary) (i j : Nat)
    (bi bj : g1boundary) (hq : gboundary.Quiet slFuel l bdy (i, j))
    (hi : bdy[i]? = some bi) (hj : bdy[j]? = some bj) :
    ∃ iseg jseg, bi.segmentsAtLevel slFuel l = some iseg ∧
      bj.segmentsAtLevel slFuel l = some jseg ∧
      ∀ a ∈ iseg, ∀ b ∈ jseg, ∃ s t, bi.seg a = some s ∧ bj.seg b = some t ∧
        overlap s t = some false := by
  obtain ⟨bi', bj', iseg, jseg, hi', hj', hsi, hsj, hscan⟩ := hq
  simp only at hi' hj'
  rw [hi] at hi'
  rw [hj] at hj'
  obtain rfl := Option.some.inj hi'
  obtain rfl := Option.some.inj hj'
  refine ⟨iseg, jseg, hsi, hsj, ?_⟩
  intro a ha b hb
  rcases consolidateScan_cases bi bj (gboundary.segmentPairs iseg jseg) none with
    h | ⟨-, hall⟩ | ⟨x, -, h⟩
  · rw [h] at hscan; exact absurd hscan (by simp)
  · exact hall (a, b) ((mem_segmentPairs iseg jseg a b).mpr ⟨ha, hb⟩)
  · rw [h] at hscan; exact absurd hscan (by simp)

/-- An empty loop has no segment at any level. -/
theorem segmentsAtLevel_nil (slFuel : Nat) (l : Int) (inn : Bool) :
    g1boundary.segmentsAtLevel slFuel ⟨[], inn⟩ l = some [] := rfl

/-- There is no pair of segments when the second list is empty. -/
theorem segmentPairs_nil_right (iseg : List Int) : gboundary.segmentPairs iseg [] = [] := by
  induction iseg with
  | nil => rfl
  | cons a l ih =>
    unfold gboundary.segmentPairs at ih ⊢
    simp only [List.flatMap_cons, List.map_nil, List.nil_append]
    exact ih

/-- A round on two loops of which one is empty finds nothing. -/
theorem quiet_of_empty (slFuel : Nat) (l : Int) (bdy : List g1boundary) (p : Nat × Nat)
    (bi bj : g1boundary) (hi : bdy[p.1]? = some bi) (hj : bdy[p.2]? = some bj)
    (hsi : ∃ iseg, bi.segmentsAtLevel slFuel l = some iseg)
    (hsj : ∃ jseg, bj.segmentsAtLevel slFuel l = some jseg)
    (he : bi.bdy = [] ∨ bj.bdy = []) : gboundary.Quiet slFuel l bdy p := by
  obtain ⟨iseg, hsi⟩ := hsi
  obtain ⟨jseg, hsj⟩ := hsj
  refine ⟨bi, bj, iseg, jseg, hi, hj, hsi, hsj, ?_⟩
  rcases he with he | he
  · have : iseg = [] := by
      obtain ⟨b, inn⟩ := bi
      simp only at he
      subst he
      rw [segmentsAtLevel_nil] at hsi
      exact (Option.some.inj hsi).symm
    subst this
    rfl
  · have : jseg = [] := by
      obtain ⟨b, inn⟩ := bj
      simp only at he
      subst he
      rw [segmentsAtLevel_nil] at hsj
      exact (Option.some.inj hsj).symm
    subst this
    rw [segmentPairs_nil_right]
    rfl

/-- The run of `consolidate(1)` on the two squares `[-1,0]x[-1,0]` and `[0,1]x[-1,0]` of
face 1: one round splices the second loop into the first at the shared edge, four more
rounds find nothing. -/
theorem consolidate_two_squares (slFuel fuel : Nat) (hfuel : 6 ≤ fuel) :
    gboundary.consolidate slFuel fuel
      ⟨[⟨[⟨1, fin (-1), fin (-1)⟩, ⟨1, fin 0, fin (-1)⟩, ⟨1, fin 0, fin 0⟩,
          ⟨1, fin (-1), fin 0⟩], false⟩,
        ⟨[⟨1, fin 0, fin (-1)⟩, ⟨1, fin 1, fin (-1)⟩, ⟨1, fin 1, fin 0⟩,
          ⟨1, fin 0, fin 0⟩], false⟩]⟩ 1
    = Outcome.ok ⟨[⟨[⟨1, fin 0, fin 0⟩, ⟨1, fin (-1), fin 0⟩, ⟨1, fin (-1), fin (-1)⟩,
        ⟨1, fin 0, fin (-1)⟩, ⟨1, fin 0, fin (-1)⟩, ⟨1, fin 1, fin (-1)⟩, ⟨1, fin 1, fin 0⟩,
        ⟨1, fin 0, fin 0⟩], false⟩, ⟨[], false⟩]⟩ := by
  have hf : (1 : Int) ≤ 1 ∧ (1 : Int) ≤ 6 := by norm_num
  obtain ⟨k, rfl⟩ : ∃ k, fuel = k + 1 := ⟨fuel - 1, by omega⟩
  have hs0 : g1boundary.segmentsAtLevel slFuel ⟨[⟨1, fin (-1), fin (-1)⟩, ⟨1, fin 0, fin (-1)⟩,
      ⟨1, fin 0, fin 0⟩, ⟨1, fin (-1), fin 0⟩], false⟩ 1 = some [1, 2] := by
    simp [g1boundary.segmentsAtLevel, g1boundary.indices, g1boundary.filterOpt,
      g1boundary.atLevel, seg_of_index, splitLevelSegment, splitLevel_zero, splitLevel_one,
      splitLevel_neg_one, List.range, List.range.loop]
  have hs1 : g1boundary.segmentsAtLevel slFuel ⟨[⟨1, fin 0, fin (-1)⟩, ⟨1, fin 1, fin (-1)⟩,
      ⟨1, fin 1, fin 0⟩, ⟨1, fin 0, fin 0⟩], false⟩ 1 = some [2, 3] := by
    simp [g1boundary.segmentsAtLevel, g1boundary.indices, g1boundary.filterOpt,
      g1boundary.atLevel, seg_of_index, splitLevelSegment, splitLevel_zero, splitLevel_one,
      splitLevel_neg_one, List.range, List.range.loop]
  have hscan : gboundary.consolidateScan
      ⟨[⟨1, fin (-1), fin (-1)⟩, ⟨1, fin 0, fin (-1)⟩, ⟨1, fin 0, fin 0⟩,
        ⟨1, fin (-1), fin 0⟩], false⟩
      ⟨[⟨1, fin 0, fin (-1)⟩, ⟨1, fin 1, fin (-1)⟩, ⟨1, fin 1, fin 0⟩, ⟨1, fin 0, fin 0⟩], false⟩
      (gboundary.segmentPairs [1, 2] [2, 3]) none = Outcome.ok (some (1, 3)) := by
    simp [gboundary.segmentPairs, gboundary.consolidateScan, seg_of_index,
      overlap_on_face 1 hf]
    norm_num
  have hsplice : g1boundary.splice3
      ⟨[⟨1, fin (-1), fin (-1)⟩, ⟨1, fin 0, fin (-1)⟩, ⟨1, fin 0, fin 0⟩,
        ⟨1, fin (-1), fin 0⟩], false⟩ 1
      ⟨[⟨1, fin 0, fin (-1)⟩, ⟨1, fin 1, fin (-1)⟩, ⟨1, fin 1, fin 0⟩, ⟨1, fin 0, fin 0⟩], false⟩ 3
      = (⟨[⟨1, fin 0, fin 0⟩, ⟨1, fin (-1), fin 0⟩, ⟨1, fin (-1), fin (-1)⟩,
        ⟨1, fin 0, fin (-1)⟩, ⟨1, fin 0, fin (-1)⟩, ⟨1, fin 1, fin (-1)⟩, ⟨1, fin 1, fin 0⟩,
        ⟨1, fin 0, fin 0⟩], false⟩, ⟨[], false⟩) := by
    have h1 := positionSegment_eq_rotate ⟨[⟨1, fin (-1), fin (-1)⟩, ⟨1, fin 0, fin (-1)⟩,
      ⟨1, fin 0, fin 0⟩, ⟨1, fin (-1), fin 0⟩], false⟩ 1 (by norm_num)
    have h2 := positionSegment_eq_rotate ⟨[⟨1, fin 0, fin (-1)⟩, ⟨1, fin 1, fin (-1)⟩,
      ⟨1, fin 1, fin 0⟩, ⟨1, fin 0, fin 0⟩], false⟩ 3 (by norm_num)
    simp only [Nat.cast_one, Nat.cast_ofNat] at h1 h2
    simp only [g1boundary.splice3, g1boundary.splice, h1.1, h1.2, h2.1, h2.2]
    rfl
  unfold gboundary.consolidate
  simp only [List.length_cons, List.length_nil, Nat.reduceAdd]
  rw [consolidateLoop_found slFuel 1 2 k _ 0 1 1 _ _ [1, 2] [2, 3] 1 3 (by norm_num) rfl rfl
    hs0 hs1 hscan, hsplice]
  have hnext : gboundary.nextPair 2 (0, 1) = (1, 0) := by decide
  rw [hnext]
  simp only [List.set_cons_zero, List.set_cons_succ]
  have hsM : ∃ iseg, g1boundary.segmentsAtLevel slFuel ⟨[⟨1, fin 0, fin 0⟩, ⟨1, fin (-1), fin 0⟩,
      ⟨1, fin (-1), fin (-1)⟩, ⟨1, fin 0, fin (-1)⟩, ⟨1, fin 0, fin (-1)⟩, ⟨1, fin 1, fin (-1)⟩,
      ⟨1, fin 1, fin 0⟩, ⟨1, fin 0, fin 0⟩], false⟩ 1 = some iseg := by
    apply segmentsAtLevel_some
    right
    intro v hv
    simp only [List.mem_cons, List.mem_singleton, List.not_mem_nil, or_false] at hv
    rcases hv with rfl | rfl | rfl | rfl | rfl | rfl | rfl | rfl <;>
      simp [splitLevel_zero, splitLevel_one, splitLevel_neg_one]
  rw [consolidateLoop_all_quiet slFuel 1 2 _ ?_ k (1, 0) 0
    ⟨by norm_num, by norm_num, by norm_num⟩ (by omega)]
  intro p hp
  obtain ⟨i, j⟩ := p
  obtain ⟨h1, h2, h3⟩ := hp
  simp only at h1 h2 h3
  have hij : (i = 0 ∧ j = 1) ∨ (i = 1 ∧ j = 0) := by omega
  rcases hij with ⟨rfl, rfl⟩ | ⟨rfl, rfl⟩
  · exact quiet_of_empty slFuel 1 _ (0, 1) _ _ rfl rfl hsM ⟨[], rfl⟩ (Or.inr rfl)
  · exact quiet_of_empty slFuel 1 _ (1, 0) _ _ rfl rfl ⟨[], rfl⟩ hsM (Or.inl rfl)

/-- The method `deleteNullSegments` on the result of `consolidate_two_squares`: the two
repeated vertices are removed and six vertices are left. -/
theorem deleteNullSegments_two_squares :
    gboundary.deleteNullSegments 9
      ⟨[⟨[⟨1, fin 0, fin 0⟩, ⟨1, fin (-1), fin 0⟩, ⟨1, fin (-1), fin (-1)⟩,
        ⟨1, fin 0, fin (-1)⟩, ⟨1, fin 0, fin (-1)⟩, ⟨1, fin 1, fin (-1)⟩, ⟨1, fin 1, fin 0⟩,
        ⟨1, fin 0, fin 0⟩], false⟩, ⟨[], false⟩]⟩
    = some ⟨[⟨[⟨1, fin (-1), fin 0⟩, ⟨1, fin (-1), fin (-1)⟩, ⟨1, fin 0, fin (-1)⟩,
        ⟨1, fin 1, fin (-1)⟩, ⟨1, fin 1, fin 0⟩, ⟨1, fin 0, fin 0⟩], false⟩, ⟨[], false⟩]⟩ := by
  have hf : (1 : Int) ≤ 1 ∧ (1 : Int) ≤ 6 := by norm_num
  have p1 : (List.range 8).find? (fun (i : Nat) => g1boundary.isNullSegment
      ⟨[⟨1, fin 0, fin 0⟩, ⟨1, fin (-1), fin 0⟩, ⟨1, fin (-1), fin (-1)⟩,
        ⟨1, fin 0, fin (-1)⟩, ⟨1, fin 0, fin (-1)⟩, ⟨1, fin 1, fin (-1)⟩, ⟨1, fin 1, fin 0⟩,
        ⟨1, fin 0, fin 0⟩], false⟩ (i : Int)) = some 3 := by
    apply find?_range_of_first _ _ _ (by norm_num)
    · simp [g1boundary.isNullSegment, seg_of_index, vball_eq_on_face 1 hf, cmpeq_fin]
    · intro j hj
      interval_cases j <;>
        simp [g1boundary.isNullSegment, seg_of_index, vball_eq_on_face 1 hf, cmpeq_fin] <;>
        norm_num
  have p2 : (List.range 7).find? (fun (i : Nat) => g1boundary.isNullSegment
      ⟨[⟨1, fin 1, fin (-1)⟩, ⟨1, fin 1, fin 0⟩, ⟨1, fin 0, fin 0⟩, ⟨1, fin 0, fin 0⟩,
        ⟨1, fin (-1), fin 0⟩, ⟨1, fin (-1), fin (-1)⟩, ⟨1, fin 0, fin (-1)⟩], false⟩ (i : Int))
      = some 2 := by
    apply find?_range_of_first _ _ _ (by norm_num)
    · simp [g1boundary.isNullSegment, seg_of_index, vball_eq_on_face 1 hf, cmpeq_fin]
    · intro j hj
      interval_cases j <;>
        simp [g1boundary.isNullSegment, seg_of_index, vball_eq_on_face 1 hf, cmpeq_fin] <;>
        norm_num
  have p3 : (List.range 6).find? (fun (i : Nat) => g1boundary.isNullSegment
      ⟨[⟨1, fin (-1), fin 0⟩, ⟨1, fin (-1), fin (-1)⟩, ⟨1, fin 0, fin (-1)⟩,
        ⟨1, fin 1, fin (-1)⟩, ⟨1, fin 1, fin 0⟩, ⟨1, fin 0, fin 0⟩], false⟩ (i : Int))
      = none := by
    apply find?_range_none
    intro j hj
    interval_cases j <;>
      simp [g1boundary.isNullSegment, seg_of_index, vball_eq_on_face 1 hf, cmpeq_fin] <;>
      norm_num
  have r1 : g1boundary.removeAfter ⟨[⟨1, fin 0, fin 0⟩, ⟨1, fin (-1), fin 0⟩,
      ⟨1, fin (-1), fin (-1)⟩, ⟨1, fin 0, fin (-1)⟩, ⟨1, fin 0, fin (-1)⟩, ⟨1, fin 1, fin (-1)⟩,
      ⟨1, fin 1, fin 0⟩, ⟨1, fin 0, fin 0⟩], false⟩ 3
      = ⟨[⟨1, fin 1, fin (-1)⟩, ⟨1, fin 1, fin 0⟩, ⟨1, fin 0, fin 0⟩, ⟨1, fin 0, fin 0⟩,
        ⟨1, fin (-1), fin 0⟩, ⟨1, fin (-1), fin (-1)⟩, ⟨1, fin 0, fin (-1)⟩], false⟩ := rfl
  have r2 : g1boundary.removeAfter ⟨[⟨1, fin 1, fin (-1)⟩, ⟨1, fin 1, fin 0⟩,
      ⟨1, fin 0, fin 0⟩, ⟨1, fin 0, fin 0⟩, ⟨1, fin (-1), fin 0⟩, ⟨1, fin (-1), fin (-1)⟩,
      ⟨1, fin 0, fin (-1)⟩], false⟩ 2
      = ⟨[⟨1, fin (-1), fin 0⟩, ⟨1, fin (-1), fin (-1)⟩, ⟨1, fin 0, fin (-1)⟩,
        ⟨1, fin 1, fin (-1)⟩, ⟨1, fin 1, fin 0⟩, ⟨1, fin 0, fin 0⟩], false⟩ := rfl
  have hloop : gboundary.deleteNullSegmentsLoop 9
      ⟨[⟨1, fin 0, fin 0⟩, ⟨1, fin (-1), fin 0⟩, ⟨1, fin (-1), fin (-1)⟩,
        ⟨1, fin 0, fin (-1)⟩, ⟨1, fin 0, fin (-1)⟩, ⟨1, fin 1, fin (-1)⟩, ⟨1, fin 1, fin 0⟩,
        ⟨1, fin 0, fin 0⟩], false⟩
      = some ⟨[⟨1, fin (-1), fin 0⟩, ⟨1, fin (-1), fin (-1)⟩, ⟨1, fin 0, fin (-1)⟩,
        ⟨1, fin 1, fin (-1)⟩, ⟨1, fin 1, fin 0⟩, ⟨1, fin 0, fin 0⟩], false⟩ := by
    rw [deleteNullSegmentsLoop_eq 9 _ (by norm_num)]
    rw [g1boundary.iterateRemoval]
    simp only [List.length_cons, List.length_nil, Nat.reduceAdd, p1, r1]
    rw [g1boundary.iterateRemoval]
    simp only [List.length_cons, List.length_nil, Nat.reduceAdd, p2, r2]
    rw [g1boundary.iterateRemoval]
    simp only [List.length_cons, List.length_nil, Nat.reduceAdd, p3]
  have hempty : gboundary.deleteNullSegmentsLoop 9 ⟨[], false⟩ = some ⟨[], false⟩ := rfl
  simp [gboundary.deleteNullSegments, gboundary.forEachLoop, hloop, hempty]

/-- C26 (amended). With at least six rounds of fuel, `consolidate(1)` on the two squares
`[-1,0]x[-1,0]` and `[0,1]x[-1,0]` of face 1 returns two loops: the first has the eight
vertices of both squares, from `(0,0)` counterclockwise around the union rectangle back to
`(0,0)`, the ends `(0,-1)` and `(0,0)` of the shared edge being there twice; the second is
empty. `deleteNullSegments` then leaves six vertices. -/
theorem consolidate_adjacent_squares (slFuel fuel : Nat) (hfuel : 6 ≤ fuel) :
    gboundary.consolidate slFuel fuel
      ⟨[⟨[⟨1, fin (-1), fin (-1)⟩, ⟨1, fin 0, fin (-1)⟩, ⟨1, fin 0, fin 0⟩,
          ⟨1, fin (-1), fin 0⟩], false⟩,
        ⟨[⟨1, fin 0, fin (-1)⟩, ⟨1, fin 1, fin (-1)⟩, ⟨1, fin 1, fin 0⟩,
          ⟨1, fin 0, fin 0⟩], false⟩]⟩ 1
      = Outcome.ok ⟨[⟨[⟨1, fin 0, fin 0⟩, ⟨1, fin (-1), fin 0⟩, ⟨1, fin (-1), fin (-1)⟩,
        ⟨1, fin 0, fin (-1)⟩, ⟨1, fin 0, fin (-1)⟩, ⟨1, fin 1, fin (-1)⟩, ⟨1, fin 1, fin 0⟩,
        ⟨1, fin 0, fin 0⟩], false⟩, ⟨[], false⟩]⟩ ∧
    gboundary.deleteNullSegments 9
      ⟨[⟨[⟨1, fin 0, fin 0⟩, ⟨1, fin (-1), fin 0⟩, ⟨1, fin (-1), fin (-1)⟩,
        ⟨1, fin 0, fin (-1)⟩, ⟨1, fin 0, fin (-1)⟩, ⟨1, fin 1, fin (-1)⟩, ⟨1, fin 1, fin 0⟩,
        ⟨1, fin 0, fin 0⟩], false⟩, ⟨[], false⟩]⟩
      = some ⟨[⟨[⟨1, fin (-1), fin 0⟩, ⟨1, fin (-1), fin (-1)⟩, ⟨1, fin 0, fin (-1)⟩,
        ⟨1, fin 1, fin (-1)⟩, ⟨1, fin 1, fin 0⟩, ⟨1, fin 0, fin 0⟩], false⟩, ⟨[], false⟩]⟩ :=
  ⟨consolidate_two_squares slFuel fuel hfuel, deleteNullSegments_two_squares⟩

/-- Witness for C26: six rounds of fuel. -/
theorem consolidate_adjacent_squares_witness :
    (6 : Nat) ≤ 6 ∧ gboundary.consolidate 1 6
      ⟨[⟨[⟨1, fin (-1), fin (-1)⟩, ⟨1, fin 0, fin (-1)⟩, ⟨1, fin 0, fin 0⟩,
          ⟨1, fin (-1), fin 0⟩], false⟩,
        ⟨[⟨1, fin 0, fin (-1)⟩, ⟨1, fin 1, fin (-1)⟩, ⟨1, fin 1, fin 0⟩,
          ⟨1, fin 0, fin 0⟩], false⟩]⟩ 1
      = Outcome.ok ⟨[⟨[⟨1, fin 0, fin 0⟩, ⟨1, fin (-1), fin 0⟩, ⟨1, fin (-1), fin (-1)⟩,
        ⟨1, fin 0, fin (-1)⟩, ⟨1, fin 0, fin (-1)⟩, ⟨1, fin 1, fin (-1)⟩, ⟨1, fin 1, fin 0⟩,
        ⟨1, fin 0, fin 0⟩], false⟩, ⟨[], false⟩]⟩ :=
  ⟨le_refl 6, (consolidate_adjacent_squares 1 6 (le_refl 6)).1⟩

/-- Counterexample for C26: the loop that `consolidate(1)` leaves for the two squares has
eight vertices, not six. -/
theorem consolidate_adjacent_squares_eight :
    ∃ r b, gboundary.consolidate 1 6
      ⟨[⟨[⟨1, fin (-1), fin (-1)⟩, ⟨1, fin 0, fin (-1)⟩, ⟨1, fin 0, fin 0⟩,
          ⟨1, fin (-1), fin 0⟩], false⟩,
        ⟨[⟨1, fin 0, fin (-1)⟩, ⟨1, fin 1, fin (-1)⟩, ⟨1, fin 1, fin 0⟩,
          ⟨1, fin 0, fin 0⟩], false⟩]⟩ 1 = Outcome.ok r ∧
      r.bdy[0]? = some b ∧ b.size = 8 ∧ r.bdy[1]? = some ⟨[], false⟩ :=
  ⟨_, _, consolidate_two_squares 1 6 (le_refl 6), rfl, rfl, rfl⟩

/-- The loops with all but the first one empty are quiet when the levels of the first are
computed. -/
theorem quiet_first_only (slFuel : Nat) (l : Int) (b0 : g1boundary) (rest : List g1boundary)
    (hrest : ∀ b ∈ rest, b.bdy = [])
    (h0 : ∃ iseg, b0.segmentsAtLevel slFuel l = some iseg) :
    ∀ p, gboundary.ValidPair (b0 :: rest).length p → gboundary.Quiet slFuel l (b0 :: rest) p := by
  intro p hp
  obtain ⟨i, j⟩ := p
  obtain ⟨h1, h2, h3⟩ := hp
  simp only at h1 h2 h3
  have hsome : ∀ (k : Nat) (b : g1boundary), (b0 :: rest)[k]? = some b →
      (∃ iseg, b.segmentsAtLevel slFuel l = some iseg) ∧ (k ≠ 0 → b.bdy = []) := by
    intro k b hb
    cases k with
    | zero =>
      simp only [List.getElem?_cons_zero, Option.some.injEq] at hb
      subst hb
      exact ⟨h0, fun h => absurd rfl h⟩
    | succ k =>
      simp only [List.getElem?_cons_succ] at hb
      have hmem : b ∈ rest := List.mem_iff_getElem?.mpr ⟨k, hb⟩
      have he := hrest b hmem
      obtain ⟨bb, inn⟩ := b
      simp only at he
      subst he
      exact ⟨⟨[], rfl⟩, fun _ => rfl⟩
  have hi := hsome i _ (List.getElem?_eq_getElem h1)
  have hj := hsome j _ (List.getElem?_eq_getElem h2)
  refine quiet_of_empty slFuel l _ (i, j) _ _ (List.getElem?_eq_getElem h1)
    (List.getElem?_eq_getElem h2) hi.1 hj.1 ?_
  by_cases h : i = 0
  · exact Or.inr (hj.2 (by omega))
  · exact Or.inl (hi.2 h)

/-- The run of `consolidate(1)` on the four squares of half-width 1/2 around the origin of
a face: three rounds splice the second, third and fourth loop into the first, sixteen more
rounds find nothing. -/
theorem consolidate_four_squares_face (f : Int) (hf : 1 ≤ f ∧ f ≤ 6) (slFuel fuel : Nat)
    (hfuel : 20 ≤ fuel) :
    gboundary.consolidate slFuel fuel
      ⟨[⟨[⟨f, fin (-1), fin (-1)⟩, ⟨f, fin 0, fin (-1)⟩, ⟨f, fin 0, fin 0⟩,
          ⟨f, fin (-1), fin 0⟩], false⟩,
      ⟨[⟨f, fin 0, fin (-1)⟩, ⟨f, fin 1, fin (-1)⟩, ⟨f, fin 1, fin 0⟩,
          ⟨f, fin 0, fin 0⟩], false⟩,
      ⟨[⟨f, fin (-1), fin 0⟩, ⟨f, fin 0, fin 0⟩, ⟨f, fin 0, fin 1⟩,
          ⟨f, fin (-1), fin 1⟩], false⟩,
      ⟨[⟨f, fin 0, fin 0⟩, ⟨f, fin 1, fin 0⟩, ⟨f, fin 1, fin 1⟩, ⟨f, fin 0, fin 1⟩], false⟩]⟩ 1
    = Outcome.ok
      ⟨[⟨[⟨f, fin 0, fin 1⟩, ⟨f, fin (-1), fin 1⟩, ⟨f, fin (-1), fin 0⟩,
          ⟨f, fin (-1), fin 0⟩, ⟨f, fin (-1), fin (-1)⟩, ⟨f, fin 0, fin (-1)⟩,
          ⟨f, fin 0, fin (-1)⟩, ⟨f, fin 1, fin (-1)⟩, ⟨f, fin 1, fin 0⟩,
          ⟨f, fin 0, fin 0⟩, ⟨f, fin 0, fin 0⟩, ⟨f, fin 0, fin 0⟩, ⟨f, fin 0, fin 0⟩,
          ⟨f, fin 1, fin 0⟩, ⟨f, fin 1, fin 1⟩, ⟨f, fin 0, fin 1⟩], false⟩,
      ⟨[], false⟩,
      ⟨[], false⟩,
      ⟨[], false⟩]⟩ := by
  obtain ⟨k, rfl⟩ : ∃ k, fuel = k + 3 := ⟨fuel - 3, by omega⟩
  have hs0 : g1boundary.segmentsAtLevel slFuel
      ⟨[⟨f, fin (-1), fin (-1)⟩, ⟨f, fin 0, fin (-1)⟩, ⟨f, fin 0, fin 0⟩,
        ⟨f, fin (-1), fin 0⟩], false⟩ 1 = some [1, 2] := by
    simp [g1boundary.segmentsAtLevel, g1boundary.indices, g1boundary.filterOpt,
      g1boundary.atLevel, seg_of_index, splitLevelSegment, splitLevel_zero, splitLevel_one,
      splitLevel_neg_one, List.range, List.range.loop]
  have hs1 : g1boundary.segmentsAtLevel slFuel
      ⟨[⟨f, fin 0, fin (-1)⟩, ⟨f, fin 1, fin (-1)⟩, ⟨f, fin 1, fin 0⟩,
        ⟨f, fin 0, fin 0⟩], false⟩ 1 = some [2, 3] := by
    simp [g1boundary.segmentsAtLevel, g1boundary.indices, g1boundary.filterOpt,
      g1boundary.atLevel, seg_of_index, splitLevelSegment, splitLevel_zero, splitLevel_one,
      splitLevel_neg_one, List.range, List.range.loop]
  have hs2 : g1boundary.segmentsAtLevel slFuel
      ⟨[⟨f, fin (-1), fin 0⟩, ⟨f, fin 0, fin 0⟩, ⟨f, fin 0, fin 1⟩,
        ⟨f, fin (-1), fin 1⟩], false⟩ 1 = some [0, 1] := by
    simp [g1boundary.segmentsAtLevel, g1boundary.indices, g1boundary.filterOpt,
      g1boundary.atLevel, seg_of_index, splitLevelSegment, splitLevel_zero, splitLevel_one,
      splitLevel_neg_one, List.range, List.range.loop]
  have hs3 : g1boundary.segmentsAtLevel slFuel
      ⟨[⟨f, fin 0, fin 0⟩, ⟨f, fin 1, fin 0⟩, ⟨f, fin 1, fin 1⟩, ⟨f, fin 0, fin 1⟩], false⟩ 1 = some [0, 3] := by
    simp [g1boundary.segmentsAtLevel, g1boundary.indices, g1boundary.filterOpt,
      g1boundary.atLevel, seg_of_index, splitLevelSegment, splitLevel_zero, splitLevel_one,
      splitLevel_neg_one, List.range, List.range.loop]
  have hs8 : g1boundary.segmentsAtLevel slFuel
      ⟨[⟨f, fin 0, fin 0⟩, ⟨f, fin (-1), fin 0⟩, ⟨f, fin (-1), fin (-1)⟩,
        ⟨f, fin 0, fin (-1)⟩, ⟨f, fin 0, fin (-1)⟩, ⟨f, fin 1, fin (-1)⟩,
        ⟨f, fin 1, fin 0⟩, ⟨f, fin 0, fin 0⟩], false⟩ 1 = some [0, 3, 6, 7] := by
    simp [g1boundary.segmentsAtLevel, g1boundary.indices, g1boundary.filterOpt,
      g1boundary.atLevel, seg_of_index, splitLevelSegment, splitLevel_zero, splitLevel_one,
      splitLevel_neg_one, List.range, List.range.loop]
  have hs12 : g1boundary.segmentsAtLevel slFuel
      ⟨[⟨f, fin (-1), fin 0⟩, ⟨f, fin (-1), fin (-1)⟩, ⟨f, fin 0, fin (-1)⟩,
        ⟨f, fin 0, fin (-1)⟩, ⟨f, fin 1, fin (-1)⟩, ⟨f, fin 1, fin 0⟩,
        ⟨f, fin 0, fin 0⟩, ⟨f, fin 0, fin 0⟩, ⟨f, fin 0, fin 0⟩, ⟨f, fin 0, fin 1⟩,
        ⟨f, fin (-1), fin 1⟩, ⟨f, fin (-1), fin 0⟩], false⟩ 1 = some [2, 5, 6, 7, 8] := by
    simp [g1boundary.segmentsAtLevel, g1boundary.indices, g1boundary.filterOpt,
      g1boundary.atLevel, seg_of_index, splitLevelSegment, splitLevel_zero, splitLevel_one,
      splitLevel_neg_one, List.range, List.range.loop]
  have hs16 : ∃ iseg, g1boundary.segmentsAtLevel slFuel
      ⟨[⟨f, fin 0, fin 1⟩, ⟨f, fin (-1), fin 1⟩, ⟨f, fin (-1), fin 0⟩,
        ⟨f, fin (-1), fin 0⟩, ⟨f, fin (-1), fin (-1)⟩, ⟨f, fin 0, fin (-1)⟩,
        ⟨f, fin 0, fin (-1)⟩, ⟨f, fin 1, fin (-1)⟩, ⟨f, fin 1, fin 0⟩,
        ⟨f, fin 0, fin 0⟩, ⟨f, fin 0, fin 0⟩, ⟨f, fin 0, fin 0⟩, ⟨f, fin 0, fin 0⟩,
        ⟨f, fin 1, fin 0⟩, ⟨f, fin 1, fin 1⟩, ⟨f, fin 0, fin 1⟩], false⟩ 1 = some iseg := by
    apply segmentsAtLevel_some
    right
    intro v hv
    simp only [List.mem_cons, List.mem_singleton, List.not_mem_nil, or_false] at hv
    rcases hv with rfl | rfl | rfl | rfl | rfl | rfl | rfl | rfl | rfl | rfl | rfl | rfl | rfl | rfl | rfl | rfl <;>
      simp [splitLevel_zero, splitLevel_one, splitLevel_neg_one]
  have hscan1 : gboundary.consolidateScan
      ⟨[⟨f, fin (-1), fin (-1)⟩, ⟨f, fin 0, fin (-1)⟩, ⟨f, fin 0, fin 0⟩,
        ⟨f, fin (-1), fin 0⟩], false⟩
      ⟨[⟨f, fin 0, fin (-1)⟩, ⟨f, fin 1, fin (-1)⟩, ⟨f, fin 1, fin 0⟩,
        ⟨f, fin 0, fin 0⟩], false⟩
      (gboundary.segmentPairs [1, 2] [2, 3]) none = Outcome.ok (some (1, 3)) := by
    simp [gboundary.segmentPairs, gboundary.consolidateScan, seg_of_index,
      overlap_on_face f hf]
    norm_num
  have hscan2 : gboundary.consolidateScan
      ⟨[⟨f, fin 0, fin 0⟩, ⟨f, fin (-1), fin 0⟩, ⟨f, fin (-1), fin (-1)⟩,
        ⟨f, fin 0, fin (-1)⟩, ⟨f, fin 0, fin (-1)⟩, ⟨f, fin 1, fin (-1)⟩,
        ⟨f, fin 1, fin 0⟩, ⟨f, fin 0, fin 0⟩], false⟩
      ⟨[⟨f, fin (-1), fin 0⟩, ⟨f, fin 0, fin 0⟩, ⟨f, fin 0, fin 1⟩,
        ⟨f, fin (-1), fin 1⟩], false⟩
      (gboundary.segmentPairs [0, 3, 6, 7] [0, 1]) none = Outcome.ok (some (0, 0)) := by
    simp [gboundary.segmentPairs, gboundary.consolidateScan, seg_of_index,
      overlap_on_face f hf]
    norm_num
  have hscan3 : gboundary.consolidateScan
      ⟨[⟨f, fin (-1), fin 0⟩, ⟨f, fin (-1), fin (-1)⟩, ⟨f, fin 0, fin (-1)⟩,
        ⟨f, fin 0, fin (-1)⟩, ⟨f, fin 1, fin (-1)⟩, ⟨f, fin 1, fin 0⟩,
        ⟨f, fin 0, fin 0⟩, ⟨f, fin 0, fin 0⟩, ⟨f, fin 0, fin 0⟩, ⟨f, fin 0, fin 1⟩,
        ⟨f, fin (-1), fin 1⟩, ⟨f, fin (-1), fin 0⟩], false⟩
      ⟨[⟨f, fin 0, fin 0⟩, ⟨f, fin 1, fin 0⟩, ⟨f, fin 1, fin 1⟩, ⟨f, fin 0, fin 1⟩], false⟩
      (gboundary.segmentPairs [2, 5, 6, 7, 8] [0, 3]) none = Outcome.ok (some (8, 3)) := by
    simp [gboundary.segmentPairs, gboundary.consolidateScan, seg_of_index,
      overlap_on_face f hf]
    norm_num
  have hsplice1 : g1boundary.splice3
      ⟨[⟨f, fin (-1), fin (-1)⟩, ⟨f, fin 0, fin (-1)⟩, ⟨f, fin 0, fin 0⟩,
        ⟨f, fin (-1), fin 0⟩], false⟩ 1
      ⟨[⟨f, fin 0, fin (-1)⟩, ⟨f, fin 1, fin (-1)⟩, ⟨f, fin 1, fin 0⟩,
        ⟨f, fin 0, fin 0⟩], false⟩ 3
      = (⟨[⟨f, fin 0, fin 0⟩, ⟨f, fin (-1), fin 0⟩, ⟨f, fin (-1), fin (-1)⟩,
        ⟨f, fin 0, fin (-1)⟩, ⟨f, fin 0, fin (-1)⟩, ⟨f, fin 1, fin (-1)⟩,
        ⟨f, fin 1, fin 0⟩, ⟨f, fin 0, fin 0⟩], false⟩, ⟨[], false⟩) := by
    have h1 := positionSegment_eq_rotate
      ⟨[⟨f, fin (-1), fin (-1)⟩, ⟨f, fin 0, fin (-1)⟩, ⟨f, fin 0, fin 0⟩,
        ⟨f, fin (-1), fin 0⟩], false⟩ 1 (by norm_num)
    have h2 := positionSegment_eq_rotate
      ⟨[⟨f, fin 0, fin (-1)⟩, ⟨f, fin 1, fin (-1)⟩, ⟨f, fin 1, fin 0⟩,
        ⟨f, fin 0, fin 0⟩], false⟩ 3 (by norm_num)
    simp only [Nat.cast_one, Nat.cast_ofNat] at h1 h2
    simp only [g1boundary.splice3, g1boundary.splice, h1.1, h1.2, h2.1, h2.2]
    simp [List.rotate]
  have hsplice2 : g1boundary.splice3
      ⟨[⟨f, fin 0, fin 0⟩, ⟨f, fin (-1), fin 0⟩, ⟨f, fin (-1), fin (-1)⟩,
        ⟨f, fin 0, fin (-1)⟩, ⟨f, fin 0, fin (-1)⟩, ⟨f, fin 1, fin (-1)⟩,
        ⟨f, fin 1, fin 0⟩, ⟨f, fin 0, fin 0⟩], false⟩ 0
      ⟨[⟨f, fin (-1), fin 0⟩, ⟨f, fin 0, fin 0⟩, ⟨f, fin 0, fin 1⟩,
        ⟨f, fin (-1), fin 1⟩], false⟩ 0
      = (⟨[⟨f, fin (-1), fin 0⟩, ⟨f, fin (-1), fin (-1)⟩, ⟨f, fin 0, fin (-1)⟩,
        ⟨f, fin 0, fin (-1)⟩, ⟨f, fin 1, fin (-1)⟩, ⟨f, fin 1, fin 0⟩,
        ⟨f, fin 0, fin 0⟩, ⟨f, fin 0, fin 0⟩, ⟨f, fin 0, fin 0⟩, ⟨f, fin 0, fin 1⟩,
        ⟨f, fin (-1), fin 1⟩, ⟨f, fin (-1), fin 0⟩], false⟩, ⟨[], false⟩) := by
    have h1 := positionSegment_eq_rotate
      ⟨[⟨f, fin 0, fin 0⟩, ⟨f, fin (-1), fin 0⟩, ⟨f, fin (-1), fin (-1)⟩,
        ⟨f, fin 0, fin (-1)⟩, ⟨f, fin 0, fin (-1)⟩, ⟨f, fin 1, fin (-1)⟩,
        ⟨f, fin 1, fin 0⟩, ⟨f, fin 0, fin 0⟩], false⟩ 0 (by norm_num)
    have h2 := positionSegment_eq_rotate
      ⟨[⟨f, fin (-1), fin 0⟩, ⟨f, fin 0, fin 0⟩, ⟨f, fin 0, fin 1⟩,
        ⟨f, fin (-1), fin 1⟩], false⟩ 0 (by norm_num)
    simp only [Nat.cast_zero] at h1 h2
    simp only [g1boundary.splice3, g1boundary.splice, h1.1, h1.2, h2.1, h2.2]
    simp [List.rotate]
  have hsplice3 : g1boundary.splice3
      ⟨[⟨f, fin (-1), fin 0⟩, ⟨f, fin (-1), fin (-1)⟩, ⟨f, fin 0, fin (-1)⟩,
        ⟨f, fin 0, fin (-1)⟩, ⟨f, fin 1, fin (-1)⟩, ⟨f, fin 1, fin 0⟩,
        ⟨f, fin 0, fin 0⟩, ⟨f, fin 0, fin 0⟩, ⟨f, fin 0, fin 0⟩, ⟨f, fin 0, fin 1⟩,
        ⟨f, fin (-1), fin 1⟩, ⟨f, fin (-1), fin 0⟩], false⟩ 8
      ⟨[⟨f, fin 0, fin 0⟩, ⟨f, fin 1, fin 0⟩, ⟨f, fin 1, fin 1⟩, ⟨f, fin 0, fin 1⟩], false⟩ 3
      = (⟨[⟨f, fin 0, fin 1⟩, ⟨f, fin (-1), fin 1⟩, ⟨f, fin (-1), fin 0⟩,
        ⟨f, fin (-1), fin 0⟩, ⟨f, fin (-1), fin (-1)⟩, ⟨f, fin 0, fin (-1)⟩,
        ⟨f, fin 0, fin (-1)⟩, ⟨f, fin 1, fin (-1)⟩, ⟨f, fin 1, fin 0⟩,
        ⟨f, fin 0, fin 0⟩, ⟨f, fin 0, fin 0⟩, ⟨f, fin 0, fin 0⟩, ⟨f, fin 0, fin 0⟩,
        ⟨f, fin 1, fin 0⟩, ⟨f, fin 1, fin 1⟩, ⟨f, fin 0, fin 1⟩], false⟩, ⟨[], false⟩) := by
    have h1 := positionSegment_eq_rotate
      ⟨[⟨f, fin (-1), fin 0⟩, ⟨f, fin (-1), fin (-1)⟩, ⟨f, fin 0, fin (-1)⟩,
        ⟨f, fin 0, fin (-1)⟩, ⟨f, fin 1, fin (-1)⟩, ⟨f, fin 1, fin 0⟩,
        ⟨f, fin 0, fin 0⟩, ⟨f, fin 0, fin 0⟩, ⟨f, fin 0, fin 0⟩, ⟨f, fin 0, fin 1⟩,
        ⟨f, fin (-1), fin 1⟩, ⟨f, fin (-1), fin 0⟩], false⟩ 8 (by norm_num)
    have h2 := positionSegment_eq_rotate
      ⟨[⟨f, fin 0, fin 0⟩, ⟨f, fin 1, fin 0⟩, ⟨f, fin 1, fin 1⟩, ⟨f, fin 0, fin 1⟩], false⟩ 3 (by norm_num)
    simp only [Nat.cast_ofNat] at h1 h2
    simp only [g1boundary.splice3, g1boundary.splice, h1.1, h1.2, h2.1, h2.2]
    simp [List.rotate]
  have hn1 : gboundary.nextPair 4 (0, 1) = (0, 2) := by decide
  have hn2 : gboundary.nextPair 4 (0, 2) = (0, 3) := by decide
  have hn3 : gboundary.nextPair 4 (0, 3) = (3, 0) := by decide
  unfold gboundary.consolidate
  simp only [List.length_cons, List.length_nil, Nat.reduceAdd]
  rw [consolidateLoop_found slFuel 1 4 (k + 2) _ 0 1 1 _ _ [1, 2] [2, 3] 1 3 (by norm_num)
    rfl rfl hs0 hs1 hscan1, hsplice1, hn1]
  simp only [List.set_cons_zero, List.set_cons_succ]
  rw [consolidateLoop_found slFuel 1 4 (k + 1) _ 0 2 0 _ _ [0, 3, 6, 7] [0, 1] 0 0
    (by norm_num) rfl rfl hs8 hs2 hscan2, hsplice2, hn2]
  simp only [List.set_cons_zero, List.set_cons_succ]
  rw [consolidateLoop_found slFuel 1 4 k _ 0 3 0 _ _ [2, 5, 6, 7, 8] [0, 3] 8 3
    (by norm_num) rfl rfl hs12 hs3 hscan3, hsplice3, hn3]
  simp only [List.set_cons_zero, List.set_cons_succ]
  rw [consolidateLoop_all_quiet slFuel 1 4 _ ?_ k (3, 0) 0
    ⟨by norm_num, by norm_num, by norm_num⟩ (by omega)]
  exact quiet_first_only slFuel 1 _ [⟨[], false⟩, ⟨[], false⟩, ⟨[], false⟩]
    (by intro b hb; simp at hb; subst hb; rfl) hs16

/-- The run of `consolidate(1)` on the four squares of half-width 1/2 around the origin of
face 1: three rounds splice the second, third and fourth loop into the first, sixteen more
rounds find nothing. -/
theorem consolidate_four_squares (slFuel fuel : Nat) (hfuel : 20 ≤ fuel) :
    gboundary.consolidate slFuel fuel
      ⟨[⟨[⟨1, fin (-1), fin (-1)⟩, ⟨1, fin 0, fin (-1)⟩, ⟨1, fin 0, fin 0⟩,
          ⟨1, fin (-1), fin 0⟩], false⟩,
      ⟨[⟨1, fin 0, fin (-1)⟩, ⟨1, fin 1, fin (-1)⟩, ⟨1, fin 1, fin 0⟩,
          ⟨1, fin 0, fin 0⟩], false⟩,
      ⟨[⟨1, fin (-1), fin 0⟩, ⟨1, fin 0, fin 0⟩, ⟨1, fin 0, fin 1⟩,
          ⟨1, fin (-1), fin 1⟩], false⟩,
      ⟨[⟨1, fin 0, fin 0⟩, ⟨1, fin 1, fin 0⟩, ⟨1, fin 1, fin 1⟩, ⟨1, fin 0, fin 1⟩], false⟩]⟩ 1
    = Outcome.ok
      ⟨[⟨[⟨1, fin 0, fin 1⟩, ⟨1, fin (-1), fin 1⟩, ⟨1, fin (-1), fin 0⟩,
          ⟨1, fin (-1), fin 0⟩, ⟨1, fin (-1), fin (-1)⟩, ⟨1, fin 0, fin (-1)⟩,
          ⟨1, fin 0, fin (-1)⟩, ⟨1, fin 1, fin (-1)⟩, ⟨1, fin 1, fin 0⟩,
          ⟨1, fin 0, fin 0⟩, ⟨1, fin 0, fin 0⟩, ⟨1, fin 0, fin 0⟩, ⟨1, fin 0, fin 0⟩,
          ⟨1, fin 1, fin 0⟩, ⟨1, fin 1, fin 1⟩, ⟨1, fin 0, fin 1⟩], false⟩,
      ⟨[], false⟩,
      ⟨[], false⟩,
      ⟨[], false⟩]⟩ :=
  consolidate_four_squares_face 1 ⟨le_refl 1, by norm_num⟩ slFuel fuel hfuel

/-- C25 (amended). With at least twenty rounds of fuel, `consolidate(1)` on the four
counterclockwise squares of half-width 1/2 centered at `(±1/2, ±1/2)` on face 1 returns four
loops: the first holds the sixteen vertices of the four squares, a closed path around the
face boundary that also runs along the inner edges, and the other three are empty. No vertex
is removed, so the result is not the 4-corner loop of the face. -/
theorem consolidate_child_loops (slFuel fuel : Nat) (hfuel : 20 ≤ fuel) :
    gboundary.consolidate slFuel fuel
      ⟨[⟨[⟨1, fin (-1), fin (-1)⟩, ⟨1, fin 0, fin (-1)⟩, ⟨1, fin 0, fin 0⟩,
          ⟨1, fin (-1), fin 0⟩], false⟩,
      ⟨[⟨1, fin 0, fin (-1)⟩, ⟨1, fin 1, fin (-1)⟩, ⟨1, fin 1, fin 0⟩,
          ⟨1, fin 0, fin 0⟩], false⟩,
      ⟨[⟨1, fin (-1), fin 0⟩, ⟨1, fin 0, fin 0⟩, ⟨1, fin 0, fin 1⟩,
          ⟨1, fin (-1), fin 1⟩], false⟩,
      ⟨[⟨1, fin 0, fin 0⟩, ⟨1, fin 1, fin 0⟩, ⟨1, fin 1, fin 1⟩, ⟨1, fin 0, fin 1⟩], false⟩]⟩ 1
    = Outcome.ok
      ⟨[⟨[⟨1, fin 0, fin 1⟩, ⟨1, fin (-1), fin 1⟩, ⟨1, fin (-1), fin 0⟩,
          ⟨1, fin (-1), fin 0⟩, ⟨1, fin (-1), fin (-1)⟩, ⟨1, fin 0, fin (-1)⟩,
          ⟨1, fin 0, fin (-1)⟩, ⟨1, fin 1, fin (-1)⟩, ⟨1, fin 1, fin 0⟩,
          ⟨1, fin 0, fin 0⟩, ⟨1, fin 0, fin 0⟩, ⟨1, fin 0, fin 0⟩, ⟨1, fin 0, fin 0⟩,
          ⟨1, fin 1, fin 0⟩, ⟨1, fin 1, fin 1⟩, ⟨1, fin 0, fin 1⟩], false⟩,
      ⟨[], false⟩,
      ⟨[], false⟩,
      ⟨[], false⟩]⟩ :=
  consolidate_four_squares slFuel fuel hfuel

/-- Witness for C25: twenty rounds of fuel. -/
theorem consolidate_child_loops_witness :
    (20 : Nat) ≤ 20 ∧ ∃ r, gboundary.consolidate 1 20
      ⟨[⟨[⟨1, fin (-1), fin (-1)⟩, ⟨1, fin 0, fin (-1)⟩, ⟨1, fin 0, fin 0⟩,
          ⟨1, fin (-1), fin 0⟩], false⟩,
      ⟨[⟨1, fin 0, fin (-1)⟩, ⟨1, fin 1, fin (-1)⟩, ⟨1, fin 1, fin 0⟩,
          ⟨1, fin 0, fin 0⟩], false⟩,
      ⟨[⟨1, fin (-1), fin 0⟩, ⟨1, fin 0, fin 0⟩, ⟨1, fin 0, fin 1⟩,
          ⟨1, fin (-1), fin 1⟩], false⟩,
      ⟨[⟨1, fin 0, fin 0⟩, ⟨1, fin 1, fin 0⟩, ⟨1, fin 1, fin 1⟩, ⟨1, fin 0, fin 1⟩], false⟩]⟩ 1
      = Outcome.ok r ∧ r.bdy.length = 4 :=
  ⟨le_refl 20, _, consolidate_child_loops 1 20 (le_refl 20), rfl⟩

/-- Counterexample for C25: what `consolidate(1)` returns for the four child loops has four
loops, the first of 16 vertices, not one loop of 4 vertices. -/
theorem consolidate_child_loops_sixteen :
    ∃ r b, gboundary.consolidate 1 20
      ⟨[⟨[⟨1, fin (-1), fin (-1)⟩, ⟨1, fin 0, fin (-1)⟩, ⟨1, fin 0, fin 0⟩,
          ⟨1, fin (-1), fin 0⟩], false⟩,
      ⟨[⟨1, fin 0, fin (-1)⟩, ⟨1, fin 1, fin (-1)⟩, ⟨1, fin 1, fin 0⟩,
          ⟨1, fin 0, fin 0⟩], false⟩,
      ⟨[⟨1, fin (-1), fin 0⟩, ⟨1, fin 0, fin 0⟩, ⟨1, fin 0, fin 1⟩,
          ⟨1, fin (-1), fin 1⟩], false⟩,
      ⟨[⟨1, fin 0, fin 0⟩, ⟨1, fin 1, fin 0⟩, ⟨1, fin 1, fin 1⟩, ⟨1, fin 0, fin 1⟩], false⟩]⟩ 1
      = Outcome.ok r ∧ r.size = 4 ∧ r.bdy[0]? = some b ∧ b.size = 16 ∧
      r ≠ ⟨[⟨[⟨1, fin (-1), fin (-1)⟩, ⟨1, fin 1, fin (-1)⟩, ⟨1, fin 1, fin 1⟩,
        ⟨1, fin (-1), fin 1⟩], false⟩]⟩ := by
  refine ⟨_, _, consolidate_four_squares 1 20 (le_refl 20), rfl, rfl, rfl, ?_⟩
  intro h
  have := congrArg (fun g : gboundary => g.bdy.length) h
  simp at this

/-! ## `splitoff` -/

/-- The three ways the two nested loops of `splitoff` can end: a failed assertion; no
overlap among the pairs; or a first overlapping pair found. -/
theorem splitoffScan_cases (b : g1boundary) :
    ∀ pairs : List (Int × Int),
      gboundary.splitoffScan b pairs = Outcome.assertFailed ∨
      (gboundary.splitoffScan b pairs = Outcome.ok none ∧
        ∀ x ∈ pairs, ∃ s t, b.seg x.1 = some s ∧ b.seg x.2 = some t ∧
          overlap s t = some false) ∨
      ∃ x ∈ pairs, gboundary.splitoffScan b pairs = Outcome.ok (some x) := by
  intro pairs
  induction pairs with
  | nil => exact Or.inr (Or.inl ⟨rfl, by simp⟩)
  | cons x rest ih =>
    obtain ⟨a, c⟩ := x
    unfold gboundary.splitoffScan
    cases hs : b.seg a with
    | none => exact Or.inl rfl
    | some s =>
      cases ht : b.seg c with
      | none => exact Or.inl rfl
      | some t =>
        simp only []
        cases ho : overlap s t with
        | none => exact Or.inl rfl
        | some v =>
          cases v with
          | true => exact Or.inr (Or.inr ⟨(a, c), List.mem_cons_self _ _, rfl⟩)
          | false =>
            simp only []
            rcases ih with h | ⟨h, hall⟩ | ⟨x, hx, h⟩
            · exact Or.inl h
            · refine Or.inr (Or.inl ⟨h, ?_⟩)
              intro y hy
              rcases List.mem_cons.mp hy with rfl | hy
              · exact ⟨s, t, hs, ht, ho⟩
              · exact hall y hy
            · exact Or.inr (Or.inr ⟨x, List.mem_cons_of_mem _ hx, h⟩)

/-- A pair of `lowerPairs` has its first entry among the remaining ones and its second entry
before it. -/
theorem lowerPairs_mem (a c : Int) : ∀ (rest seen : List Int),
    List.Pairwise (fun x y => x < y) (seen ++ rest) →
    (a, c) ∈ gboundary.lowerPairs seen rest →
    a ∈ rest ∧ (c ∈ seen ∨ c ∈ rest) ∧ c < a := by
  intro rest
  induction rest with
  | nil => intro seen _ h; simp [gboundary.lowerPairs] at h
  | cons x r ih =>
    intro seen hp h
    unfold gboundary.lowerPairs at h
    rcases List.mem_append.mp h with h | h
    · obtain ⟨y, hy, heq⟩ := List.mem_map.mp h
      simp only [Prod.mk.injEq] at heq
      obtain ⟨rfl, rfl⟩ := heq
      refine ⟨List.mem_cons_self _ _, Or.inl hy, ?_⟩
      exact (List.pairwise_append.mp hp).2.2 y hy x (List.mem_cons_self _ _)
    · have hp' : List.Pairwise (fun x y => x < y) ((seen ++ [x]) ++ r) := by
        simpa using hp
      obtain ⟨h1, h2, h3⟩ := ih (seen ++ [x]) hp' h
      refine ⟨List.mem_cons_of_mem _ h1, ?_, h3⟩
      rcases h2 with h2 | h2
      · rcases List.mem_append.mp h2 with h2 | h2
        · exact Or.inl h2
        · simp only [List.mem_singleton] at h2
          subst h2
          exact Or.inr (List.mem_cons_self _ _)
      · exact Or.inr (List.mem_cons_of_mem _ h2)

/-- Every pair of a remaining entry and a smaller entry is in `lowerPairs`. -/
theorem mem_lowerPairs (a c : Int) : ∀ (rest seen : List Int),
    List.Pairwise (fun x y => x < y) (seen ++ rest) →
    a ∈ rest → (c ∈ seen ∨ c ∈ rest) → c < a →
    (a, c) ∈ gboundary.lowerPairs seen rest := by
  intro rest
  induction rest with
  | nil => intro seen _ h; simp at h
  | cons x r ih =>
    intro seen hp ha hc hlt
    unfold gboundary.lowerPairs
    have hp' : List.Pairwise (fun x y => x < y) ((seen ++ [x]) ++ r) := by
      simpa using hp
    have hxr : ∀ y ∈ r, x < y := by
      intro y hy
      have := (List.pairwise_append.mp hp).2.1
      exact (List.pairwise_cons.mp this).1 y hy
    rcases List.mem_cons.mp ha with rfl | ha
    · rcases hc with hc | hc
      · exact List.mem_append.mpr (Or.inl (List.mem_map.mpr ⟨c, hc, rfl⟩))
      · rcases List.mem_cons.mp hc with rfl | hc
        · omega
        · have := hxr c hc
          omega
    · apply List.mem_append.mpr
      right
      apply ih (seen ++ [x]) hp' ha _ hlt
      rcases hc with hc | hc
      · exact Or.inl (List.mem_append.mpr (Or.inl hc))
      · rcases List.mem_cons.mp hc with rfl | hc
        · exact Or.inl (List.mem_append.mpr (Or.inr (List.mem_singleton.mpr rfl)))
        · exact Or.inr hc

/-- What `filterOpt` returns is a sublist. -/
theorem filterOpt_sublist {α : Type} (p : α → Option Bool) :
    ∀ (l r : List α), g1boundary.filterOpt p l = some r → List.Sublist r l := by
  intro l
  induction l with
  | nil =>
    intro r h
    simp only [g1boundary.filterOpt, Option.some.injEq] at h
    subst h
    exact List.Sublist.refl _
  | cons x l ih =>
    intro r h
    unfold g1boundary.filterOpt at h
    cases hx : p x with
    | none => simp [hx] at h
    | some b =>
      cases hl : g1boundary.filterOpt p l with
      | none => simp [hx, hl] at h
      | some r0 =>
        simp only [hx, hl, Option.some.injEq] at h
        subst h
        cases b with
        | true => simpa using (ih r0 hl).cons₂ x
        | false => simpa using (ih r0 hl).cons x

/-- The entries of `segmentsAtLevel` are in increasing order. -/
theorem segmentsAtLevel_sorted (slFuel : Nat) (g : g1boundary) (l : Int) (iseg : List Int)
    (h : g.segmentsAtLevel slFuel l = some iseg) :
    List.Pairwise (fun x y => x < y) iseg := by
  apply List.Pairwise.sublist (filterOpt_sublist _ _ _ h)
  unfold g1boundary.indices
  apply List.Pairwise.map _ _ (List.pairwise_lt_range _)
  intro a b hab
  exact Int.ofNat_lt.mpr hab

/-- A round of `splitoff` on loop `i` that finds two overlapping segments. -/
theorem splitoffLoop_found (slFuel : Nat) (l : Int) (fuel : Nat) (bdy : List g1boundary)
    (i : Nat) (bi : g1boundary) (iseg : List Int) (a c : Int) (r : g1boundary × g1boundary)
    (hi : bdy[i]? = some bi) (hsi : bi.segmentsAtLevel slFuel l = some iseg)
    (hscan : gboundary.splitoffScan bi (gboundary.lowerPairs [] iseg) = Outcome.ok (some (a, c)))
    (hsplit : bi.split3 a c ⟨[], false⟩ = some r) :
    gboundary.splitoffLoop slFuel l (fuel + 1) bdy i =
      gboundary.splitoffLoop slFuel l fuel (bdy.set i r.1 ++ [r.2]) i := by
  rw [gboundary.splitoffLoop]
  simp only [hi, hsi, hscan, hsplit]

/-- A round of `splitoff` on loop `i` that finds no overlapping segments. -/
theorem splitoffLoop_next (slFuel : Nat) (l : Int) (fuel : Nat) (bdy : List g1boundary)
    (i : Nat) (bi : g1boundary) (iseg : List Int)
    (hi : bdy[i]? = some bi) (hsi : bi.segmentsAtLevel slFuel l = some iseg)
    (hscan : gboundary.splitoffScan bi (gboundary.lowerPairs [] iseg) = Outcome.ok none) :
    gboundary.splitoffLoop slFuel l (fuel + 1) bdy i =
      gboundary.splitoffLoop slFuel l fuel bdy (i + 1) := by
  rw [gboundary.splitoffLoop]
  simp only [hi, hsi, hscan]

/-- A round of `splitoff` in which an assertion fails. -/
theorem splitoffLoop_abort (slFuel : Nat) (l : Int) (fuel : Nat) (bdy : List g1boundary)
    (i : Nat) (bi : g1boundary) (iseg : List Int)
    (hi : bdy[i]? = some bi) (hsi : bi.segmentsAtLevel slFuel l = some iseg)
    (hscan : gboundary.splitoffScan bi (gboundary.lowerPairs [] iseg) = Outcome.assertFailed) :
    gboundary.splitoffLoop slFuel l (fuel + 1) bdy i = Outcome.assertFailed := by
  rw [gboundary.splitoffLoop]
  simp only [hi, hsi, hscan]

/-- The loops of `splitoff` end when `i` has reached the number of loops. -/
theorem splitoffLoop_exit (slFuel : Nat) (l : Int) (fuel : Nat) (bdy : List g1boundary)
    (i : Nat) (hi : bdy[i]? = none) :
    gboundary.splitoffLoop slFuel l (fuel + 1) bdy i = Outcome.ok bdy := by
  rw [gboundary.splitoffLoop]
  simp only [hi]

/-- Replacing one element changes the sum of a function over the list by what the old and
the new element contribute. -/
theorem sum_map_set {α : Type} (f : α → Nat) (l : List α) (i : Nat) (x : α)
    (hi : i < l.length) :
    ((l.set i x).map f).sum + f l[i] = (l.map f).sum + f x := by
  induction l generalizing i with
  | nil => simp at hi
  | cons a l ih =>
    cases i with
    | zero =>
      simp only [List.set_cons_zero, List.map_cons, List.sum_cons, List.getElem_cons_zero]
      omega
    | succ i =>
      simp only [List.set_cons_succ, List.map_cons, List.sum_cons, List.getElem_cons_succ]
      have := ih i (by simpa using hi)
      omega

/-- Replacing a loop by two loops that share out its vertices keeps the vertices of the
gboundary. -/
theorem flatMap_set_append (l : List g1boundary) (i : Nat) (x y : g1boundary)
    (hi : i < l.length) (h : List.Perm (x.bdy ++ y.bdy) l[i].bdy) :
    List.Perm ((l.set i x ++ [y]).flatMap fun b => b.bdy) (l.flatMap fun b => b.bdy) := by
  induction l generalizing i with
  | nil => simp at hi
  | cons a l ih =>
    cases i with
    | zero =>
      simp only [List.set_cons_zero, List.cons_append, List.flatMap_cons, List.flatMap_append,
        List.flatMap_singleton, List.getElem_cons_zero, List.flatMap_nil,
        List.append_nil] at h ⊢
      have h1 : List.Perm (x.bdy ++ (l.flatMap (fun (b : g1boundary) => b.bdy) ++ y.bdy))
          ((x.bdy ++ y.bdy) ++ l.flatMap (fun (b : g1boundary) => b.bdy)) := by
        rw [List.append_assoc]
        exact List.Perm.append_left _ List.perm_append_comm
      exact h1.trans (List.Perm.append_right _ h)
    | succ i =>
      simp only [List.set_cons_succ, List.cons_append, List.flatMap_cons,
        List.getElem_cons_succ] at h ⊢
      exact List.Perm.append_left _ (ih i (by simpa using hi) h)

/-- The loops of `splitoff` from loop `i` on, the loops before `i` being settled: with
enough fuel the run stops at a failed assertion or returns loops that are all settled, hold
the same vertices, and are at least as many. -/
theorem splitoffLoop_spec (slFuel : Nat) (l : Int) :
    ∀ (fuel : Nat) (bdy : List g1boundary) (i : Nat),
      (∀ b ∈ bdy, (b.bdy.length : Int) < 2 ^ 31) →
      (l < 0 ∨ ∀ b ∈ bdy, LevelsWithin slFuel b) →
      (∀ (k : Nat) b, k < i → bdy[k]? = some b → gboundary.Settled slFuel l b) →
      i ≤ bdy.length →
      2 * (bdy.map fun b => b.bdy.length - 1).sum + (bdy.length - i) < fuel →
      gboundary.splitoffLoop slFuel l fuel bdy i = Outcome.assertFailed ∨
      ∃ r, gboundary.splitoffLoop slFuel l fuel bdy i = Outcome.ok r ∧
        (∀ b ∈ r, gboundary.Settled slFuel l b) ∧
        List.Perm (r.flatMap fun b => b.bdy) (bdy.flatMap fun b => b.bdy) ∧
        bdy.length ≤ r.length := by
  intro fuel
  induction fuel with
  | zero => intro bdy i _ _ _ _ h; omega
  | succ fuel ih =>
    intro bdy i h31 hlev hset hile hfuel
    cases hbi : bdy[i]? with
    | none =>
      refine Or.inr ⟨bdy, splitoffLoop_exit slFuel l fuel bdy i hbi, ?_, List.Perm.refl _,
        le_refl _⟩
      intro b hb
      obtain ⟨k, hk⟩ := List.mem_iff_getElem?.mp hb
      have hklt : k < bdy.length := by
        by_contra hge
        rw [List.getElem?_eq_none (by omega)] at hk
        exact absurd hk (by simp)
      have hige : bdy.length ≤ i := by
        by_contra hlt
        rw [List.getElem?_eq_getElem (by omega)] at hbi
        exact absurd hbi (by simp)
      exact hset k b (by omega) hk
    | some bi =>
      have hi : i < bdy.length := by
        by_contra hge
        rw [List.getElem?_eq_none (by omega)] at hbi
        exact absurd hbi (by simp)
      have hmem : bi ∈ bdy := List.mem_iff_getElem?.mpr ⟨i, hbi⟩
      have hbieq : bdy[i] = bi := by
        rw [List.getElem?_eq_getElem hi] at hbi
        exact Option.some.inj hbi
      obtain ⟨iseg, hsi⟩ := segmentsAtLevel_some slFuel bi l (hlev.imp id (fun h => h bi hmem))
      have hsorted := segmentsAtLevel_sorted slFuel bi l iseg hsi
      rcases splitoffScan_cases bi (gboundary.lowerPairs [] iseg) with h | ⟨h, hall⟩ | ⟨x, hx, h⟩
      · exact Or.inl (splitoffLoop_abort slFuel l fuel bdy i bi iseg hbi hsi h)
      · rw [splitoffLoop_next slFuel l fuel bdy i bi iseg hbi hsi h]
        apply ih bdy (i + 1) h31 hlev _ (by omega) (by omega)
        intro k b hk hb
        by_cases hki : k = i
        · subst hki
          rw [hbi] at hb
          obtain rfl := Option.some.inj hb
          refine ⟨iseg, hsi, ?_⟩
          intro j hj k hk hlt
          exact hall (j, k) (mem_lowerPairs j k iseg [] (by simpa using hsorted) hj
            (Or.inr hk) hlt)
        · exact hset k b (by omega) hb
      · obtain ⟨a, c⟩ := x
        obtain ⟨ha, hc, hlt⟩ := lowerPairs_mem a c iseg [] (by simpa using hsorted) hx
        have hc : c ∈ iseg := by
          rcases hc with hc | hc
          · simp at hc
          · exact hc
        obtain ⟨ja, hja, rfl⟩ := segmentsAtLevel_mem slFuel bi l iseg hsi a ha
        obtain ⟨kc, hkc, rfl⟩ := segmentsAtLevel_mem slFuel bi l iseg hsi c hc
        have hne : ja ≠ kc := by
          intro h; subst h; omega
        have hbig := h31 bi hmem
        obtain ⟨g1, b1, d, hsplit, -, hl1, hl2, hd0, hds, happ, -⟩ :=
          split3_parts bi ⟨[], false⟩ ja kc hja hkc hne (by omega)
        rw [splitoffLoop_found slFuel l fuel bdy i bi iseg _ _ (g1, b1) hbi hsi h hsplit]
        have hperm : List.Perm (g1.bdy ++ b1.bdy) bi.bdy := by
          rw [happ]
          exact (List.rotate_perm _ _)
        have hsub : ∀ v, v ∈ g1.bdy ∨ v ∈ b1.bdy → v ∈ bi.bdy := by
          intro v hv
          exact hperm.mem_iff.mp (List.mem_append.mpr hv)
        have hnew : ∀ b ∈ bdy.set i g1 ++ [b1], b ∈ bdy ∨ b = g1 ∨ b = b1 := by
          intro b hb
          rcases List.mem_append.mp hb with hb | hb
          · rcases List.mem_or_eq_of_mem_set hb with hb | hb
            · exact Or.inl hb
            · exact Or.inr (Or.inl hb)
          · exact Or.inr (Or.inr (List.mem_singleton.mp hb))
        have hsum := sum_map_set (fun b : g1boundary => b.bdy.length - 1) bdy i g1 hi
        rw [hbieq] at hsum
        have j1 : ∀ b ∈ bdy.set i g1 ++ [b1], (b.bdy.length : Int) < 2 ^ 31 := by
          intro b hb
          rcases hnew b hb with hb | rfl | rfl
          · exact h31 b hb
          · omega
          · omega
        have j2 : l < 0 ∨ ∀ b ∈ bdy.set i g1 ++ [b1], LevelsWithin slFuel b := by
          refine hlev.imp id (fun hlv => ?_)
          intro b hb
          rcases hnew b hb with hb | rfl | rfl
          · exact hlv b hb
          · intro v hv; exact hlv bi hmem v (hsub v (Or.inl hv))
          · intro v hv; exact hlv bi hmem v (hsub v (Or.inr hv))
        have j3 : ∀ (k : Nat) b, k < i → (bdy.set i g1 ++ [b1])[k]? = some b →
            gboundary.Settled slFuel l b := by
          intro k b hk hb
          rw [List.getElem?_append_left (by rw [List.length_set]; omega),
            List.getElem?_set_ne (by omega)] at hb
          exact hset k b hk hb
        have j4 : i ≤ (bdy.set i g1 ++ [b1]).length := by
          simp only [List.length_append, List.length_set, List.length_singleton]
          omega
        have j5 : 2 * ((bdy.set i g1 ++ [b1]).map fun b => b.bdy.length - 1).sum +
            ((bdy.set i g1 ++ [b1]).length - i) < fuel := by
          simp only [List.length_append, List.length_set, List.length_singleton,
            List.map_append, List.map_cons, List.map_nil, List.sum_append, List.sum_cons,
            List.sum_nil]
          omega
        rcases ih (bdy.set i g1 ++ [b1]) i j1 j2 j3 j4 j5 with h | ⟨r, hr, hr1, hr2, hr3⟩
        · exact Or.inl h
        · refine Or.inr ⟨r, hr, hr1, hr2.trans ?_, ?_⟩
          · exact flatMap_set_append bdy i g1 b1 hi (by rw [hbieq]; exact hperm)
          · simp only [List.length_append, List.length_set, List.length_singleton] at hr3
            omega

/-- The sum of the sizes of the loops, less one each, is at most the number of vertices. -/
theorem sum_pred_le (l : List g1boundary) :
    (l.map fun b => b.bdy.length - 1).sum ≤ (l.map fun b => b.bdy.length).sum := by
  induction l with
  | nil => simp
  | cons a l ih =>
    simp only [List.map_cons, List.sum_cons]
    omega

/-- The method `totalSegments` counts the vertices of all loops. -/
theorem totalSegments_eq (g : gboundary) :
    g.totalSegments = ((g.bdy.flatMap fun b => b.bdy).length : Int) := by
  unfold gboundary.totalSegments
  obtain ⟨l⟩ := g
  simp only
  induction l with
  | nil => simp
  | cons a l ih =>
    simp only [List.map_cons, List.sum_cons, List.flatMap_cons, List.length_append,
      Nat.cast_add, ih]
    rfl

/-- One split of `splitoff`: the two segments found are two different segments of the loop,
and `split` makes two non-empty loops that share out the vertices of the loop. -/
theorem splitoff_round (slFuel : Nat) (l : Int) (b : g1boundary) (iseg : List Int)
    (a c : Int) (h31 : (b.bdy.length : Int) < 2 ^ 31)
    (hsi : b.segmentsAtLevel slFuel l = some iseg)
    (hscan : gboundary.splitoffScan b (gboundary.lowerPairs [] iseg) = Outcome.ok (some (a, c))) :
    0 ≤ c ∧ c < a ∧ a < (b.bdy.length : Int) ∧
    ∃ g1 b1, b.split3 a c ⟨[], false⟩ = some (g1, b1) ∧ g1.bdy ≠ [] ∧ b1.bdy ≠ [] ∧
      List.Perm (g1.bdy ++ b1.bdy) b.bdy ∧
      g1.bdy.length + b1.bdy.length = b.bdy.length := by
  have hsorted := segmentsAtLevel_sorted slFuel b l iseg hsi
  have hx : (a, c) ∈ gboundary.lowerPairs [] iseg := by
    rcases splitoffScan_cases b (gboundary.lowerPairs [] iseg) with h | ⟨h, -⟩ | ⟨x, hx, h⟩
    · rw [h] at hscan; exact absurd hscan (by simp)
    · rw [h] at hscan; exact absurd hscan (by simp)
    · rw [h] at hscan
      simp only [Outcome.ok.injEq, Option.some.injEq] at hscan
      rw [← hscan]; exact hx
  obtain ⟨ha, hc, hlt⟩ := lowerPairs_mem a c iseg [] (by simpa using hsorted) hx
  have hc : c ∈ iseg := by
    rcases hc with hc | hc
    · simp at hc
    · exact hc
  obtain ⟨ja, hja, rfl⟩ := segmentsAtLevel_mem slFuel b l iseg hsi a ha
  obtain ⟨kc, hkc, rfl⟩ := segmentsAtLevel_mem slFuel b l iseg hsi c hc
  have hne : ja ≠ kc := by
    intro h; subst h; omega
  obtain ⟨g1, b1, d, hsplit, -, hl1, hl2, hd0, hds, happ, -⟩ :=
    split3_parts b ⟨[], false⟩ ja kc hja hkc hne (by omega)
  refine ⟨by omega, hlt, by omega, g1, b1, hsplit, ?_, ?_, ?_, by omega⟩
  · exact List.length_pos.mp (by omega)
  · exact List.length_pos.mp (by omega)
  · rw [happ]; exact List.rotate_perm _ _

/-- C27. `splitoff(l)` ends for every gboundary: with more fuel than twice the number of
vertices plus the number of loops it does not run out of fuel (sizes below `2^31`; the level
negative or the levels of the coordinates within `slFuel`). It stops at a failed assertion of
`overlap`, or it returns at least as many loops, holding the same vertices (none lost, none
duplicated, the total unchanged), and in every loop of the result no segment `j` at level
`l` overlaps a segment `k < j` at level `l`. Each split cuts a loop at two different
segments into two non-empty loops that share out its vertices. -/
theorem splitoff_terminates_settled (g : gboundary) (l : Int) (slFuel fuel : Nat)
    (h31 : ∀ b ∈ g.bdy, (b.bdy.length : Int) < 2 ^ 31)
    (hlev : l < 0 ∨ ∀ b ∈ g.bdy, LevelsWithin slFuel b)
    (hfuel : 2 * (g.bdy.map fun b => b.bdy.length).sum + g.bdy.length < fuel) :
    (g.splitoff slFuel fuel l = Outcome.assertFailed ∨
      ∃ r, g.splitoff slFuel fuel l = Outcome.ok r ∧ g.bdy.length ≤ r.bdy.length ∧
        r.totalSegments = g.totalSegments ∧
        List.Perm (r.bdy.flatMap fun b => b.bdy) (g.bdy.flatMap fun b => b.bdy) ∧
        ∀ b ∈ r.bdy, ∃ iseg, b.segmentsAtLevel slFuel l = some iseg ∧
          ∀ j ∈ iseg, ∀ k ∈ iseg, k < j →
            ∃ s t, b.seg j = some s ∧ b.seg k = some t ∧ overlap s t = some false) ∧
    ∀ (b : g1boundary) (iseg : List Int) (a c : Int), (b.bdy.length : Int) < 2 ^ 31 →
      b.segmentsAtLevel slFuel l = some iseg →
      gboundary.splitoffScan b (gboundary.lowerPairs [] iseg) = Outcome.ok (some (a, c)) →
      0 ≤ c ∧ c < a ∧ a < (b.bdy.length : Int) ∧
      ∃ g1 b1, b.split3 a c ⟨[], false⟩ = some (g1, b1) ∧ g1.bdy ≠ [] ∧ b1.bdy ≠ [] ∧
        List.Perm (g1.bdy ++ b1.bdy) b.bdy ∧
        g1.bdy.length + b1.bdy.length = b.bdy.length := by
  refine ⟨?_, fun b iseg a c hb hsi hscan => splitoff_round slFuel l b iseg a c hb hsi hscan⟩
  have hP := sum_pred_le g.bdy
  rcases splitoffLoop_spec slFuel l fuel g.bdy 0 h31 hlev (by intro k b hk; omega)
    (Nat.zero_le _) (by omega) with h | ⟨r, hr, hr1, hr2, hr3⟩
  · left
    unfold gboundary.splitoff
    rw [h]
  · right
    refine ⟨⟨r⟩, ?_, hr3, ?_, hr2, hr1⟩
    · unfold gboundary.splitoff
      rw [hr]
    · rw [totalSegments_eq, totalSegments_eq, hr2.length_eq]

/-- Witness for C27: one square loop, in which nothing overlaps. -/
theorem splitoff_terminates_settled_witness :
    gboundary.splitoff 1 10 ⟨[⟨[⟨1, fin 0, fin 0⟩, ⟨1, fin 1, fin 0⟩, ⟨1, fin 1, fin 1⟩,
      ⟨1, fin 0, fin 1⟩], false⟩]⟩ 1 ≠ Outcome.outOfFuel := by
  have h := (splitoff_terminates_settled
    ⟨[⟨[⟨1, fin 0, fin 0⟩, ⟨1, fin 1, fin 0⟩, ⟨1, fin 1, fin 1⟩, ⟨1, fin 0, fin 1⟩], false⟩]⟩
    1 1 10
    (by intro b hb; simp at hb; subst hb; norm_num)
    (Or.inr (by
      intro b hb v hv
      simp only [List.mem_singleton] at hb
      subst hb
      simp only [List.mem_cons, List.mem_singleton, List.not_mem_nil, or_false] at hv
      rcases hv with rfl | rfl | rfl | rfl <;>
        simp [splitLevel_zero, splitLevel_one]))
    (by simp)).1
  rcases h with h | ⟨r, h, -⟩ <;> rw [h] <;> simp

/-- Claim C35, evaluated on the leaf whose coefficients are `und[0] = 40 * 65536` and
`und[1..5] = 0`, with any centre, scale and face: `isnan()` returns true, since
`40 * 65536 > 8850 * 256`, while `undulation(0,0)` is the number 40 and not NaN. The two
range tests use different units (1/256 and 1/65536), so the sentinel test and the evaluator
disagree on this leaf. -/
theorem isnan_disagrees_with_undulation (c : xy) (s : double) (f : Int) :
    (geoquad.leaf ⟨fun i => if i = 0 then 40 * 65536 else 0, c, s, f, [], []⟩).isnan = true ∧
    (geoquad.leaf ⟨fun i => if i = 0 then 40 * 65536 else 0, c, s, f, [], []⟩).undulation 0 0
      = fin 40 ∧
    (fin 40).isnan = false := by
  refine ⟨by simp [geoquad.isnan, geoquad.und, geoquad.fields], ?_, rfl⟩
  simp [geoquad.undulation, ofInt, double.fin_div]
  norm_num

/-- The comparison `==` of two doubles does not depend on the order of its operands. -/
theorem double_eq_comm (a b : double) : double.eq a b = double.eq b a := by
  cases a <;> cases b <;> simp [double.eq, eq_comm]

/-- Comparing `a` with `-b` is comparing `b` with `-a`. -/
theorem double_eq_neg_comm (a b : double) : double.eq a (-b) = double.eq b (-a) := by
  cases a with
  | nan => cases b <;> rfl
  | inf s =>
    cases b with
    | nan => rfl
    | inf t => cases s <;> cases t <;> rfl
    | fin q => rfl
  | fin p =>
    cases b with
    | nan => rfl
    | inf t => rfl
    | fin q =>
      show decide (p = -q) = decide (q = -p)
      exact decide_eq_decide.mpr ⟨fun h => by rw [h, neg_neg], fun h => by rw [h, neg_neg]⟩

/-- The macro `cmpeq` does not depend on the order of its operands. -/
theorem cmpeq_comm (a b : double) : cmpeq a b = cmpeq b a := by
  cases a with
  | nan => cases b <;> rfl
  | inf s =>
    cases b with
    | nan => rfl
    | inf t => cases s <;> cases t <;> rfl
    | fin q => rfl
  | fin p =>
    cases b with
    | nan => rfl
    | inf t => rfl
    | fin q => rw [cmpeq_fin, cmpeq_fin, abs_sub_comm]

/-- The table `vballcompare` read in both directions: an entry and its mirror entry are
equal (0, 66 or 77) or the two digits of one are those of the other in reverse order. -/
theorem vballcompareAt_mirror (f g : Int) (hf : 0 ≤ f ∧ f ≤ 7) (hg : 0 ≤ g ∧ g ≤ 7) :
    (vballcompareAt f g = 0 ∧ vballcompareAt g f = 0) ∨
    (vballcompareAt f g = 77 ∧ vballcompareAt g f = 77) ∨
    (vballcompareAt f g = 66 ∧ vballcompareAt g f = 66) ∨
    (vballcompareAt f g = 12 ∧ vballcompareAt g f = 21) ∨
    (vballcompareAt f g = 21 ∧ vballcompareAt g f = 12) ∨
    (vballcompareAt f g = 14 ∧ vballcompareAt g f = 41) ∨
    (vballcompareAt f g = 41 ∧ vballcompareAt g f = 14) ∨
    (vballcompareAt f g = 36 ∧ vballcompareAt g f = 63) ∨
    (vballcompareAt f g = 63 ∧ vballcompareAt g f = 36) ∨
    (vballcompareAt f g = 45 ∧ vballcompareAt g f = 54) ∨
    (vballcompareAt f g = 54 ∧ vballcompareAt g f = 45) := by
  obtain ⟨hf1, hf2⟩ := hf
  obtain ⟨hg1, hg2⟩ := hg
  interval_cases f <;> interval_cases g <;> decide

/-- The operator `==` on vballs with faces in 0..7 does not depend on the order. -/
theorem vball_eq_comm (a b : vball) (ha : 0 ≤ a.face ∧ a.face ≤ 7)
    (hb : 0 ≤ b.face ∧ b.face ≤ 7) : vball.eq a b = vball.eq b a := by
  have e1 := double_eq_comm
  have e2 := double_eq_neg_comm
  rcases vballcompareAt_mirror a.face b.face ha hb with h | h | h | h | h | h | h | h | h | h | h <;>
    simp only [vball.eq, h.1, h.2]
  · rw [cmpeq_comm a.x, cmpeq_comm a.y]
  all_goals
    simp only [e1 a.y b.x, e1 a.x b.y, e2 a.x b.y, e2 a.y b.x, Bool.and_assoc, Bool.and_comm,
      Bool.and_left_comm]

/-- The function `sameEdge` on vballs with faces in 0..7 does not depend on the order. -/
theorem sameEdge_comm (a b : vball) (ha : 0 ≤ a.face ∧ a.face ≤ 7)
    (hb : 0 ≤ b.face ∧ b.face ≤ 7) : sameEdge a b = sameEdge b a := by
  have e1 := double_eq_comm
  rcases vballcompareAt_mirror a.face b.face ha hb with h | h | h | h | h | h | h | h | h | h | h <;>
    simp only [sameEdge, h.1, h.2]
  · rw [e1 a.x, e1 a.y]
  all_goals
    simp only [e1 a.x, e1 a.y, Bool.and_comm]

/-- Claim C37: for vballs `a` and `b` with faces in 0..7, `a==b` and `b==a` have the same
value and so have `sameEdge(a,b)` and `sameEdge(b,a)`; and `v==v` holds for every vball `v`
with face in 1..6 and finite coordinates. -/
theorem vball_eq_sameEdge_symmetric (a b : vball) (ha : 0 ≤ a.face ∧ a.face ≤ 7)
    (hb : 0 ≤ b.face ∧ b.face ≤ 7) (f : Int) (x y : ℚ) (hf : 1 ≤ f ∧ f ≤ 6) :
    vball.eq a b = vball.eq b a ∧ sameEdge a b = sameEdge b a ∧
      vball.eq ⟨f, fin x, fin y⟩ ⟨f, fin x, fin y⟩ = true := by
  refine ⟨vball_eq_comm a b ha hb, sameEdge_comm a b ha hb, ?_⟩
  rw [vball_eq_on_face f hf, cmpeq_fin, cmpeq_fin]
  simp

/-- Witness for C37: a corner of face 1 seen from face 2, and a point of face 7. -/
theorem vball_eq_sameEdge_symmetric_witness :
    vball.eq ⟨1, 1, fin (1 / 2)⟩ ⟨2, fin (1 / 2), 1⟩ = vball.eq ⟨2, fin (1 / 2), 1⟩ ⟨1, 1, fin (1 / 2)⟩ ∧
    sameEdge ⟨1, 1, fin (1 / 2)⟩ ⟨2, fin (1 / 2), 1⟩ = sameEdge ⟨2, fin (1 / 2), 1⟩ ⟨1, 1, fin (1 / 2)⟩ ∧
    vball.eq ⟨3, fin (1 / 3), fin (-2)⟩ ⟨3, fin (1 / 3), fin (-2)⟩ = true :=
  vball_eq_sameEdge_symmetric ⟨1, 1, fin (1 / 2)⟩ ⟨2, fin (1 / 2), 1⟩ (by decide) (by decide) 3
    (1 / 3) (-2) (by decide)

/-- On finite vectors `encodedir` does not change when the vector is multiplied by a positive
number. -/
theorem encodedir_smul_fin (X Y Z k : ℚ) (hk : 0 < k) :
    encodedir ⟨fin (X * k), fin (Y * k), fin (Z * k)⟩ = encodedir ⟨fin X, fin Y, fin Z⟩ := by
  have hk0 : k ≠ 0 := ne_of_gt hk
  by_cases h : X = 0 ∧ Y = 0 ∧ Z = 0
  · obtain ⟨rfl, rfl, rfl⟩ := h
    simp
  · have h2 : ¬(X * k = 0 ∧ Y * k = 0 ∧ Z * k = 0) := by
      simpa [hk0] using h
    have a1 : ∀ A : ℚ, |A * k| = |A| * k := fun A => by rw [abs_mul, abs_of_pos hk]
    have a2 : ∀ A B : ℚ, (|A| * k ≤ |B| * k) ↔ (|A| ≤ |B|) := fun A B =>
      mul_le_mul_right hk
    have a3 : ∀ A : ℚ, (A * k < 0) ↔ (A < 0) := fun A => by
      constructor
      · intro hh
        by_contra hc
        exact absurd hh (not_lt.mpr (mul_nonneg (not_lt.mp hc) hk.le))
      · intro hh
        exact mul_neg_of_neg_of_pos hh hk
    have a4 : ∀ A B : ℚ, A * k / (B * k) = A / B := fun A B => mul_div_mul_right A B hk0
    rw [encodedir_fin _ _ _ h2, encodedir_fin _ _ _ h]
    simp only [a1, a2, a3, a4]

/-- Multiplying NaN by a number gives NaN. -/
theorem nan_mul_fin (k : ℚ) : nan * fin k = nan := rfl

/-- Multiplying an infinity by a positive number leaves it as it is. -/
theorem inf_mul_fin_pos (s : Bool) (k : ℚ) (hk : 0 < k) : inf s * fin k = inf s := by
  show double.mul (inf s) (fin k) = inf s
  simp [double.mul, ne_of_gt hk, not_lt.mpr hk.le]

/-- The value of `encodedir` when a coordinate is NaN. -/
theorem encodedir_nan (x y z : double) (h : x.isnan = true ∨ y.isnan = true ∨ z.isnan = true) :
    encodedir ⟨x, y, z⟩ = ⟨7, nan, nan⟩ := by
  have e1 : ∀ a : double, double.eq (fabs nan) a = false := fun a => rfl
  have e2 : (fabs nan).isnan = true := rfl
  rcases h with h | h | h
  · cases x with
    | nan =>
      simp only [encodedir, e1, e2, Bool.false_and, Bool.true_or, Bool.or_true]
      rfl
    | inf s => exact absurd h (by simp [double.isnan])
    | fin q => exact absurd h (by simp [double.isnan])
  · cases y with
    | nan =>
      simp only [encodedir, e1, e2, Bool.false_and, Bool.and_false, Bool.true_or, Bool.or_true]
      rfl
    | inf s => exact absurd h (by simp [double.isnan])
    | fin q => exact absurd h (by simp [double.isnan])
  · cases z with
    | nan =>
      simp only [encodedir, e1, e2, Bool.false_and, Bool.and_false, Bool.true_or, Bool.or_true]
      rfl
    | inf s => exact absurd h (by simp [double.isnan])
    | fin q => exact absurd h (by simp [double.isnan])

/-- Multiplying by a finite positive number does not change whether a double is NaN. -/
theorem isnan_mul_fin_pos (x : double) (k : ℚ) (hk : 0 < k) : (x * fin k).isnan = x.isnan := by
  cases x with
  | nan => rfl
  | inf s => rw [inf_mul_fin_pos s k hk]
  | fin q => rfl

/-- `encodedir` does not change when its argument, any triple of doubles, is multiplied by a
finite positive number. -/
theorem encodedir_smul (dir : xyz) (k : ℚ) (hk : 0 < k) :
    encodedir (dir.smul (fin k)) = encodedir dir := by
  obtain ⟨x, y, z⟩ := dir
  by_cases hn : x.isnan = true ∨ y.isnan = true ∨ z.isnan = true
  · rw [encodedir_nan x y z hn]
    apply encodedir_nan
    simpa only [isnan_mul_fin_pos _ k hk] using hn
  · have m2 := fun s => inf_mul_fin_pos s k hk
    have m3 : ∀ (a : ℚ) (s : Bool), fin a / inf s = fin 0 := fun _ _ => rfl
    cases x <;> cases y <;> cases z <;>
      first
      | exact absurd (Or.inl rfl) hn
      | exact absurd (Or.inr (Or.inl rfl)) hn
      | exact absurd (Or.inr (Or.inr rfl)) hn
      | exact encodedir_smul_fin _ _ _ k hk
      | (simp only [xyz.smul, m2, fin_mul] <;>
         simp [encodedir, double.eq, double.fabs, double.isnan, double.isinf, double.ge,
           double.le, double.lt, boolToInt, vball.ctor, m3])

/-- On a point strictly inside one of the faces 1 to 6, `encodedir` undoes the `switch` of
`decodedir`. -/
theorem encodedir_decodedirSwitch_interior (f : Int) (x y : ℚ) (hf : 1 ≤ f ∧ f ≤ 6)
    (hx : |x| < 1) (hy : |y| < 1) :
    encodedir (decodedirSwitch ⟨f, fin x, fin y⟩) = ⟨f, fin x, fin y⟩ := by
  obtain ⟨hf1, hf2⟩ := hf
  have d := decodedirSwitch_faces (fin x) (fin y)
  have hx1 : ¬ (1 : ℚ) ≤ |x| := not_le.mpr hx
  have hy1 : ¬ (1 : ℚ) ≤ |y| := not_le.mpr hy
  have n1 : ¬((1 : ℚ) = 0 ∧ x = 0 ∧ y = 0) := by norm_num
  have n2 : ¬(y = 0 ∧ (1 : ℚ) = 0 ∧ x = 0) := by norm_num
  have n3 : ¬(x = 0 ∧ y = 0 ∧ (1 : ℚ) = 0) := by norm_num
  have n4 : ¬(x = 0 ∧ -y = 0 ∧ (-1 : ℚ) = 0) := by norm_num
  have n5 : ¬(-y = 0 ∧ (-1 : ℚ) = 0 ∧ x = 0) := by norm_num
  have n6 : ¬((-1 : ℚ) = 0 ∧ x = 0 ∧ -y = 0) := by norm_num
  interval_cases f
  · rw [d.1, ofNat_def, Nat.cast_one, encodedir_fin _ _ _ n1]
    simp [hx1, hy1]
  · rw [d.2.1, ofNat_def, Nat.cast_one, encodedir_fin _ _ _ n2]
    simp [hx1, hy1, hx.le, hy.le]
  · rw [d.2.2.1, ofNat_def, Nat.cast_one, encodedir_fin _ _ _ n3]
    simp [hx1, hy1, hx.le, hy.le]
  · rw [d.2.2.2.1, ofNat_def, Nat.cast_one, neg_fin, neg_fin, encodedir_fin _ _ _ n4]
    simp [hx1, hy1, hx.le, hy.le]
  · rw [d.2.2.2.2.1, ofNat_def, Nat.cast_one, neg_fin, neg_fin, encodedir_fin _ _ _ n5]
    simp [hx1, hy1, hx.le, hy.le]
  · rw [d.2.2.2.2.2, ofNat_def, Nat.cast_one, neg_fin, neg_fin, encodedir_fin _ _ _ n6]
    simp [hx1, hy1, hx.le, hy.le]

/-- Claim C38: for a vball `v` on a face among 1 to 6 whose coordinates are strictly inside
the face (`|x| < 1` and `|y| < 1`), and a positive finite length `L` of the vector that
`decodedir` scales, `encodedir (decodedir v)` is `v`: the same face and the same
coordinates; and `encodedir` gives the same vball for a direction `dir`, any triple of
doubles, and for `dir` multiplied by a positive finite number `k`. -/
theorem encodedir_decodedir_interior (length : xyz → double) (f : Int) (x y L : ℚ)
    (hf : 1 ≤ f ∧ f ≤ 6) (hx : |x| < 1) (hy : |y| < 1) (hL : 0 < L)
    (hlen : length (decodedirSwitch ⟨f, fin x, fin y⟩) = fin L)
    (dir : xyz) (k : ℚ) (hk : 0 < k) :
    encodedir (decodedir length ⟨f, fin x, fin y⟩) = ⟨f, fin x, fin y⟩ ∧
    encodedir (dir.smul (fin k)) = encodedir dir := by
  refine ⟨?_, encodedir_smul dir k hk⟩
  have hface : (⟨f, fin x, fin y⟩ : vball).face = 1 ∨ (⟨f, fin x, fin y⟩ : vball).face = 2 ∨
      (⟨f, fin x, fin y⟩ : vball).face = 3 ∨ (⟨f, fin x, fin y⟩ : vball).face = 4 ∨
      (⟨f, fin x, fin y⟩ : vball).face = 5 ∨ (⟨f, fin x, fin y⟩ : vball).face = 6 := by
    show f = 1 ∨ f = 2 ∨ f = 3 ∨ f = 4 ∨ f = 5 ∨ f = 6
    omega
  rw [decodedir_scaled length _ hface, hlen, ofNat_def, double.fin_div _ (ne_of_gt hL),
    encodedir_smul _ _ (by positivity)]
  exact encodedir_decodedirSwitch_interior f x y hf hx hy

/-- Witness for C38: the point `(1/2, -1/3)` of face 5, a length function that is
constantly 2, and the direction `(3, -4, 0)` scaled by 5. -/
theorem encodedir_decodedir_interior_witness :
    encodedir (decodedir (fun _ => fin 2) ⟨5, fin (1 / 2), fin (-1 / 3)⟩)
      = ⟨5, fin (1 / 2), fin (-1 / 3)⟩ ∧
    encodedir ((⟨fin 3, fin (-4), fin 0⟩ : xyz).smul (fin 5)) = encodedir ⟨fin 3, fin (-4), fin 0⟩ :=
  encodedir_decodedir_interior (fun _ => fin 2) 5 (1 / 2) (-1 / 3) 2 (by decide)
    (by norm_num [abs_lt]) (by norm_num [abs_lt]) (by norm_num) rfl ⟨fin 3, fin (-4), fin 0⟩ 5
    (by norm_num)

/-- The remainder of `-4`, converted to `size_t`, by 10 is 2. -/
theorem toSizeT_neg_four_mod_ten : toSizeT (-4) % 10 = 2 ∧ toSizeT (-3) % 10 = 3 := by
  constructor <;> norm_num [toSizeT]

/-- Claim C39, evaluated on any loop of ten vertices at the index `-4`: `operator[]` returns
vertex 2 and `positionSegment` makes vertex 2 the last one, because the remainder is taken
in `size_t`, where `-4` is `2^64 - 4`; the index `-4 mod 10` is 6, and `seg(-4)` starts at
vertex 6. -/
theorem get_negative_index (v0 v1 v2 v3 v4 v5 v6 v7 v8 v9 : vball) (inner : Bool) :
    (⟨[v0, v1, v2, v3, v4, v5, v6, v7, v8, v9], inner⟩ : g1boundary).get (-4) = some v2 ∧
    (⟨[v0, v1, v2, v3, v4, v5, v6, v7, v8, v9], inner⟩ : g1boundary).seg (-4)
      = some ⟨v6, v7⟩ ∧
    ((⟨[v0, v1, v2, v3, v4, v5, v6, v7, v8, v9], inner⟩ : g1boundary).positionSegment (-4)).bdy
      = [v3, v4, v5, v6, v7, v8, v9, v0, v1, v2] ∧
    (-4 : Int) % 10 = 6 := by
  have h := toSizeT_neg_four_mod_ten
  refine ⟨?_, ?_, ?_, by norm_num⟩
  · simp [g1boundary.get, h.1]
  · have t : Int.tmod (-4) 10 = -4 := by decide
    simp [g1boundary.seg, t]
  · simp [g1boundary.positionSegment, h.1, h.2]

/-- A loop has positive size exactly when it has a vertex. -/
theorem size_pos_iff (b : g1boundary) : b.size > 0 ↔ b.bdy ≠ [] := by
  unfold g1boundary.size
  constructor
  · intro h e
    rw [e] at h
    simp at h
  · intro h
    have := List.length_pos.mpr h
    omega

/-- A loop has size zero exactly when it has no vertex. -/
theorem size_eq_zero_iff (b : g1boundary) : b.size = 0 ↔ b.bdy = [] := by
  unfold g1boundary.size
  constructor
  · intro h
    exact List.length_eq_zero.mp (by omega)
  · intro h
    rw [h]
    rfl

/-- The first inner loop of `deleteEmpty` ends within `size - i + 1` steps, at the first
index from `i` on whose loop is empty, or at the size of the vector. -/
theorem skipFull_spec (bdy : List g1boundary) :
    ∀ (fuel i : Nat), i ≤ bdy.length → bdy.length - i < fuel →
      ∃ i1, gboundary.skipFull bdy fuel i = some i1 ∧ i ≤ i1 ∧ i1 ≤ bdy.length ∧
        (∀ k, i ≤ k → k < i1 → ∃ b, bdy[k]? = some b ∧ b.bdy ≠ []) ∧
        (∀ b, bdy[i1]? = some b → b.bdy = []) := by
  intro fuel
  induction fuel with
  | zero => intro i _ h; omega
  | succ fuel ih =>
    intro i hi hf
    unfold gboundary.skipFull
    cases hb : bdy[i]? with
    | none =>
      refine ⟨i, rfl, le_refl _, hi, fun k h1 h2 => by omega, fun b h => ?_⟩
      rw [hb] at h
      exact absurd h (by simp)
    | some b =>
      have hlt : i < bdy.length := by
        by_contra hc
        rw [List.getElem?_eq_none (by omega)] at hb
        exact absurd hb (by simp)
      by_cases hs : b.size > 0
      · simp only [hs, if_true]
        obtain ⟨i1, e, h1, h2, h3, h4⟩ := ih (i + 1) (by omega) (by omega)
        refine ⟨i1, e, by omega, h2, fun k k1 k2 => ?_, h4⟩
        by_cases hk : k = i
        · subst hk
          exact ⟨b, hb, (size_pos_iff b).mp hs⟩
        · exact h3 k (by omega) k2
      · simp only [hs, if_false]
        refine ⟨i, rfl, le_refl _, hi, fun k h1 h2 => by omega, fun c h => ?_⟩
        rw [hb] at h
        injection h with h
        subst h
        by_contra hc
        exact hs ((size_pos_iff b).mpr hc)

/-- The second inner loop of `deleteEmpty` ends within `j + 2` steps, at the last index up to
`j` whose loop is not empty, or at `-1`. -/
theorem skipEmpty_spec (bdy : List g1boundary) :
    ∀ (fuel : Nat) (j : Int), -1 ≤ j → j < bdy.length → (j + 1).toNat < fuel →
      ∃ j1, gboundary.skipEmpty bdy fuel j = some j1 ∧ -1 ≤ j1 ∧ j1 ≤ j ∧
        (∀ k : Nat, j1 < k → (k : Int) ≤ j → ∃ b, bdy[k]? = some b ∧ b.bdy = []) ∧
        (0 ≤ j1 → ∃ b, bdy[j1.toNat]? = some b ∧ b.bdy ≠ []) := by
  intro fuel
  induction fuel with
  | zero => intro j _ _ h; omega
  | succ fuel ih =>
    intro j hj hl hf
    unfold gboundary.skipEmpty
    by_cases h0 : 0 ≤ j
    · simp only [h0, if_true]
      have hlt : j.toNat < bdy.length := by omega
      rw [List.getElem?_eq_getElem hlt]
      simp only []
      by_cases hs : (bdy[j.toNat]).size = 0
      · simp only [hs, if_true]
        obtain ⟨j1, e, h1, h2, h3, h4⟩ := ih (j - 1) (by omega) (by omega) (by omega)
        refine ⟨j1, e, h1, by omega, fun k k1 k2 => ?_, h4⟩
        by_cases hk : (k : Int) = j
        · have hk2 : k = j.toNat := by omega
          subst hk2
          exact ⟨_, List.getElem?_eq_getElem hlt, (size_eq_zero_iff _).mp hs⟩
        · exact h3 k k1 (by omega)
      · simp only [hs, if_false]
        refine ⟨j, rfl, hj, le_refl _, fun k k1 k2 => by omega, fun _ => ?_⟩
        exact ⟨_, List.getElem?_eq_getElem hlt, fun hc => hs ((size_eq_zero_iff _).mpr hc)⟩
    · simp only [h0, if_false]
      exact ⟨j, rfl, hj, le_refl _, fun k k1 k2 => by omega, fun h => absurd h h0⟩

/-- Swapping two elements of a list gives a permutation of it. -/
theorem swap_perm {α : Type} (l : List α) (i j : Nat) (hi : i < l.length) (hj : j < l.length) :
    List.Perm ((l.set i l[j]).set j l[i]) l := by
  classical
  rw [List.perm_iff_count]
  intro a
  have hj2 : j < (l.set i l[j]).length := by simpa using hj
  have h1 := countP_set (fun x => x == a) (l.set i l[j]) j l[i] hj2
  have h2 := countP_set (fun x => x == a) l i l[j] hi
  have h3 : (l.set i l[j])[j] = l[j] := by
    by_cases e : i = j
    · subst e
      simp
    · rw [List.getElem_set_ne e]
  rw [h3] at h1
  simp only [List.count, List.countP_eq_length_filter] at h1 h2 ⊢
  omega

/-- The loop of `deleteEmpty`, from a state in which the loops before `i` are not empty and
those after `j` are empty: with enough fuel it returns a permutation of the vector and an
index `k` such that exactly the loops before `k` are not empty. -/
theorem deleteEmptyLoop_spec (inner : Nat) :
    ∀ (fuel : Nat) (bdy : List g1boundary) (i : Nat) (j : Int), bdy.length < inner →
      i ≤ bdy.length → -1 ≤ j → j < bdy.length → (i : Int) ≤ j + 1 →
      (∀ k, k < i → ∃ b, bdy[k]? = some b ∧ b.bdy ≠ []) →
      (∀ k : Nat, j < k → k < bdy.length → ∃ b, bdy[k]? = some b ∧ b.bdy = []) →
      gboundary.deleteEmptyRank bdy i j < fuel →
      ∃ r k, gboundary.deleteEmptyLoop inner fuel bdy i j = some (r, k) ∧ List.Perm r bdy ∧
        k ≤ r.length ∧ (∀ t, t < k → ∃ b, r[t]? = some b ∧ b.bdy ≠ []) ∧
        (∀ t, k ≤ t → t < r.length → ∃ b, r[t]? = some b ∧ b.bdy = []) := by
  intro fuel
  induction fuel with
  | zero => intro bdy i j _ _ _ _ _ _ _ h; omega
  | succ fuel ih =>
    intro bdy i j hin hi hj1 hj2 hij hlow hhigh hrank
    unfold gboundary.deleteEmptyLoop
    by_cases hc : (i : Int) ≤ j
    · simp only [hc, if_true]
      obtain ⟨i1, e1, a1, a2, a3, a4⟩ := skipFull_spec bdy inner i hi (by omega)
      obtain ⟨j1, e2, b1, b2, b3, b4⟩ := skipEmpty_spec bdy inner j hj1 hj2 (by omega)
      rw [e1, e2]
      simp only []
      have low1 : ∀ k, k < i1 → ∃ b, bdy[k]? = some b ∧ b.bdy ≠ [] := by
        intro k hk
        by_cases hki : k < i
        · exact hlow k hki
        · exact a3 k (by omega) hk
      have high1 : ∀ k : Nat, j1 < k → k < bdy.length → ∃ b, bdy[k]? = some b ∧ b.bdy = [] := by
        intro k hk hkl
        by_cases hkj : (k : Int) ≤ j
        · exact b3 k hk hkj
        · exact hhigh k (by omega) hkl
      have hne : (i1 : Int) ≠ j1 := by
        intro e
        obtain ⟨b, hb, hbn⟩ := b4 (by omega)
        have e3 : j1.toNat = i1 := by omega
        rw [e3] at hb
        exact hbn (a4 b hb)
      have hle : (i1 : Int) ≤ j1 + 1 := by
        by_contra hgt
        have hk : (j1 + 1).toNat < i1 := by omega
        obtain ⟨b, hb, hbn⟩ := low1 _ hk
        obtain ⟨c, hc1, hc2⟩ := high1 (j1 + 1).toNat (by omega) (by omega)
        rw [hb] at hc1
        injection hc1 with hc1
        subst hc1
        exact hbn hc2
      by_cases hlt : (i1 : Int) < j1
      · simp only [hlt, if_true]
        have hi1 : i1 < bdy.length := by omega
        have hj1l : j1.toNat < bdy.length := by omega
        rw [List.getElem?_eq_getElem hi1, List.getElem?_eq_getElem hj1l]
        simp only []
        have hbi : (bdy[i1]).bdy = [] := a4 _ (List.getElem?_eq_getElem hi1)
        have hbj : (bdy[j1.toNat]).bdy ≠ [] := by
          obtain ⟨b, hb, hbn⟩ := b4 (by omega)
          rw [List.getElem?_eq_getElem hj1l] at hb
          injection hb with hb
          rw [hb]
          exact hbn
        have hnat : i1 ≠ j1.toNat := by omega
        have hlen : ((bdy.set i1 bdy[j1.toNat]).set j1.toNat bdy[i1]).length = bdy.length := by
          simp
        have hat_i : ((bdy.set i1 bdy[j1.toNat]).set j1.toNat bdy[i1])[i1]?
            = some bdy[j1.toNat] := by
          rw [List.getElem?_set_ne (Ne.symm hnat), List.getElem?_set_self hi1]
        have hat_j : ((bdy.set i1 bdy[j1.toNat]).set j1.toNat bdy[i1])[j1.toNat]?
            = some bdy[i1] := by
          rw [List.getElem?_set_self (by simpa using hj1l)]
        have hat_k : ∀ k, k ≠ i1 → k ≠ j1.toNat →
            ((bdy.set i1 bdy[j1.toNat]).set j1.toNat bdy[i1])[k]? = bdy[k]? := by
          intro k k1 k2
          rw [List.getElem?_set_ne (Ne.symm k2), List.getElem?_set_ne (Ne.symm k1)]
        have hrank2 : gboundary.deleteEmptyRank
            ((bdy.set i1 bdy[j1.toNat]).set j1.toNat bdy[i1]) i1 j1 < fuel := by
          unfold gboundary.deleteEmptyRank at hrank ⊢
          rw [hat_i]
          have z : ¬ (Option.map (fun (b : g1boundary) => b.bdy.isEmpty) (some bdy[j1.toNat])
              = some true) := by
            simp [List.isEmpty_iff, hbj]
          rw [if_neg z]
          by_cases hmove : i1 = i ∧ j1 = j
          · obtain ⟨m1, m2⟩ := hmove
            subst m1
            subst m2
            rw [List.getElem?_eq_getElem hi1] at hrank
            have z2 : Option.map (fun (b : g1boundary) => b.bdy.isEmpty) (some bdy[i1])
                = some true := by
              simp [List.isEmpty_iff, hbi]
            rw [if_pos z2] at hrank
            omega
          · have : (j1 + 1 - (i1 : Int)).toNat + 1 ≤ (j + 1 - (i : Int)).toNat := by omega
            omega
        obtain ⟨r, k, e, p, q1, q2, q3⟩ := ih ((bdy.set i1 bdy[j1.toNat]).set j1.toNat bdy[i1])
          i1 j1 (by rw [hlen]; exact hin) (by rw [hlen]; omega) b1 (by rw [hlen]; omega) hle
          (by
            intro k hk
            rw [hat_k k (by omega) (by omega)]
            exact low1 k hk)
          (by
            intro k hk hkl
            rw [hlen] at hkl
            rw [hat_k k (by omega) (by omega)]
            exact high1 k hk hkl)
          hrank2
        exact ⟨r, k, e, p.trans (swap_perm bdy i1 j1.toNat hi1 hj1l), q1, q2, q3⟩
      · simp only [hlt, if_false]
        have hrank1 : 1 ≤ gboundary.deleteEmptyRank bdy i j := by
          unfold gboundary.deleteEmptyRank
          omega
        cases fuel with
        | zero => omega
        | succ fuel =>
          unfold gboundary.deleteEmptyLoop
          have hnc : ¬ (i1 : Int) ≤ j1 := by omega
          simp only [hnc, if_false]
          exact ⟨bdy, i1, rfl, List.Perm.refl _, a2, low1,
            fun t t1 t2 => high1 t (by omega) t2⟩
    · simp only [hc, if_false]
      exact ⟨bdy, i, rfl, List.Perm.refl _, hi, hlow, fun t t1 t2 => hhigh t (by omega) t2⟩

/-- A list whose first `k` elements have a property that the others lack: the elements with
the property are the first `k`. -/
theorem filter_eq_take {α : Type} (p : α → Bool) (r : List α) (k : Nat) (hk : k ≤ r.length)
    (h1 : ∀ t, t < k → ∃ b, r[t]? = some b ∧ p b = true)
    (h2 : ∀ t, k ≤ t → t < r.length → ∃ b, r[t]? = some b ∧ p b = false) :
    r.filter p = r.take k := by
  conv_lhs => rw [← List.take_append_drop k r]
  rw [List.filter_append]
  have e1 : (r.take k).filter p = r.take k := by
    rw [List.filter_eq_self]
    intro a ha
    obtain ⟨t, ht, e⟩ := List.mem_take_iff_getElem.mp ha
    obtain ⟨b, hb, hp⟩ := h1 t (by omega)
    rw [List.getElem?_eq_getElem (by omega)] at hb
    injection hb with hb
    rw [← e, hb]
    exact hp
  have e2 : (r.drop k).filter p = [] := by
    rw [List.filter_eq_nil_iff]
    intro a ha
    obtain ⟨t, ht, e⟩ := List.mem_drop_iff_getElem.mp ha
    obtain ⟨b, hb, hp⟩ := h2 (k + t) (by omega) (by omega)
    rw [List.getElem?_eq_getElem (by omega)] at hb
    injection hb with hb
    rw [← e, hb, hp]
    simp
  rw [e1, e2, List.append_nil]

/-- With at least `size + 2` units of fuel `deleteEmpty` returns, and what it returns holds
the loops that were not empty, in some order. -/
theorem deleteEmpty_result (g : gboundary) (fuel : Nat) (hf : g.bdy.length + 2 ≤ fuel) :
    ∃ r, g.deleteEmpty fuel = some r ∧
      List.Perm r.bdy (g.bdy.filter fun b => decide (b.size > 0)) := by
  have hrank : gboundary.deleteEmptyRank g.bdy 0 (g.size - 1) < fuel := by
    unfold gboundary.deleteEmptyRank gboundary.size
    split_ifs <;> omega
  obtain ⟨r, k, e, p, q1, q2, q3⟩ := deleteEmptyLoop_spec fuel fuel g.bdy 0 (g.size - 1)
    (by omega) (Nat.zero_le _) (by unfold gboundary.size; omega)
    (by unfold gboundary.size; omega) (by unfold gboundary.size; omega)
    (fun k hk => absurd hk (Nat.not_lt_zero k))
    (fun k hk hkl => by unfold gboundary.size at hk; omega) hrank
  refine ⟨⟨gboundary.resize r k⟩, ?_, ?_⟩
  · unfold gboundary.deleteEmpty
    rw [e]
  · show List.Perm (gboundary.resize r k) _
    have hres : gboundary.resize r k = r.take k := by
      unfold gboundary.resize
      rw [Nat.sub_eq_zero_of_le q1]
      simp
    rw [hres, ← filter_eq_take (fun b => decide (b.size > 0)) r k q1]
    · exact p.filter _
    · intro t ht
      obtain ⟨b, hb, hn⟩ := q2 t ht
      exact ⟨b, hb, decide_eq_true ((size_pos_iff b).mpr hn)⟩
    · intro t ht htl
      obtain ⟨b, hb, hn⟩ := q3 t ht htl
      refine ⟨b, hb, decide_eq_false ?_⟩
      rw [size_pos_iff]
      exact fun hc => hc hn

/-- Claim C31: with at least `size + 2` units of fuel `deleteEmpty` returns for every
gboundary; the loops it leaves are a permutation of the loops that were not empty before,
their number is the number of loops that were not empty, and none of them is empty. -/
theorem deleteEmpty_compacts (g : gboundary) (fuel : Nat) (hf : g.bdy.length + 2 ≤ fuel) :
    ∃ r, g.deleteEmpty fuel = some r ∧
      List.Perm r.bdy (g.bdy.filter fun b => decide (b.size > 0)) ∧
      r.size = (g.bdy.countP fun b => decide (b.size > 0)) ∧
      ∀ b ∈ r.bdy, b.size > 0 := by
  obtain ⟨r, e, p⟩ := deleteEmpty_result g fuel hf
  refine ⟨r, e, p, ?_, ?_⟩
  · unfold gboundary.size
    rw [p.length_eq, List.countP_eq_length_filter]
  · intro b hb
    have := (List.mem_filter.mp (p.mem_iff.mp hb)).2
    exact of_decide_eq_true this

/-- Witness for C31: four loops, the first and the third empty, with fuel 6. -/
theorem deleteEmpty_compacts_witness :
    ∃ r, gboundary.deleteEmpty 6
        (⟨[⟨[], false⟩, ⟨[⟨1, 0, 0⟩], false⟩, ⟨[], false⟩, ⟨[⟨2, 1, 1⟩, ⟨2, 0, 1⟩], false⟩]⟩ :
          gboundary) = some r ∧
      List.Perm r.bdy
        (List.filter (fun b => decide (b.size > 0))
          (⟨[⟨[], false⟩, ⟨[⟨1, 0, 0⟩], false⟩, ⟨[], false⟩, ⟨[⟨2, 1, 1⟩, ⟨2, 0, 1⟩], false⟩]⟩ :
          gboundary).bdy) ∧
      r.size = (List.countP (fun b => decide (b.size > 0))
          (⟨[⟨[], false⟩, ⟨[⟨1, 0, 0⟩], false⟩, ⟨[], false⟩, ⟨[⟨2, 1, 1⟩, ⟨2, 0, 1⟩], false⟩]⟩ :
          gboundary).bdy) ∧
      ∀ b ∈ r.bdy, b.size > 0 :=
  deleteEmpty_compacts
    ⟨[⟨[], false⟩, ⟨[⟨1, 0, 0⟩], false⟩, ⟨[], false⟩, ⟨[⟨2, 1, 1⟩, ⟨2, 0, 1⟩], false⟩]⟩ 6
    (by decide)

/-- The bits of `byteswap n`: the four bytes of `n` in the opposite order. -/
theorem testBit_byteswap (n i : Nat) :
    (byteswap n).testBit i =
      if i < 8 then n.testBit (i + 24) else if i < 16 then n.testBit (i + 8)
      else if i < 24 then n.testBit (i - 8) else if i < 32 then n.testBit (i - 24)
      else false := by
  have m1 : (0xff000000 : Nat) = (2 ^ 8 - 1) <<< 24 := by decide
  have m2 : (0xff0000 : Nat) = (2 ^ 8 - 1) <<< 16 := by decide
  have m3 : (0xff00 : Nat) = (2 ^ 8 - 1) <<< 8 := by decide
  have m4 : (0xff : Nat) = 2 ^ 8 - 1 := by decide
  unfold byteswap
  rw [m1, m2, m3, m4]
  simp only [Nat.testBit_or, Nat.testBit_and, Nat.testBit_shiftRight, Nat.testBit_shiftLeft,
    Nat.testBit_two_pow_sub_one]
  have a1 : 24 + i = i + 24 := by omega
  have a2 : 8 + i = i + 8 := by omega
  by_cases h1 : i < 8
  · simp [h1, a1, a2, show ¬ (8 ≤ i) by omega, show ¬ (24 ≤ i) by omega,
      show i + 24 - 24 < 8 by omega, show ¬ (i + 8 - 16 < 8 ∧ 16 ≤ i + 8) by omega]
  · by_cases h2 : i < 16
    · simp [h1, h2, a1, a2, show 8 ≤ i by omega, show ¬ (24 ≤ i) by omega,
        show ¬ (i + 24 - 24 < 8) by omega, show i - 8 < 8 by omega,
        show ¬ (8 ≤ i - 8) by omega]
    · by_cases h3 : i < 24
      · simp [h1, h2, h3, a1, a2, show 8 ≤ i by omega, show ¬ (24 ≤ i) by omega,
          show ¬ (i + 24 - 24 < 8) by omega, show ¬ (i - 8 < 8) by omega,
          show i - 8 - 8 < 8 by omega, show 8 ≤ i - 8 by omega]
      · by_cases h4 : i < 32
        · simp [h1, h2, h3, h4, a1, a2, show 8 ≤ i by omega, show 24 ≤ i by omega,
            show ¬ (i + 24 - 24 < 8) by omega, show ¬ (i - 8 < 8) by omega,
            show ¬ (i - 8 - 8 < 8) by omega, show i - 24 < 8 by omega]
        · simp [h1, h2, h3, h4, a1, a2, show 8 ≤ i by omega, show 24 ≤ i by omega,
            show ¬ (i + 24 - 24 < 8) by omega, show ¬ (i - 8 < 8) by omega,
            show ¬ (i - 8 - 8 < 8) by omega, show ¬ (i - 24 < 8) by omega]

/-- The function `byteswap` undoes itself on 32-bit values. -/
theorem byteswap_byteswap (n : Nat) (hn : n < 2 ^ 32) : byteswap (byteswap n) = n := by
  apply Nat.eq_of_testBit_eq
  intro i
  rw [testBit_byteswap]
  by_cases h1 : i < 8
  · rw [if_pos h1, testBit_byteswap, if_neg (by omega), if_neg (by omega), if_neg (by omega),
      if_pos (by omega)]
    congr 1
  · rw [if_neg h1]
    by_cases h2 : i < 16
    · rw [if_pos h2, testBit_byteswap, if_neg (by omega), if_neg (by omega), if_pos (by omega)]
      congr 1
    · rw [if_neg h2]
      by_cases h3 : i < 24
      · rw [if_pos h3, testBit_byteswap, if_neg (by omega), if_pos (by omega)]
        congr 1
        omega
      · rw [if_neg h3]
        by_cases h4 : i < 32
        · rw [if_pos h4, testBit_byteswap, if_pos (by omega)]
          congr 1
          omega
        · rw [if_neg h4]
          symm
          apply Nat.testBit_lt_two_pow
          calc n < 2 ^ 32 := hn
            _ ≤ 2 ^ i := Nat.pow_le_pow_right (by norm_num) (by omega)

/-- The function `byteswap` gives a 32-bit value. -/
theorem byteswap_lt (n : Nat) : byteswap n < 2 ^ 32 := by
  apply Nat.lt_pow_two_of_testBit
  intro i hi
  rw [testBit_byteswap, if_neg (by omega), if_neg (by omega), if_neg (by omega),
    if_neg (by omega)]

/-- On 32-bit values `byteswap` is one to one. -/
theorem byteswap_inj (a b : Nat) (ha : a < 2 ^ 32) (hb : b < 2 ^ 32)
    (h : byteswap a = byteswap b) : a = b := by
  rw [← byteswap_byteswap a ha, ← byteswap_byteswap b hb, h]

/-- Multiplication by an odd constant is one to one on 32-bit values. -/
theorem mul_mod_inj (c a b : Nat) (hc : Nat.Coprime (2 ^ 32) c) (ha : a < 2 ^ 32)
    (hb : b < 2 ^ 32) (h : a * c % 2 ^ 32 = b * c % 2 ^ 32) : a = b := by
  have h1 : a ≡ b [MOD 2 ^ 32] := Nat.ModEq.cancel_right_of_coprime hc h
  exact Nat.ModEq.eq_of_lt_of_lt h1 ha hb

/-- A step of the hash gives a 32-bit value. -/
theorem hashStep_lt (c h v : Nat) : hashStep c h v < 2 ^ 32 := byteswap_lt _

/-- A step of the hash with an odd constant is one to one in the hash so far. -/
theorem hashStep_inj_left (c h1 h2 v : Nat) (hc : Nat.Coprime (2 ^ 32) c) (a1 : h1 < 2 ^ 32)
    (a2 : h2 < 2 ^ 32) (hv : v < 2 ^ 32) (h : hashStep c h1 v = hashStep c h2 v) : h1 = h2 := by
  have e := byteswap_inj _ _ (Nat.mod_lt _ (by norm_num)) (Nat.mod_lt _ (by norm_num)) h
  have e2 := mul_mod_inj c _ _ hc (Nat.xor_lt_two_pow a1 hv) (Nat.xor_lt_two_pow a2 hv) e
  exact Nat.xor_left_injective e2

/-- A step of the hash with an odd constant is one to one in the value taken up. -/
theorem hashStep_inj_right (c h v1 v2 : Nat) (hc : Nat.Coprime (2 ^ 32) c) (a : h < 2 ^ 32)
    (b1 : v1 < 2 ^ 32) (b2 : v2 < 2 ^ 32) (e : hashStep c h v1 = hashStep c h v2) : v1 = v2 := by
  have e1 := byteswap_inj _ _ (Nat.mod_lt _ (by norm_num)) (Nat.mod_lt _ (by norm_num)) e
  have e2 := mul_mod_inj c _ _ hc (Nat.xor_lt_two_pow a b1) (Nat.xor_lt_two_pow a b2) e1
  exact Nat.xor_right_injective e2

/-- The conversion to `unsigned` gives a 32-bit value. -/
theorem toUnsigned_lt (n : Int) : toUnsigned n < 2 ^ 32 := by
  unfold toUnsigned
  have h1 : 0 ≤ n % 2 ^ 32 := Int.emod_nonneg _ (by norm_num)
  have h2 : n % 2 ^ 32 < 2 ^ 32 := Int.emod_lt_of_pos _ (by norm_num)
  omega

/-- The hash stays a 32-bit value while it takes up a list of values. -/
theorem foldl_hashStep_lt (c : Nat) (s : List Nat) (h : Nat) (hh : h < 2 ^ 32) :
    s.foldl (hashStep c) h < 2 ^ 32 := by
  induction s generalizing h with
  | nil => exact hh
  | cons a s ih => exact ih _ (hashStep_lt c h a)

/-- Two different hashes stay different while they take up the same 32-bit values. -/
theorem foldl_hashStep_inj (c : Nat) (hc : Nat.Coprime (2 ^ 32) c) (s : List Nat)
    (hs : ∀ v ∈ s, v < 2 ^ 32) (h1 h2 : Nat) (a1 : h1 < 2 ^ 32) (a2 : h2 < 2 ^ 32)
    (hne : h1 ≠ h2) : s.foldl (hashStep c) h1 ≠ s.foldl (hashStep c) h2 := by
  induction s generalizing h1 h2 with
  | nil => exact hne
  | cons a s ih =>
    have ha : a < 2 ^ 32 := hs a (List.mem_cons_self _ _)
    exact ih (fun v hv => hs v (List.mem_cons_of_mem _ hv)) _ _ (hashStep_lt c h1 a)
      (hashStep_lt c h2 a) (fun e => hne (hashStep_inj_left c h1 h2 a hc a1 a2 ha e))

/-- Two lists of 32-bit values that differ in one place have different hashes. -/
theorem foldl_hashStep_ne (c : Nat) (hc : Nat.Coprime (2 ^ 32) c) (p s : List Nat) (a b : Nat)
    (hs : ∀ v ∈ s, v < 2 ^ 32) (ha : a < 2 ^ 32) (hb : b < 2 ^ 32) (hne : a ≠ b) :
    (p ++ a :: s).foldl (hashStep c) 0 ≠ (p ++ b :: s).foldl (hashStep c) 0 := by
  rw [List.foldl_append, List.foldl_append, List.foldl_cons, List.foldl_cons]
  have h0 : p.foldl (hashStep c) 0 < 2 ^ 32 := by
    cases p with
    | nil => norm_num
    | cons x p => exact foldl_hashStep_lt c p _ (hashStep_lt c 0 x)
  exact foldl_hashStep_inj c hc s hs _ _ (hashStep_lt c _ a) (hashStep_lt c _ b)
    (fun e => hne (hashStep_inj_right c _ a b hc h0 ha hb e))

/-- Claim C33: the hash of a leaf is a function of its six coefficients alone (two leaves
with the same coefficients have the same hash, whatever their other members), and two
leaves whose coefficients, as 32-bit values, differ at exactly one index have hashes
that differ in both words. -/
theorem hash_leaf_fingerprint (d1 d2 d3 : geoquadFields) (h12 : d1.und = d2.und) (i : Fin 6)
    (hne : toUnsigned (d1.und i) ≠ toUnsigned (d3.und i))
    (hsame : ∀ k, k ≠ i → toUnsigned (d1.und k) = toUnsigned (d3.und k)) :
    (geoquad.leaf d1).hash = (geoquad.leaf d2).hash ∧
    (geoquad.leaf d1).hash.1 ≠ (geoquad.leaf d3).hash.1 ∧
    (geoquad.leaf d1).hash.2 ≠ (geoquad.leaf d3).hash.2 := by
  have c1 : Nat.Coprime (2 ^ 32) 99421 := by norm_num
  have c2 : Nat.Coprime (2 ^ 32) 47935 := by norm_num
  refine ⟨?_, ?_⟩
  · simp only [geoquad.hash, h12]
  have lt := toUnsigned_lt
  have mem : ∀ (l : List Int) (v : Nat), v ∈ l.map toUnsigned → v < 2 ^ 32 := by
    intro l v hv
    obtain ⟨n, _, rfl⟩ := List.mem_map.mp hv
    exact lt n
  simp only [geoquad.hash, List.map_cons, List.map_nil, List.reverse_cons, List.reverse_nil,
    List.nil_append, List.cons_append]
  fin_cases i
  · have s1 := hsame 1 (by decide)
    have s2 := hsame 2 (by decide)
    have s3 := hsame 3 (by decide)
    have s4 := hsame 4 (by decide)
    have s5 := hsame 5 (by decide)
    rw [← s1, ← s2, ← s3, ← s4, ← s5]
    exact ⟨foldl_hashStep_ne _ c1 ([].map toUnsigned) _ _ _
        (mem [d1.und 1, d1.und 2, d1.und 3, d1.und 4, d1.und 5]) (lt _) (lt _) hne,
      foldl_hashStep_ne _ c2 ([d1.und 5, d1.und 4, d1.und 3, d1.und 2, d1.und 1].map toUnsigned) _ _ _
        (mem []) (lt _) (lt _) hne⟩
  · have s0 := hsame 0 (by decide)
    have s2 := hsame 2 (by decide)
    have s3 := hsame 3 (by decide)
    have s4 := hsame 4 (by decide)
    have s5 := hsame 5 (by decide)
    rw [← s0, ← s2, ← s3, ← s4, ← s5]
    exact ⟨foldl_hashStep_ne _ c1 ([d1.und 0].map toUnsigned) _ _ _
        (mem [d1.und 2, d1.und 3, d1.und 4, d1.und 5]) (lt _) (lt _) hne,
      foldl_hashStep_ne _ c2 ([d1.und 5, d1.und 4, d1.und 3, d1.und 2].map toUnsigned) _ _ _
        (mem [d1.und 0]) (lt _) (lt _) hne⟩
  · have s0 := hsame 0 (by decide)
    have s1 := hsame 1 (by decide)
    have s3 := hsame 3 (by decide)
    have s4 := hsame 4 (by decide)
    have s5 := hsame 5 (by decide)
    rw [← s0, ← s1, ← s3, ← s4, ← s5]
    exact ⟨foldl_hashStep_ne _ c1 ([d1.und 0, d1.und 1].map toUnsigned) _ _ _
        (mem [d1.und 3, d1.und 4, d1.und 5]) (lt _) (lt _) hne,
      foldl_hashStep_ne _ c2 ([d1.und 5, d1.und 4, d1.und 3].map toUnsigned) _ _ _
        (mem [d1.und 1, d1.und 0]) (lt _) (lt _) hne⟩
  · have s0 := hsame 0 (by decide)
    have s1 := hsame 1 (by decide)
    have s2 := hsame 2 (by decide)
    have s4 := hsame 4 (by decide)
    have s5 := hsame 5 (by decide)
    rw [← s0, ← s1, ← s2, ← s4, ← s5]
    exact ⟨foldl_hashStep_ne _ c1 ([d1.und 0, d1.und 1, d1.und 2].map toUnsigned) _ _ _
        (mem [d1.und 4, d1.und 5]) (lt _) (lt _) hne,
      foldl_hashStep_ne _ c2 ([d1.und 5, d1.und 4].map toUnsigned) _ _ _
        (mem [d1.und 2, d1.und 1, d1.und 0]) (lt _) (lt _) hne⟩
  · have s0 := hsame 0 (by decide)
    have s1 := hsame 1 (by decide)
    have s2 := hsame 2 (by decide)
    have s3 := hsame 3 (by decide)
    have s5 := hsame 5 (by decide)
    rw [← s0, ← s1, ← s2, ← s3, ← s5]
    exact ⟨foldl_hashStep_ne _ c1 ([d1.und 0, d1.und 1, d1.und 2, d1.und 3].map toUnsigned) _ _ _
        (mem [d1.und 5]) (lt _) (lt _) hne,
      foldl_hashStep_ne _ c2 ([d1.und 5].map toUnsigned) _ _ _
        (mem [d1.und 3, d1.und 2, d1.und 1, d1.und 0]) (lt _) (lt _) hne⟩
  · have s0 := hsame 0 (by decide)
    have s1 := hsame 1 (by decide)
    have s2 := hsame 2 (by decide)
    have s3 := hsame 3 (by decide)
    have s4 := hsame 4 (by decide)
    rw [← s0, ← s1, ← s2, ← s3, ← s4]
    exact ⟨foldl_hashStep_ne _ c1 ([d1.und 0, d1.und 1, d1.und 2, d1.und 3, d1.und 4].map toUnsigned) _ _ _
        (mem []) (lt _) (lt _) hne,
      foldl_hashStep_ne _ c2 ([].map toUnsigned) _ _ _
        (mem [d1.und 4, d1.und 3, d1.und 2, d1.und 1, d1.und 0]) (lt _) (lt _) hne⟩

/-- Witness for C33: the leaves with coefficients `(1,2,3,4,5,6)` and, at index 3, `-4`
instead of `4`. -/
theorem hash_leaf_fingerprint_witness :
    (geoquad.leaf ⟨fun i => (i : Int) + 1, xy.ctor, 1, 1, [], []⟩).hash
      = (geoquad.leaf ⟨fun i => (i : Int) + 1, ⟨1, 1⟩, 2, 3, [], []⟩).hash ∧
    (geoquad.leaf ⟨fun i => (i : Int) + 1, xy.ctor, 1, 1, [], []⟩).hash.1
      ≠ (geoquad.leaf ⟨fun i => if i = 3 then -4 else (i : Int) + 1, xy.ctor, 1, 1, [], []⟩).hash.1 ∧
    (geoquad.leaf ⟨fun i => (i : Int) + 1, xy.ctor, 1, 1, [], []⟩).hash.2
      ≠ (geoquad.leaf ⟨fun i => if i = 3 then -4 else (i : Int) + 1, xy.ctor, 1, 1, [], []⟩).hash.2 :=
  hash_leaf_fingerprint ⟨fun i => (i : Int) + 1, xy.ctor, 1, 1, [], []⟩
    ⟨fun i => (i : Int) + 1, ⟨1, 1⟩, 2, 3, [], []⟩
    ⟨fun i => if i = 3 then -4 else (i : Int) + 1, xy.ctor, 1, 1, [], []⟩ rfl 3
    (by decide) (by decide)

/-- One round of the loop of `consolidate` from two different valid indices: a failed
assertion, a level that is not computed within the fuel, a round without overlap (the loops
stay and `cnt` goes up), or a merge of two non-empty loops: loop `i` gets the vertices of
both and loop `j` is left empty. In both of the last cases the loop goes on with the next
pair of indices. -/
theorem consolidateLoop_round (slFuel : Nat) (l : Int) (sz fuel : Nat) (bdy : List g1boundary)
    (i j cnt : Nat) (hlen : bdy.length = sz) (hv : gboundary.ValidPair sz (i, j))
    (hc : cnt < sz * sz) :
    gboundary.consolidateLoop slFuel l sz (fuel + 1) bdy i j cnt = Outcome.assertFailed ∨
    gboundary.consolidateLoop slFuel l sz (fuel + 1) bdy i j cnt = Outcome.outOfFuel ∨
    gboundary.consolidateLoop slFuel l sz (fuel + 1) bdy i j cnt =
      gboundary.consolidateLoop slFuel l sz fuel bdy
        (gboundary.nextPair sz (i, j)).1 (gboundary.nextPair sz (i, j)).2 (cnt + 1) ∨
    ∃ bi bj b1 b2 : g1boundary, bdy[i]? = some bi ∧ bdy[j]? = some bj ∧
      bi.bdy ≠ [] ∧ bj.bdy ≠ [] ∧ List.Perm b1.bdy (bi.bdy ++ bj.bdy) ∧ b2.bdy = [] ∧
      gboundary.consolidateLoop slFuel l sz (fuel + 1) bdy i j cnt =
        gboundary.consolidateLoop slFuel l sz fuel ((bdy.set i b1).set j b2)
          (gboundary.nextPair sz (i, j)).1 (gboundary.nextPair sz (i, j)).2 0 := by
  have hi : i < bdy.length := by rw [hlen]; exact hv.1
  have hj : j < bdy.length := by rw [hlen]; exact hv.2.1
  have hbi : bdy[i]? = some bdy[i] := List.getElem?_eq_getElem hi
  have hbj : bdy[j]? = some bdy[j] := List.getElem?_eq_getElem hj
  cases hsi : (bdy[i]).segmentsAtLevel slFuel l with
  | none =>
    refine Or.inr (Or.inl ?_)
    rw [gboundary.consolidateLoop]
    simp only [hc, if_true, hbi, hbj, hsi]
  | some iseg =>
    cases hsj : (bdy[j]).segmentsAtLevel slFuel l with
    | none =>
      refine Or.inr (Or.inl ?_)
      rw [gboundary.consolidateLoop]
      simp only [hc, if_true, hbi, hbj, hsi, hsj]
    | some jseg =>
      rcases consolidateScan_cases bdy[i] bdy[j] (gboundary.segmentPairs iseg jseg) none with
        h | ⟨h, hall⟩ | ⟨x, hx, h⟩
      · exact Or.inl (consolidateLoop_abort slFuel l sz fuel bdy i j cnt _ _ iseg jseg hc
          hbi hbj hsi hsj h)
      · exact Or.inr (Or.inr (Or.inl (consolidateLoop_quiet slFuel l sz fuel bdy i j cnt hc
          ⟨bdy[i], bdy[j], iseg, jseg, hbi, hbj, hsi, hsj, h⟩)))
      · obtain ⟨a, b⟩ := x
        obtain ⟨ha, hb⟩ := (mem_segmentPairs iseg jseg a b).mp hx
        obtain ⟨ia, hia, -⟩ := segmentsAtLevel_mem slFuel bdy[i] l iseg hsi a ha
        obtain ⟨ib, hib, -⟩ := segmentsAtLevel_mem slFuel bdy[j] l jseg hsj b hb
        refine Or.inr (Or.inr (Or.inr ⟨bdy[i], bdy[j], (bdy[i].splice3 a bdy[j] b).1,
          (bdy[i].splice3 a bdy[j] b).2, hbi, hbj, List.length_pos.mp (by omega),
          List.length_pos.mp (by omega), ?_, (length_splice3 bdy[i] bdy[j] a b).2,
          consolidateLoop_found slFuel l sz fuel bdy i j cnt _ _ iseg jseg a b hc
            hbi hbj hsi hsj h⟩))
        show List.Perm ((bdy[i].positionSegment a).bdy ++ (bdy[j].positionSegment b).bdy) _
        exact List.Perm.append (positionSegment_isRotated bdy[i] a).1.perm
          (positionSegment_isRotated bdy[j] b).1.perm

/-- Replacing two loops of a vector by two loops with the same vertices leaves the vertices
of the whole vector the same, up to their order. -/
theorem flatMap_set_set_perm (l : List g1boundary) (i j : Nat) (hi : i < l.length)
    (hj : j < l.length) (hne : i ≠ j) (x y : g1boundary)
    (h : List.Perm (x.bdy ++ y.bdy) (l[i].bdy ++ l[j].bdy)) :
    List.Perm (((l.set i x).set j y).flatMap fun b => b.bdy) (l.flatMap fun b => b.bdy) := by
  rw [List.perm_iff_count]
  intro v
  have hj2 : j < (l.set i x).length := by simpa using hj
  have h1 := sum_map_set (fun b => List.count v b.bdy) (l.set i x) j y hj2
  have h2 := sum_map_set (fun b => List.count v b.bdy) l i x hi
  have h3 : (l.set i x)[j] = l[j] := by rw [List.getElem_set_ne hne]
  rw [h3] at h1
  have h4 := h.count_eq v
  rw [List.count_append, List.count_append] at h4
  rw [List.count_flatMap, List.count_flatMap]
  simp only [Function.comp_def]
  omega

/-- A merge lowers the number of non-empty loops by one: of two non-empty loops the first
gets the vertices of both and the second is left empty. -/
theorem countP_merge (bdy : List g1boundary) (i j : Nat) (hi : i < bdy.length)
    (hj : j < bdy.length) (hne : i ≠ j) (b1 b2 : g1boundary) (ne1 : bdy[i].bdy ≠ [])
    (ne2 : bdy[j].bdy ≠ []) (h1 : b1.bdy ≠ []) (h2 : b2.bdy = []) :
    ((bdy.set i b1).set j b2).countP (fun b => decide (b.bdy ≠ [])) + 1
      = bdy.countP (fun b => decide (b.bdy ≠ [])) := by
  have hj1 : j < (bdy.set i b1).length := by simpa using hj
  have hget : (bdy.set i b1)[j] = bdy[j] := by rw [List.getElem_set_ne hne]
  have hc1 := countP_set_same (fun b => decide (b.bdy ≠ [])) bdy i b1 hi (by simpa using ne1)
    (by simpa using h1)
  have hc2 := countP_set_drop (fun b => decide (b.bdy ≠ [])) (bdy.set i b1) j b2 hj1
    (by rw [hget]; simpa using ne2) (by simp [h2])
  omega

/-- Whatever the loop of `consolidate` returns has as many loops as before and the same
vertices, up to their order and their distribution over the loops. -/
theorem consolidateLoop_perm (slFuel : Nat) (l : Int) (sz : Nat) :
    ∀ (fuel : Nat) (bdy : List g1boundary) (i j cnt : Nat) (r : List g1boundary),
      bdy.length = sz → gboundary.ValidPair sz (i, j) →
      gboundary.consolidateLoop slFuel l sz fuel bdy i j cnt = Outcome.ok r →
      r.length = sz ∧ List.Perm (r.flatMap fun b => b.bdy) (bdy.flatMap fun b => b.bdy) := by
  intro fuel
  induction fuel with
  | zero =>
    intro bdy i j cnt r _ _ h
    rw [gboundary.consolidateLoop] at h
    exact absurd h (by simp)
  | succ fuel ih =>
    intro bdy i j cnt r hlen hv h
    by_cases hc : cnt < sz * sz
    · have hnext := validPair_next sz (i, j) hv
      rcases consolidateLoop_round slFuel l sz fuel bdy i j cnt hlen hv hc with
        e | e | e | ⟨bi, bj, b1, b2, hbi, hbj, ne1, ne2, hp, he, e⟩
      · rw [e] at h; exact absurd h (by simp)
      · rw [e] at h; exact absurd h (by simp)
      · rw [e] at h
        exact ih bdy _ _ _ r hlen hnext h
      · rw [e] at h
        have hi : i < bdy.length := by rw [hlen]; exact hv.1
        have hj : j < bdy.length := by rw [hlen]; exact hv.2.1
        rw [List.getElem?_eq_getElem hi] at hbi
        rw [List.getElem?_eq_getElem hj] at hbj
        obtain rfl := Option.some.inj hbi
        obtain rfl := Option.some.inj hbj
        obtain ⟨r1, r2⟩ := ih _ _ _ _ r (by rw [List.length_set, List.length_set]; exact hlen)
          hnext h
        refine ⟨r1, r2.trans (flatMap_set_set_perm bdy i j hi hj hv.2.2 b1 b2 ?_)⟩
        rw [he, List.append_nil]
        exact hp
    · rw [consolidateLoop_exit slFuel l sz fuel bdy i j cnt hc] at h
      obtain rfl := Outcome.ok.inj h
      exact ⟨hlen, List.Perm.refl _⟩

/-- What `consolidate` returns has as many loops and the same vertices as before. -/
theorem consolidate_perm (g r : gboundary) (l : Int) (slFuel fuel : Nat)
    (h : g.consolidate slFuel fuel l = Outcome.ok r) :
    r.size = g.size ∧ r.totalSegments = g.totalSegments ∧
      List.Perm (r.bdy.flatMap fun b => b.bdy) (g.bdy.flatMap fun b => b.bdy) := by
  by_cases hsz : 2 ≤ g.bdy.length
  · unfold gboundary.consolidate at h
    cases hloop : gboundary.consolidateLoop slFuel l g.bdy.length fuel g.bdy 0 1 1 with
    | assertFailed => rw [hloop] at h; exact absurd h (by simp)
    | outOfFuel => rw [hloop] at h; exact absurd h (by simp)
    | ok bdy =>
      rw [hloop] at h
      obtain rfl := Outcome.ok.inj h
      obtain ⟨h1, h2⟩ := consolidateLoop_perm slFuel l g.bdy.length fuel g.bdy 0 1 1 bdy rfl
        ⟨by simp only; omega, by simp only; omega, by simp⟩ hloop
      refine ⟨?_, ?_, h2⟩
      · show ((bdy.length : Nat) : Int) = (g.bdy.length : Int)
        rw [h1]
      · rw [totalSegments_eq, totalSegments_eq, h2.length_eq]
  · cases fuel with
    | zero =>
      unfold gboundary.consolidate at h
      rw [gboundary.consolidateLoop] at h
      exact absurd h (by simp)
    | succ k =>
      unfold gboundary.consolidate at h
      rw [consolidateLoop_exit slFuel l g.bdy.length k g.bdy 0 1 1 (by
        have : g.bdy.length * g.bdy.length ≤ 1 * 1 :=
          Nat.mul_le_mul (by omega) (by omega)
        omega)] at h
      obtain rfl := Outcome.ok.inj h
      exact ⟨rfl, rfl, List.Perm.refl _⟩

/-- With 0 or 1 loops `consolidate` returns at once, given some fuel. -/
theorem consolidate_small (g : gboundary) (l : Int) (slFuel k : Nat) (h : g.bdy.length ≤ 1) :
    g.consolidate slFuel (k + 1) l = Outcome.ok g := by
  unfold gboundary.consolidate
  rw [consolidateLoop_exit slFuel l g.bdy.length k g.bdy 0 1 1 (by
    have : g.bdy.length * g.bdy.length ≤ 1 * 1 := Nat.mul_le_mul h h
    omega)]

/-- With `(sz+1)*(sz*sz+1)` units of fuel `consolidate` does not run out of fuel, provided the
level is negative or the levels of the coordinates are within `slFuel`. -/
theorem consolidate_returns (g : gboundary) (l : Int) (slFuel fuel : Nat)
    (hlev : l < 0 ∨ ∀ b ∈ g.bdy, LevelsWithin slFuel b)
    (hfuel : (g.bdy.length + 1) * (g.bdy.length * g.bdy.length + 1) ≤ fuel) :
    g.consolidate slFuel fuel l = Outcome.assertFailed ∨
      ∃ r, g.consolidate slFuel fuel l = Outcome.ok r := by
  have hpos : 1 ≤ fuel := by
    have : 1 ≤ (g.bdy.length + 1) * (g.bdy.length * g.bdy.length + 1) :=
      Nat.mul_pos (by omega) (by omega)
    omega
  obtain ⟨k, rfl⟩ : ∃ k, fuel = k + 1 := ⟨fuel - 1, by omega⟩
  by_cases hsz : g.bdy.length ≤ 1
  · exact Or.inr ⟨g, consolidate_small g l slFuel k hsz⟩
  · have hbound : (g.bdy.countP fun b => decide (b.bdy ≠ [])) *
        (g.bdy.length * g.bdy.length + 1) + (g.bdy.length * g.bdy.length - 1) < k + 1 := by
      have h1 : (g.bdy.countP fun b => decide (b.bdy ≠ [])) ≤ g.bdy.length :=
        List.countP_le_length _
      have h2 := Nat.mul_le_mul_right (g.bdy.length * g.bdy.length + 1) h1
      rw [Nat.add_mul, Nat.one_mul] at hfuel
      omega
    rcases consolidateLoop_spec slFuel l g.bdy.length (k + 1) g.bdy 0 1 1 rfl
      ⟨by simp only; omega, by simp only; omega, by simp⟩ hlev
      (by intro p _ t h1 h2; omega) hbound with h | ⟨r, hr, -, -⟩
    · left
      unfold gboundary.consolidate
      rw [h]
    · right
      refine ⟨⟨r⟩, ?_⟩
      unfold gboundary.consolidate
      rw [hr]

/-- Claim C36: with enough fuel `consolidate(l)` stops at a failed assertion or returns, and
what it returns has the same number of loops, the same total number of vertices and the
same vertices up to order (first part). With 0 or 1 loops the loop body never runs; with 2
or more the indices start as the valid pair `(0,1)` (second and third part). In every
round from two valid different indices `i`, `j` the next indices are again valid and
different, and the round either stops the run, or leaves the loops as they are, or merges
two non-empty loops: loop `i` gets the vertices of both and loop `j` is left empty, so that
the number of non-empty loops goes down by exactly one (fourth part). -/
theorem consolidate_loop_surgery (g : gboundary) (l : Int) (slFuel fuel : Nat)
    (hlev : l < 0 ∨ ∀ b ∈ g.bdy, LevelsWithin slFuel b)
    (hfuel : (g.bdy.length + 1) * (g.bdy.length * g.bdy.length + 1) ≤ fuel) :
    (g.consolidate slFuel fuel l = Outcome.assertFailed ∨
      ∃ r, g.consolidate slFuel fuel l = Outcome.ok r ∧ r.size = g.size ∧
        r.totalSegments = g.totalSegments ∧
        List.Perm (r.bdy.flatMap fun b => b.bdy) (g.bdy.flatMap fun b => b.bdy)) ∧
    (g.bdy.length ≤ 1 → g.consolidate slFuel fuel l = Outcome.ok g) ∧
    (2 ≤ g.bdy.length → gboundary.ValidPair g.bdy.length (0, 1)) ∧
    ∀ (n : Nat) (bdy : List g1boundary) (i j cnt : Nat), bdy.length = g.bdy.length →
      gboundary.ValidPair g.bdy.length (i, j) → cnt < g.bdy.length * g.bdy.length →
      gboundary.ValidPair g.bdy.length (gboundary.nextPair g.bdy.length (i, j)) ∧
      (gboundary.consolidateLoop slFuel l g.bdy.length (n + 1) bdy i j cnt
          = Outcome.assertFailed ∨
       gboundary.consolidateLoop slFuel l g.bdy.length (n + 1) bdy i j cnt
          = Outcome.outOfFuel ∨
       gboundary.consolidateLoop slFuel l g.bdy.length (n + 1) bdy i j cnt =
          gboundary.consolidateLoop slFuel l g.bdy.length n bdy
            (gboundary.nextPair g.bdy.length (i, j)).1
            (gboundary.nextPair g.bdy.length (i, j)).2 (cnt + 1) ∨
       ∃ bi bj b1 b2 : g1boundary, bdy[i]? = some bi ∧ bdy[j]? = some bj ∧
          bi.bdy ≠ [] ∧ bj.bdy ≠ [] ∧ List.Perm b1.bdy (bi.bdy ++ bj.bdy) ∧ b2.bdy = [] ∧
          ((bdy.set i b1).set j b2).countP (fun b => decide (b.bdy ≠ [])) + 1
            = bdy.countP (fun b => decide (b.bdy ≠ [])) ∧
          gboundary.consolidateLoop slFuel l g.bdy.length (n + 1) bdy i j cnt =
            gboundary.consolidateLoop slFuel l g.bdy.length n ((bdy.set i b1).set j b2)
              (gboundary.nextPair g.bdy.length (i, j)).1
              (gboundary.nextPair g.bdy.length (i, j)).2 0) := by
  refine ⟨?_, ?_, ?_, ?_⟩
  · rcases consolidate_returns g l slFuel fuel hlev hfuel with h | ⟨r, h⟩
    · exact Or.inl h
    · exact Or.inr ⟨r, h, consolidate_perm g r l slFuel fuel h⟩
  · intro hsz
    have hpos : 1 ≤ fuel := by
      have : 1 ≤ (g.bdy.length + 1) * (g.bdy.length * g.bdy.length + 1) :=
        Nat.mul_pos (by omega) (by omega)
      omega
    obtain ⟨k, rfl⟩ : ∃ k, fuel = k + 1 := ⟨fuel - 1, by omega⟩
    exact consolidate_small g l slFuel k hsz
  · intro hsz
    exact ⟨by simp only; omega, by simp only; omega, by simp⟩
  · intro n bdy i j cnt hlen hv hc
    refine ⟨validPair_next _ _ hv, ?_⟩
    rcases consolidateLoop_round slFuel l g.bdy.length n bdy i j cnt hlen hv hc with
      e | e | e | ⟨bi, bj, b1, b2, hbi, hbj, ne1, ne2, hp, he, e⟩
    · exact Or.inl e
    · exact Or.inr (Or.inl e)
    · exact Or.inr (Or.inr (Or.inl e))
    · refine Or.inr (Or.inr (Or.inr ⟨bi, bj, b1, b2, hbi, hbj, ne1, ne2, hp, he, ?_, e⟩))
      have hi : i < bdy.length := by rw [hlen]; exact hv.1
      have hj : j < bdy.length := by rw [hlen]; exact hv.2.1
      rw [List.getElem?_eq_getElem hi] at hbi
      rw [List.getElem?_eq_getElem hj] at hbj
      obtain rfl := Option.some.inj hbi
      obtain rfl := Option.some.inj hbj
      have h1 : b1.bdy ≠ [] := by
        intro hc1
        have := hp.length_eq
        rw [hc1, List.length_append] at this
        have := List.length_pos.mpr ne1
        simp only [List.length_nil] at *
        omega
      exact countP_merge bdy i j hi hj hv.2.2 b1 b2 ne1 ne2 h1 he

/-- Witness for C36: the two adjacent squares of face 1 at level 1, with 15 rounds. -/
theorem consolidate_loop_surgery_witness :
    gboundary.consolidate 1 15
      ⟨[⟨[⟨1, fin (-1), fin (-1)⟩, ⟨1, fin 0, fin (-1)⟩, ⟨1, fin 0, fin 0⟩,
          ⟨1, fin (-1), fin 0⟩], false⟩,
        ⟨[⟨1, fin 0, fin (-1)⟩, ⟨1, fin 1, fin (-1)⟩, ⟨1, fin 1, fin 0⟩,
          ⟨1, fin 0, fin 0⟩], false⟩]⟩ 1 = Outcome.assertFailed ∨
    ∃ r, gboundary.consolidate 1 15
      ⟨[⟨[⟨1, fin (-1), fin (-1)⟩, ⟨1, fin 0, fin (-1)⟩, ⟨1, fin 0, fin 0⟩,
          ⟨1, fin (-1), fin 0⟩], false⟩,
        ⟨[⟨1, fin 0, fin (-1)⟩, ⟨1, fin 1, fin (-1)⟩, ⟨1, fin 1, fin 0⟩,
          ⟨1, fin 0, fin 0⟩], false⟩]⟩ 1 = Outcome.ok r ∧ r.size = 2 ∧
      r.totalSegments = 8 ∧
      List.Perm (r.bdy.flatMap fun b => b.bdy)
        [⟨1, fin (-1), fin (-1)⟩, ⟨1, fin 0, fin (-1)⟩, ⟨1, fin 0, fin 0⟩, ⟨1, fin (-1), fin 0⟩,
          ⟨1, fin 0, fin (-1)⟩, ⟨1, fin 1, fin (-1)⟩, ⟨1, fin 1, fin 0⟩, ⟨1, fin 0, fin 0⟩] :=
  (consolidate_loop_surgery
    ⟨[⟨[⟨1, fin (-1), fin (-1)⟩, ⟨1, fin 0, fin (-1)⟩, ⟨1, fin 0, fin 0⟩,
          ⟨1, fin (-1), fin 0⟩], false⟩,
        ⟨[⟨1, fin 0, fin (-1)⟩, ⟨1, fin 1, fin (-1)⟩, ⟨1, fin 1, fin 0⟩,
          ⟨1, fin 0, fin 0⟩], false⟩]⟩ 1 1 15
    (Or.inr (by
      intro b hb v hv
      simp only [List.mem_cons, List.mem_singleton, List.not_mem_nil, or_false] at hb
      rcases hb with rfl | rfl <;>
        (simp only [List.mem_cons, List.mem_singleton, List.not_mem_nil, or_false] at hv
         rcases hv with rfl | rfl | rfl | rfl <;>
           simp [splitLevel_zero, splitLevel_one, splitLevel_neg_one])))
    (by simp)).1

/-- The bounds of the two points `(0,0)` and `(2,0)`. -/
theorem bounds_two_points :
    qindex.bounds [⟨fin 0, fin 0⟩, ⟨fin 2, fin 0⟩] = (fin 0, fin 0, fin 2, fin 0) := by
  simp [qindex.bounds, double.gt, double.lt]

/-- The mantissa of 1 is 1. -/
theorem significand_one : double.significand (fin 1) = fin 1 := by
  simp [double.significand]

/-- Claim C34, evaluated on the two points `(0,0)` and `(2,0)`: `sizefit` ends after one
round of its loop with `x = 0`, `y = 0` and `side = 2`, because the loop stops as soon as
`x+side` is not less than `maxx`; the point `(2,0)` is then on the right edge of the
square, and `findt` reports it as outside (`i < 0`). -/
theorem sizefit_point_on_right_edge (q : qindex) (fuel : Nat) :
    qindex.sizefit (fuel + 2) q [⟨fin 0, fin 0⟩, ⟨fin 2, fin 0⟩] = some ⟨fin 0, fin 0, fin 2⟩ ∧
    qindex.findtIndex ⟨fin 0, fin 0, fin 2⟩ ⟨fin 2, fin 0⟩ < 0 := by
  constructor
  · have h2 : (2 : ℚ) ≠ 0 := by norm_num
    have h16 : (16 : ℚ) ≠ 0 := by norm_num
    have h1 : (1 : ℚ) ≠ 0 := by norm_num
    have e1 : (fin 2 + fin 0 - fin 0 - fin 0) / 2 = fin 1 := by
      rw [fin_add, fin_sub, fin_sub, ofNat_def, double.fin_div _ (by norm_num)]
      norm_num
    simp only [qindex.sizefit, bounds_two_points, e1, significand_one]
    simp [qindex.sizefitLoop, double.fin_div _ h1, double.fin_div _ h2, double.fin_div _ h16,
      double.floor]
    norm_num
  · have h2 : (2 : ℚ) ≠ 0 := by norm_num
    have e : Int.lor 0 (-1) = -1 := by
      show Int.lor (Int.ofNat 0) (Int.negSucc 0) = Int.negSucc 0
      simp [Int.lor, Nat.ldiff]
    simp [qindex.findtIndex, double.fin_div _ h2, boolToInt]
    norm_num
    rw [e]
    decide

/-- After `flattenBdy` the two caches have one entry per loop, provided they had the same
length before. -/
theorem flattenBdy_lengths {P : Type} (flatten : g1boundary → P) (area : P → double)
    (c : gboundaryCache P) (h : c.areaSign.length = c.flatBdy.length) :
    (c.flattenBdy flatten area).flatBdy.length = c.loops.bdy.length ∧
    (c.flattenBdy flatten area).areaSign.length = c.loops.bdy.length := by
  unfold gboundaryCache.flattenBdy
  by_cases hc : c.flatBdy.length ≠ c.loops.bdy.length
  · rw [if_pos hc]
    simp
  · rw [if_neg hc]
    have := not_not.mp hc
    omega

/-- The method `flattenBdy` does not change the loops. -/
theorem flattenBdy_loops {P : Type} (flatten : g1boundary → P) (area : P → double)
    (c : gboundaryCache P) : (c.flattenBdy flatten area).loops = c.loops := by
  unfold gboundaryCache.flattenBdy
  split_ifs <;> rfl

/-- Every call leaves the two caches with the same number of entries. -/
theorem apply_cache_lengths {P : Type} (flatten : g1boundary → P) (area : P → double)
    (slFuel fuel : Nat) (op : gboundaryOp) (c c1 : gboundaryCache P)
    (h : c.areaSign.length = c.flatBdy.length)
    (hop : op.apply flatten area slFuel fuel c = some c1) :
    c1.areaSign.length = c1.flatBdy.length := by
  have other : ∀ o : Option gboundary,
      (o.map fun g => ({ c with loops := g } : gboundaryCache P)) = some c1 →
      c1.areaSign.length = c1.flatBdy.length := by
    intro o ho
    cases o with
    | none => exact absurd ho (by simp)
    | some g =>
      simp only [Option.map_some', Option.some.injEq] at ho
      rw [← ho]
      exact h
  cases op with
  | flattenBdy =>
    simp only [gboundaryOp.apply, Option.some.injEq] at hop
    rw [← hop]
    obtain ⟨h1, h2⟩ := flattenBdy_lengths flatten area c h
    rw [h1, h2]
  | push_back g1 =>
    simp only [gboundaryOp.apply] at hop
    exact other _ hop
  | clear =>
    simp only [gboundaryOp.apply] at hop
    exact other _ hop
  | erase n =>
    simp only [gboundaryOp.apply] at hop
    exact other _ hop
  | consolidate l =>
    simp only [gboundaryOp.apply] at hop
    exact other _ hop
  | splitoff l =>
    simp only [gboundaryOp.apply] at hop
    exact other _ hop
  | deleteCollinear =>
    simp only [gboundaryOp.apply] at hop
    exact other _ hop
  | deleteRetrace =>
    simp only [gboundaryOp.apply] at hop
    exact other _ hop
  | deleteNullSegments =>
    simp only [gboundaryOp.apply] at hop
    exact other _ hop
  | deleteEmpty =>
    simp only [gboundaryOp.apply] at hop
    exact other _ hop

/-- Every sequence of calls leaves the two caches with the same number of entries. -/
theorem run_cache_lengths {P : Type} (flatten : g1boundary → P) (area : P → double)
    (slFuel fuel : Nat) (ops : List gboundaryOp) :
    ∀ (c c1 : gboundaryCache P), c.areaSign.length = c.flatBdy.length →
      gboundaryOp.run flatten area slFuel fuel ops c = some c1 →
      c1.areaSign.length = c1.flatBdy.length := by
  induction ops with
  | nil =>
    intro c c1 h hrun
    simp only [gboundaryOp.run, Option.some.injEq] at hrun
    rw [← hrun]
    exact h
  | cons op ops ih =>
    intro c c1 h hrun
    unfold gboundaryOp.run at hrun
    cases hop : op.apply flatten area slFuel fuel c with
    | none => rw [hop] at hrun; exact absurd hrun (by simp)
    | some c2 =>
      rw [hop] at hrun
      exact ih c2 c1 (apply_cache_lengths flatten area slFuel fuel op c c2 h hop) hrun

/-- Claim C40, as the code has it: in the state `c` reached from a new `gboundary` by any
sequence of calls (`push_back`, `clear`, `erase`, `consolidate`, `splitoff`, the cleanup
passes, `deleteEmpty`, `flattenBdy`), a call of `flattenBdy` leaves the loops as they are
and the two caches with one entry per loop; when the cache did not have as many entries as
there are loops, entry `i` of `flatBdy` is the projection of loop `i` and entry `i` of
`areaSign` the sign of its area; when it had, both caches stay as they were. -/
theorem flattenBdy_cache_coherent {P : Type} (flatten : g1boundary → P) (area : P → double)
    (slFuel fuel : Nat) (ops : List gboundaryOp) (c : gboundaryCache P)
    (hrun : gboundaryOp.run flatten area slFuel fuel ops ⟨⟨[]⟩, [], []⟩ = some c) :
    (c.flattenBdy flatten area).loops = c.loops ∧
    (c.flattenBdy flatten area).flatBdy.length = c.loops.bdy.length ∧
    (c.flattenBdy flatten area).areaSign.length = c.loops.bdy.length ∧
    (c.flatBdy.length ≠ c.loops.bdy.length →
      (c.flattenBdy flatten area).flatBdy = c.loops.bdy.map flatten ∧
      (c.flattenBdy flatten area).areaSign
        = c.loops.bdy.map fun b => boolToInt (double.signbit (area (flatten b)))) ∧
    (c.flatBdy.length = c.loops.bdy.length → c.flattenBdy flatten area = c) := by
  have hinv := run_cache_lengths flatten area slFuel fuel ops ⟨⟨[]⟩, [], []⟩ c rfl hrun
  obtain ⟨h1, h2⟩ := flattenBdy_lengths flatten area c hinv
  refine ⟨flattenBdy_loops flatten area c, h1, h2, ?_, ?_⟩
  · intro hne
    unfold gboundaryCache.flattenBdy
    rw [if_pos hne]
    exact ⟨rfl, rfl⟩
  · intro he
    unfold gboundaryCache.flattenBdy
    rw [if_neg (not_not.mpr he)]

/-- Counterexample to C40 as stated, with the face coordinates of the vertices as the
projection: after `push_back(A)`, `flattenBdy()`, `clear()`, `push_back(B)` a call of
`flattenBdy()` finds one cache entry and one loop and rebuilds nothing, so that entry 0 of
`flatBdy` is still the projection of `A`, which is not that of the current loop `B`. -/
theorem flattenBdy_stale_cache :
    gboundaryOp.run (fun b => b.bdy.map vball.getxy) (fun _ => fin 0) 0 0
      [gboundaryOp.push_back ⟨[⟨1, fin 0, fin 0⟩, ⟨1, fin 1, fin 0⟩, ⟨1, fin 0, fin 1⟩], false⟩,
        gboundaryOp.flattenBdy, gboundaryOp.clear,
        gboundaryOp.push_back ⟨[⟨2, fin 0, fin 0⟩, ⟨2, fin (-1), fin 0⟩, ⟨2, fin 0, fin (-1)⟩], false⟩,
        gboundaryOp.flattenBdy]
      ⟨⟨[]⟩, [], []⟩
      = some ⟨⟨[⟨[⟨2, fin 0, fin 0⟩, ⟨2, fin (-1), fin 0⟩, ⟨2, fin 0, fin (-1)⟩], false⟩]⟩,
          [[⟨fin 0, fin 0⟩, ⟨fin 1, fin 0⟩, ⟨fin 0, fin 1⟩]], [0]⟩ ∧
    [(⟨fin 0, fin 0⟩ : xy), ⟨fin 1, fin 0⟩, ⟨fin 0, fin 1⟩]
      ≠ (⟨[⟨2, fin 0, fin 0⟩, ⟨2, fin (-1), fin 0⟩, ⟨2, fin 0, fin (-1)⟩], false⟩ :
          g1boundary).bdy.map vball.getxy := by
  constructor
  · simp [gboundaryOp.run, gboundaryOp.apply, gboundaryOp.onLoops, gboundary.push_back,
      gboundary.clear, gboundaryCache.flattenBdy, vball.getxy, double.signbit, boolToInt]
  · simp [vball.getxy]
    norm_num

/-- Witness for C40: from the state after `push_back(B)` on a new `gboundary`, with the
face coordinates of the vertices as the projection, `flattenBdy` fills the cache. -/
theorem flattenBdy_cache_coherent_witness :
    (gboundaryCache.flattenBdy (fun b => b.bdy.map vball.getxy) (fun _ => fin 0)
      ⟨⟨[⟨[⟨2, fin 0, fin 0⟩], false⟩]⟩, [], []⟩).flatBdy = [[⟨fin 0, fin 0⟩]] :=
  ((flattenBdy_cache_coherent (fun b => b.bdy.map vball.getxy) (fun _ => fin 0) 0 0
    [gboundaryOp.push_back ⟨[⟨2, fin 0, fin 0⟩], false⟩]
    ⟨⟨[⟨[⟨2, fin 0, fin 0⟩], false⟩]⟩, [], []⟩ rfl).2.2.2.1 (by decide)).1

/-- More fuel does not change what `iterateRemoval` returns. -/
theorem iterateRemoval_mono (pick : g1boundary → Option Nat) :
    ∀ (n : Nat) (g r : g1boundary), g1boundary.iterateRemoval pick n g = some r →
      ∀ m, n ≤ m → g1boundary.iterateRemoval pick m g = some r := by
  intro n
  induction n with
  | zero =>
    intro g r h
    rw [g1boundary.iterateRemoval] at h
    exact absurd h (by simp)
  | succ n ih =>
    intro g r h m hm
    obtain ⟨k, rfl⟩ : ∃ k, m = k + 1 := ⟨m - 1, by omega⟩
    rw [g1boundary.iterateRemoval] at h ⊢
    cases hp : pick g with
    | none =>
      rw [hp] at h
      exact h
    | some i =>
      rw [hp] at h
      exact ih _ r h k (by omega)

/-- More fuel does not change what the loops of `splitoff` return. -/
theorem splitoffLoop_mono (slFuel : Nat) (l : Int) :
    ∀ (n : Nat) (bdy : List g1boundary) (i : Nat) (r : List g1boundary),
      gboundary.splitoffLoop slFuel l n bdy i = Outcome.ok r →
      ∀ m, n ≤ m → gboundary.splitoffLoop slFuel l m bdy i = Outcome.ok r := by
  intro n
  induction n with
  | zero =>
    intro bdy i r h
    rw [gboundary.splitoffLoop] at h
    exact absurd h (by simp)
  | succ n ih =>
    intro bdy i r h m hm
    obtain ⟨k, rfl⟩ : ∃ k, m = k + 1 := ⟨m - 1, by omega⟩
    rw [gboundary.splitoffLoop] at h ⊢
    cases hb : bdy[i]? with
    | none =>
      rw [hb] at h
      exact h
    | some bi =>
      rw [hb] at h
      simp only [] at h ⊢
      cases hs : bi.segmentsAtLevel slFuel l with
      | none =>
        rw [hs] at h
        exact absurd h (by simp)
      | some iseg =>
        rw [hs] at h
        simp only [] at h ⊢
        cases hscan : gboundary.splitoffScan bi (gboundary.lowerPairs [] iseg) with
        | assertFailed => rw [hscan] at h; exact absurd h (by simp)
        | outOfFuel => rw [hscan] at h; exact absurd h (by simp)
        | ok o =>
          rw [hscan] at h
          cases o with
          | none => exact ih _ _ r h k (by omega)
          | some p =>
            obtain ⟨a, c⟩ := p
            simp only [] at h ⊢
            cases hsp : bi.split3 a c ⟨[], false⟩ with
            | none => rw [hsp] at h; exact absurd h (by simp)
            | some q =>
              rw [hsp] at h
              exact ih _ _ r h k (by omega)
/-- The run of `splitoff(1)` on what `consolidate(1)` makes of the four squares around the
origin of a face: four splits cut the four vertices at the origin off the loop of sixteen
vertices, one by one and once together with the rest, and leave a loop of twelve vertices
around the face and four loops of one vertex. -/
theorem splitoff_four_squares (f : Int) (hf : 1 ≤ f ∧ f ≤ 6) (slFuel fuel : Nat)
    (hfuel : 13 ≤ fuel) :
    gboundary.splitoff slFuel fuel
      ⟨[⟨[⟨f, fin 0, fin 1⟩, ⟨f, fin (-1), fin 1⟩, ⟨f, fin (-1), fin 0⟩, ⟨f, fin (-1), fin 0⟩,
          ⟨f, fin (-1), fin (-1)⟩, ⟨f, fin 0, fin (-1)⟩, ⟨f, fin 0, fin (-1)⟩,
          ⟨f, fin 1, fin (-1)⟩, ⟨f, fin 1, fin 0⟩, ⟨f, fin 0, fin 0⟩, ⟨f, fin 0, fin 0⟩,
          ⟨f, fin 0, fin 0⟩, ⟨f, fin 0, fin 0⟩, ⟨f, fin 1, fin 0⟩, ⟨f, fin 1, fin 1⟩,
          ⟨f, fin 0, fin 1⟩], false⟩,
        ⟨[], false⟩,
        ⟨[], false⟩,
        ⟨[], false⟩]⟩ 1
    = Outcome.ok
      ⟨[⟨[⟨f, fin 0, fin 0⟩], false⟩,
        ⟨[], false⟩,
        ⟨[], false⟩,
        ⟨[], false⟩,
        ⟨[⟨f, fin 0, fin 0⟩], false⟩,
        ⟨[⟨f, fin 1, fin 0⟩, ⟨f, fin 1, fin 1⟩, ⟨f, fin 0, fin 1⟩, ⟨f, fin 0, fin 1⟩,
          ⟨f, fin (-1), fin 1⟩, ⟨f, fin (-1), fin 0⟩, ⟨f, fin (-1), fin 0⟩,
          ⟨f, fin (-1), fin (-1)⟩, ⟨f, fin 0, fin (-1)⟩, ⟨f, fin 0, fin (-1)⟩,
          ⟨f, fin 1, fin (-1)⟩, ⟨f, fin 1, fin 0⟩], false⟩,
        ⟨[⟨f, fin 0, fin 0⟩], false⟩,
        ⟨[⟨f, fin 0, fin 0⟩], false⟩]⟩ := by
  obtain ⟨k, rfl⟩ : ∃ k, fuel = k + 13 := ⟨fuel - 13, by omega⟩
  have hs0 : g1boundary.segmentsAtLevel slFuel
      ⟨[⟨f, fin 0, fin 1⟩, ⟨f, fin (-1), fin 1⟩, ⟨f, fin (-1), fin 0⟩, ⟨f, fin (-1), fin 0⟩,
        ⟨f, fin (-1), fin (-1)⟩, ⟨f, fin 0, fin (-1)⟩, ⟨f, fin 0, fin (-1)⟩,
        ⟨f, fin 1, fin (-1)⟩, ⟨f, fin 1, fin 0⟩, ⟨f, fin 0, fin 0⟩, ⟨f, fin 0, fin 0⟩,
        ⟨f, fin 0, fin 0⟩, ⟨f, fin 0, fin 0⟩, ⟨f, fin 1, fin 0⟩, ⟨f, fin 1, fin 1⟩,
        ⟨f, fin 0, fin 1⟩], false⟩ 1 = some [5, 8, 9, 10, 11, 12, 15] := by
    simp [g1boundary.segmentsAtLevel, g1boundary.indices, g1boundary.filterOpt,
      g1boundary.atLevel, seg_of_index, splitLevelSegment, splitLevel_zero, splitLevel_one,
      splitLevel_neg_one, List.range, List.range.loop]
  have hscan1 : gboundary.splitoffScan
      ⟨[⟨f, fin 0, fin 1⟩, ⟨f, fin (-1), fin 1⟩, ⟨f, fin (-1), fin 0⟩, ⟨f, fin (-1), fin 0⟩,
        ⟨f, fin (-1), fin (-1)⟩, ⟨f, fin 0, fin (-1)⟩, ⟨f, fin 0, fin (-1)⟩,
        ⟨f, fin 1, fin (-1)⟩, ⟨f, fin 1, fin 0⟩, ⟨f, fin 0, fin 0⟩, ⟨f, fin 0, fin 0⟩,
        ⟨f, fin 0, fin 0⟩, ⟨f, fin 0, fin 0⟩, ⟨f, fin 1, fin 0⟩, ⟨f, fin 1, fin 1⟩,
        ⟨f, fin 0, fin 1⟩], false⟩
      (gboundary.lowerPairs [] [5, 8, 9, 10, 11, 12, 15]) = Outcome.ok (some (10, 9)) := by
    simp [gboundary.lowerPairs, gboundary.splitoffScan, seg_of_index, overlap_on_face f hf]
    norm_num
  have hsplit2 : g1boundary.split3
      ⟨[⟨f, fin 0, fin 1⟩, ⟨f, fin (-1), fin 1⟩, ⟨f, fin (-1), fin 0⟩, ⟨f, fin (-1), fin 0⟩,
        ⟨f, fin (-1), fin (-1)⟩, ⟨f, fin 0, fin (-1)⟩, ⟨f, fin 0, fin (-1)⟩,
        ⟨f, fin 1, fin (-1)⟩, ⟨f, fin 1, fin 0⟩, ⟨f, fin 0, fin 0⟩, ⟨f, fin 0, fin 0⟩,
        ⟨f, fin 0, fin 0⟩, ⟨f, fin 0, fin 0⟩, ⟨f, fin 1, fin 0⟩, ⟨f, fin 1, fin 1⟩,
        ⟨f, fin 0, fin 1⟩], false⟩ 10 9 ⟨[], false⟩
      = some (
        ⟨[⟨f, fin 0, fin 0⟩, ⟨f, fin 0, fin 0⟩, ⟨f, fin 1, fin 0⟩, ⟨f, fin 1, fin 1⟩,
          ⟨f, fin 0, fin 1⟩, ⟨f, fin 0, fin 1⟩, ⟨f, fin (-1), fin 1⟩, ⟨f, fin (-1), fin 0⟩,
          ⟨f, fin (-1), fin 0⟩, ⟨f, fin (-1), fin (-1)⟩, ⟨f, fin 0, fin (-1)⟩,
          ⟨f, fin 0, fin (-1)⟩, ⟨f, fin 1, fin (-1)⟩, ⟨f, fin 1, fin 0⟩, ⟨f, fin 0, fin 0⟩], false⟩,
        ⟨[⟨f, fin 0, fin 0⟩], false⟩) := by
    have h := split3_eq
      ⟨[⟨f, fin 0, fin 1⟩, ⟨f, fin (-1), fin 1⟩, ⟨f, fin (-1), fin 0⟩, ⟨f, fin (-1), fin 0⟩,
        ⟨f, fin (-1), fin (-1)⟩, ⟨f, fin 0, fin (-1)⟩, ⟨f, fin 0, fin (-1)⟩,
        ⟨f, fin 1, fin (-1)⟩, ⟨f, fin 1, fin 0⟩, ⟨f, fin 0, fin 0⟩, ⟨f, fin 0, fin 0⟩,
        ⟨f, fin 0, fin 0⟩, ⟨f, fin 0, fin 0⟩, ⟨f, fin 1, fin 0⟩, ⟨f, fin 1, fin 1⟩,
        ⟨f, fin 0, fin 1⟩], false⟩ ⟨[], false⟩ 10 9 (by simp) (by norm_num)
    simp only [Nat.cast_ofNat, Nat.cast_one, Nat.cast_zero] at h
    rw [h]
    simp [List.rotate]
  have hs3 : g1boundary.segmentsAtLevel slFuel
      ⟨[⟨f, fin 0, fin 0⟩, ⟨f, fin 0, fin 0⟩, ⟨f, fin 1, fin 0⟩, ⟨f, fin 1, fin 1⟩,
        ⟨f, fin 0, fin 1⟩, ⟨f, fin 0, fin 1⟩, ⟨f, fin (-1), fin 1⟩, ⟨f, fin (-1), fin 0⟩,
        ⟨f, fin (-1), fin 0⟩, ⟨f, fin (-1), fin (-1)⟩, ⟨f, fin 0, fin (-1)⟩,
        ⟨f, fin 0, fin (-1)⟩, ⟨f, fin 1, fin (-1)⟩, ⟨f, fin 1, fin 0⟩, ⟨f, fin 0, fin 0⟩], false⟩ 1 = some [0, 1, 4, 10, 13, 14] := by
    simp [g1boundary.segmentsAtLevel, g1boundary.indices, g1boundary.filterOpt,
      g1boundary.atLevel, seg_of_index, splitLevelSegment, splitLevel_zero, splitLevel_one,
      splitLevel_neg_one, List.range, List.range.loop]
  have hscan4 : gboundary.splitoffScan
      ⟨[⟨f, fin 0, fin 0⟩, ⟨f, fin 0, fin 0⟩, ⟨f, fin 1, fin 0⟩, ⟨f, fin 1, fin 1⟩,
        ⟨f, fin 0, fin 1⟩, ⟨f, fin 0, fin 1⟩, ⟨f, fin (-1), fin 1⟩, ⟨f, fin (-1), fin 0⟩,
        ⟨f, fin (-1), fin 0⟩, ⟨f, fin (-1), fin (-1)⟩, ⟨f, fin 0, fin (-1)⟩,
        ⟨f, fin 0, fin (-1)⟩, ⟨f, fin 1, fin (-1)⟩, ⟨f, fin 1, fin 0⟩, ⟨f, fin 0, fin 0⟩], false⟩
      (gboundary.lowerPairs [] [0, 1, 4, 10, 13, 14]) = Outcome.ok (some (13, 1)) := by
    simp [gboundary.lowerPairs, gboundary.splitoffScan, seg_of_index, overlap_on_face f hf]
    norm_num
  have hsplit5 : g1boundary.split3
      ⟨[⟨f, fin 0, fin 0⟩, ⟨f, fin 0, fin 0⟩, ⟨f, fin 1, fin 0⟩, ⟨f, fin 1, fin 1⟩,
        ⟨f, fin 0, fin 1⟩, ⟨f, fin 0, fin 1⟩, ⟨f, fin (-1), fin 1⟩, ⟨f, fin (-1), fin 0⟩,
        ⟨f, fin (-1), fin 0⟩, ⟨f, fin (-1), fin (-1)⟩, ⟨f, fin 0, fin (-1)⟩,
        ⟨f, fin 0, fin (-1)⟩, ⟨f, fin 1, fin (-1)⟩, ⟨f, fin 1, fin 0⟩, ⟨f, fin 0, fin 0⟩], false⟩ 13 1 ⟨[], false⟩
      = some (
        ⟨[⟨f, fin 0, fin 0⟩, ⟨f, fin 0, fin 0⟩, ⟨f, fin 0, fin 0⟩], false⟩,
        ⟨[⟨f, fin 1, fin 0⟩, ⟨f, fin 1, fin 1⟩, ⟨f, fin 0, fin 1⟩, ⟨f, fin 0, fin 1⟩,
          ⟨f, fin (-1), fin 1⟩, ⟨f, fin (-1), fin 0⟩, ⟨f, fin (-1), fin 0⟩,
          ⟨f, fin (-1), fin (-1)⟩, ⟨f, fin 0, fin (-1)⟩, ⟨f, fin 0, fin (-1)⟩,
          ⟨f, fin 1, fin (-1)⟩, ⟨f, fin 1, fin 0⟩], false⟩) := by
    have h := split3_eq
      ⟨[⟨f, fin 0, fin 0⟩, ⟨f, fin 0, fin 0⟩, ⟨f, fin 1, fin 0⟩, ⟨f, fin 1, fin 1⟩,
        ⟨f, fin 0, fin 1⟩, ⟨f, fin 0, fin 1⟩, ⟨f, fin (-1), fin 1⟩, ⟨f, fin (-1), fin 0⟩,
        ⟨f, fin (-1), fin 0⟩, ⟨f, fin (-1), fin (-1)⟩, ⟨f, fin 0, fin (-1)⟩,
        ⟨f, fin 0, fin (-1)⟩, ⟨f, fin 1, fin (-1)⟩, ⟨f, fin 1, fin 0⟩, ⟨f, fin 0, fin 0⟩], false⟩ ⟨[], false⟩ 13 1 (by simp) (by norm_num)
    simp only [Nat.cast_ofNat, Nat.cast_one, Nat.cast_zero] at h
    rw [h]
    simp [List.rotate]
  have hs6 : g1boundary.segmentsAtLevel slFuel
      ⟨[⟨f, fin 0, fin 0⟩, ⟨f, fin 0, fin 0⟩, ⟨f, fin 0, fin 0⟩], false⟩ 1 = some [0, 1, 2] := by
    simp [g1boundary.segmentsAtLevel, g1boundary.indices, g1boundary.filterOpt,
      g1boundary.atLevel, seg_of_index, splitLevelSegment, splitLevel_zero, splitLevel_one,
      splitLevel_neg_one, List.range, List.range.loop]
  have hscan7 : gboundary.splitoffScan
      ⟨[⟨f, fin 0, fin 0⟩, ⟨f, fin 0, fin 0⟩, ⟨f, fin 0, fin 0⟩], false⟩
      (gboundary.lowerPairs [] [0, 1, 2]) = Outcome.ok (some (1, 0)) := by
    simp [gboundary.lowerPairs, gboundary.splitoffScan, seg_of_index, overlap_on_face f hf]
  have hsplit8 : g1boundary.split3
      ⟨[⟨f, fin 0, fin 0⟩, ⟨f, fin 0, fin 0⟩, ⟨f, fin 0, fin 0⟩], false⟩ 1 0 ⟨[], false⟩
      = some (
        ⟨[⟨f, fin 0, fin 0⟩, ⟨f, fin 0, fin 0⟩], false⟩,
        ⟨[⟨f, fin 0, fin 0⟩], false⟩) := by
    have h := split3_eq
      ⟨[⟨f, fin 0, fin 0⟩, ⟨f, fin 0, fin 0⟩, ⟨f, fin 0, fin 0⟩], false⟩ ⟨[], false⟩ 1 0 (by simp) (by norm_num)
    simp only [Nat.cast_ofNat, Nat.cast_one, Nat.cast_zero] at h
    rw [h]
    simp [List.rotate]
  have hs9 : g1boundary.segmentsAtLevel slFuel
      ⟨[⟨f, fin 0, fin 0⟩, ⟨f, fin 0, fin 0⟩], false⟩ 1 = some [0, 1] := by
    simp [g1boundary.segmentsAtLevel, g1boundary.indices, g1boundary.filterOpt,
      g1boundary.atLevel, seg_of_index, splitLevelSegment, splitLevel_zero, splitLevel_one,
      splitLevel_neg_one, List.range, List.range.loop]
  have hscan10 : gboundary.splitoffScan
      ⟨[⟨f, fin 0, fin 0⟩, ⟨f, fin 0, fin 0⟩], false⟩
      (gboundary.lowerPairs [] [0, 1]) = Outcome.ok (some (1, 0)) := by
    simp [gboundary.lowerPairs, gboundary.splitoffScan, seg_of_index, overlap_on_face f hf]
  have hsplit11 : g1boundary.split3
      ⟨[⟨f, fin 0, fin 0⟩, ⟨f, fin 0, fin 0⟩], false⟩ 1 0 ⟨[], false⟩
      = some (
        ⟨[⟨f, fin 0, fin 0⟩], false⟩,
        ⟨[⟨f, fin 0, fin 0⟩], false⟩) := by
    have h := split3_eq
      ⟨[⟨f, fin 0, fin 0⟩, ⟨f, fin 0, fin 0⟩], false⟩ ⟨[], false⟩ 1 0 (by simp) (by norm_num)
    simp only [Nat.cast_ofNat, Nat.cast_one, Nat.cast_zero] at h
    rw [h]
    simp [List.rotate]
  have hs12 : g1boundary.segmentsAtLevel slFuel
      ⟨[⟨f, fin 0, fin 0⟩], false⟩ 1 = some [0] := by
    simp [g1boundary.segmentsAtLevel, g1boundary.indices, g1boundary.filterOpt,
      g1boundary.atLevel, seg_of_index, splitLevelSegment, splitLevel_zero, splitLevel_one,
      splitLevel_neg_one, List.range, List.range.loop]
  have hscan13 : gboundary.splitoffScan
      ⟨[⟨f, fin 0, fin 0⟩], false⟩
      (gboundary.lowerPairs [] [0]) = Outcome.ok none := rfl
  have hs14 : g1boundary.segmentsAtLevel slFuel ⟨[], false⟩ 1 = some [] := rfl
  have hscan15 : gboundary.splitoffScan
      ⟨[], false⟩
      (gboundary.lowerPairs [] []) = Outcome.ok none := rfl
  have hs16 : g1boundary.segmentsAtLevel slFuel
      ⟨[⟨f, fin 1, fin 0⟩, ⟨f, fin 1, fin 1⟩, ⟨f, fin 0, fin 1⟩, ⟨f, fin 0, fin 1⟩,
        ⟨f, fin (-1), fin 1⟩, ⟨f, fin (-1), fin 0⟩, ⟨f, fin (-1), fin 0⟩,
        ⟨f, fin (-1), fin (-1)⟩, ⟨f, fin 0, fin (-1)⟩, ⟨f, fin 0, fin (-1)⟩,
        ⟨f, fin 1, fin (-1)⟩, ⟨f, fin 1, fin 0⟩], false⟩ 1 = some [2, 8] := by
    simp [g1boundary.segmentsAtLevel, g1boundary.indices, g1boundary.filterOpt,
      g1boundary.atLevel, seg_of_index, splitLevelSegment, splitLevel_zero, splitLevel_one,
      splitLevel_neg_one, List.range, List.range.loop]
  have hscan17 : gboundary.splitoffScan
      ⟨[⟨f, fin 1, fin 0⟩, ⟨f, fin 1, fin 1⟩, ⟨f, fin 0, fin 1⟩, ⟨f, fin 0, fin 1⟩,
        ⟨f, fin (-1), fin 1⟩, ⟨f, fin (-1), fin 0⟩, ⟨f, fin (-1), fin 0⟩,
        ⟨f, fin (-1), fin (-1)⟩, ⟨f, fin 0, fin (-1)⟩, ⟨f, fin 0, fin (-1)⟩,
        ⟨f, fin 1, fin (-1)⟩, ⟨f, fin 1, fin 0⟩], false⟩
      (gboundary.lowerPairs [] [2, 8]) = Outcome.ok none := by
    simp [gboundary.lowerPairs, gboundary.splitoffScan, seg_of_index, overlap_on_face f hf]
    norm_num
  unfold gboundary.splitoff
  rw [splitoffLoop_found slFuel 1 (k + 12) _ 0 _ [5, 8, 9, 10, 11, 12, 15] 10 9 _ rfl hs0 hscan1 hsplit2]
  simp only [List.set_cons_zero, List.set_cons_succ, List.cons_append, List.nil_append]
  rw [splitoffLoop_found slFuel 1 (k + 11) _ 0 _ [0, 1, 4, 10, 13, 14] 13 1 _ rfl hs3 hscan4 hsplit5]
  simp only [List.set_cons_zero, List.set_cons_succ, List.cons_append, List.nil_append]
  rw [splitoffLoop_found slFuel 1 (k + 10) _ 0 _ [0, 1, 2] 1 0 _ rfl hs6 hscan7 hsplit8]
  simp only [List.set_cons_zero, List.set_cons_succ, List.cons_append, List.nil_append]
  rw [splitoffLoop_found slFuel 1 (k + 9) _ 0 _ [0, 1] 1 0 _ rfl hs9 hscan10 hsplit11]
  simp only [List.set_cons_zero, List.set_cons_succ, List.cons_append, List.nil_append]
  rw [splitoffLoop_next slFuel 1 (k + 8) _ 0 _ [0] rfl hs12 hscan13]
  rw [splitoffLoop_next slFuel 1 (k + 7) _ 1 _ [] rfl hs14 hscan15]
  rw [splitoffLoop_next slFuel 1 (k + 6) _ 2 _ [] rfl hs14 hscan15]
  rw [splitoffLoop_next slFuel 1 (k + 5) _ 3 _ [] rfl hs14 hscan15]
  rw [splitoffLoop_next slFuel 1 (k + 4) _ 4 _ [0] rfl hs12 hscan13]
  rw [splitoffLoop_next slFuel 1 (k + 3) _ 5 _ [2, 8] rfl hs16 hscan17]
  rw [splitoffLoop_next slFuel 1 (k + 2) _ 6 _ [0] rfl hs12 hscan13]
  rw [splitoffLoop_next slFuel 1 (k + 1) _ 7 _ [0] rfl hs12 hscan13]
  rw [splitoffLoop_exit slFuel 1 k _ 8 rfl]
/-- The method `deleteCollinear` removes the vertex of a loop of one vertex, which is aligned
with itself. -/
theorem deleteCollinear_single_vertex (f : Int) (hf : 1 ≤ f ∧ f ≤ 6) (fuel : Nat) (hfuel : 2 ≤ fuel) :
    g1boundary.deleteCollinear fuel
      ⟨[⟨f, fin 0, fin 0⟩], false⟩
    = some
      ⟨[], false⟩ := by
  rw [deleteCollinear_eq fuel _ (by norm_num)]
  apply iterateRemoval_mono _ 2 _ _ _ fuel hfuel
  have p0 : (List.range 1).find? (g1boundary.collinearAt
      ⟨[⟨f, fin 0, fin 0⟩], false⟩) = some 0 := by
    apply find?_range_of_first _ _ _ (by norm_num)
    · simp [g1boundary.collinearAt, sameEdge_on_face f hf]
    · intro j hj
      omega
  have r0 : g1boundary.removeAfter
      ⟨[⟨f, fin 0, fin 0⟩], false⟩ 0
      =
      ⟨[], false⟩ := by
    simp [g1boundary.removeAfter, List.rotate]
  have p1 : (List.range 0).find? (g1boundary.collinearAt
      ⟨[], false⟩) = none := rfl
  rw [g1boundary.iterateRemoval]
  simp only [List.length_cons, List.length_nil, Nat.reduceAdd, p0, r0]
  rw [g1boundary.iterateRemoval]
  simp only [List.length_cons, List.length_nil, Nat.reduceAdd, p1]

/-- The method `deleteCollinear` on the loop of twelve vertices around a face removes the
eight vertices at the middles of the sides and leaves the four corners. -/
theorem deleteCollinear_twelve (f : Int) (hf : 1 ≤ f ∧ f ≤ 6) (fuel : Nat) (hfuel : 9 ≤ fuel) :
    g1boundary.deleteCollinear fuel
      ⟨[⟨f, fin 1, fin 0⟩, ⟨f, fin 1, fin 1⟩, ⟨f, fin 0, fin 1⟩, ⟨f, fin 0, fin 1⟩,
        ⟨f, fin (-1), fin 1⟩, ⟨f, fin (-1), fin 0⟩, ⟨f, fin (-1), fin 0⟩,
        ⟨f, fin (-1), fin (-1)⟩, ⟨f, fin 0, fin (-1)⟩, ⟨f, fin 0, fin (-1)⟩,
        ⟨f, fin 1, fin (-1)⟩, ⟨f, fin 1, fin 0⟩], false⟩
    = some
      ⟨[⟨f, fin 1, fin 1⟩, ⟨f, fin (-1), fin 1⟩, ⟨f, fin (-1), fin (-1)⟩, ⟨f, fin 1, fin (-1)⟩], false⟩ := by
  rw [deleteCollinear_eq fuel _ (by norm_num)]
  apply iterateRemoval_mono _ 9 _ _ _ fuel hfuel
  have p0 : (List.range 12).find? (g1boundary.collinearAt
      ⟨[⟨f, fin 1, fin 0⟩, ⟨f, fin 1, fin 1⟩, ⟨f, fin 0, fin 1⟩, ⟨f, fin 0, fin 1⟩,
        ⟨f, fin (-1), fin 1⟩, ⟨f, fin (-1), fin 0⟩, ⟨f, fin (-1), fin 0⟩,
        ⟨f, fin (-1), fin (-1)⟩, ⟨f, fin 0, fin (-1)⟩, ⟨f, fin 0, fin (-1)⟩,
        ⟨f, fin 1, fin (-1)⟩, ⟨f, fin 1, fin 0⟩], false⟩) = some 1 := by
    apply find?_range_of_first _ _ _ (by norm_num)
    · simp [g1boundary.collinearAt, sameEdge_on_face f hf]
    · intro j hj
      interval_cases j
      simp [g1boundary.collinearAt, sameEdge_on_face f hf]
  have r0 : g1boundary.removeAfter
      ⟨[⟨f, fin 1, fin 0⟩, ⟨f, fin 1, fin 1⟩, ⟨f, fin 0, fin 1⟩, ⟨f, fin 0, fin 1⟩,
        ⟨f, fin (-1), fin 1⟩, ⟨f, fin (-1), fin 0⟩, ⟨f, fin (-1), fin 0⟩,
        ⟨f, fin (-1), fin (-1)⟩, ⟨f, fin 0, fin (-1)⟩, ⟨f, fin 0, fin (-1)⟩,
        ⟨f, fin 1, fin (-1)⟩, ⟨f, fin 1, fin 0⟩], false⟩ 1
      =
      ⟨[⟨f, fin 0, fin 1⟩, ⟨f, fin (-1), fin 1⟩, ⟨f, fin (-1), fin 0⟩, ⟨f, fin (-1), fin 0⟩,
        ⟨f, fin (-1), fin (-1)⟩, ⟨f, fin 0, fin (-1)⟩, ⟨f, fin 0, fin (-1)⟩,
        ⟨f, fin 1, fin (-1)⟩, ⟨f, fin 1, fin 0⟩, ⟨f, fin 1, fin 0⟩, ⟨f, fin 1, fin 1⟩], false⟩ := by
    simp [g1boundary.removeAfter, List.rotate]
  have p1 : (List.range 11).find? (g1boundary.collinearAt
      ⟨[⟨f, fin 0, fin 1⟩, ⟨f, fin (-1), fin 1⟩, ⟨f, fin (-1), fin 0⟩, ⟨f, fin (-1), fin 0⟩,
        ⟨f, fin (-1), fin (-1)⟩, ⟨f, fin 0, fin (-1)⟩, ⟨f, fin 0, fin (-1)⟩,
        ⟨f, fin 1, fin (-1)⟩, ⟨f, fin 1, fin 0⟩, ⟨f, fin 1, fin 0⟩, ⟨f, fin 1, fin 1⟩], false⟩) = some 1 := by
    apply find?_range_of_first _ _ _ (by norm_num)
    · simp [g1boundary.collinearAt, sameEdge_on_face f hf]
    · intro j hj
      interval_cases j
      simp [g1boundary.collinearAt, sameEdge_on_face f hf]
  have r1 : g1boundary.removeAfter
      ⟨[⟨f, fin 0, fin 1⟩, ⟨f, fin (-1), fin 1⟩, ⟨f, fin (-1), fin 0⟩, ⟨f, fin (-1), fin 0⟩,
        ⟨f, fin (-1), fin (-1)⟩, ⟨f, fin 0, fin (-1)⟩, ⟨f, fin 0, fin (-1)⟩,
        ⟨f, fin 1, fin (-1)⟩, ⟨f, fin 1, fin 0⟩, ⟨f, fin 1, fin 0⟩, ⟨f, fin 1, fin 1⟩], false⟩ 1
      =
      ⟨[⟨f, fin (-1), fin 0⟩, ⟨f, fin (-1), fin (-1)⟩, ⟨f, fin 0, fin (-1)⟩,
        ⟨f, fin 0, fin (-1)⟩, ⟨f, fin 1, fin (-1)⟩, ⟨f, fin 1, fin 0⟩, ⟨f, fin 1, fin 0⟩,
        ⟨f, fin 1, fin 1⟩, ⟨f, fin 0, fin 1⟩, ⟨f, fin (-1), fin 1⟩], false⟩ := by
    simp [g1boundary.removeAfter, List.rotate]
  have p2 : (List.range 10).find? (g1boundary.collinearAt
      ⟨[⟨f, fin (-1), fin 0⟩, ⟨f, fin (-1), fin (-1)⟩, ⟨f, fin 0, fin (-1)⟩,
        ⟨f, fin 0, fin (-1)⟩, ⟨f, fin 1, fin (-1)⟩, ⟨f, fin 1, fin 0⟩, ⟨f, fin 1, fin 0⟩,
        ⟨f, fin 1, fin 1⟩, ⟨f, fin 0, fin 1⟩, ⟨f, fin (-1), fin 1⟩], false⟩) = some 1 := by
    apply find?_range_of_first _ _ _ (by norm_num)
    · simp [g1boundary.collinearAt, sameEdge_on_face f hf]
    · intro j hj
      interval_cases j
      simp [g1boundary.collinearAt, sameEdge_on_face f hf]
  have r2 : g1boundary.removeAfter
      ⟨[⟨f, fin (-1), fin 0⟩, ⟨f, fin (-1), fin (-1)⟩, ⟨f, fin 0, fin (-1)⟩,
        ⟨f, fin 0, fin (-1)⟩, ⟨f, fin 1, fin (-1)⟩, ⟨f, fin 1, fin 0⟩, ⟨f, fin 1, fin 0⟩,
        ⟨f, fin 1, fin 1⟩, ⟨f, fin 0, fin 1⟩, ⟨f, fin (-1), fin 1⟩], false⟩ 1
      =
      ⟨[⟨f, fin 0, fin (-1)⟩, ⟨f, fin 1, fin (-1)⟩, ⟨f, fin 1, fin 0⟩, ⟨f, fin 1, fin 0⟩,
        ⟨f, fin 1, fin 1⟩, ⟨f, fin 0, fin 1⟩, ⟨f, fin (-1), fin 1⟩, ⟨f, fin (-1), fin 0⟩,
        ⟨f, fin (-1), fin (-1)⟩], false⟩ := by
    simp [g1boundary.removeAfter, List.rotate]
  have p3 : (List.range 9).find? (g1boundary.collinearAt
      ⟨[⟨f, fin 0, fin (-1)⟩, ⟨f, fin 1, fin (-1)⟩, ⟨f, fin 1, fin 0⟩, ⟨f, fin 1, fin 0⟩,
        ⟨f, fin 1, fin 1⟩, ⟨f, fin 0, fin 1⟩, ⟨f, fin (-1), fin 1⟩, ⟨f, fin (-1), fin 0⟩,
        ⟨f, fin (-1), fin (-1)⟩], false⟩) = some 1 := by
    apply find?_range_of_first _ _ _ (by norm_num)
    · simp [g1boundary.collinearAt, sameEdge_on_face f hf]
    · intro j hj
      interval_cases j
      simp [g1boundary.collinearAt, sameEdge_on_face f hf]
  have r3 : g1boundary.removeAfter
      ⟨[⟨f, fin 0, fin (-1)⟩, ⟨f, fin 1, fin (-1)⟩, ⟨f, fin 1, fin 0⟩, ⟨f, fin 1, fin 0⟩,
        ⟨f, fin 1, fin 1⟩, ⟨f, fin 0, fin 1⟩, ⟨f, fin (-1), fin 1⟩, ⟨f, fin (-1), fin 0⟩,
        ⟨f, fin (-1), fin (-1)⟩], false⟩ 1
      =
      ⟨[⟨f, fin 1, fin 0⟩, ⟨f, fin 1, fin 1⟩, ⟨f, fin 0, fin 1⟩, ⟨f, fin (-1), fin 1⟩,
        ⟨f, fin (-1), fin 0⟩, ⟨f, fin (-1), fin (-1)⟩, ⟨f, fin 0, fin (-1)⟩,
        ⟨f, fin 1, fin (-1)⟩], false⟩ := by
    simp [g1boundary.removeAfter, List.rotate]
  have p4 : (List.range 8).find? (g1boundary.collinearAt
      ⟨[⟨f, fin 1, fin 0⟩, ⟨f, fin 1, fin 1⟩, ⟨f, fin 0, fin 1⟩, ⟨f, fin (-1), fin 1⟩,
        ⟨f, fin (-1), fin 0⟩, ⟨f, fin (-1), fin (-1)⟩, ⟨f, fin 0, fin (-1)⟩,
        ⟨f, fin 1, fin (-1)⟩], false⟩) = some 1 := by
    apply find?_range_of_first _ _ _ (by norm_num)
    · simp [g1boundary.collinearAt, sameEdge_on_face f hf]
    · intro j hj
      interval_cases j
      simp [g1boundary.collinearAt, sameEdge_on_face f hf]
  have r4 : g1boundary.removeAfter
      ⟨[⟨f, fin 1, fin 0⟩, ⟨f, fin 1, fin 1⟩, ⟨f, fin 0, fin 1⟩, ⟨f, fin (-1), fin 1⟩,
        ⟨f, fin (-1), fin 0⟩, ⟨f, fin (-1), fin (-1)⟩, ⟨f, fin 0, fin (-1)⟩,
        ⟨f, fin 1, fin (-1)⟩], false⟩ 1
      =
      ⟨[⟨f, fin (-1), fin 1⟩, ⟨f, fin (-1), fin 0⟩, ⟨f, fin (-1), fin (-1)⟩,
        ⟨f, fin 0, fin (-1)⟩, ⟨f, fin 1, fin (-1)⟩, ⟨f, fin 1, fin 0⟩, ⟨f, fin 1, fin 1⟩], false⟩ := by
    simp [g1boundary.removeAfter, List.rotate]
  have p5 : (List.range 7).find? (g1boundary.collinearAt
      ⟨[⟨f, fin (-1), fin 1⟩, ⟨f, fin (-1), fin 0⟩, ⟨f, fin (-1), fin (-1)⟩,
        ⟨f, fin 0, fin (-1)⟩, ⟨f, fin 1, fin (-1)⟩, ⟨f, fin 1, fin 0⟩, ⟨f, fin 1, fin 1⟩], false⟩) = some 0 := by
    apply find?_range_of_first _ _ _ (by norm_num)
    · simp [g1boundary.collinearAt, sameEdge_on_face f hf]
    · intro j hj
      omega
  have r5 : g1boundary.removeAfter
      ⟨[⟨f, fin (-1), fin 1⟩, ⟨f, fin (-1), fin 0⟩, ⟨f, fin (-1), fin (-1)⟩,
        ⟨f, fin 0, fin (-1)⟩, ⟨f, fin 1, fin (-1)⟩, ⟨f, fin 1, fin 0⟩, ⟨f, fin 1, fin 1⟩], false⟩ 0
      =
      ⟨[⟨f, fin (-1), fin (-1)⟩, ⟨f, fin 0, fin (-1)⟩, ⟨f, fin 1, fin (-1)⟩, ⟨f, fin 1, fin 0⟩,
        ⟨f, fin 1, fin 1⟩, ⟨f, fin (-1), fin 1⟩], false⟩ := by
    simp [g1boundary.removeAfter, List.rotate]
  have p6 : (List.range 6).find? (g1boundary.collinearAt
      ⟨[⟨f, fin (-1), fin (-1)⟩, ⟨f, fin 0, fin (-1)⟩, ⟨f, fin 1, fin (-1)⟩, ⟨f, fin 1, fin 0⟩,
        ⟨f, fin 1, fin 1⟩, ⟨f, fin (-1), fin 1⟩], false⟩) = some 0 := by
    apply find?_range_of_first _ _ _ (by norm_num)
    · simp [g1boundary.collinearAt, sameEdge_on_face f hf]
    · intro j hj
      omega
  have r6 : g1boundary.removeAfter
      ⟨[⟨f, fin (-1), fin (-1)⟩, ⟨f, fin 0, fin (-1)⟩, ⟨f, fin 1, fin (-1)⟩, ⟨f, fin 1, fin 0⟩,
        ⟨f, fin 1, fin 1⟩, ⟨f, fin (-1), fin 1⟩], false⟩ 0
      =
      ⟨[⟨f, fin 1, fin (-1)⟩, ⟨f, fin 1, fin 0⟩, ⟨f, fin 1, fin 1⟩, ⟨f, fin (-1), fin 1⟩,
        ⟨f, fin (-1), fin (-1)⟩], false⟩ := by
    simp [g1boundary.removeAfter, List.rotate]
  have p7 : (List.range 5).find? (g1boundary.collinearAt
      ⟨[⟨f, fin 1, fin (-1)⟩, ⟨f, fin 1, fin 0⟩, ⟨f, fin 1, fin 1⟩, ⟨f, fin (-1), fin 1⟩,
        ⟨f, fin (-1), fin (-1)⟩], false⟩) = some 0 := by
    apply find?_range_of_first _ _ _ (by norm_num)
    · simp [g1boundary.collinearAt, sameEdge_on_face f hf]
    · intro j hj
      omega
  have r7 : g1boundary.removeAfter
      ⟨[⟨f, fin 1, fin (-1)⟩, ⟨f, fin 1, fin 0⟩, ⟨f, fin 1, fin 1⟩, ⟨f, fin (-1), fin 1⟩,
        ⟨f, fin (-1), fin (-1)⟩], false⟩ 0
      =
      ⟨[⟨f, fin 1, fin 1⟩, ⟨f, fin (-1), fin 1⟩, ⟨f, fin (-1), fin (-1)⟩, ⟨f, fin 1, fin (-1)⟩], false⟩ := by
    simp [g1boundary.removeAfter, List.rotate]
  have p8 : (List.range 4).find? (g1boundary.collinearAt
      ⟨[⟨f, fin 1, fin 1⟩, ⟨f, fin (-1), fin 1⟩, ⟨f, fin (-1), fin (-1)⟩, ⟨f, fin 1, fin (-1)⟩], false⟩) = none := by
    apply find?_range_none
    intro j hj
    interval_cases j <;>
      simp [g1boundary.collinearAt, sameEdge_on_face f hf] <;> norm_num
  rw [g1boundary.iterateRemoval]
  simp only [List.length_cons, List.length_nil, Nat.reduceAdd, p0, r0]
  rw [g1boundary.iterateRemoval]
  simp only [List.length_cons, List.length_nil, Nat.reduceAdd, p1, r1]
  rw [g1boundary.iterateRemoval]
  simp only [List.length_cons, List.length_nil, Nat.reduceAdd, p2, r2]
  rw [g1boundary.iterateRemoval]
  simp only [List.length_cons, List.length_nil, Nat.reduceAdd, p3, r3]
  rw [g1boundary.iterateRemoval]
  simp only [List.length_cons, List.length_nil, Nat.reduceAdd, p4, r4]
  rw [g1boundary.iterateRemoval]
  simp only [List.length_cons, List.length_nil, Nat.reduceAdd, p5, r5]
  rw [g1boundary.iterateRemoval]
  simp only [List.length_cons, List.length_nil, Nat.reduceAdd, p6, r6]
  rw [g1boundary.iterateRemoval]
  simp only [List.length_cons, List.length_nil, Nat.reduceAdd, p7, r7]
  rw [g1boundary.iterateRemoval]
  simp only [List.length_cons, List.length_nil, Nat.reduceAdd, p8]

/-- The method `deleteRetrace` leaves the loop of the four corners of a face as it is. -/
theorem deleteRetrace_corners (f : Int) (hf : 1 ≤ f ∧ f ≤ 6) (fuel : Nat) (hfuel : 1 ≤ fuel) :
    g1boundary.deleteRetrace fuel
      ⟨[⟨f, fin 1, fin 1⟩, ⟨f, fin (-1), fin 1⟩, ⟨f, fin (-1), fin (-1)⟩, ⟨f, fin 1, fin (-1)⟩], false⟩
    = some
      ⟨[⟨f, fin 1, fin 1⟩, ⟨f, fin (-1), fin 1⟩, ⟨f, fin (-1), fin (-1)⟩, ⟨f, fin 1, fin (-1)⟩], false⟩ := by
  rw [deleteRetrace_eq fuel _ (by norm_num)]
  apply iterateRemoval_mono _ 1 _ _ _ fuel hfuel
  have p0 : (List.range 4).find? (g1boundary.retraceAt
      ⟨[⟨f, fin 1, fin 1⟩, ⟨f, fin (-1), fin 1⟩, ⟨f, fin (-1), fin (-1)⟩, ⟨f, fin 1, fin (-1)⟩], false⟩) = none := by
    apply find?_range_none
    intro j hj
    interval_cases j <;>
      simp [g1boundary.retraceAt, vball_eq_on_face f hf, cmpeq_fin] <;> norm_num
  rw [g1boundary.iterateRemoval]
  simp only [List.length_cons, List.length_nil, Nat.reduceAdd, p0]
/-- The methods `deleteCollinear` and `deleteRetrace` leave an empty loop as it is. -/
theorem delete_nil (fuel : Nat) (hfuel : 1 ≤ fuel) :
    g1boundary.deleteCollinear fuel ⟨[], false⟩ = some ⟨[], false⟩ ∧
    g1boundary.deleteRetrace fuel ⟨[], false⟩ = some ⟨[], false⟩ ∧
    gboundary.deleteNullSegmentsLoop fuel ⟨[], false⟩ = some ⟨[], false⟩ := by
  obtain ⟨k, rfl⟩ : ∃ k, fuel = k + 1 := ⟨fuel - 1, by omega⟩
  exact ⟨rfl, rfl, rfl⟩

/-- The loop of the four corners of a face has no null segment. -/
theorem deleteNullSegmentsLoop_corners (f : Int) (hf : 1 ≤ f ∧ f ≤ 6) (fuel : Nat)
    (hfuel : 1 ≤ fuel) :
    gboundary.deleteNullSegmentsLoop fuel
      ⟨[⟨f, fin 1, fin 1⟩, ⟨f, fin (-1), fin 1⟩, ⟨f, fin (-1), fin (-1)⟩, ⟨f, fin 1, fin (-1)⟩], false⟩
    = some
      ⟨[⟨f, fin 1, fin 1⟩, ⟨f, fin (-1), fin 1⟩, ⟨f, fin (-1), fin (-1)⟩, ⟨f, fin 1, fin (-1)⟩], false⟩ := by
  obtain ⟨k, rfl⟩ : ∃ k, fuel = k + 1 := ⟨fuel - 1, by omega⟩
  apply deleteNullSegmentsLoop_fixed
  apply nullSegments_of_no_retrace
  intro i hi
  simp only [List.length_cons, List.length_nil] at hi
  interval_cases i <;>
    simp [g1boundary.retraceAt, vball_eq_on_face f hf, cmpeq_fin] <;> norm_num

/-- The three cleanup passes on what `splitoff(1)` makes of the four squares around the
origin of a face: `deleteCollinear` empties the loops of one vertex and reduces the loop of
twelve vertices to the four corners; `deleteRetrace` and `deleteNullSegments` find nothing
more. -/
theorem cleanup_four_squares (f : Int) (hf : 1 ≤ f ∧ f ≤ 6) (fuel : Nat) (hfuel : 9 ≤ fuel) :
    gboundary.deleteCollinear fuel
      ⟨[⟨[⟨f, fin 0, fin 0⟩], false⟩,
        ⟨[], false⟩,
        ⟨[], false⟩,
        ⟨[], false⟩,
        ⟨[⟨f, fin 0, fin 0⟩], false⟩,
        ⟨[⟨f, fin 1, fin 0⟩, ⟨f, fin 1, fin 1⟩, ⟨f, fin 0, fin 1⟩, ⟨f, fin 0, fin 1⟩,
          ⟨f, fin (-1), fin 1⟩, ⟨f, fin (-1), fin 0⟩, ⟨f, fin (-1), fin 0⟩,
          ⟨f, fin (-1), fin (-1)⟩, ⟨f, fin 0, fin (-1)⟩, ⟨f, fin 0, fin (-1)⟩,
          ⟨f, fin 1, fin (-1)⟩, ⟨f, fin 1, fin 0⟩], false⟩,
        ⟨[⟨f, fin 0, fin 0⟩], false⟩,
        ⟨[⟨f, fin 0, fin 0⟩], false⟩]⟩
    = some
      ⟨[⟨[], false⟩,
        ⟨[], false⟩,
        ⟨[], false⟩,
        ⟨[], false⟩,
        ⟨[], false⟩,
        ⟨[⟨f, fin 1, fin 1⟩, ⟨f, fin (-1), fin 1⟩, ⟨f, fin (-1), fin (-1)⟩, ⟨f, fin 1, fin (-1)⟩], false⟩,
        ⟨[], false⟩,
        ⟨[], false⟩]⟩ ∧
    gboundary.deleteRetrace fuel
      ⟨[⟨[], false⟩,
        ⟨[], false⟩,
        ⟨[], false⟩,
        ⟨[], false⟩,
        ⟨[], false⟩,
        ⟨[⟨f, fin 1, fin 1⟩, ⟨f, fin (-1), fin 1⟩, ⟨f, fin (-1), fin (-1)⟩, ⟨f, fin 1, fin (-1)⟩], false⟩,
        ⟨[], false⟩,
        ⟨[], false⟩]⟩
    = some
      ⟨[⟨[], false⟩,
        ⟨[], false⟩,
        ⟨[], false⟩,
        ⟨[], false⟩,
        ⟨[], false⟩,
        ⟨[⟨f, fin 1, fin 1⟩, ⟨f, fin (-1), fin 1⟩, ⟨f, fin (-1), fin (-1)⟩, ⟨f, fin 1, fin (-1)⟩], false⟩,
        ⟨[], false⟩,
        ⟨[], false⟩]⟩ ∧
    gboundary.deleteNullSegments fuel
      ⟨[⟨[], false⟩,
        ⟨[], false⟩,
        ⟨[], false⟩,
        ⟨[], false⟩,
        ⟨[], false⟩,
        ⟨[⟨f, fin 1, fin 1⟩, ⟨f, fin (-1), fin 1⟩, ⟨f, fin (-1), fin (-1)⟩, ⟨f, fin 1, fin (-1)⟩], false⟩,
        ⟨[], false⟩,
        ⟨[], false⟩]⟩
    = some
      ⟨[⟨[], false⟩,
        ⟨[], false⟩,
        ⟨[], false⟩,
        ⟨[], false⟩,
        ⟨[], false⟩,
        ⟨[⟨f, fin 1, fin 1⟩, ⟨f, fin (-1), fin 1⟩, ⟨f, fin (-1), fin (-1)⟩, ⟨f, fin 1, fin (-1)⟩], false⟩,
        ⟨[], false⟩,
        ⟨[], false⟩]⟩ := by
  obtain ⟨n1, n2, n3⟩ := delete_nil fuel (by omega)
  have c1 := deleteCollinear_single_vertex f hf fuel (by omega)
  have c2 := deleteCollinear_twelve f hf fuel hfuel
  have c3 := deleteRetrace_corners f hf fuel (by omega)
  have c4 := deleteNullSegmentsLoop_corners f hf fuel (by omega)
  refine ⟨?_, ?_, ?_⟩
  · simp [gboundary.deleteCollinear, gboundary.forEachLoop, n1, c1, c2]
  · simp [gboundary.deleteRetrace, gboundary.forEachLoop, n2, c3]
  · simp [gboundary.deleteNullSegments, gboundary.forEachLoop, n3, c4]

/-- The method `deleteEmpty` on eight loops of which only the sixth has vertices. -/
theorem deleteEmpty_four_squares (f : Int) (fuel : Nat) (hfuel : 10 ≤ fuel) :
    gboundary.deleteEmpty fuel
      ⟨[⟨[], false⟩,
        ⟨[], false⟩,
        ⟨[], false⟩,
        ⟨[], false⟩,
        ⟨[], false⟩,
        ⟨[⟨f, fin 1, fin 1⟩, ⟨f, fin (-1), fin 1⟩, ⟨f, fin (-1), fin (-1)⟩, ⟨f, fin 1, fin (-1)⟩], false⟩,
        ⟨[], false⟩,
        ⟨[], false⟩]⟩
    = some
      ⟨[⟨[⟨f, fin 1, fin 1⟩, ⟨f, fin (-1), fin 1⟩, ⟨f, fin (-1), fin (-1)⟩, ⟨f, fin 1, fin (-1)⟩], false⟩]⟩ := by
  obtain ⟨r, hr, hp⟩ := deleteEmpty_result
      ⟨[⟨[], false⟩,
        ⟨[], false⟩,
        ⟨[], false⟩,
        ⟨[], false⟩,
        ⟨[], false⟩,
        ⟨[⟨f, fin 1, fin 1⟩, ⟨f, fin (-1), fin 1⟩, ⟨f, fin (-1), fin (-1)⟩, ⟨f, fin 1, fin (-1)⟩], false⟩,
        ⟨[], false⟩,
        ⟨[], false⟩]⟩ fuel
    (by simp only [List.length_cons, List.length_nil]; omega)
  rw [hr]
  have hfil : List.filter (fun (b : g1boundary) => decide (b.size > 0))
      [⟨[], false⟩,
       ⟨[], false⟩,
       ⟨[], false⟩,
       ⟨[], false⟩,
       ⟨[], false⟩,
       ⟨[⟨f, fin 1, fin 1⟩, ⟨f, fin (-1), fin 1⟩, ⟨f, fin (-1), fin (-1)⟩, ⟨f, fin 1, fin (-1)⟩], false⟩,
       ⟨[], false⟩,
       ⟨[], false⟩]
      = [
      ⟨[⟨f, fin 1, fin 1⟩, ⟨f, fin (-1), fin 1⟩, ⟨f, fin (-1), fin (-1)⟩, ⟨f, fin 1, fin (-1)⟩], false⟩] := by
    simp [List.filter, g1boundary.size]
  rw [hfil] at hp
  obtain ⟨l⟩ := r
  simp only at hp
  rw [List.perm_singleton.mp hp]

/-- Claim C32: on each face the composition `consolidate(1)`, `splitoff(1)`,
`deleteCollinear`, `deleteRetrace`, `deleteNullSegments`, `deleteEmpty`, with at least 20
units of fuel, applied to the four counterclockwise corner loops of the four children of
the root of the face (the squares of half-width 1/2 around `(±1/2, ±1/2)`), returns at every
step and ends with exactly one loop, which is a rotation of the counterclockwise loop
`(-1,-1)`, `(1,-1)`, `(1,1)`, `(-1,1)` of the four corners of the face. -/
theorem compose_child_loops (f : Int) (hf : 1 ≤ f ∧ f ≤ 6) (slFuel fuel : Nat)
    (hfuel : 20 ≤ fuel) :
    ∃ (g1 g2 g3 g4 g5 g6 : gboundary) (b : g1boundary),
      gboundary.consolidate slFuel fuel
        ⟨[⟨[⟨f, fin (-1), fin (-1)⟩, ⟨f, fin 0, fin (-1)⟩, ⟨f, fin 0, fin 0⟩,
            ⟨f, fin (-1), fin 0⟩], false⟩,
          ⟨[⟨f, fin 0, fin (-1)⟩, ⟨f, fin 1, fin (-1)⟩, ⟨f, fin 1, fin 0⟩, ⟨f, fin 0, fin 0⟩], false⟩,
          ⟨[⟨f, fin (-1), fin 0⟩, ⟨f, fin 0, fin 0⟩, ⟨f, fin 0, fin 1⟩, ⟨f, fin (-1), fin 1⟩], false⟩,
          ⟨[⟨f, fin 0, fin 0⟩, ⟨f, fin 1, fin 0⟩, ⟨f, fin 1, fin 1⟩, ⟨f, fin 0, fin 1⟩], false⟩]⟩ 1
        = Outcome.ok g1 ∧
      g1.splitoff slFuel fuel 1 = Outcome.ok g2 ∧
      g2.deleteCollinear fuel = some g3 ∧
      g3.deleteRetrace fuel = some g4 ∧
      g4.deleteNullSegments fuel = some g5 ∧
      g5.deleteEmpty fuel = some g6 ∧
      g6.bdy = [b] ∧
      List.IsRotated b.bdy [⟨f, fin (-1), fin (-1)⟩, ⟨f, fin 1, fin (-1)⟩, ⟨f, fin 1, fin 1⟩, ⟨f, fin (-1), fin 1⟩] := by
  obtain ⟨h3, h4, h5⟩ := cleanup_four_squares f hf fuel (by omega)
  exact ⟨_, _, _, _, _, _, _, consolidate_four_squares_face f hf slFuel fuel hfuel,
    splitoff_four_squares f hf slFuel fuel (by omega), h3, h4, h5,
    deleteEmpty_four_squares f fuel (by omega), rfl, 2, by simp [List.rotate]⟩

/-- Witness for C32: face 3 with 20 units of fuel. -/
theorem compose_child_loops_witness :
    ∃ (g1 g2 g3 g4 g5 g6 : gboundary) (b : g1boundary),
      gboundary.consolidate 1 20
        ⟨[⟨[⟨3, fin (-1), fin (-1)⟩, ⟨3, fin 0, fin (-1)⟩, ⟨3, fin 0, fin 0⟩,
            ⟨3, fin (-1), fin 0⟩], false⟩,
          ⟨[⟨3, fin 0, fin (-1)⟩, ⟨3, fin 1, fin (-1)⟩, ⟨3, fin 1, fin 0⟩, ⟨3, fin 0, fin 0⟩], false⟩,
          ⟨[⟨3, fin (-1), fin 0⟩, ⟨3, fin 0, fin 0⟩, ⟨3, fin 0, fin 1⟩, ⟨3, fin (-1), fin 1⟩], false⟩,
          ⟨[⟨3, fin 0, fin 0⟩, ⟨3, fin 1, fin 0⟩, ⟨3, fin 1, fin 1⟩, ⟨3, fin 0, fin 1⟩], false⟩]⟩ 1
        = Outcome.ok g1 ∧
      g1.splitoff 1 20 1 = Outcome.ok g2 ∧
      g2.deleteCollinear 20 = some g3 ∧
      g3.deleteRetrace 20 = some g4 ∧
      g4.deleteNullSegments 20 = some g5 ∧
      g5.deleteEmpty 20 = some g6 ∧
      g6.bdy = [b] ∧
      List.IsRotated b.bdy [⟨3, fin (-1), fin (-1)⟩, ⟨3, fin 1, fin (-1)⟩, ⟨3, fin 1, fin 1⟩, ⟨3, fin (-1), fin 1⟩] :=
  compose_child_loops 3 (by decide) 1 20 (le_refl 20)

/-- On a leaf, when `undulation(0,0)` is NaN, `isnan()` is true: the bounds that `isnan`
tests are the narrower ones. -/
theorem undulation_nan_imp_isnan (d : geoquadFields)
    (h : (geoquad.leaf d).undulation (fin 0) (fin 0) = nan) : (geoquad.leaf d).isnan = true := by
  have h65 : (65536 : ℚ) ≠ 0 := by norm_num
  simp only [geoquad.undulation, ofInt, fin_mul, fin_add, mul_zero, add_zero, ofNat_def,
    Nat.cast_ofNat, double.fin_div _ h65, gt_fin, lt_fin, neg_fin] at h
  split_ifs at h with hc
  simp only [Bool.or_eq_true, decide_eq_true_eq] at hc
  simp only [geoquad.isnan, geoquad.und, geoquad.fields, Bool.or_eq_true, decide_eq_true_eq]
  rcases hc with hc | hc
  · left
    rw [lt_div_iff₀ (by norm_num)] at hc
    have : ((8850 * 65536 : Int) : ℚ) < (d.und 0 : ℚ) := by push_cast; linarith
    have := Int.cast_lt.mp this
    omega
  · right
    rw [div_lt_iff₀ (by norm_num)] at hc
    have : ((d.und 0 : Int) : ℚ) < ((-11000 * 65536 : Int) : ℚ) := by push_cast; linarith
    have := Int.cast_lt.mp this
    omega

end Bezitopo
